import Mathlib

/-!
The option matching and dispatch engine of `parse-options.c`.

A shallow embedding of `src/parse-options.c`.

* C strings are lists of characters (the terminating NUL is implicit; a
  `NULL` pointer is `none`).
* The option table is a list of descriptors; every loop over the table stops
  at the first `OPTION_END` descriptor (or at the end of the list, which
  stands for the sentinel).  A pointer into the table is an index.
* The argument vector is one buffer `buf` shared by `ctx->argv` (an index
  into it) and `ctx->out` (the buffer itself), as in the C code where
  `ctx->out` aliases the caller's `argv`.
* The caller-owned value slots are addressed by numbers; integer slots and
  string slots live in two typed stores.  `int` arithmetic wraps to 32 bits.
* `error(...)` appends a message to `stderr` and yields `-1`; callbacks are
  supplied by an environment and every invocation is logged in `calls`.
-/

namespace ParseOptions

/-- A C string without its terminating NUL. -/
abbrev Str := List Char

/-- The `enum parse_opt_type` of `parse-options.h`. -/
inductive OptType where
  | OPTION_END
  | OPTION_ARGUMENT
  | OPTION_GROUP
  | OPTION_NUMBER
  | OPTION_BIT
  | OPTION_NEGBIT
  | OPTION_COUNTUP
  | OPTION_SET_INT
  | OPTION_CMDMODE
  | OPTION_STRING
  | OPTION_INTEGER
  | OPTION_MAGNITUDE
  | OPTION_CALLBACK
  | OPTION_LOWLEVEL_CALLBACK
  | OPTION_FILENAME
  deriving DecidableEq, Repr

open OptType

/-- The `PARSE_OPT_*` bits of `opt->flags` that the engine tests, one
boolean per bit. -/
structure OptFlags where
  optarg : Bool := false
  noarg : Bool := false
  noneg : Bool := false
  hidden : Bool := false
  lastarg_default : Bool := false
  nodash : Bool := false
  literal_arghelp : Bool := false
  nocomplete : Bool := false
  comp_arg : Bool := false
  deriving DecidableEq, Repr

/-- A row of the option table (`struct option`).  `short_name = 0` and
`long_name = none` mean "absent".  `value` is the address of the value slot.
`defval` is the integer reading of the `defval` field and `defstr` its
reading as a `const char *`. -/
structure Opt where
  type : OptType
  short_name : Nat := 0
  long_name : Option Str := none
  value : Nat := 0
  argh : Option Str := none
  flags : OptFlags := {}
  defval : Int := 0
  defstr : Option Str := none
  deriving DecidableEq, Repr

/-- The `enum parse_opt_flags` bits given to `parse_options_start`. -/
structure ParseFlags where
  keep_dashdash : Bool := false
  stop_at_non_option : Bool := false
  keep_argv0 : Bool := false
  keep_unknown : Bool := false
  no_internal_help : Bool := false
  shell_eval : Bool := false
  deriving DecidableEq, Repr

def OPT_SHORT : Nat := 1
def OPT_UNSET : Nat := 2

/-- The text produced by `optname(opt, flags)`. -/
inductive OptName where
  | switch (c : Nat)
  | negated (long_name : Option Str)
  | option (long_name : Option Str)
  deriving DecidableEq, Repr

/-- The messages the engine hands to `error()`. -/
inductive Msg where
  | requires_value (n : OptName)
  | takes_no_value (n : OptName)
  | not_available (n : OptName)
  | incompatible_with (n : OptName) (that_name : Str)
  | incompatible_something (n : OptName)
  | expects_numerical (n : OptName)
  | expects_magnitude (n : OptName)
  | ambiguous (arg : Str) (no1 : Bool) (name1 : Option Str) (no2 : Bool) (name2 : Option Str)
  | did_you_mean (arg : Str)
  | optbug (o : Opt) (reason : String)
  deriving DecidableEq, Repr

/-- One invocation of an `opt->callback`: the descriptor's table index (the
descriptor itself for clarity), the argument and the `unset` flag. -/
structure Call where
  opt : Opt
  arg : Option Str
  unset : Bool
  deriving DecidableEq, Repr

/-- The caller-owned value slots: `int` / `unsigned long` slots and
`const char *` slots, by address. -/
structure Slots where
  ints : Nat → Int
  strs : Nat → Option Str

/-- What a call hands back: an `int` return code, or the process was
terminated inside the call (`BUG(...)`, a `NULL` dereference). -/
inductive Rc where
  | code (n : Int)
  | abort
  deriving DecidableEq, Repr

/-- The `struct parse_opt_ctx_t` together with the world the engine acts on:
the value slots, the standard error stream and the log of
callback invocations.

`buf` is the caller's argument array (`ctx->out`); `argv` is the index of
`ctx->argv[0]` in it; `none` entries are `NULL`. -/
structure Ctx where
  buf : List (Option Str)
  argv : Nat
  argc : Nat
  cpidx : Nat
  total : Nat
  opt : Option Str
  pfx : Option Str
  flags : ParseFlags
  slots : Slots
  stderr : List Msg
  calls : List Call

/-- What the caller supplies besides the table: the option callbacks (which
see the descriptor, the argument and the unset flag, and may change the value
slots), the low-level callbacks (which receive the whole context) and the
helpers of other translation units. -/
structure Env where
  callback : Opt → Option Str → Bool → Slots → Int × Slots
  ll_callback : Opt → Bool → Ctx → Int × Ctx
  git_parse_ulong : Option Str → Option Nat
  is_absolute_path : Str → Bool
  prefix_filename : Str → Str → Str

/-- Conversion of a wider integer to `int` (two's complement, 32 bits). -/
def toInt32 (x : Int) : Int := (x + 2147483648) % 4294967296 - 2147483648

/-- Conversion to `unsigned long` (64 bits). -/
def toULong (x : Int) : Int := x % 18446744073709551616

/-- The function `optname`. -/
def optname (opt : Opt) (flags : Nat) : OptName :=
  if flags &&& OPT_SHORT ≠ 0 then OptName.switch opt.short_name
  else if flags &&& OPT_UNSET ≠ 0 then OptName.negated opt.long_name
  else OptName.option opt.long_name

/-- The call `error(msg)`: prints and returns -1. -/
def error (p : Ctx) (m : Msg) : Rc × Ctx :=
  (Rc.code (-1), { p with stderr := p.stderr ++ [m] })

/-- The read `*(int *)opt->value`. -/
def getInt (p : Ctx) (slot : Nat) : Int := p.slots.ints slot

/-- The read `*(const char **)opt->value`. -/
def getStr (p : Ctx) (slot : Nat) : Option Str := p.slots.strs slot

/-- The write `*(int *)opt->value = v`. -/
def setInt (p : Ctx) (slot : Nat) (v : Int) : Ctx :=
  { p with slots := { p.slots with ints := fun a => if a = slot then v else p.slots.ints a } }

/-- The write `*(const char **)opt->value = v`. -/
def setStr (p : Ctx) (slot : Nat) (v : Option Str) : Ctx :=
  { p with slots := { p.slots with strs := fun a => if a = slot then v else p.slots.strs a } }

/-- The token `ctx->argv[i]` (reading `NULL` or past the array gives the
empty string; the engine only reads below `argc`). -/
def argvAt (p : Ctx) (i : Nat) : Str := ((p.buf.getD (p.argv + i) none).getD [])

/-- The function `get_arg`: the result code, the value stored through `*arg`
(when the code is 0) and the context. -/
def get_arg (p : Ctx) (opt : Opt) (flags : Nat) : Rc × Option Str × Ctx :=
  match p.opt with
  | some v => (Rc.code 0, some v, { p with opt := none })
  | none =>
    if p.argc = 1 ∧ opt.flags.lastarg_default then (Rc.code 0, opt.defstr, p)
    else if p.argc > 1 then
      let p1 := { p with argc := p.argc - 1, argv := p.argv + 1 }
      (Rc.code 0, some (argvAt p1 0), p1)
    else
      let r := error p (Msg.requires_value (optname opt flags))
      (r.1, none, r.2)

/-- The function `fix_filename` applied to the string slot `file`. -/
def fix_filename (env : Env) (p : Ctx) (file : Nat) : Ctx :=
  match getStr p file, p.pfx with
  | some f, some pre =>
    if env.is_absolute_path f ∨ f = ['-'] then p
    else setStr p file (some (env.prefix_filename pre f))
  | _, _ => p

/-- The name built in `that_name` by `opt_command_mode_error`. -/
def that_name (that : Opt) : Str :=
  match that.long_name with
  | some l => '-' :: '-' :: l
  | none => ['-', Char.ofNat that.short_name]

/-- The loop of `opt_command_mode_error` over `all_opts` from index `j` on;
`i` is the index of `opt` in the table (`that == opt` compares pointers). -/
def opt_command_mode_error_from (p : Ctx) (i : Nat) (opt : Opt) (flags : Nat) :
    List Opt → Nat → Rc × Ctx
  | [], _ => error p (Msg.incompatible_something (optname opt flags))
  | that :: rest, j =>
    if that.type = OPTION_END then
      error p (Msg.incompatible_something (optname opt flags))
    else if j = i ∨ that.type ≠ OPTION_CMDMODE ∨ that.value ≠ opt.value ∨
        that.defval ≠ getInt p opt.value then
      opt_command_mode_error_from p i opt flags rest (j + 1)
    else
      error p (Msg.incompatible_with (optname opt flags) (that_name that))

/-- The function `opt_command_mode_error`. -/
def opt_command_mode_error (p : Ctx) (i : Nat) (opt : Opt) (all_opts : List Opt)
    (flags : Nat) : Rc × Ctx :=
  opt_command_mode_error_from p i opt flags all_opts 0

/-- The C library's `isspace` in the C locale. -/
def isspace (c : Char) : Bool :=
  c = ' ' || c = '\t' || c = '\n' || c = '\x0b' || c = '\x0c' || c = '\r'

/-- The test `isdigit`. -/
def isdigit (c : Char) : Bool := '0' ≤ c && c ≤ '9'

/-- The value of a run of decimal digits. -/
def digitsVal (ds : Str) : Nat := ds.foldl (fun acc c => 10 * acc + (c.toNat - 48)) 0

/-- The call `strtol(arg, &s, 10)` on a 64-bit `long`: the value and the
unparsed rest `s`. -/
def strtol (arg : Str) : Int × Str :=
  let s1 := arg.dropWhile isspace
  let neg := s1.head? = some '-'
  let s2 := if s1.head? = some '-' ∨ s1.head? = some '+' then s1.tail else s1
  let ds := s2.takeWhile isdigit
  if ds = [] then (0, arg)
  else
    let v : Int := if neg then -(digitsVal ds : Int) else (digitsVal ds : Int)
    let v := if v > 9223372036854775807 then 9223372036854775807
      else if v < -9223372036854775808 then -9223372036854775808 else v
    (v, s2.dropWhile isdigit)

/-- The expression `(*opt->callback)(opt, arg, unset) ? (-1) : 0`; the call
is logged. -/
def call_callback (env : Env) (p : Ctx) (opt : Opt) (arg : Option Str) (unset : Bool) :
    Rc × Ctx :=
  let r := env.callback opt arg unset p.slots
  (Rc.code (if r.1 ≠ 0 then -1 else 0),
    { p with slots := r.2, calls := p.calls ++ [{ opt := opt, arg := arg, unset := unset }] })

/-- The `switch (opt->type)` of `get_value`.  `i` is the index of `opt` in
`all_opts`. -/
def get_value_switch (env : Env) (p : Ctx) (i : Nat) (opt : Opt) (all_opts : List Opt)
    (flags : Nat) : Rc × Ctx :=
  let unset : Bool := flags &&& OPT_UNSET ≠ 0
  match opt.type with
  | OPTION_LOWLEVEL_CALLBACK =>
    let r := env.ll_callback opt unset p
    (Rc.code r.1, r.2)
  | OPTION_BIT =>
    if unset then
      (Rc.code 0, setInt p opt.value (toInt32 (Int.land (getInt p opt.value) (Int.lnot opt.defval))))
    else
      (Rc.code 0, setInt p opt.value (toInt32 (Int.lor (getInt p opt.value) opt.defval)))
  | OPTION_NEGBIT =>
    if unset then
      (Rc.code 0, setInt p opt.value (toInt32 (Int.lor (getInt p opt.value) opt.defval)))
    else
      (Rc.code 0, setInt p opt.value (toInt32 (Int.land (getInt p opt.value) (Int.lnot opt.defval))))
  | OPTION_COUNTUP =>
    let p1 := if getInt p opt.value < 0 then setInt p opt.value 0 else p
    (Rc.code 0, setInt p1 opt.value (if unset then 0 else toInt32 (getInt p1 opt.value + 1)))
  | OPTION_SET_INT =>
    (Rc.code 0, setInt p opt.value (if unset then 0 else toInt32 opt.defval))
  | OPTION_CMDMODE =>
    if getInt p opt.value ≠ 0 ∧ getInt p opt.value ≠ opt.defval then
      opt_command_mode_error p i opt all_opts flags
    else (Rc.code 0, setInt p opt.value (toInt32 opt.defval))
  | OPTION_STRING =>
    if unset then (Rc.code 0, setStr p opt.value none)
    else if opt.flags.optarg ∧ p.opt.isNone then (Rc.code 0, setStr p opt.value opt.defstr)
    else
      let r := get_arg p opt flags
      if r.1 = Rc.code 0 then (Rc.code 0, setStr r.2.2 opt.value r.2.1) else (r.1, r.2.2)
  | OPTION_FILENAME =>
    let r : Rc × Ctx :=
      if unset then (Rc.code 0, setStr p opt.value none)
      else if opt.flags.optarg ∧ p.opt.isNone then (Rc.code 0, setStr p opt.value opt.defstr)
      else
        let r := get_arg p opt flags
        if r.1 = Rc.code 0 then (Rc.code 0, setStr r.2.2 opt.value r.2.1) else (r.1, r.2.2)
    if r.1 = Rc.code 0 then (r.1, fix_filename env r.2 opt.value) else r
  | OPTION_CALLBACK =>
    if unset then call_callback env p opt none true
    else if opt.flags.noarg then call_callback env p opt none false
    else if opt.flags.optarg ∧ p.opt.isNone then call_callback env p opt none false
    else
      let r := get_arg p opt flags
      if r.1 ≠ Rc.code 0 then (Rc.code (-1), r.2.2)
      else call_callback env r.2.2 opt r.2.1 false
  | OPTION_INTEGER =>
    if unset then (Rc.code 0, setInt p opt.value 0)
    else if opt.flags.optarg ∧ p.opt.isNone then
      (Rc.code 0, setInt p opt.value (toInt32 opt.defval))
    else
      let r := get_arg p opt flags
      if r.1 ≠ Rc.code 0 then (Rc.code (-1), r.2.2)
      else
        match r.2.1 with
        | none => (Rc.abort, r.2.2)
        | some arg =>
          let v := strtol arg
          let p1 := setInt r.2.2 opt.value (toInt32 v.1)
          if v.2 ≠ [] then error p1 (Msg.expects_numerical (optname opt flags))
          else (Rc.code 0, p1)
  | OPTION_MAGNITUDE =>
    if unset then (Rc.code 0, setInt p opt.value 0)
    else if opt.flags.optarg ∧ p.opt.isNone then
      (Rc.code 0, setInt p opt.value (toULong opt.defval))
    else
      let r := get_arg p opt flags
      if r.1 ≠ Rc.code 0 then (Rc.code (-1), r.2.2)
      else
        match env.git_parse_ulong r.2.1 with
        | none => error r.2.2 (Msg.expects_magnitude (optname opt flags))
        | some v => (Rc.code 0, setInt r.2.2 opt.value v)
  | _ => (Rc.abort, p)

/-- The function `get_value`.  `i` is the index of `opt` in `all_opts`. -/
def get_value (env : Env) (p : Ctx) (i : Nat) (opt : Opt) (all_opts : List Opt)
    (flags : Nat) : Rc × Ctx :=
  let unset : Bool := flags &&& OPT_UNSET ≠ 0
  if unset ∧ p.opt.isSome then error p (Msg.takes_no_value (optname opt flags))
  else if unset ∧ opt.flags.noneg then error p (Msg.not_available (optname opt flags))
  else if flags &&& OPT_SHORT = 0 ∧ p.opt.isSome ∧ opt.flags.noarg then
    error p (Msg.takes_no_value (optname opt flags))
  else get_value_switch env p i opt all_opts flags

/-- The call `skip_prefix(str, prefix, &out)`: the rest of `str` after
`prefix` when `str` starts with it. -/
def skip_prefix (str pre : Str) : Option Str :=
  if pre.isPrefixOf str then some (str.drop pre.length) else none

/-- The call `starts_with(str, prefix)`. -/
def starts_with (str pre : Str) : Bool := pre.isPrefixOf str

/-- The call `strchrnul(arg, '=')`, as the suffix of `arg` it points at. -/
def strchrnul_eq (arg : Str) : Str := arg.dropWhile (fun c => c ≠ '=')

/-- The offset `strchrnul(arg, '=') - arg`. -/
def arg_end_offset (arg : Str) : Nat := (arg.takeWhile (fun c => c ≠ '=')).length

/-- The test `!strncmp(a, b, n)`. -/
def strncmp_eq (a b : Str) (n : Nat) : Bool := a.take n == b.take n

/-- The local variables of `parse_long_opt` that survive an iteration; a
descriptor pointer is kept as its table index with the descriptor. -/
structure Abbrev where
  abbrev_option : Option (Nat × Opt) := none
  abbrev_flags : Nat := 0
  ambiguous_option : Option (Nat × Opt) := none
  ambiguous_flags : Nat := 0
  deriving DecidableEq, Repr

/-- What `parse_long_opt` does in the end: it returns a result itself, or it
returns through the tail call `get_value(p, options, all_opts, flags)` on the
descriptor `o` at table index `i`. -/
inductive LongAction where
  | ret (r : Rc × Ctx)
  | dispatch (p : Ctx) (i : Nat) (o : Opt) (flags : Nat)

/-- How the body of the loop of `parse_long_opt` ends for one descriptor:
`continue`, or one of the two ways to leave the function. -/
inductive LongStep where
  | cont (p : Ctx) (st : Abbrev)
  | leave (a : LongAction)

/-- The block at the label `is_abbreviated`. -/
def is_abbreviated (p : Ctx) (st : Abbrev) (arg : Str) (i : Nat) (options : Opt)
    (flags opt_flags : Nat) : LongStep :=
  let st1 : Abbrev :=
    match st.abbrev_option with
    | some a => { st with ambiguous_option := some a, ambiguous_flags := st.abbrev_flags }
    | none => st
  let p1 : Ctx :=
    if flags &&& OPT_UNSET = 0 ∧ strchrnul_eq arg ≠ [] then
      { p with opt := some (strchrnul_eq arg).tail }
    else p
  LongStep.cont p1 { st1 with abbrev_option := some (i, options), abbrev_flags := flags ^^^ opt_flags }

/-- The end of the loop body of `parse_long_opt`, from `if (*rest)` on. -/
def long_opt_finish (p : Ctx) (st : Abbrev) (i : Nat)
    (options : Opt) (rest : Str) (flags opt_flags : Nat) : LongStep :=
  match rest with
  | [] => LongStep.leave (LongAction.dispatch p i options (flags ^^^ opt_flags))
  | c :: tl =>
    if c ≠ '=' then LongStep.cont p st
    else LongStep.leave (LongAction.dispatch { p with opt := some tl } i options (flags ^^^ opt_flags))

/-- One pass through the loop body of `parse_long_opt` from the label
`again` on, for the descriptor `options` at index `i`, with the current values
of the locals `long_name` and `opt_flags` (`flags` is 0 whenever `again` is
reached).  `again` is what the jump `goto again` leads to, after
`long_name += 3; opt_flags |= OPT_UNSET`. -/
def long_opt_pass (arg : Str) (p : Ctx) (st : Abbrev) (i : Nat) (options : Opt)
    (long_name : Str) (opt_flags : Nat) (again : LongStep) : LongStep :=
  if options.type = OPTION_ARGUMENT then
    match skip_prefix arg long_name with
    | none => LongStep.cont p st
    | some [] =>
      LongStep.leave (LongAction.ret (Rc.code 0,
        { p with buf := p.buf.set p.cpidx (some ('-' :: '-' :: arg)), cpidx := p.cpidx + 1 }))
    | some (c :: _) =>
      if c = '=' then
        LongStep.leave (LongAction.ret (error p (Msg.takes_no_value (optname options 0))))
      else LongStep.cont p st
  else
    match skip_prefix arg long_name with
    | some rest => long_opt_finish p st i options rest 0 opt_flags
    | none =>
      if strncmp_eq long_name arg (arg_end_offset arg) then
        is_abbreviated p st arg i options 0 opt_flags
      else if options.flags.noneg then LongStep.cont p st
      else if starts_with ['n', 'o', '-'] arg then
        is_abbreviated p st arg i options (0 ||| OPT_UNSET) opt_flags
      else if ¬ starts_with arg ['n', 'o', '-'] then
        if starts_with long_name ['n', 'o', '-'] then again
        else LongStep.cont p st
      else
        match skip_prefix (arg.drop 3) long_name with
        | none =>
          if starts_with long_name (arg.drop 3) then
            is_abbreviated p st arg i options (0 ||| OPT_UNSET) opt_flags
          else LongStep.cont p st
        | some rest =>
          long_opt_finish p st i options rest (0 ||| OPT_UNSET) opt_flags

/-- The loop body of `parse_long_opt` from the label `again` on: the passes
for `long_name`, then for `long_name + 3` when the jump is taken, and so on. -/
def long_opt_again (arg : Str) (p : Ctx) (st : Abbrev) (i : Nat) (options : Opt) :
    Str → Nat → LongStep
  | 'n' :: 'o' :: '-' :: tl, opt_flags =>
    long_opt_pass arg p st i options ('n' :: 'o' :: '-' :: tl) opt_flags
      (long_opt_again arg p st i options tl (opt_flags ||| OPT_UNSET))
  | long_name, opt_flags =>
    long_opt_pass arg p st i options long_name opt_flags (LongStep.cont p st)

/-- The code of `parse_long_opt` after its loop. -/
def parse_long_opt_end (arg : Str) (p : Ctx) (st : Abbrev) : LongAction :=
  match st.ambiguous_option with
  | some amb =>
    match st.abbrev_option with
    | some ab =>
      LongAction.ret (Rc.code (-3),
        (error p (Msg.ambiguous arg (st.ambiguous_flags &&& OPT_UNSET ≠ 0) amb.2.long_name
          (st.abbrev_flags &&& OPT_UNSET ≠ 0) ab.2.long_name)).2)
    | none => LongAction.ret (Rc.abort, p)
  | none =>
    match st.abbrev_option with
    | some ab => LongAction.dispatch p ab.1 ab.2 st.abbrev_flags
    | none => LongAction.ret (Rc.code (-2), p)

/-- The loop of `parse_long_opt` over the table from index `i` on, followed
by the code after the loop. -/
def parse_long_opt_from (arg : Str) : List Opt → Nat → Ctx → Abbrev → LongAction
  | [], _, p, st => parse_long_opt_end arg p st
  | options :: rest, i, p, st =>
    if options.type = OPTION_END then parse_long_opt_end arg p st
    else
      match options.long_name with
      | none => parse_long_opt_from arg rest (i + 1) p st
      | some long_name =>
        match long_opt_again arg p st i options long_name 0 with
        | LongStep.leave a => a
        | LongStep.cont p1 st1 => parse_long_opt_from arg rest (i + 1) p1 st1

/-- The matching part of `parse_long_opt`: everything up to its `return`. -/
def parse_long_opt_action (p : Ctx) (arg : Str) (options : List Opt) : LongAction :=
  parse_long_opt_from arg options 0 p {}

/-- The function `parse_long_opt`; `arg` is the token without its two
leading dashes. -/
def parse_long_opt (env : Env) (p : Ctx) (arg : Str) (options : List Opt) : Rc × Ctx :=
  match parse_long_opt_action p arg options with
  | LongAction.ret r => r
  | LongAction.dispatch p1 i o flags => get_value env p1 i o options flags

/-- The character `*s` as an `int` (0 at the terminating NUL). -/
def headCode (s : Str) : Nat :=
  match s with
  | [] => 0
  | c :: _ => c.toNat

/-- The expression `s[n] ? s + n : NULL`. -/
def advance (s : Str) (n : Nat) : Option Str :=
  if s.drop n = [] then none else some (s.drop n)

/-- The code of `parse_short_opt` after its loop; `cur` is `p->opt`. -/
def parse_short_opt_end (env : Env) (cur : Str) (p : Ctx) (numopt : Option Opt) : Rc × Ctx :=
  match numopt, cur with
  | some n, c :: tl =>
    if isdigit c then
      let len := 1 + (tl.takeWhile isdigit).length
      call_callback env { p with opt := advance cur len } n (some (cur.take len)) false
    else (Rc.code (-2), p)
  | _, _ => (Rc.code (-2), p)

/-- The loop of `parse_short_opt` from table index `i` on; `cur` is `p->opt`. -/
def parse_short_opt_from (env : Env) (all_opts : List Opt) (cur : Str) :
    List Opt → Nat → Ctx → Option Opt → Rc × Ctx
  | [], _, p, numopt => parse_short_opt_end env cur p numopt
  | options :: rest, i, p, numopt =>
    if options.type = OPTION_END then parse_short_opt_end env cur p numopt
    else if options.short_name = headCode cur then
      get_value env { p with opt := advance cur 1 } i options all_opts OPT_SHORT
    else
      parse_short_opt_from env all_opts cur rest (i + 1) p
        (if options.type = OPTION_NUMBER then some options else numopt)

/-- The function `parse_short_opt` (it dereferences `p->opt`). -/
def parse_short_opt (env : Env) (p : Ctx) (options : List Opt) : Rc × Ctx :=
  match p.opt with
  | none => (Rc.abort, p)
  | some cur => parse_short_opt_from env options cur options 0 p none

/-- The loop of `parse_nodash_opt` from table index `i` on. -/
def parse_nodash_opt_from (env : Env) (all_opts : List Opt) (p : Ctx) (arg : Str) :
    List Opt → Nat → Rc × Ctx
  | [], _ => (Rc.code (-2), p)
  | options :: rest, i =>
    if options.type = OPTION_END then (Rc.code (-2), p)
    else if ¬ options.flags.nodash then parse_nodash_opt_from env all_opts p arg rest (i + 1)
    else if options.short_name = headCode arg ∧ arg.length ≤ 1 then
      get_value env p i options all_opts OPT_SHORT
    else parse_nodash_opt_from env all_opts p arg rest (i + 1)

/-- The function `parse_nodash_opt`. -/
def parse_nodash_opt (env : Env) (p : Ctx) (arg : Str) (options : List Opt) : Rc × Ctx :=
  parse_nodash_opt_from env options p arg options 0

/-- The loop of `check_typos`: does some long name before the end marker
start with `arg`? -/
def check_typos_loop (arg : Str) : List Opt → Bool
  | [] => false
  | options :: rest =>
    if options.type = OPTION_END then false
    else
      match options.long_name with
      | none => check_typos_loop arg rest
      | some l => if starts_with l arg then true else check_typos_loop arg rest

/-- The function `check_typos`: `true` when it prints the suggestion and
calls `exit(129)`. -/
def check_typos (arg : Str) (options : List Opt) : Bool :=
  if arg.length < 3 then false
  else if starts_with arg ['n', 'o', '-'] then true
  else check_typos_loop arg options

/-- First test of the loop body of `parse_options_check`. -/
def check_lastarg (opts : Opt) : List Msg :=
  if opts.flags.lastarg_default ∧ opts.flags.optarg then
    [Msg.optbug opts "uses incompatible flags LASTARG_DEFAULT and OPTARG"] else []

/-- Second test: the short name, with the counters `short_opts` (an array of
`char`) before and after. -/
def check_short (opts : Opt) (short_opts : Nat → Nat) : List Msg × (Nat → Nat) :=
  if opts.short_name ≠ 0 then
    if 0x7F ≤ opts.short_name then ([Msg.optbug opts "invalid short name"], short_opts)
    else
      (if short_opts opts.short_name ≠ 0 then [Msg.optbug opts "short name already used"] else [],
        fun c => if c = opts.short_name then (short_opts c + 1) % 256 else short_opts c)
  else ([], short_opts)

/-- Third test: dashless options. -/
def check_nodash (opts : Opt) : List Msg :=
  if opts.flags.nodash ∧ (opts.flags.optarg ∨ ¬ opts.flags.noarg ∨ ¬ opts.flags.noneg ∨
      opts.long_name.isSome) then
    [Msg.optbug opts "uses feature not supported for dashless options"] else []

/-- Fourth test: the `switch (opts->type)`. -/
def check_toggle (opts : Opt) : List Msg :=
  if (opts.type = OPTION_COUNTUP ∨ opts.type = OPTION_BIT ∨ opts.type = OPTION_NEGBIT ∨
      opts.type = OPTION_SET_INT ∨ opts.type = OPTION_NUMBER) ∧
      (opts.flags.optarg ∨ ¬ opts.flags.noarg) then
    [Msg.optbug opts "should not accept an argument"] else []

/-- Fifth test: `strcspn(opts->argh, " _") != strlen(opts->argh)`. -/
def check_argh (opts : Opt) : List Msg :=
  match opts.argh with
  | some a =>
    if (a.takeWhile (fun c => c ≠ ' ' ∧ c ≠ '_')).length ≠ a.length then
      [Msg.optbug opts "multi-word argh should use dash to separate words"] else []
  | none => []

/-- The `optbug` reports of `parse_options_check` for one descriptor, given
the counters `short_opts`, and the counters afterwards. -/
def check_one (opts : Opt) (short_opts : Nat → Nat) : List Msg × (Nat → Nat) :=
  (check_lastarg opts ++ (check_short opts short_opts).1 ++ check_nodash opts ++
    check_toggle opts ++ check_argh opts, (check_short opts short_opts).2)

/-- The loop of `parse_options_check`: all the `optbug` reports. -/
def parse_options_check_loop : List Opt → (Nat → Nat) → List Msg
  | [], _ => []
  | opts :: rest, short_opts =>
    if opts.type = OPTION_END then []
    else (check_one opts short_opts).1 ++ parse_options_check_loop rest (check_one opts short_opts).2

/-- The function `parse_options_check`: `true` when it calls `exit(128)`
(`err` is non-zero as soon as one `optbug` was reported). -/
def parse_options_check (opts : List Opt) : Bool :=
  parse_options_check_loop opts (fun _ => 0) ≠ []

/-- How `parse_options_step` ends: the `PARSE_OPT_*` results, the process
exits taken inside it, and the exhaustion of the fuel of this model. -/
inductive Outcome where
  | PARSE_OPT_DONE
  | PARSE_OPT_NON_OPTION
  | PARSE_OPT_ERROR
  | PARSE_OPT_UNKNOWN
  | PARSE_OPT_HELP
  | PARSE_OPT_COMPLETE
  | EXIT_129
  | ABORT
  | OUT_OF_FUEL
  deriving DecidableEq, Repr

open Outcome

/-- How the body of the loop of `parse_options_step` ends for one token:
`continue` (also the fall-through after `unknown:`), `break`, or `return`. -/
inductive TokStep where
  | next (ctx : Ctx)
  | brk (ctx : Ctx)
  | ret (o : Outcome) (ctx : Ctx)

/-- The statements at the label `unknown`. -/
def unknown (ctx : Ctx) : TokStep :=
  if ¬ ctx.flags.keep_unknown then TokStep.ret PARSE_OPT_UNKNOWN ctx
  else
    TokStep.next { ctx with buf := ctx.buf.set ctx.cpidx (ctx.buf.getD ctx.argv none),
                            cpidx := ctx.cpidx + 1, opt := none }

/-- The loop `while (ctx->opt)` of `parse_options_step` over the rest of a
short-option cluster. -/
def short_loop (env : Env) (options : List Opt) : Nat → Ctx → TokStep
  | 0, ctx => TokStep.ret OUT_OF_FUEL ctx
  | fuel + 1, ctx =>
    match ctx.opt with
    | none => TokStep.next ctx
    | some _ =>
      match parse_short_opt env ctx options with
      | (Rc.abort, c) => TokStep.ret ABORT c
      | (Rc.code n, c) =>
        if n = -1 then TokStep.ret PARSE_OPT_ERROR c
        else if n = -2 then
          match c.opt with
          | none => TokStep.ret ABORT c
          | some o =>
            if ¬ c.flags.no_internal_help ∧ headCode o = 'h'.toNat then
              TokStep.ret PARSE_OPT_HELP c
            else unknown { c with buf := c.buf.set c.argv (some ('-' :: o)) }
        else short_loop env options fuel c

/-- The body of the loop of `parse_options_step` for the token `argv[0]`. -/
def step_token (env : Env) (options : List Opt) (fuel : Nat) (ctx : Ctx) : TokStep :=
  let arg := argvAt ctx 0
  let internal_help : Bool := ¬ ctx.flags.no_internal_help
  if arg.head? ≠ some '-' ∨ arg.length < 2 then
    match parse_nodash_opt env ctx arg options with
    | (rc, c) =>
      if rc = Rc.code 0 then TokStep.next c
      else if rc = Rc.abort then TokStep.ret ABORT c
      else if c.flags.stop_at_non_option then TokStep.ret PARSE_OPT_NON_OPTION c
      else
        TokStep.next { c with buf := c.buf.set c.cpidx (c.buf.getD c.argv none),
                              cpidx := c.cpidx + 1 }
  else if internal_help ∧ ctx.total = 1 ∧ arg.tail = ['h'] then TokStep.ret PARSE_OPT_HELP ctx
  else if ctx.total = 1 ∧ arg.tail = "-git-completion-helper".toList then
    TokStep.ret PARSE_OPT_COMPLETE ctx
  else if arg.tail.head? ≠ some '-' then
    match parse_short_opt env { ctx with opt := some arg.tail } options with
    | (Rc.abort, c) => TokStep.ret ABORT c
    | (Rc.code n, c) =>
      if n = -1 then TokStep.ret PARSE_OPT_ERROR c
      else if n = -2 then
        match c.opt with
        | none => if internal_help then TokStep.ret ABORT c else unknown c
        | some o =>
          if check_typos arg.tail options then TokStep.ret EXIT_129 c
          else if internal_help ∧ headCode o = 'h'.toNat then TokStep.ret PARSE_OPT_HELP c
          else unknown c
      else if c.opt.isSome ∧ check_typos arg.tail options then TokStep.ret EXIT_129 c
      else short_loop env options fuel c
  else if arg.length = 2 then
    if ¬ ctx.flags.keep_dashdash then
      TokStep.brk { ctx with argc := ctx.argc - 1, argv := ctx.argv + 1 }
    else TokStep.brk ctx
  else if internal_help ∧ arg.drop 2 = "help-all".toList then TokStep.ret PARSE_OPT_HELP ctx
  else if internal_help ∧ arg.drop 2 = "help".toList then TokStep.ret PARSE_OPT_HELP ctx
  else
    match parse_long_opt env ctx (arg.drop 2) options with
    | (Rc.abort, c) => TokStep.ret ABORT c
    | (Rc.code n, c) =>
      if n = -1 then TokStep.ret PARSE_OPT_ERROR c
      else if n = -2 then unknown c
      else if n = -3 then TokStep.ret PARSE_OPT_HELP c
      else TokStep.next c

/-- The loop `for (; ctx->argc; ctx->argc--, ctx->argv++)` of
`parse_options_step`. -/
def parse_options_loop (env : Env) (options : List Opt) : Nat → Ctx → Outcome × Ctx
  | 0, ctx => (OUT_OF_FUEL, ctx)
  | fuel + 1, ctx =>
    if ctx.argc = 0 then (PARSE_OPT_DONE, ctx)
    else
      match step_token env options (fuel + 1) ctx with
      | TokStep.ret o c => (o, c)
      | TokStep.brk c => (PARSE_OPT_DONE, c)
      | TokStep.next c =>
        parse_options_loop env options fuel { c with argc := c.argc - 1, argv := c.argv + 1 }

/-- The function `parse_options_step`; `fuel` bounds the number of loop
iterations this model runs (low-level callbacks may rewind the context). -/
def parse_options_step (env : Env) (options : List Opt) (fuel : Nat) (ctx : Ctx) :
    Outcome × Ctx :=
  parse_options_loop env options fuel { ctx with opt := none }

/-- The function `parse_options_start` on the argument array `args`
(`argv[0 .. argc-1]`, `argc ≥ 1`; `argv[argc]` is `NULL`): `none` when it
ends the process (`BUG`, or `exit(128)` from `parse_options_check`). -/
def parse_options_start (args : List Str) (pfx : Option Str) (options : List Opt)
    (flags : ParseFlags) (slots : Slots) : Option Ctx :=
  if flags.keep_unknown ∧ flags.stop_at_non_option then none
  else if parse_options_check options then none
  else
    some { buf := args.map some ++ [none], argv := 1, argc := args.length - 1,
           cpidx := if flags.keep_argv0 then 1 else 0, total := args.length - 1, opt := none,
           pfx := pfx, flags := flags, slots := slots, stderr := [], calls := [] }

/-- The function `parse_options_end`: the returned count and the context
with the rewritten argument array. -/
def parse_options_end (ctx : Ctx) : Nat × Ctx :=
  let moved := (ctx.buf.drop ctx.argv).take ctx.argc
  let buf1 := ctx.buf.take ctx.cpidx ++ moved ++ ctx.buf.drop (ctx.cpidx + ctx.argc)
  (ctx.cpidx + ctx.argc, { ctx with buf := buf1.set (ctx.cpidx + ctx.argc) none })

/-- The resulting argument vector: the first `count` entries of the array. -/
def result_vector (r : Nat × Ctx) : List (Option Str) := r.2.buf.take r.1

/-! ## Sample data used to instantiate the theorems -/

/-- An environment whose callbacks accept everything and change nothing. -/
def sampleEnv : Env :=
  { callback := fun _ _ _ s => (0, s)
    ll_callback := fun _ _ p => (0, p)
    git_parse_ulong := fun _ => none
    is_absolute_path := fun _ => false
    prefix_filename := fun a b => a ++ b }

/-- All value slots zero / `NULL`. -/
def zeroSlots : Slots := { ints := fun _ => 0, strs := fun _ => none }

/-- The context right after `parse_options_start` on `args` (program name
included), without table validation. -/
def sampleCtx (args : List String) (flags : ParseFlags) : Ctx :=
  { buf := args.map (fun a => some a.toList) ++ [none], argv := 1, argc := args.length - 1,
    cpidx := if flags.keep_argv0 then 1 else 0, total := args.length - 1, opt := none,
    pfx := none, flags := flags, slots := zeroSlots, stderr := [], calls := [] }

/-- Two Mode-select descriptors `--add` and `-d` on slot 5. -/
def modeTable : List Opt :=
  [ { type := OPTION_CMDMODE, long_name := some "add".toList, value := 5, defval := 1 },
    { type := OPTION_CMDMODE, short_name := 100, value := 5, defval := 2 },
    { type := OPTION_END } ]

/-- The descriptors before the end marker. -/
def table (opts : List Opt) : List Opt := opts.takeWhile (fun o => o.type ≠ OPTION_END)

/-- The scalar-toggle kinds named by `parse_options_check`. -/
def scalar_toggle (t : OptType) : Prop :=
  t = OPTION_COUNTUP ∨ t = OPTION_BIT ∨ t = OPTION_NEGBIT ∨ t = OPTION_SET_INT ∨
    t = OPTION_NUMBER

/-- The defects of a descriptor `o` that do not depend on the rest of the
table, as `parse_options_check` tests them. -/
def local_bug (o : Opt) : Prop :=
  (o.flags.lastarg_default = true ∧ o.flags.optarg = true) ∨
  (o.short_name ≠ 0 ∧ 0x7F ≤ o.short_name) ∨
  (o.flags.nodash = true ∧ (o.flags.optarg = true ∨ o.flags.noarg = false ∨
    o.flags.noneg = false ∨ o.long_name.isSome = true)) ∨
  (scalar_toggle o.type ∧ (o.flags.optarg = true ∨ o.flags.noarg = false)) ∨
  (∃ a, o.argh = some a ∧ (' ' ∈ a ∨ '_' ∈ a))

/-- The defects of `o` given the descriptors `pre` that stand before it:
a local defect, or a short name (below 0x7F) that repeats an earlier one. -/
def code_rejects_at (pre : List Opt) (o : Opt) : Prop :=
  local_bug o ∨ (o.short_name ≠ 0 ∧ o.short_name < 0x7F ∧
    ∃ e ∈ pre, e.short_name = o.short_name)

/-- The rejection condition in the words of the specification, where a short
name "out of the printable range" is one outside the printable ASCII
characters 0x20 .. 0x7E. -/
def spec_rejects_at (pre : List Opt) (o : Opt) : Prop :=
  (o.flags.lastarg_default = true ∧ o.flags.optarg = true) ∨
  (o.short_name ≠ 0 ∧ ((∃ e ∈ pre, e.short_name = o.short_name) ∨
    ¬ (0x20 ≤ o.short_name ∧ o.short_name ≤ 0x7E))) ∨
  (o.flags.nodash = true ∧ (o.flags.optarg = true ∨ o.flags.noarg = false ∨
    o.flags.noneg = false ∨ o.long_name.isSome = true)) ∨
  (scalar_toggle o.type ∧ (o.flags.optarg = true ∨ o.flags.noarg = false)) ∨
  (∃ a, o.argh = some a ∧ (' ' ∈ a ∨ '_' ∈ a))

/-- A table whose only descriptor has the control character BEL as its short
name. -/
def bellTable : List Opt :=
  [ { type := OPTION_STRING, short_name := 7, value := 0 }, { type := OPTION_END } ]

/-- The negation marker `no-`. -/
def NO : Str := ['n', 'o', '-']

/-- Does `l`, after removing one or more leading `no-`, equal `t`? -/
def strips_to (t : Str) : Str → Bool
  | 'n' :: 'o' :: '-' :: m => m == t || strips_to t m
  | _ => false

/-- Does `l`, after removing one or more leading `no-`, start with `t`? -/
def strips_to_start (t : Str) : Str → Bool
  | 'n' :: 'o' :: '-' :: m => t.isPrefixOf m || strips_to_start t m
  | _ => false

/-- The token text `t` names the descriptor `o` exactly: it is the long name,
or, for a negatable descriptor that is not an ArgumentMarker, it is `no-`
followed by the long name, or the long name is `t` behind one or more
leading `no-`. -/
def exact_match (o : Opt) (t : Str) : Bool :=
  match o.long_name with
  | none => false
  | some l =>
    l == t || (!o.flags.noneg && o.type != OPTION_ARGUMENT && (t == NO ++ l || strips_to t l))

/-- The form in which the token text `t` abbreviates the descriptor `o`:
`some 0` when `t` is a prefix of the long name, `some OPT_UNSET` when `o` is
negatable and `t` is a prefix of `no-` + long name, or `t` does not start with
`no-` and is a prefix of the long name with leading `no-` removed. -/
def cand_form (o : Opt) (t : Str) : Option Nat :=
  match o.long_name with
  | none => none
  | some l =>
    if o.type = OPTION_ARGUMENT then none
    else if t.isPrefixOf l then some 0
    else if o.flags.noneg then none
    else if t.isPrefixOf (NO ++ l) || (!NO.isPrefixOf t && strips_to_start t l) then
      some OPT_UNSET
    else none

/-- The long name of the negatable descriptor `o` is a proper prefix of the
token text `t`, which in turn is a prefix of `no-` + long name (names such as
`n` or `no`). -/
def prefix_of_own_negation (o : Opt) (t : Str) : Bool :=
  match o.long_name with
  | none => false
  | some l =>
    !o.flags.noneg && o.type != OPTION_ARGUMENT && l.isPrefixOf t && l != t &&
      t.isPrefixOf (NO ++ l)

/-- The locals of `parse_long_opt` after the descriptor `o` at index `i` was
recorded as an abbreviation in form `f`. -/
def push_abbrev (st : Abbrev) (i : Nat) (o : Opt) (f : Option Nat) : Abbrev :=
  match f with
  | none => st
  | some fl =>
    match st.abbrev_option with
    | some a =>
      { abbrev_option := some (i, o), abbrev_flags := fl,
        ambiguous_option := some a, ambiguous_flags := st.abbrev_flags }
    | none => { st with abbrev_option := some (i, o), abbrev_flags := fl }

/-- A descriptor recorded as an abbreviation candidate: its table index, the
descriptor and the flags it was recorded with. -/
structure Cand where
  idx : Nat
  opt : Opt
  flags : Nat
  deriving DecidableEq, Repr

/-- The descriptors before the end marker that the token text `t`
abbreviates, in table order, from table index `i` on. -/
def candidates_from (t : Str) : List Opt → Nat → List Cand
  | [], _ => []
  | o :: rest, i =>
    if o.type = OPTION_END then []
    else
      match cand_form o t with
      | none => candidates_from t rest (i + 1)
      | some f => { idx := i, opt := o, flags := f } :: candidates_from t rest (i + 1)

/-- The abbreviation candidates of the token text `t` in the table. -/
def candidates (t : Str) (tbl : List Opt) : List Cand := candidates_from t tbl 0

/-- The locals of `parse_long_opt` after the candidates `cs` were recorded
one after the other. -/
def record_all (st : Abbrev) (cs : List Cand) : Abbrev :=
  cs.foldl (fun s c => push_abbrev s c.idx c.opt (some c.flags)) st

/-- The exact matches listed by the specification: the long name is `t`, or
the descriptor is negatable and `t` is `no-` + long name or the long name is
`no-` + `t`. -/
def claimed_exact_match (o : Opt) (t : Str) : Bool :=
  match o.long_name with
  | none => false
  | some l => l == t || (!o.flags.noneg && (t == NO ++ l || l == NO ++ t))

/-- Descriptors `--foo-one` and `--foo-two`. -/
def fooTable : List Opt :=
  [ { type := OPTION_BIT, long_name := some "foo-one".toList, value := 0, defval := 1,
      flags := { noarg := true } },
    { type := OPTION_BIT, long_name := some "foo-two".toList, value := 1, defval := 1,
      flags := { noarg := true } },
    { type := OPTION_END } ]

/-- Descriptors `--foo-one`, `--foo-two` and a negatable `--no-no-foo-`. -/
def fooDoubleNegTable : List Opt :=
  [ { type := OPTION_BIT, long_name := some "foo-one".toList, value := 0, defval := 1,
      flags := { noarg := true } },
    { type := OPTION_BIT, long_name := some "foo-two".toList, value := 1, defval := 1,
      flags := { noarg := true } },
    { type := OPTION_NEGBIT, long_name := some "no-no-foo-".toList, value := 2, defval := 1,
      flags := { noarg := true } },
    { type := OPTION_END } ]

/-- The token text `t` matches the descriptor `o` exactly or by abbreviation,
in plain or in negated form. -/
def long_match (o : Opt) (t : Str) : Bool := exact_match o t || (cand_form o t).isSome

/-- A dispatch with the unset flag goes to a negatable descriptor of the
table `tbl` only. -/
def safe_dispatch (tbl : List Opt) (i : Nat) (o : Opt) (flags : Nat) : Prop :=
  tbl[i]? = some o ∧ (flags &&& OPT_UNSET ≠ 0 → o.flags.noneg = false)

/-- The recorded abbreviation, if any, would be a safe dispatch. -/
def safe_abbrev (tbl : List Opt) (st : Abbrev) : Prop :=
  ∀ i o, st.abbrev_option = some (i, o) → safe_dispatch tbl i o st.abbrev_flags

/-- The property `safe_dispatch` for the way a loop body ends. -/
def safe_step (tbl : List Opt) : LongStep → Prop
  | LongStep.cont _ st => safe_abbrev tbl st
  | LongStep.leave (LongAction.dispatch _ i o flags) => safe_dispatch tbl i o flags
  | LongStep.leave (LongAction.ret _) => True

/-- The property `safe_dispatch` for what `parse_long_opt` does in the end. -/
def safe_action (tbl : List Opt) : LongAction → Prop
  | LongAction.dispatch _ i o flags => safe_dispatch tbl i o flags
  | LongAction.ret _ => True

/-- A non-negatable string option `--color`. -/
def nonegColor : Opt :=
  { type := OPTION_STRING, long_name := some "color".toList, value := 0,
    flags := { noneg := true } }

/-- A flag `--verbose`. -/
def verboseFlag : Opt :=
  { type := OPTION_BIT, long_name := some "verbose".toList, value := 1, defval := 1,
    flags := { noarg := true } }

/-- A non-negatable string option `--color` and a flag `--verbose`. -/
def nonegTable : List Opt := [nonegColor, verboseFlag, { type := OPTION_END }]

/-- The token text `t` matches the descriptor `o` exactly or by abbreviation,
in plain or in negated form, where being a prefix of the long name counts for
every kind of descriptor. -/
def long_match_any (o : Opt) (t : Str) : Bool :=
  long_match o t ||
    (match o.long_name with
     | some l => t.isPrefixOf l
     | none => false)

/-- The context after the slot of `D` was cleared: `NULL` for the string
kinds, 0 for the integer kinds. -/
def clear_slot (p : Ctx) (D : Opt) : Ctx :=
  if D.type = OPTION_STRING ∨ D.type = OPTION_FILENAME then setStr p D.value none
  else setInt p D.value 0

/-- A negatable string option named `no-color`. -/
def noColorOpt : Opt :=
  { type := OPTION_STRING, long_name := some "no-color".toList, value := 0 }

/-- A negatable string option named `color`. -/
def colorOpt : Opt :=
  { type := OPTION_STRING, long_name := some "color".toList, value := 0 }

/-- The pending inline value seen from `p0` after abbreviation candidates
were recorded for the token `arg`: untouched, or set to the text after the
first `=` of `arg`. -/
def inline_set (arg : Str) (p0 p1 : Ctx) : Prop :=
  p1 = p0 ∨ (strchrnul_eq arg ≠ [] ∧ p1 = { p0 with opt := some (strchrnul_eq arg).tail })

/-- The loop body continued, with at most the pending inline value set. -/
def continues (arg : Str) (p0 : Ctx) (s : LongStep) : Prop :=
  ∃ p1 st1, s = LongStep.cont p1 st1 ∧ inline_set arg p0 p1

/-- The token text `N`, or `N=v` with an inline value `v`. -/
def long_token (N : Str) (v : Option Str) : Str :=
  match v with
  | none => N
  | some x => N ++ '=' :: x

/-- The context with `v`, when present, as the pending inline value. -/
def with_pending (p : Ctx) (v : Option Str) : Ctx :=
  match v with
  | none => p
  | some x => { p with opt := some x }

/-- Flags `--foo` (slot 1) and `--foobar` (slot 0). -/
def fooBit : Opt :=
  { type := OPTION_BIT, long_name := some "foo".toList, value := 1, defval := 1,
    flags := { noarg := true } }

/-- The flag `--foobar`. -/
def foobarBit : Opt :=
  { type := OPTION_BIT, long_name := some "foobar".toList, value := 0, defval := 1,
    flags := { noarg := true } }

/-- A negatable Bit-flag-clear option named `no-no-foo` (slot 2). -/
def noNoFoo : Opt :=
  { type := OPTION_NEGBIT, long_name := some "no-no-foo".toList, value := 2, defval := 1,
    flags := { noarg := true } }

/-- The no-argument flag kinds that `get_value` converts itself. -/
def is_flag (o : Opt) : Prop :=
  o.type = OPTION_BIT ∨ o.type = OPTION_NEGBIT ∨ o.type = OPTION_COUNTUP ∨
    o.type = OPTION_SET_INT

/-- The integer slots with `slot` set to `v`. -/
def store_int (s : Slots) (slot : Nat) (v : Int) : Slots :=
  { s with ints := fun a => if a = slot then v else s.ints a }

/-- The string slots with `slot` set to `v`. -/
def store_str (s : Slots) (slot : Nat) (v : Option Str) : Slots :=
  { s with strs := fun a => if a = slot then v else s.strs a }

/-- The effect of a flag descriptor matched in non-negated form on the value
slots: set the mask, clear the mask, count up from at least 0, or store the
fixed value. -/
def toggle (s : Slots) (o : Opt) : Slots :=
  match o.type with
  | OPTION_BIT => store_int s o.value (toInt32 (Int.lor (s.ints o.value) o.defval))
  | OPTION_NEGBIT => store_int s o.value (toInt32 (Int.land (s.ints o.value) (Int.lnot o.defval)))
  | OPTION_COUNTUP => store_int s o.value (toInt32 (max (s.ints o.value) 0 + 1))
  | OPTION_SET_INT => store_int s o.value (toInt32 o.defval)
  | _ => s

/-- The bit flag `-a` (mask 1 on slot 0). -/
def flagA : Opt :=
  { type := OPTION_BIT, short_name := 97, value := 0, defval := 1, flags := { noarg := true } }

/-- The counting flag `-b`. -/
def flagB : Opt :=
  { type := OPTION_COUNTUP, short_name := 98, value := 1, flags := { noarg := true } }

/-- The string option `-c` with a mandatory value. -/
def stringC : Opt := { type := OPTION_STRING, short_name := 99, value := 0 }

/-- A table with `-a`, `-b` and `-c`. -/
def abcTable : List Opt := [flagA, flagB, stringC, { type := OPTION_END }]

/-- A Numeric-suffix descriptor (`OPT_NUMBER_CALLBACK`). -/
def numberOpt : Opt := { type := OPTION_NUMBER, value := 0, flags := { noarg := true } }

/-- The bit flag `-x` (mask 1 on slot 1). -/
def flagX : Opt :=
  { type := OPTION_BIT, short_name := 120, value := 1, defval := 1, flags := { noarg := true } }

/-- A table with a Numeric-suffix descriptor and the flag `-x`. -/
def numTable : List Opt := [numberOpt, flagX, { type := OPTION_END }]

/-- A string option with the long name `32x-mode`. -/
def longDigits : Opt := { type := OPTION_STRING, long_name := some "32x-mode".toList, value := 0 }

/-- The table `numTable` with the long option `--32x-mode` added. -/
def numTypoTable : List Opt := [numberOpt, flagX, longDigits, { type := OPTION_END }]

/-- The part of the context that describes the argument array: the array, the
read cursor, the number of unread tokens, the output cursor and the flags. -/
def geom (c : Ctx) : List (Option Str) × Nat × Nat × Nat × ParseFlags :=
  (c.buf, c.argv, c.argc, c.cpidx, c.flags)

/-- From `p` to `q` the argument array was left alone, and at most the next
token was consumed (`argc--, argv++`, only when a next token exists). -/
def consumes (p q : Ctx) : Prop :=
  geom q = geom p ∨ (1 < p.argc ∧ geom q = (p.buf, p.argv + 1, p.argc - 1, p.cpidx, p.flags))

/-- The output partition while the token `argv[0]` is processed, relative to
the array `orig` handed to `parse_options_start`: the array keeps its length,
the tokens after the current one are untouched, the output cursor is at most
`k` beyond the read cursor, the unread tokens end where the array ends (its
last entry is the `NULL`), and a current token exists. -/
def partition_mid (orig : List (Option Str)) (flags : ParseFlags) (k : Nat) (c : Ctx) : Prop :=
  c.buf.length = orig.length ∧ c.buf.drop (c.argv + 1) = orig.drop (c.argv + 1) ∧
    c.cpidx ≤ c.argv + k ∧ c.argv + c.argc + 1 = orig.length ∧ 1 ≤ c.argc ∧ c.flags = flags

/-- The output partition at the head of the loop of `parse_options_step`: the
unread tokens, the current one included, are untouched and the output cursor
is not beyond the read cursor. -/
def partition_inv (orig : List (Option Str)) (flags : ParseFlags) (c : Ctx) : Prop :=
  c.buf.length = orig.length ∧ c.buf.drop c.argv = orig.drop c.argv ∧
    c.cpidx ≤ c.argv ∧ c.argv + c.argc + 1 = orig.length ∧ c.flags = flags

/-- The low-level callbacks of the table keep the output partition. -/
def ll_keeps_partition (env : Env) (tbl : List Opt) (orig : List (Option Str))
    (flags : ParseFlags) : Prop :=
  ∀ o ∈ table tbl, o.type = OPTION_LOWLEVEL_CALLBACK →
    ∀ (u : Bool) (p : Ctx), partition_mid orig flags 0 p →
      partition_mid orig flags 0 (env.ll_callback o u p).2

/-- The low-level callback of the descriptor `o`, if it is one, keeps the
output partition. -/
def ll_keeps (env : Env) (orig : List (Option Str)) (flags : ParseFlags) (o : Opt) : Prop :=
  o.type = OPTION_LOWLEVEL_CALLBACK →
    ∀ (u : Bool) (p : Ctx), partition_mid orig flags 0 p →
      partition_mid orig flags 0 (env.ll_callback o u p).2

/-- The output partition for what `parse_long_opt` does in the end. -/
def partition_action (env : Env) (orig : List (Option Str)) (flags : ParseFlags) :
    LongAction → Prop
  | LongAction.ret r =>
    partition_mid orig flags 0 r.2 ∨ (r.1 = Rc.code 0 ∧ partition_mid orig flags 1 r.2)
  | LongAction.dispatch p _ o _ => partition_mid orig flags 0 p ∧ ll_keeps env orig flags o

/-- The output partition for the way a loop body of `parse_long_opt` ends. -/
def partition_step (env : Env) (orig : List (Option Str)) (flags : ParseFlags) :
    LongStep → Prop
  | LongStep.cont p st =>
    partition_mid orig flags 0 p ∧ ∀ i o, st.abbrev_option = some (i, o) → ll_keeps env orig flags o
  | LongStep.leave a => partition_action env orig flags a

/-- The first `n` rounds of the loop of `parse_options_step`, each ending in
`continue`: the context at the head of round `n`, if the loop gets there. -/
def loop_rounds (env : Env) (options : List Opt) : Nat → Nat → Ctx → Option Ctx
  | _, 0, ctx => some ctx
  | 0, _ + 1, _ => none
  | fuel + 1, n + 1, ctx =>
    if ctx.argc = 0 then none
    else
      match step_token env options (fuel + 1) ctx with
      | TokStep.next c =>
        loop_rounds env options fuel n { c with argc := c.argc - 1, argv := c.argv + 1 }
      | _ => none

/-- The property `P` of the context with which a loop body ends in
`continue`. -/
def on_next (P : Ctx → Prop) : TokStep → Prop
  | TokStep.next c => P c
  | _ => True

/-- The value `x` is representable as an `int` (32 bits, two's complement). -/
def fits_int (x : Int) : Prop := -2147483648 ≤ x ∧ x < 2147483648

/-- The Mode-select option `-a` (mode 1 on slot 5). -/
def modeA : Opt :=
  { type := OPTION_CMDMODE, short_name := 97, value := 5, defval := 1,
    flags := { noarg := true, noneg := true } }

/-- The dashless Mode-select option `b` (mode 2 on slot 5). -/
def modeDashlessB : Opt :=
  { type := OPTION_CMDMODE, short_name := 98, value := 5, defval := 2,
    flags := { nodash := true, noarg := true, noneg := true } }

/-- The table with `-a`, the dashless `b` and the bit flag `-c` (mask 1 on
slot 1). -/
def dashlessTable : List Opt :=
  [modeA, modeDashlessB,
   { type := OPTION_BIT, short_name := 99, value := 1, defval := 1, flags := { noarg := true } },
   { type := OPTION_END }]

/-- The low-level callback of the descriptor `o`, if it is one, keeps the
property `P` of the context. -/
def ll_closed (env : Env) (P : Ctx → Prop) (o : Opt) : Prop :=
  o.type = OPTION_LOWLEVEL_CALLBACK → ∀ (u : Bool) (p : Ctx), P p → P (env.ll_callback o u p).2

/-- A property `P` of the context while a token is processed, with the
property `Q` it turns into when the token is forwarded: `P` depends on the
argument array and the cursors only, survives the consumption of the next
token, the low-level callbacks of the table and the rewriting of the current
token, and gives `Q` after the current output slot was written and the output
cursor moved on. -/
def geom_closed (env : Env) (tbl : List Opt) (P Q : Ctx → Prop) : Prop :=
  (∀ p q, consumes p q → P p → P q) ∧
  (∀ o ∈ table tbl, ll_closed env P o) ∧
  (∀ p q x, P p → geom q = (p.buf.set p.cpidx x, p.argv, p.argc, p.cpidx + 1, p.flags) → Q q) ∧
  (∀ p q x, P p → geom q = (p.buf.set p.argv x, p.argv, p.argc, p.cpidx, p.flags) → P q) ∧
  (∀ p, P p → Q p)

/-- The properties `P` / `Q` for what `parse_long_opt` does in the end. -/
def closed_action (env : Env) (P Q : Ctx → Prop) : LongAction → Prop
  | LongAction.ret r => P r.2 ∨ (r.1 = Rc.code 0 ∧ Q r.2)
  | LongAction.dispatch p _ o _ => P p ∧ ll_closed env P o

/-- The properties `P` / `Q` for the way a loop body of `parse_long_opt`
ends. -/
def closed_step (env : Env) (P Q : Ctx → Prop) : LongStep → Prop
  | LongStep.cont p st => P p ∧ ∀ i o, st.abbrev_option = some (i, o) → ll_closed env P o
  | LongStep.leave a => closed_action env P Q a

/-- The property `Q` of the context with which a loop body ends in
`continue`, and `P` of the context with which it returns. -/
def on_step (P Q : Ctx → Prop) : TokStep → Prop
  | TokStep.next c => Q c
  | TokStep.ret _ c => P c
  | TokStep.brk _ => True

/-- The context after a sequence of calls of `parse_options_step`, one call
per entry of `fuels`. -/
def run_steps (env : Env) (options : List Opt) : List Nat → Ctx → Ctx
  | [], ctx => ctx
  | fuel :: rest, ctx => run_steps env options rest (parse_options_step env options fuel ctx).2

/-- The output partition between two calls of `parse_options_step`: as at the
head of its loop, except that the current token may have been rewritten (the
rest of a cluster with an unknown switch). -/
def partition_rest (orig : List (Option Str)) (flags : ParseFlags) (c : Ctx) : Prop :=
  c.buf.length = orig.length ∧ c.buf.drop (c.argv + 1) = orig.drop (c.argv + 1) ∧
    c.cpidx ≤ c.argv ∧ c.argv + c.argc + 1 = orig.length ∧ c.flags = flags

/-- The output region followed by the unread tokens of the context. -/
def pending_vector (c : Ctx) : List (Option Str) :=
  c.buf.take c.cpidx ++ (c.buf.drop c.argv).take c.argc

/-- The token `t` is a plain operand for the table: it has no leading dash or
is a lone dash, and no dashless descriptor is named by it. -/
def operand (tbl : List Opt) (t : Str) : Prop :=
  (t.head? ≠ some '-' ∨ t.length < 2) ∧
    ∀ o ∈ table tbl, o.flags.nodash = true → ¬ (o.short_name = headCode t ∧ t.length ≤ 1)
/-- The function `parse_options`: `none` when the process exits (in
`parse_options_start`, or after a step that ends in anything but
`PARSE_OPT_NON_OPTION` or `PARSE_OPT_DONE`), else what `parse_options_end`
returns.  `precompose_argv` (another translation unit) renormalizes the
entries of the array in place and is a parameter. -/
def parse_options (env : Env) (precompose_argv : List (Option Str) → List (Option Str))
    (args : List Str) (pfx : Option Str) (options : List Opt) (flags : ParseFlags)
    (slots : Slots) (fuel : Nat) : Option (Nat × Ctx) :=
  match parse_options_start args pfx options flags slots with
  | none => none
  | some ctx =>
    match parse_options_step env options fuel ctx with
    | (Outcome.PARSE_OPT_NON_OPTION, c) =>
      some (parse_options_end { c with buf := precompose_argv c.buf })
    | (Outcome.PARSE_OPT_DONE, c) =>
      some (parse_options_end { c with buf := precompose_argv c.buf })
    | _ => none

/-- An Integer option `--num` on slot 3. -/
def numOpt : Opt := { type := OPTION_INTEGER, long_name := some "num".toList, value := 3 }

/-- The table with `--num` alone. -/
def intTable : List Opt := [numOpt, { type := OPTION_END }]

/-- The kinds that `get_value` converts itself, the Integer kind apart. -/
def converts_checked (t : OptType) : Prop :=
  t = OPTION_BIT ∨ t = OPTION_NEGBIT ∨ t = OPTION_COUNTUP ∨ t = OPTION_SET_INT ∨
    t = OPTION_CMDMODE ∨ t = OPTION_STRING

/-- The text `t` is, in its entirety, a base-10 integer: an optional sign
followed by one or more decimal digits and nothing else (the words of the
specification). -/
def base10 (t : Str) : Bool :=
  if t.head? = some '-' ∨ t.head? = some '+' then !t.tail.isEmpty && t.tail.all isdigit
  else !t.isEmpty && t.all isdigit

/-- The numeric value of a base-10 integer text. -/
def base10_value (t : Str) : Int :=
  if t.head? = some '-' then -(digitsVal t.tail : Int)
  else if t.head? = some '+' then (digitsVal t.tail : Int)
  else (digitsVal t : Int)

/-- Saturation to the range of a 64-bit `long`, as `strtol` does it. -/
def clamp_long (v : Int) : Int :=
  if v > 9223372036854775807 then 9223372036854775807
  else if v < -9223372036854775808 then -9223372036854775808 else v

/-- A negatable Bit-flag-set option named `no-n` (mask 1 on slot 0). -/
def noN : Opt :=
  { type := OPTION_BIT, long_name := some "no-n".toList, value := 0, defval := 1,
    flags := { noarg := true } }

/-- A negatable Bit-flag-set option named `no-fast` (mask 1 on slot 0). -/
def noFast : Opt :=
  { type := OPTION_BIT, long_name := some "no-fast".toList, value := 0, defval := 1,
    flags := { noarg := true } }

/-- The bound on the output cursor while the token `argv[0]` is processed,
for an argument vector of `n` tokens after the program name: the output
cursor is at most `j` beyond the number of tokens before the current one
(`argv - 1`) plus `k0`, the unread tokens end at token `n`, a current token
exists and the read cursor is behind the program name. -/
def cursor_mid (n k0 j : Nat) (c : Ctx) : Prop :=
  c.cpidx + 1 ≤ c.argv + k0 + j ∧ c.argv + c.argc = n + 1 ∧ 1 ≤ c.argc ∧ 1 ≤ c.argv

/-- The bound on the output cursor at the head of the loop of
`parse_options_step`. -/
def cursor_inv (n k0 : Nat) (c : Ctx) : Prop :=
  c.cpidx + 1 ≤ c.argv + k0 ∧ c.argv + c.argc = n + 1 ∧ 1 ≤ c.argv

/-- A Mode-select option `--mode` (mode 1 on slot 5) declared without the
no-argument flag. -/
def modeArg : Opt :=
  { type := OPTION_CMDMODE, long_name := some "mode".toList, value := 5, defval := 1 }

/-- A String option `--name` on string slot 0. -/
def nameOpt : Opt := { type := OPTION_STRING, long_name := some "name".toList, value := 0 }

/-- The table with `--mode` and `--name`. -/
def modeNameTable : List Opt := [modeArg, nameOpt, { type := OPTION_END }]

/-- A descriptor that consumes or rejects a pending inline value: it has no
low-level callback, the kinds that store no value (the scalar toggles and
Mode-select) carry the no-argument flag, and the name of an ArgumentMarker
has no `=`. -/
def takes_pending (o : Opt) : Prop :=
  o.type ≠ OPTION_LOWLEVEL_CALLBACK ∧
  ((o.type = OPTION_BIT ∨ o.type = OPTION_NEGBIT ∨ o.type = OPTION_COUNTUP ∨
    o.type = OPTION_SET_INT ∨ o.type = OPTION_CMDMODE) → o.flags.noarg = true) ∧
  (o.type = OPTION_ARGUMENT → ∀ l, o.long_name = some l → '=' ∉ l)

/-- The flags that `parse_long_opt` hands to `get_value`: none, or
`OPT_UNSET`. -/
def long_flags (f : Nat) : Prop := f = 0 ∨ f = OPT_UNSET

/-- The result codes after which the loop of `parse_options_step` goes on to
the next token. -/
def passes_on (rc : Rc) : Prop :=
  rc ≠ Rc.code (-1) ∧ rc ≠ Rc.code (-2) ∧ rc ≠ Rc.code (-3) ∧ rc ≠ Rc.abort

/-- No pending inline value is left behind by what `parse_long_opt` does in
the end. -/
def pend_action : LongAction → Prop
  | LongAction.ret r => passes_on r.1 → r.2.opt = none
  | LongAction.dispatch _ _ o fl => takes_pending o ∧ long_flags fl

/-- No pending inline value is left behind by the way a loop body of
`parse_long_opt` ends for the token text `arg`. -/
def pend_step (arg : Str) : LongStep → Prop
  | LongStep.cont p st =>
    (strchrnul_eq arg = [] → p.opt = none) ∧
      (∀ i o, st.abbrev_option = some (i, o) → takes_pending o) ∧ long_flags st.abbrev_flags
  | LongStep.leave a => pend_action a

/-- The matcher that `parse_options_step` uses for the form of the token `t`
(dashless, short cluster or long) reports no match (-2) for it, whatever the
context, and `t` is not the terminator `--`. -/
def no_match (env : Env) (tbl : List Opt) (t : Str) : Prop :=
  t ≠ ['-', '-'] ∧ ∀ c : Ctx,
    if t.head? ≠ some '-' ∨ t.length < 2 then (parse_nodash_opt env c t tbl).1 = Rc.code (-2)
    else if t.tail.head? ≠ some '-' then
      (parse_short_opt env { c with opt := some t.tail } tbl).1 = Rc.code (-2)
    else (parse_long_opt env c (t.drop 2) tbl).1 = Rc.code (-2)

/-- A no-match result of `parse_long_opt` comes with the argument array and
the cursors `g` it started with. -/
def unmatched_action (g : List (Option Str) × Nat × Nat × Nat × ParseFlags) :
    LongAction → Prop
  | LongAction.ret r => r.1 = Rc.code (-2) → geom r.2 = g
  | LongAction.dispatch _ _ o _ => o.type ≠ OPTION_LOWLEVEL_CALLBACK

/-- The loop body of `parse_long_opt` leaves the argument array and the
cursors `g` alone as long as it continues. -/
def unmatched_step (g : List (Option Str) × Nat × Nat × Nat × ParseFlags) : LongStep → Prop
  | LongStep.cont p st =>
    geom p = g ∧ ∀ i o, st.abbrev_option = some (i, o) → o.type ≠ OPTION_LOWLEVEL_CALLBACK
  | LongStep.leave a => unmatched_action g a

/-- The body of the loop of `parse_options_step` passes the current token of
`c` on unchanged: it returns with the array and cursors of `c`, or it
forwards the token and continues. -/
def passes_token (c : Ctx) : TokStep → Prop
  | TokStep.ret _ d => geom d = geom c
  | TokStep.next d =>
    geom d = (c.buf.set c.cpidx (c.buf.getD c.argv none), c.argv, c.argc, c.cpidx + 1, c.flags)
  | TokStep.brk _ => False
/-- The unread tokens of the context match nothing, and the output region
followed by them is the sequence `V`. -/
def unmatched_left (env : Env) (tbl : List Opt) (V : List (Option Str)) (c : Ctx) : Prop :=
  ∃ rest : List Str, c.buf.drop c.argv = rest.map some ++ [none] ∧ c.argc = rest.length ∧
    c.cpidx ≤ c.argv ∧ (∀ t ∈ rest, no_match env tbl t) ∧
    c.buf.take c.cpidx ++ rest.map some = V

/-- The kinds that take a value and may carry the optional-argument flag. -/
def takes_value (t : OptType) : Prop :=
  t = OPTION_STRING ∨ t = OPTION_FILENAME ∨ t = OPTION_INTEGER ∨ t = OPTION_MAGNITUDE ∨
    t = OPTION_CALLBACK
/-- A String option `--color` with an optional argument, default `auto`. -/
def colorOptarg : Opt :=
  { type := OPTION_STRING, long_name := some "color".toList, value := 0,
    flags := { optarg := true }, defstr := some "auto".toList }

/-- A Filename option `--file` with an optional argument, default `out.txt`. -/
def fileOptarg : Opt :=
  { type := OPTION_FILENAME, long_name := some "file".toList, value := 1,
    flags := { optarg := true }, defstr := some "out.txt".toList }

/-- A Callback option `--hook` with an optional argument. -/
def hookOptarg : Opt :=
  { type := OPTION_CALLBACK, long_name := some "hook".toList, value := 2,
    flags := { optarg := true } }

/-- An Integer option `--wide` with an optional argument, whose default does
not fit an `int`. -/
def wideOptarg : Opt :=
  { type := OPTION_INTEGER, long_name := some "wide".toList, value := 3,
    flags := { optarg := true }, defval := 4294967301 }

/-- The table of the four options with an optional argument. -/
def optargTable : List Opt :=
  [colorOptarg, fileOptarg, hookOptarg, wideOptarg, { type := OPTION_END }]

/-- An environment whose option callbacks reject every call. -/
def rejectEnv : Env :=
  { callback := fun _ _ _ s => (1, s)
    ll_callback := fun _ _ p => (0, p)
    git_parse_ulong := fun _ => none
    is_absolute_path := fun _ => false
    prefix_filename := fun a b => a ++ b }

/-- From `c` to `p` the argument array, the output cursor and the flags were
left alone; the read cursor moved forward, if at all, within the unread
tokens, of which one is left when one was. -/
def keeps_out (c p : Ctx) : Prop :=
  p.buf = c.buf ∧ p.cpidx = c.cpidx ∧ p.flags = c.flags ∧ c.argv ≤ p.argv ∧
    p.argv + p.argc = c.argv + c.argc ∧ (1 ≤ c.argc → 1 ≤ p.argc)

/-- The low-level callback of the descriptor `o`, if it is one, leaves the
argument array and the output cursor alone. -/
def ll_out (env : Env) (o : Opt) : Prop :=
  o.type = OPTION_LOWLEVEL_CALLBACK →
    ∀ (u : Bool) (p : Ctx), keeps_out p (env.ll_callback o u p).2

/-- The low-level callbacks of the table leave the argument array and the
output cursor alone. -/
def ll_keeps_out (env : Env) (tbl : List Opt) : Prop := ∀ o ∈ table tbl, ll_out env o

/-- The context is inside a round of the loop of `parse_options_step`: a
current token exists inside the array and the output cursor is not beyond the
read cursor. -/
def in_round (c : Ctx) : Prop :=
  c.cpidx ≤ c.argv ∧ c.argv + c.argc < c.buf.length ∧ 1 ≤ c.argc

/-- The current token `argv[0]` of `e`, a context of the round that started
with `c`, is the array entry that `c` had at that index, or the rest of a
short-option cluster rewritten with a leading dash. -/
def current_from (c e : Ctx) : Prop :=
  e.buf.getD e.argv none = c.buf.getD e.argv none ∨
    ∃ o : Str, e.buf.getD e.argv none = some ('-' :: o)

/-- The context `e`, reached in the round that started with `c`, right before
the statements at a forwarding site: the output region is that of `c`, the
read cursor is inside the array, not before that of `c` and not before the
output cursor, and the current token comes from `c`. -/
def may_forward (c e : Ctx) : Prop :=
  e.cpidx = c.cpidx ∧ e.buf.take c.cpidx = c.buf.take c.cpidx ∧ c.cpidx ≤ e.argv ∧
    e.argv < e.buf.length ∧ c.argv ≤ e.argv ∧ current_from c e

/-- The round that started with `c` and ended in `continue` with `d` forwarded
a token: the output cursor moved on by one, the output region of `c` is
untouched, the entry written is the current token `argv[0]`, the read cursor
did not move back, and the current token comes from `c`. -/
def forwards (c d : Ctx) : Prop :=
  d.cpidx = c.cpidx + 1 ∧ d.buf.take c.cpidx = c.buf.take c.cpidx ∧
    d.buf.getD c.cpidx none = d.buf.getD d.argv none ∧ c.argv ≤ d.argv ∧ current_from c d

/-- What a round of the loop of `parse_options_step` that started with `c`
does to the output region: ending in `continue` it left array and output
cursor alone or forwarded one token; ending in `return` or `break` it left the
output region and the output cursor alone.  The read cursor never moves
back. -/
def out_step (c : Ctx) : TokStep → Prop
  | TokStep.next d => (d.cpidx = c.cpidx ∧ d.buf = c.buf ∧ c.argv ≤ d.argv) ∨ forwards c d
  | TokStep.ret _ d =>
    d.cpidx = c.cpidx ∧ d.buf.take c.cpidx = c.buf.take c.cpidx ∧ c.argv ≤ d.argv ∧
      current_from c d
  | TokStep.brk d => d.cpidx = c.cpidx ∧ d.buf = c.buf ∧ c.argv ≤ d.argv

/-- The output side of what `parse_long_opt` does in the end, for the token
`--arg` and the context `c` it was called with: the array and the cursors are
those of `c`, or it returns 0 after writing `--arg` to the output slot. -/
def out_action (env : Env) (c : Ctx) (arg : Str) : LongAction → Prop
  | LongAction.ret r =>
    geom r.2 = geom c ∨
      (r.1 = Rc.code 0 ∧
        geom r.2 = (c.buf.set c.cpidx (some ('-' :: '-' :: arg)), c.argv, c.argc, c.cpidx + 1,
          c.flags))
  | LongAction.dispatch p _ o _ => geom p = geom c ∧ ll_out env o

/-- The output side of the way a loop body of `parse_long_opt` ends. -/
def out_long_step (env : Env) (c : Ctx) (arg : Str) : LongStep → Prop
  | LongStep.cont p st => geom p = geom c ∧ ∀ i o, st.abbrev_option = some (i, o) → ll_out env o
  | LongStep.leave a => out_action env c arg a

/-- The token that the round from `c` to `d` forwarded, if it moved the
output cursor on: the current token `argv[0]` as the round leaves it. -/
def round_forwarded (c d : Ctx) : List (Option Str) :=
  if d.cpidx = c.cpidx + 1 then [d.buf.getD d.argv none] else []

/-- The tokens forwarded by the first `n` rounds of the loop of
`parse_options_step`, in the order of the rounds. -/
def rounds_forwarded (env : Env) (options : List Opt) : Nat → Nat → Ctx → List (Option Str)
  | _, 0, _ => []
  | 0, _ + 1, _ => []
  | fuel + 1, n + 1, ctx =>
    if ctx.argc = 0 then []
    else
      match step_token env options (fuel + 1) ctx with
      | TokStep.next c =>
        round_forwarded ctx c ++
          rounds_forwarded env options fuel n { c with argc := c.argc - 1, argv := c.argv + 1 }
      | _ => []

/-- The tokens forwarded by the loop of `parse_options_step`, in the order of
the rounds. -/
def loop_forwarded (env : Env) (options : List Opt) : Nat → Ctx → List (Option Str)
  | 0, _ => []
  | fuel + 1, ctx =>
    if ctx.argc = 0 then []
    else
      match step_token env options (fuel + 1) ctx with
      | TokStep.next c =>
        round_forwarded ctx c ++
          loop_forwarded env options fuel { c with argc := c.argc - 1, argv := c.argv + 1 }
      | _ => []

/-- The tokens forwarded by a sequence of calls of `parse_options_step`, one
call per entry of `fuels`, in the order of the calls and their rounds. -/
def run_forwarded (env : Env) (options : List Opt) : List Nat → Ctx → List (Option Str)
  | [], _ => []
  | fuel :: rest, ctx =>
    loop_forwarded env options fuel { ctx with opt := none } ++
      run_forwarded env options rest (parse_options_step env options fuel ctx).2

/-- The array entry `x` is a forwarded form of the input entry `t`: `t`
itself, or the rest of a short-option cluster rewritten with a leading dash. -/
def forward_of (t x : Option Str) : Prop := x = t ∨ ∃ o : Str, x = some ('-' :: o)

/-- The output partition between two rounds or two calls of
`parse_options_step`, with the origin of the current token: it is the input
token at that index, or a rewritten rest of it. -/
def origin_inv (orig : List (Option Str)) (flags : ParseFlags) (c : Ctx) : Prop :=
  partition_rest orig flags c ∧ forward_of (orig.getD c.argv none) (c.buf.getD c.argv none)

/-! ## Theorems -/

/-! ### Value extraction: `get_arg` -/

/-- C10: while a token is being processed (`argc ≥ 1`), `get_arg` resolves the
raw value in this order: (a) a pending inline value is returned and cleared,
the tokens untouched; (b) otherwise on the last token with last-arg-default
the descriptor's default is returned and nothing is consumed; (c) otherwise
when a token follows, that whole token is the value and exactly it is
consumed; (d) otherwise the "requires a value" error is raised and the
context is unchanged.  It fails exactly when there is no inline value, no
token follows and the descriptor lacks last-arg-default. -/
theorem get_arg_resolution_order (p : Ctx) (opt : Opt) (flags : Nat) (hcur : 0 < p.argc) :
    (∀ v, p.opt = some v →
        get_arg p opt flags = (Rc.code 0, some v, { p with opt := none })) ∧
    (p.opt = none → p.argc = 1 → opt.flags.lastarg_default = true →
        get_arg p opt flags = (Rc.code 0, opt.defstr, p)) ∧
    (p.opt = none → 1 < p.argc →
        get_arg p opt flags =
          (Rc.code 0, some (argvAt p 1), { p with argc := p.argc - 1, argv := p.argv + 1 })) ∧
    (p.opt = none → p.argc = 1 → opt.flags.lastarg_default = false →
        get_arg p opt flags =
          (Rc.code (-1), none,
            { p with stderr := p.stderr ++ [Msg.requires_value (optname opt flags)] })) ∧
    ((get_arg p opt flags).1 ≠ Rc.code 0 ↔
        p.opt = none ∧ p.argc = 1 ∧ opt.flags.lastarg_default = false) := by
  refine ⟨?_, ?_, ?_, ?_, ?_⟩
  · intro v hv
    simp [get_arg, hv]
  · intro h0 h1 hl
    simp [get_arg, h0, h1, hl]
  · intro h0 h1
    have h2 : ¬ p.argc = 1 := by omega
    simp [get_arg, h0, h1, h2, argvAt, Nat.add_assoc]
  · intro h0 h1 hl
    simp [get_arg, h0, h1, hl, error]
  · cases hopt : p.opt with
    | some v => simp [get_arg, hopt]
    | none =>
      by_cases h1 : p.argc = 1
      · cases hl : opt.flags.lastarg_default <;> simp [get_arg, hopt, h1, hl, error]
      · have h2 : 1 < p.argc := by omega
        simp [get_arg, hopt, h1, h2]

/-- C10 instantiated: with the tokens `--name value` and no inline value,
the value of `--name` is the next token. -/
theorem get_arg_resolution_order_witness :
    0 < (sampleCtx ["prog", "--name", "-value"] {}).argc ∧
    (get_arg (sampleCtx ["prog", "--name", "-value"] {}) { type := OPTION_STRING } 0).2.1
      = some "-value".toList :=
  ⟨by decide, by
    have h := (get_arg_resolution_order (sampleCtx ["prog", "--name", "-value"] {})
      { type := OPTION_STRING } 0 (by decide)).2.2.1 rfl (by decide)
    rw [h]; rfl⟩

/-! ### Mode-select -/

theorem toInt32_of_fits (x : Int) (h1 : -2147483648 ≤ x) (h2 : x < 2147483648) : toInt32 x = x := by
  unfold toInt32
  omega

theorem opt_command_mode_error_from_fails (p : Ctx) (i : Nat) (opt : Opt) (flags : Nat) :
    ∀ (l : List Opt) (k : Nat),
      (opt_command_mode_error_from p i opt flags l k).1 = Rc.code (-1) ∧
      (opt_command_mode_error_from p i opt flags l k).2.slots = p.slots := by
  intro l
  induction l with
  | nil => intro k; simp [opt_command_mode_error_from, error]
  | cons x rest ih =>
    intro k
    rw [opt_command_mode_error_from]
    split_ifs
    · simp [error]
    · exact ih (k + 1)
    · simp [error]

theorem takeWhile_length_ne (p : Char → Bool) (a : Str) :
    (a.takeWhile p).length ≠ a.length ↔ ∃ c ∈ a, p c = false := by
  induction a with
  | nil => simp
  | cons x t ih =>
    by_cases hx : p x = true
    · simp [List.takeWhile_cons, hx, ih]
    · simp only [Bool.not_eq_true] at hx
      simp [List.takeWhile_cons, hx]

theorem check_one_counters (o : Opt) (so : Nat → Nat) :
    (check_one o so).2 =
      if o.short_name ≠ 0 ∧ o.short_name < 0x7F then
        fun c => if c = o.short_name then (so c + 1) % 256 else so c
      else so := by
  unfold check_one check_short
  by_cases h0 : o.short_name = 0
  · simp [h0]
  · by_cases h1 : 0x7F ≤ o.short_name
    · have : ¬ o.short_name < 0x7F := by omega
      simp [h0, h1, this]
    · have : o.short_name < 0x7F := by omega
      simp [h0, h1, this]

theorem check_short_reports (o : Opt) (so : Nat → Nat) :
    (check_short o so).1 ≠ [] ↔
      (o.short_name ≠ 0 ∧ 0x7F ≤ o.short_name) ∨
      (o.short_name ≠ 0 ∧ o.short_name < 0x7F ∧ so o.short_name ≠ 0) := by
  unfold check_short
  by_cases h0 : o.short_name = 0
  · simp [h0]
  · by_cases h1 : 0x7F ≤ o.short_name
    · simp [h0, h1]
    · have : o.short_name < 0x7F := by omega
      simp [h0, h1, this]

theorem check_argh_reports (o : Opt) :
    check_argh o ≠ [] ↔ ∃ a, o.argh = some a ∧ (' ' ∈ a ∨ '_' ∈ a) := by
  unfold check_argh
  cases h : o.argh with
  | none => simp
  | some a =>
    have key : ((a.takeWhile (fun c => decide (c ≠ ' ' ∧ c ≠ '_'))).length ≠ a.length) ↔
        (' ' ∈ a ∨ '_' ∈ a) := by
      rw [takeWhile_length_ne]
      constructor
      · rintro ⟨c, hc, h⟩
        simp only [decide_eq_false_iff_not, not_and_or, not_not, ne_eq] at h
        rcases h with h | h
        · left; rw [← h]; exact hc
        · right; rw [← h]; exact hc
      · rintro (h | h)
        · exact ⟨' ', h, by simp⟩
        · exact ⟨'_', h, by simp⟩
    show (if (a.takeWhile (fun c => decide (c ≠ ' ' ∧ c ≠ '_'))).length ≠ a.length then
      [Msg.optbug o "multi-word argh should use dash to separate words"] else []) ≠ [] ↔ _
    by_cases hk : (a.takeWhile (fun c => decide (c ≠ ' ' ∧ c ≠ '_'))).length ≠ a.length
    · rw [if_pos hk]
      have := key.mp hk
      simp only [ne_eq, List.cons_ne_nil, not_false_eq_true, true_iff]
      exact ⟨a, rfl, this⟩
    · rw [if_neg hk]
      have := mt key.mpr hk
      simp only [ne_eq, not_true_eq_false, false_iff]
      rintro ⟨b, hb, hb2⟩
      cases hb
      exact this hb2

theorem append5_ne_nil {α : Type} (l1 l2 l3 l4 l5 : List α) :
    l1 ++ l2 ++ l3 ++ l4 ++ l5 ≠ [] ↔
      (l1 ≠ [] ∨ l2 ≠ [] ∨ l3 ≠ [] ∨ l4 ≠ [] ∨ l5 ≠ []) := by
  cases l1 <;> cases l2 <;> cases l3 <;> cases l4 <;> cases l5 <;> simp

theorem check_one_reports (o : Opt) (so : Nat → Nat) :
    (check_one o so).1 ≠ [] ↔
      local_bug o ∨ (o.short_name ≠ 0 ∧ o.short_name < 0x7F ∧ so o.short_name ≠ 0) := by
  have h1 : check_lastarg o ≠ [] ↔
      (o.flags.lastarg_default = true ∧ o.flags.optarg = true) := by
    unfold check_lastarg; split_ifs with h <;> simp [h]
  have h3 : check_nodash o ≠ [] ↔ (o.flags.nodash = true ∧ (o.flags.optarg = true ∨
      o.flags.noarg = false ∨ o.flags.noneg = false ∨ o.long_name.isSome = true)) := by
    unfold check_nodash; split_ifs with h
    · simp only [ne_eq, List.cons_ne_nil, not_false_eq_true, true_iff]; simpa using h
    · simp only [ne_eq, not_true_eq_false, false_iff]; simpa using h
  have h4 : check_toggle o ≠ [] ↔
      (scalar_toggle o.type ∧ (o.flags.optarg = true ∨ o.flags.noarg = false)) := by
    unfold check_toggle scalar_toggle; split_ifs with h
    · simp only [ne_eq, List.cons_ne_nil, not_false_eq_true, true_iff]; simpa using h
    · simp only [ne_eq, not_true_eq_false, false_iff]; simpa using h
  have h2 := check_short_reports o so
  have h5 := check_argh_reports o
  have e : (check_one o so).1 = check_lastarg o ++ (check_short o so).1 ++ check_nodash o ++
      check_toggle o ++ check_argh o := rfl
  rw [e, append5_ne_nil, h1, h2, h3, h4, h5]
  unfold local_bug
  constructor
  · rintro (h | (h | h) | h | h | h)
    · exact Or.inl (Or.inl h)
    · exact Or.inl (Or.inr (Or.inl h))
    · exact Or.inr h
    · exact Or.inl (Or.inr (Or.inr (Or.inl h)))
    · exact Or.inl (Or.inr (Or.inr (Or.inr (Or.inl h))))
    · exact Or.inl (Or.inr (Or.inr (Or.inr (Or.inr h))))
  · rintro ((h | h | h | h | h) | h)
    · exact Or.inl h
    · exact Or.inr (Or.inl (Or.inl h))
    · exact Or.inr (Or.inr (Or.inl h))
    · exact Or.inr (Or.inr (Or.inr (Or.inl h)))
    · exact Or.inr (Or.inr (Or.inr (Or.inr h)))
    · exact Or.inr (Or.inl (Or.inr h))

theorem table_cons (x : Opt) (rest : List Opt) (hx : x.type ≠ OPTION_END) :
    table (x :: rest) = x :: table rest := by
  simp [table, List.takeWhile_cons, hx]

theorem table_cons_end (x : Opt) (rest : List Opt) (hx : x.type = OPTION_END) :
    table (x :: rest) = [] := by
  simp [table, List.takeWhile_cons, hx]

/-- The loop of `parse_options_check` reports something exactly when a
descriptor before the end marker has a local defect or a short name already
counted, either in `so` or for an earlier descriptor. -/
theorem parse_options_check_loop_reports :
    ∀ (l : List Opt) (so : Nat → Nat),
      parse_options_check_loop l so ≠ [] ↔
        ∃ pre o post, table l = pre ++ o :: post ∧
          (local_bug o ∨ (o.short_name ≠ 0 ∧ o.short_name < 0x7F ∧
            (so o.short_name ≠ 0 ∨ ∃ e ∈ pre, e.short_name = o.short_name))) := by
  intro l
  induction l with
  | nil =>
    intro so
    simp [parse_options_check_loop, table]
  | cons x rest ih =>
    intro so
    by_cases hx : x.type = OPTION_END
    · rw [parse_options_check_loop, if_pos hx, table_cons_end x rest hx]
      simp
    · rw [parse_options_check_loop, if_neg hx, table_cons x rest hx]
      by_cases hr : (check_one x so).1 ≠ []
      · have hl : (check_one x so).1 ++
            parse_options_check_loop rest (check_one x so).2 ≠ [] := by
          intro h
          exact hr (List.append_eq_nil.mp h).1
        refine iff_of_true hl ⟨[], x, table rest, rfl, ?_⟩
        rcases (check_one_reports x so).mp hr with h | ⟨h1, h2, h3⟩
        · exact Or.inl h
        · exact Or.inr ⟨h1, h2, Or.inl h3⟩
      · have hr' : (check_one x so).1 = [] := not_not.mp hr
        have hnb : ¬ (local_bug x ∨ (x.short_name ≠ 0 ∧ x.short_name < 0x7F ∧
            so x.short_name ≠ 0)) := fun h => hr ((check_one_reports x so).mpr h)
        rw [hr', List.nil_append, ih, check_one_counters]
        constructor
        · rintro ⟨pre, o, post, ht, hb⟩
          refine ⟨x :: pre, o, post, by rw [ht]; rfl, ?_⟩
          rcases hb with hb | ⟨h1, h2, h3⟩
          · exact Or.inl hb
          · refine Or.inr ⟨h1, h2, ?_⟩
            rcases h3 with h3 | ⟨e, he, hee⟩
            · by_cases hv : x.short_name ≠ 0 ∧ x.short_name < 0x7F
              · rw [if_pos hv] at h3
                by_cases hc : o.short_name = x.short_name
                · exact Or.inr ⟨x, List.mem_cons_self _ _, hc.symm⟩
                · simp only [hc, if_false] at h3
                  exact Or.inl h3
              · rw [if_neg hv] at h3
                exact Or.inl h3
            · exact Or.inr ⟨e, List.mem_cons_of_mem _ he, hee⟩
        · rintro ⟨pre, o, post, ht, hb⟩
          cases pre with
          | nil =>
            simp only [List.nil_append, List.cons.injEq] at ht
            obtain ⟨rfl, _⟩ := ht
            exfalso
            apply hnb
            rcases hb with hb | ⟨h1, h2, h3⟩
            · exact Or.inl hb
            · rcases h3 with h3 | ⟨e, he, _⟩
              · exact Or.inr ⟨h1, h2, h3⟩
              · simp at he
          | cons y pre' =>
            simp only [List.cons_append, List.cons.injEq] at ht
            obtain ⟨rfl, ht⟩ := ht
            refine ⟨pre', o, post, ht, ?_⟩
            rcases hb with hb | ⟨h1, h2, h3⟩
            · exact Or.inl hb
            · refine Or.inr ⟨h1, h2, ?_⟩
              have hso : ∀ c, c ≠ 0 → c < 0x7F → c = x.short_name → so c = 0 := by
                intro c hc0 hc1 hc
                by_contra hne
                exact hnb (Or.inr ⟨hc ▸ hc0, hc ▸ hc1, hc ▸ hne⟩)
              rcases h3 with h3 | ⟨e, he, hee⟩
              · left
                by_cases hv : x.short_name ≠ 0 ∧ x.short_name < 0x7F
                · rw [if_pos hv]
                  by_cases hc : o.short_name = x.short_name
                  · exact absurd (hso _ h1 h2 hc) h3
                  · simp only [hc, if_false]
                    exact h3
                · rw [if_neg hv]
                  exact h3
              · rcases List.mem_cons.mp he with rfl | he
                · left
                  have hv : e.short_name ≠ 0 ∧ e.short_name < 0x7F := by
                    rw [hee]; exact ⟨h1, h2⟩
                  rw [if_pos hv]
                  simp only [hee, if_true]
                  rw [hso _ h1 h2 hee.symm]
                  decide
                · exact Or.inr ⟨e, he, hee⟩

/-- C9: `parse_options_check` aborts exactly when some descriptor before
the end marker declares both last-arg-default and optional-argument; or has a
short name that is 0x7F or larger, or that repeats the short name of an
earlier descriptor; or is dashless-allowed and requests optional-argument,
lacks no-argument, lacks no-negation or has a long name; or is of a
scalar-toggle kind and requests optional-argument or omits no-argument; or
has a space or an underscore in its argument placeholder. -/
theorem parse_options_check_rejects_iff (opts : List Opt) :
    parse_options_check opts = true ↔
      ∃ pre o post, table opts = pre ++ o :: post ∧ code_rejects_at pre o := by
  unfold parse_options_check code_rejects_at
  rw [decide_eq_true_iff, parse_options_check_loop_reports]
  simp

/-- C9, the claim as worded fails: a descriptor whose short name is the
control character BEL (0x07, outside the printable range) is accepted. -/
theorem parse_options_check_accepts_control_short_name :
    parse_options_check bellTable = false ∧
    (∃ pre o post, table bellTable = pre ++ o :: post ∧ spec_rejects_at pre o) := by
  refine ⟨by decide, [], { type := OPTION_STRING, short_name := 7, value := 0 }, [], by decide, ?_⟩
  right; left
  decide

/-! ### Strings -/

theorem skip_prefix_eq_some (s pre r : Str) : skip_prefix s pre = some r ↔ s = pre ++ r := by
  unfold skip_prefix
  by_cases h : pre.isPrefixOf s = true
  · rw [if_pos h]
    obtain ⟨u, rfl⟩ := List.isPrefixOf_iff_prefix.mp h
    simp
  · rw [if_neg h]
    simp only [reduceCtorEq, false_iff]
    rintro rfl
    exact h (List.isPrefixOf_iff_prefix.mpr (List.prefix_append _ _))

theorem skip_prefix_eq_none (s pre : Str) : skip_prefix s pre = none ↔ ¬ pre <+: s := by
  unfold skip_prefix
  by_cases h : pre.isPrefixOf s = true
  · rw [if_pos h]
    have := List.isPrefixOf_iff_prefix.mp h
    simp only [reduceCtorEq, false_iff, not_not]
    exact this
  · rw [if_neg h]; simp only [true_iff]
    intro h2; exact h (List.isPrefixOf_iff_prefix.mpr h2)

theorem starts_with_iff (s pre : Str) : starts_with s pre = true ↔ pre <+: s := by
  unfold starts_with; exact List.isPrefixOf_iff_prefix

theorem dropWhile_append_stop (q : Char → Bool) (t v : Str) (x : Char)
    (ht : ∀ c ∈ t, q c = true) (hx : q x = false) :
    (t ++ x :: v).dropWhile q = x :: v := by
  induction t with
  | nil => simp [List.dropWhile_cons, hx]
  | cons y t ih =>
    have hy : q y = true := ht y (List.mem_cons_self _ _)
    simp only [List.cons_append, List.dropWhile_cons, hy, if_true]
    exact ih (fun c hc => ht c (List.mem_cons_of_mem _ hc))

theorem takeWhile_append_stop (q : Char → Bool) (t v : Str) (x : Char)
    (ht : ∀ c ∈ t, q c = true) (hx : q x = false) :
    (t ++ x :: v).takeWhile q = t := by
  induction t with
  | nil => simp [List.takeWhile_cons, hx]
  | cons y t ih =>
    have hy : q y = true := ht y (List.mem_cons_self _ _)
    simp only [List.cons_append, List.takeWhile_cons, hy, if_true]
    rw [ih (fun c hc => ht c (List.mem_cons_of_mem _ hc))]

theorem not_eq_sign_of_mem (t : Str) (h : '=' ∉ t) :
    ∀ c ∈ t, (fun c => decide (c ≠ '=')) c = true := by
  intro c hc
  simp only [ne_eq, decide_not, Bool.not_eq_eq_eq_not, Bool.not_true, decide_eq_false_iff_not]
  rintro rfl; exact h hc

theorem strchrnul_eq_of_no_eq (t : Str) (h : '=' ∉ t) : strchrnul_eq t = [] := by
  unfold strchrnul_eq
  rw [List.dropWhile_eq_nil_iff]
  exact not_eq_sign_of_mem t h

theorem strchrnul_eq_append (t v : Str) (h : '=' ∉ t) :
    strchrnul_eq (t ++ '=' :: v) = '=' :: v := by
  unfold strchrnul_eq
  exact dropWhile_append_stop _ t v '=' (not_eq_sign_of_mem t h) (by decide)

theorem arg_end_offset_of_no_eq (t : Str) (h : '=' ∉ t) : arg_end_offset t = t.length := by
  unfold arg_end_offset
  congr 1
  rw [List.takeWhile_eq_self_iff]
  exact not_eq_sign_of_mem t h

theorem arg_end_offset_append (t v : Str) (h : '=' ∉ t) :
    arg_end_offset (t ++ '=' :: v) = t.length := by
  unfold arg_end_offset
  rw [takeWhile_append_stop _ t v '=' (not_eq_sign_of_mem t h) (by decide)]

theorem take_eq_iff_prefix (l t : Str) : l.take t.length = t ↔ t <+: l := by
  constructor
  · intro h; rw [← h]; exact List.take_prefix _ _
  · rintro ⟨u, rfl⟩; simp

theorem strncmp_eq_iff (l t : Str) (h : '=' ∉ t) :
    strncmp_eq l t (arg_end_offset t) = true ↔ t <+: l := by
  unfold strncmp_eq
  rw [arg_end_offset_of_no_eq t h, List.take_length, beq_iff_eq, take_eq_iff_prefix]

theorem strncmp_eq_iff_append (l t v : Str) (h : '=' ∉ t) :
    strncmp_eq l (t ++ '=' :: v) (arg_end_offset (t ++ '=' :: v)) = true ↔ t <+: l := by
  unfold strncmp_eq
  rw [arg_end_offset_append t v h, List.take_left', beq_iff_eq, take_eq_iff_prefix]
  rfl

/-! ### The long-option matcher, one descriptor -/

theorem is_abbreviated_of_no_eq (p : Ctx) (st : Abbrev) (t : Str) (i : Nat) (o : Opt)
    (flags opt_flags : Nat) (ht : '=' ∉ t) :
    is_abbreviated p st t i o flags opt_flags =
      LongStep.cont p (push_abbrev st i o (some (flags ^^^ opt_flags))) := by
  unfold is_abbreviated push_abbrev
  rw [strchrnul_eq_of_no_eq t ht]
  cases h : st.abbrev_option <;> simp

theorem strips_to_start_length (t : Str) :
    ∀ (n : Nat) (m : Str), m.length ≤ n → strips_to_start t m = true → t.length + 3 ≤ m.length := by
  intro n
  induction n with
  | zero =>
    intro m hm h
    have : m = [] := List.length_eq_zero.mp (by omega)
    subst this
    simp [strips_to_start] at h
  | succ n ih =>
    intro m hm h
    unfold strips_to_start at h
    split at h
    · rename_i tl
      simp only [Bool.or_eq_true] at h
      rcases h with h | h
      · have := (List.isPrefixOf_iff_prefix.mp h).length_le
        simp only [List.length_cons]; omega
      · have := ih tl (by simp only [List.length_cons] at hm; omega) h
        simp only [List.length_cons]; omega
    · simp at h

theorem prefix_NO_cases (t : Str) (h1 : ¬ t <+: NO) (h2 : ¬ NO <+: t) (l : Str) :
    ¬ t <+: NO ++ l := by
  intro h
  rcases List.prefix_or_prefix_of_prefix h (List.prefix_append NO l) with h3 | h3
  · exact h1 h3
  · exact h2 h3

theorem no_eq_head_of_append (t m : Str) (c : Char) (r : Str) (ht : '=' ∉ t)
    (h : t = m ++ c :: r) : c ≠ '=' := by
  rintro rfl
  apply ht
  rw [h]
  simp

theorem NO_prefix_iff (l : Str) : NO <+: l ↔ ∃ tl, l = 'n' :: 'o' :: '-' :: tl := by
  constructor
  · rintro ⟨tl, rfl⟩; exact ⟨tl, rfl⟩
  · rintro ⟨tl, rfl⟩; exact ⟨tl, rfl⟩

theorem long_opt_again_strip (arg : Str) (p : Ctx) (st : Abbrev) (i : Nat) (o : Opt)
    (tl : Str) (f : Nat) :
    long_opt_again arg p st i o (NO ++ tl) f =
      long_opt_pass arg p st i o (NO ++ tl) f
        (long_opt_again arg p st i o tl (f ||| OPT_UNSET)) := by
  show long_opt_again arg p st i o ('n' :: 'o' :: '-' :: tl) f = _
  rw [long_opt_again]
  rfl

theorem long_opt_again_plain (arg : Str) (p : Ctx) (st : Abbrev) (i : Nat) (o : Opt)
    (l : Str) (f : Nat) (h : ¬ NO <+: l) :
    long_opt_again arg p st i o l f =
      long_opt_pass arg p st i o l f (LongStep.cont p st) := by
  rw [long_opt_again]
  intro tl htl
  exact h ((NO_prefix_iff l).mpr ⟨tl, htl⟩)

theorem strips_to_strip (t tl : Str) : strips_to t (NO ++ tl) = (tl == t || strips_to t tl) := by
  show strips_to t ('n' :: 'o' :: '-' :: tl) = _
  rw [strips_to]

theorem strips_to_plain (t l : Str) (h : ¬ NO <+: l) : strips_to t l = false := by
  rw [strips_to]
  intro tl htl
  exact h ((NO_prefix_iff l).mpr ⟨tl, htl⟩)

theorem strips_to_start_strip (t tl : Str) :
    strips_to_start t (NO ++ tl) = (t.isPrefixOf tl || strips_to_start t tl) := by
  show strips_to_start t ('n' :: 'o' :: '-' :: tl) = _
  rw [strips_to_start]

theorem strips_to_start_plain (t l : Str) (h : ¬ NO <+: l) : strips_to_start t l = false := by
  rw [strips_to_start]
  intro tl htl
  exact h ((NO_prefix_iff l).mpr ⟨tl, htl⟩)

theorem long_opt_finish_of_no_eq (t m rest : Str) (p : Ctx) (st : Abbrev) (i : Nat) (o : Opt)
    (fl f : Nat) (ht : '=' ∉ t) (h : t = m ++ rest) :
    long_opt_finish p st i o rest fl f =
      if m = t then LongStep.leave (LongAction.dispatch p i o (fl ^^^ f))
      else LongStep.cont p st := by
  cases rest with
  | nil =>
    have : m = t := by simpa using h.symm
    simp [long_opt_finish, this]
  | cons c r =>
    have hc : c ≠ '=' := no_eq_head_of_append t m c r ht h
    have hne : m ≠ t := by
      intro e
      have := congrArg List.length h
      rw [e] at this
      simp at this
    simp [long_opt_finish, hc, hne]

/-- The decision tree of one pass of the loop body of `parse_long_opt` for a
token `t` without `=` and a descriptor that is not an ArgumentMarker, with
current name `m` and `opt_flags = f`. -/
theorem long_opt_pass_tree (t : Str) (p : Ctx) (st : Abbrev) (i : Nat) (o : Opt)
    (ht : '=' ∉ t) (harg : o.type ≠ OPTION_ARGUMENT) (m : Str) (f : Nat) (again : LongStep) :
    long_opt_pass t p st i o m f again =
      if m = t then LongStep.leave (LongAction.dispatch p i o (0 ^^^ f))
      else if m <+: t then LongStep.cont p st
      else if t <+: m then LongStep.cont p (push_abbrev st i o (some (0 ^^^ f)))
      else if o.flags.noneg = true then LongStep.cont p st
      else if t <+: NO then LongStep.cont p (push_abbrev st i o (some (OPT_UNSET ^^^ f)))
      else if ¬ NO <+: t then (if NO <+: m then again else LongStep.cont p st)
      else if m = t.drop 3 then LongStep.leave (LongAction.dispatch p i o (OPT_UNSET ^^^ f))
      else if m <+: t.drop 3 then LongStep.cont p st
      else if t.drop 3 <+: m then LongStep.cont p (push_abbrev st i o (some (OPT_UNSET ^^^ f)))
      else LongStep.cont p st := by
  unfold long_opt_pass
  rw [if_neg harg]
  cases hsk : skip_prefix t m with
  | some rest =>
    have happ := (skip_prefix_eq_some t m rest).mp hsk
    simp only
    rw [long_opt_finish_of_no_eq t m rest p st i o 0 f ht happ]
    by_cases e : m = t
    · rw [if_pos e, if_pos e]
    · rw [if_neg e, if_neg e, if_pos ⟨rest, happ.symm⟩]
  | none =>
    have hmt : ¬ m <+: t := (skip_prefix_eq_none t m).mp hsk
    have hne : m ≠ t := fun e => hmt (e ▸ List.prefix_refl _)
    simp only
    rw [if_neg hne, if_neg hmt]
    by_cases hpre : t <+: m
    · rw [if_pos ((strncmp_eq_iff m t ht).mpr hpre), is_abbreviated_of_no_eq _ _ _ _ _ _ _ ht,
        if_pos hpre]
    · have hcmp : ¬ strncmp_eq m t (arg_end_offset t) = true :=
        fun h => hpre ((strncmp_eq_iff m t ht).mp h)
      rw [if_neg hcmp, if_neg hpre]
      by_cases hng : o.flags.noneg = true
      · rw [if_pos hng, if_pos hng]
      · rw [if_neg hng, if_neg hng]
        by_cases h1 : t <+: NO
        · have hs : starts_with ['n', 'o', '-'] t = true := (starts_with_iff _ _).mpr h1
          rw [if_pos hs, if_pos h1, is_abbreviated_of_no_eq _ _ _ _ _ _ _ ht]
          rfl
        · have hs : ¬ starts_with ['n', 'o', '-'] t = true :=
            fun h => h1 ((starts_with_iff _ _).mp h)
          rw [if_neg hs, if_neg h1]
          by_cases h2 : NO <+: t
          · have hs2 : ¬ ¬ starts_with t ['n', 'o', '-'] = true :=
              not_not.mpr ((starts_with_iff _ _).mpr h2)
            rw [if_neg hs2, if_neg (not_not.mpr h2)]
            cases hsk2 : skip_prefix (t.drop 3) m with
            | some rest2 =>
              have happ2 := (skip_prefix_eq_some _ m rest2).mp hsk2
              have ht3 : '=' ∉ t.drop 3 := fun h => ht (List.mem_of_mem_drop h)
              simp only
              rw [long_opt_finish_of_no_eq (t.drop 3) m rest2 p st i o _ f ht3 happ2]
              by_cases e : m = t.drop 3
              · rw [if_pos e, if_pos e]; rfl
              · rw [if_neg e, if_neg e, if_pos ⟨rest2, happ2.symm⟩]
            | none =>
              have hmt2 : ¬ m <+: t.drop 3 := (skip_prefix_eq_none _ m).mp hsk2
              have hne2 : m ≠ t.drop 3 := fun e => hmt2 (e ▸ List.prefix_refl _)
              simp only
              rw [if_neg hne2, if_neg hmt2]
              by_cases h3 : t.drop 3 <+: m
              · rw [if_pos ((starts_with_iff _ _).mpr h3), if_pos h3,
                  is_abbreviated_of_no_eq _ _ _ _ _ _ _ ht]
                rfl
              · rw [if_neg (fun h => h3 ((starts_with_iff _ _).mp h)), if_neg h3]
          · have hs2 : ¬ starts_with t ['n', 'o', '-'] = true :=
              fun h => h2 ((starts_with_iff _ _).mp h)
            rw [if_pos hs2, if_pos h2]
            by_cases hno : NO <+: m
            · have hs3 : starts_with m ['n', 'o', '-'] = true := (starts_with_iff _ _).mpr hno
              rw [if_pos hs3, if_pos hno]
            · have hs3 : ¬ starts_with m ['n', 'o', '-'] = true :=
                fun h => hno ((starts_with_iff _ _).mp h)
              rw [if_neg hs3, if_neg hno]

/-- One pass of the loop body (`opt_flags` is `f`) for a token `t` without
`=` that neither starts with `no-` nor is a prefix of it, on a negatable
descriptor whose current name `m` differs from `t`: the descriptor is
recorded when `t` is a prefix of `m`, and otherwise the jump to `again` is
taken when `m` starts with `no-`. -/
theorem long_opt_pass_plain_token (t : Str) (p : Ctx) (st : Abbrev) (i : Nat) (o : Opt)
    (ht : '=' ∉ t) (harg : o.type ≠ OPTION_ARGUMENT) (hneg : o.flags.noneg = false)
    (h1 : ¬ t <+: NO) (h2 : ¬ NO <+: t) (m : Str) (hne : m ≠ t) (f : Nat) (again : LongStep) :
    long_opt_pass t p st i o m f again =
      if t <+: m then LongStep.cont p (push_abbrev st i o (some (0 ^^^ f)))
      else if m <+: t then LongStep.cont p st
      else if NO <+: m then again
      else LongStep.cont p st := by
  rw [long_opt_pass_tree t p st i o ht harg m f again, if_neg hne]
  by_cases hmt : m <+: t
  · have : ¬ t <+: m := by
      intro h
      exact hne (List.Sublist.antisymm hmt.sublist h.sublist)
    rw [if_pos hmt, if_neg this, if_pos hmt]
  · rw [if_neg hmt, if_neg hmt]
    by_cases hpre : t <+: m
    · rw [if_pos hpre, if_pos hpre]
    · rw [if_neg hpre, if_neg hpre, if_neg (by simp [hneg]), if_neg h1, if_pos h2]

/-- The passes of the loop body after a leading `no-` of the long name was
removed (`opt_flags` is `OPT_UNSET`), for a token without `=` that neither
starts with `no-` nor is a prefix of it. -/
theorem long_opt_again_stripped (t : Str) (p : Ctx) (st : Abbrev) (i : Nat) (o : Opt)
    (ht : '=' ∉ t) (harg : o.type ≠ OPTION_ARGUMENT) (hneg : o.flags.noneg = false)
    (h1 : ¬ t <+: NO) (h2 : ¬ NO <+: t) :
    ∀ (n : Nat) (m : Str), m.length ≤ n → m ≠ t → strips_to t m = false →
      long_opt_again t p st i o m OPT_UNSET =
        LongStep.cont p (push_abbrev st i o
          (if t.isPrefixOf m || strips_to_start t m then some OPT_UNSET else none)) := by
  have key : ∀ (m : Str), m ≠ t → ¬ NO <+: m →
      long_opt_again t p st i o m OPT_UNSET =
        LongStep.cont p (push_abbrev st i o
          (if t.isPrefixOf m || strips_to_start t m then some OPT_UNSET else none)) := by
    intro m hne hno
    rw [long_opt_again_plain _ _ _ _ _ _ _ hno,
      long_opt_pass_plain_token t p st i o ht harg hneg h1 h2 m hne, strips_to_start_plain t m hno]
    by_cases hpre : t <+: m
    · rw [if_pos hpre]
      simp [List.isPrefixOf_iff_prefix.mpr hpre, OPT_UNSET]
    · have hp : t.isPrefixOf m = false := by
        rw [Bool.eq_false_iff]; intro h; exact hpre (List.isPrefixOf_iff_prefix.mp h)
      rw [if_neg hpre, hp]
      simp [hno, push_abbrev]
  intro n
  induction n with
  | zero =>
    intro m hm hne hs
    have : m = [] := List.length_eq_zero.mp (by omega)
    subst this
    exact key [] hne (by decide)
  | succ n ih =>
    intro m hm hne hs
    by_cases hno : NO <+: m
    · obtain ⟨tl, rfl⟩ := hno
      rw [strips_to_strip] at hs
      have hs' : (tl == t) = false ∧ strips_to t tl = false := by simpa using hs
      have hne' : tl ≠ t := by simpa using hs'.1
      have hlen : tl.length ≤ n := by
        simp only [NO, List.length_append, List.length_cons, List.length_nil] at hm; omega
      rw [long_opt_again_strip, long_opt_pass_plain_token t p st i o ht harg hneg h1 h2 _ hne,
        strips_to_start_strip]
      have e : (OPT_UNSET ||| OPT_UNSET) = OPT_UNSET := by decide
      rw [e, ih tl hlen hne' hs'.2]
      by_cases hpre : t <+: NO ++ tl
      · exact absurd hpre (prefix_NO_cases t h1 h2 tl)
      · have hp : t.isPrefixOf (NO ++ tl) = false := by
          rw [Bool.eq_false_iff]; intro h; exact hpre (List.isPrefixOf_iff_prefix.mp h)
        have hmt : ¬ NO ++ tl <+: t := fun h => h2 ((List.prefix_append NO tl).trans h)
        rw [if_neg hpre, if_neg hmt, if_pos (List.prefix_append NO tl), hp]
        simp
    · exact key m hne hno

theorem cand_form_eq (o : Opt) (t l : Str) (hl : o.long_name = some l) :
    cand_form o t =
      if o.type = OPTION_ARGUMENT then none
      else if t <+: l then some 0
      else if o.flags.noneg = true then none
      else if t <+: NO ++ l ∨ (¬ NO <+: t ∧ strips_to_start t l = true) then some OPT_UNSET
      else none := by
  unfold cand_form
  rw [hl]
  simp only [List.isPrefixOf_iff_prefix, Bool.or_eq_true, Bool.and_eq_true, Bool.not_eq_true',
    ← Bool.not_eq_true]

theorem exact_match_eq_false (o : Opt) (t l : Str) (hl : o.long_name = some l)
    (h : exact_match o t = false) :
    l ≠ t ∧ (o.flags.noneg = false → o.type ≠ OPTION_ARGUMENT →
      t ≠ NO ++ l ∧ strips_to t l = false) := by
  unfold exact_match at h
  rw [hl] at h
  simp only [Bool.or_eq_false_iff, beq_eq_false_iff_ne, ne_eq, Bool.and_eq_false_iff,
    Bool.not_eq_false', bne_eq_false_iff_eq] at h
  refine ⟨h.1, fun hn ha => ?_⟩
  rcases h.2 with (h2 | h2) | h2
  · rw [hn] at h2; cases h2
  · exact absurd h2 ha
  · exact h2

theorem long_opt_again_eq_pass (arg : Str) (p : Ctx) (st : Abbrev) (i : Nat) (o : Opt)
    (l : Str) (f : Nat) :
    ∃ again, long_opt_again arg p st i o l f = long_opt_pass arg p st i o l f again := by
  by_cases hno : NO <+: l
  · obtain ⟨tl, rfl⟩ := hno
    exact ⟨_, long_opt_again_strip arg p st i o tl f⟩
  · exact ⟨_, long_opt_again_plain arg p st i o l f hno⟩

theorem long_opt_pass_argument (t : Str) (p : Ctx) (st : Abbrev) (i : Nat) (o : Opt)
    (ht : '=' ∉ t) (harg : o.type = OPTION_ARGUMENT) (m : Str) (f : Nat) (again : LongStep) :
    long_opt_pass t p st i o m f again =
      if m = t then
        LongStep.leave (LongAction.ret (Rc.code 0,
          { p with buf := p.buf.set p.cpidx (some ('-' :: '-' :: t)), cpidx := p.cpidx + 1 }))
      else LongStep.cont p st := by
  unfold long_opt_pass
  rw [if_pos harg]
  cases hsk : skip_prefix t m with
  | none =>
    have hmt : ¬ m <+: t := (skip_prefix_eq_none t m).mp hsk
    have hne : m ≠ t := fun e => hmt (e ▸ List.prefix_refl _)
    simp [hne]
  | some rest =>
    have happ := (skip_prefix_eq_some t m rest).mp hsk
    cases rest with
    | nil =>
      have : m = t := by simpa using happ.symm
      simp [this]
    | cons c r =>
      have hc : c ≠ '=' := no_eq_head_of_append t m c r ht happ
      have hne : m ≠ t := by
        intro e
        have := congrArg List.length happ
        rw [e] at this
        simp at this
      simp [hc, hne]

theorem prefix_antisymm_ne (a b : Str) (h1 : a <+: b) (hne : a ≠ b) : ¬ b <+: a :=
  fun h2 => hne (List.Sublist.antisymm h1.sublist h2.sublist)

theorem isPrefixOf_eq_false (a b : Str) (h : ¬ a <+: b) : a.isPrefixOf b = false := by
  rw [Bool.eq_false_iff]; intro h2; exact h (List.isPrefixOf_iff_prefix.mp h2)

/-- What the loop body of `parse_long_opt` does for a token `t` without `=`
on a descriptor it does not name exactly: it continues, after recording the
descriptor when `t` abbreviates it. -/
theorem long_opt_again_records (t : Str) (p : Ctx) (st : Abbrev) (i : Nat) (o : Opt) (l : Str)
    (ht : '=' ∉ t) (hl : o.long_name = some l) (hex : exact_match o t = false)
    (hslip : prefix_of_own_negation o t = false) :
    long_opt_again t p st i o l 0 = LongStep.cont p (push_abbrev st i o (cand_form o t)) := by
  obtain ⟨hne, hex2⟩ := exact_match_eq_false o t l hl hex
  rw [cand_form_eq o t l hl]
  by_cases harg : o.type = OPTION_ARGUMENT
  · obtain ⟨again, e⟩ := long_opt_again_eq_pass t p st i o l 0
    rw [e, long_opt_pass_argument t p st i o ht harg, if_neg hne, if_pos harg]
    rfl
  · rw [if_neg harg]
    have htree : ∀ again, long_opt_pass t p st i o l 0 again = _ :=
      fun again => long_opt_pass_tree t p st i o ht harg l 0 again
    by_cases hlt : l <+: t
    · -- the long name is a proper prefix of the token
      obtain ⟨again, e⟩ := long_opt_again_eq_pass t p st i o l 0
      have hnp : ¬ t <+: l := prefix_antisymm_ne l t hlt hne
      rw [e, htree, if_neg hne, if_pos hlt, if_neg hnp]
      by_cases hng : o.flags.noneg = true
      · rw [if_pos hng]; rfl
      · rw [if_neg hng]
        have hng' : o.flags.noneg = false := by simpa using hng
        have hsl : ¬ t <+: NO ++ l := by
          intro h
          unfold prefix_of_own_negation at hslip
          rw [hl] at hslip
          simp [hng', harg, List.isPrefixOf_iff_prefix.mpr hlt, hne,
            List.isPrefixOf_iff_prefix.mpr h] at hslip
        have hsp : ¬ strips_to_start t l = true := by
          intro h
          have h1 := strips_to_start_length t _ l (le_refl _) h
          have h2 := hlt.length_le
          omega
        rw [if_neg (by tauto)]
        rfl
    · by_cases hpre : t <+: l
      · obtain ⟨again, e⟩ := long_opt_again_eq_pass t p st i o l 0
        rw [e, htree, if_neg hne, if_neg hlt, if_pos hpre, if_pos hpre]
        rfl
      · by_cases hng : o.flags.noneg = true
        · obtain ⟨again, e⟩ := long_opt_again_eq_pass t p st i o l 0
          rw [e, htree, if_neg hne, if_neg hlt, if_neg hpre, if_neg hpre, if_pos hng, if_pos hng]
          rfl
        · have hng' : o.flags.noneg = false := by simpa using hng
          obtain ⟨hne2, hst⟩ := hex2 hng' harg
          rw [if_neg hpre, if_neg hng]
          by_cases h1 : t <+: NO
          · obtain ⟨again, e⟩ := long_opt_again_eq_pass t p st i o l 0
            rw [e, htree, if_neg hne, if_neg hlt, if_neg hpre, if_neg hng, if_pos h1,
              if_pos (Or.inl (h1.trans (List.prefix_append NO l)))]
            rfl
          · by_cases h2 : NO <+: t
            · obtain ⟨again, e⟩ := long_opt_again_eq_pass t p st i o l 0
              obtain ⟨a, rfl⟩ := h2
              have hd : (NO ++ a).drop 3 = a := rfl
              have hla : l ≠ a := fun e => hne2 (e ▸ rfl)
              have hiff : (NO ++ a <+: NO ++ l) ↔ a <+: l := List.prefix_append_right_inj NO
              rw [e, htree, if_neg hne, if_neg hlt, if_neg hpre, if_neg hng, if_neg h1,
                if_neg (not_not.mpr (List.prefix_append NO a)), hd, if_neg hla]
              by_cases hla2 : l <+: a
              · have : ¬ a <+: l := prefix_antisymm_ne l a hla2 hla
                rw [if_pos hla2, if_neg (by rw [hiff]; tauto)]
                rfl
              · rw [if_neg hla2]
                by_cases hal : a <+: l
                · rw [if_pos hal, if_pos (Or.inl (hiff.mpr hal))]
                  rfl
                · rw [if_neg hal, if_neg (by rw [hiff]; tauto)]
                  rfl
            · have hnl : ¬ t <+: NO ++ l := prefix_NO_cases t h1 h2 l
              by_cases hno : NO <+: l
              · obtain ⟨tl, rfl⟩ := hno
                rw [strips_to_strip] at hst
                have hs' : (tl == t) = false ∧ strips_to t tl = false := by simpa using hst
                have hne' : tl ≠ t := by simpa using hs'.1
                have e0 : (0 ||| OPT_UNSET) = OPT_UNSET := by decide
                rw [long_opt_again_strip, htree, if_neg hne, if_neg hlt, if_neg hpre, if_neg hng,
                  if_neg h1, if_pos h2, if_pos (List.prefix_append NO tl), e0,
                  long_opt_again_stripped t p st i o ht harg hng' h1 h2 _ tl (le_refl _) hne' hs'.2,
                  strips_to_start_strip]
                by_cases hc : (t.isPrefixOf tl || strips_to_start t tl) = true
                · rw [if_pos hc, if_pos (Or.inr ⟨h2, hc⟩)]
                · rw [if_neg hc, if_neg (by tauto)]
              · rw [long_opt_again_plain _ _ _ _ _ _ _ hno, htree, if_neg hne, if_neg hlt,
                  if_neg hpre, if_neg hng, if_neg h1, if_pos h2, if_neg hno,
                  strips_to_start_plain t l hno]
                simp [hnl, push_abbrev]

/-! ### The long-option matcher, whole table -/

/-- The loop of `parse_long_opt` on a token without `=` that names no
descriptor exactly: it runs to the end of the table and records the
abbreviation candidates. -/
theorem parse_long_opt_from_no_exact (t : Str) (ht : '=' ∉ t) :
    ∀ (l : List Opt) (i : Nat) (p : Ctx) (st : Abbrev),
      (∀ o ∈ table l, exact_match o t = false ∧ prefix_of_own_negation o t = false) →
      parse_long_opt_from t l i p st =
        parse_long_opt_end t p (record_all st (candidates_from t l i)) := by
  intro l
  induction l with
  | nil => intro i p st _; rfl
  | cons o rest ih =>
    intro i p st h
    by_cases hend : o.type = OPTION_END
    · simp [parse_long_opt_from, candidates_from, hend, record_all]
    · rw [table_cons o rest hend] at h
      have ho := h o (List.mem_cons_self _ _)
      have hrest : ∀ o' ∈ table rest,
          exact_match o' t = false ∧ prefix_of_own_negation o' t = false :=
        fun o' ho' => h o' (List.mem_cons_of_mem _ ho')
      rw [parse_long_opt_from, if_neg hend, candidates_from, if_neg hend]
      cases hl : o.long_name with
      | none =>
        have hc : cand_form o t = none := by simp [cand_form, hl]
        simp only [hc]
        exact ih (i + 1) p st hrest
      | some l =>
        simp only
        rw [long_opt_again_records t p st i o l ht hl ho.1 ho.2]
        simp only
        rw [ih (i + 1) p _ hrest]
        cases hc : cand_form o t with
        | none => rfl
        | some f => rfl

theorem record_all_append (st : Abbrev) (cs ds : List Cand) :
    record_all st (cs ++ ds) = record_all (record_all st cs) ds := by
  simp [record_all, List.foldl_append]

theorem record_all_last_two (st : Abbrev) (cs : List Cand) (c1 c2 : Cand) :
    record_all st (cs ++ [c1, c2]) =
      { abbrev_option := some (c2.idx, c2.opt), abbrev_flags := c2.flags,
        ambiguous_option := some (c1.idx, c1.opt), ambiguous_flags := c1.flags } := by
  rw [record_all_append]
  generalize record_all st cs = s
  simp only [record_all, List.foldl_cons, List.foldl_nil, push_abbrev]
  cases s.abbrev_option <;> rfl

theorem record_all_single (c : Cand) :
    record_all {} [c] =
      { abbrev_option := some (c.idx, c.opt), abbrev_flags := c.flags,
        ambiguous_option := none, ambiguous_flags := 0 } := by
  rfl

theorem table_getElem (l : List Opt) (k : Nat) (o : Opt) (h : (table l)[k]? = some o) :
    l[k]? = some o := by
  have hp : table l <+: l := List.takeWhile_prefix _
  obtain ⟨u, hu⟩ := hp
  have hk : k < (table l).length := by
    by_contra hc
    rw [List.getElem?_eq_none (by omega)] at h
    cases h
  rw [← hu, List.getElem?_append_left hk]
  exact h

theorem candidates_from_mem (t : Str) :
    ∀ (l : List Opt) (i : Nat) (c : Cand), c ∈ candidates_from t l i →
      ∃ k, c.idx = i + k ∧ (table l)[k]? = some c.opt ∧ cand_form c.opt t = some c.flags := by
  intro l
  induction l with
  | nil => intro i c h; simp [candidates_from] at h
  | cons o rest ih =>
    intro i c h
    by_cases hend : o.type = OPTION_END
    · simp [candidates_from, hend] at h
    · rw [candidates_from, if_neg hend] at h
      rw [table_cons o rest hend]
      have hrec : c ∈ candidates_from t rest (i + 1) →
          ∃ k, c.idx = i + k ∧ (o :: table rest)[k]? = some c.opt ∧
            cand_form c.opt t = some c.flags := by
        intro hc
        obtain ⟨k, h1, h2, h3⟩ := ih (i + 1) c hc
        exact ⟨k + 1, by omega, by simpa using h2, h3⟩
      cases hc : cand_form o t with
      | none =>
        rw [hc] at h
        exact hrec h
      | some f =>
        rw [hc] at h
        rcases List.mem_cons.mp h with rfl | h
        · exact ⟨0, rfl, by simp, hc⟩
        · exact hrec h

theorem candidates_from_idx_ge (t : Str) (l : List Opt) (i : Nat) (c : Cand)
    (h : c ∈ candidates_from t l i) : i ≤ c.idx := by
  obtain ⟨k, hk, _⟩ := candidates_from_mem t l i c h
  omega

theorem candidates_from_sorted (t : Str) :
    ∀ (l : List Opt) (i : Nat),
      (candidates_from t l i).Pairwise (fun a b => a.idx < b.idx) := by
  intro l
  induction l with
  | nil => intro i; simp [candidates_from]
  | cons o rest ih =>
    intro i
    by_cases hend : o.type = OPTION_END
    · simp [candidates_from, hend]
    · rw [candidates_from, if_neg hend]
      cases hc : cand_form o t with
      | none => exact ih (i + 1)
      | some f =>
        simp only
        rw [List.pairwise_cons]
        refine ⟨fun c hc' => ?_, ih (i + 1)⟩
        have := candidates_from_idx_ge t rest (i + 1) c hc'
        show i < c.idx
        omega

theorem candidates_from_of_cand (t : Str) :
    ∀ (l : List Opt) (i k : Nat) (o : Opt) (f : Nat), (table l)[k]? = some o →
      cand_form o t = some f →
      ({ idx := i + k, opt := o, flags := f } : Cand) ∈ candidates_from t l i := by
  intro l
  induction l with
  | nil => intro i k o f h; simp [table] at h
  | cons x rest ih =>
    intro i k o f h hc
    by_cases hend : x.type = OPTION_END
    · rw [table_cons_end x rest hend] at h; simp at h
    · rw [table_cons x rest hend] at h
      rw [candidates_from, if_neg hend]
      cases k with
      | zero =>
        simp at h
        subst h
        rw [hc]
        exact List.mem_cons_self _ _
      | succ k =>
        have h' : (table rest)[k]? = some o := by simpa using h
        have := ih (i + 1) k o f h' hc
        rw [show i + 1 + k = i + (k + 1) by omega] at this
        cases hx : cand_form x t with
        | none => exact this
        | some g => exact List.mem_cons_of_mem _ this

theorem last_two_of_two_mem {α : Type} (l : List α) (a b : α) (ha : a ∈ l) (hb : b ∈ l)
    (hab : a ≠ b) : ∃ cs c1 c2, l = cs ++ [c1, c2] := by
  have hlen : 2 ≤ l.length := by
    match l, ha, hb with
    | [], ha, _ => simp at ha
    | [x], ha, hb =>
      simp at ha hb
      exact absurd (ha.trans hb.symm) hab
    | _ :: _ :: _, _, _ => simp
  refine ⟨l.take (l.length - 2), (l.drop (l.length - 2)).head?.getD a,
    (l.drop (l.length - 1)).head?.getD a, ?_⟩
  have h1 : l.length - 2 < l.length := by omega
  have h2 : l.length - 1 < l.length := by omega
  conv_lhs => rw [← List.take_append_drop (l.length - 2) l]
  congr 1
  rw [List.drop_eq_getElem_cons h1, List.drop_eq_getElem_cons h2]
  have e : l.length - 2 + 1 = l.length - 1 := by omega
  simp only [List.head?_cons, Option.getD_some, e]
  rw [List.drop_eq_getElem_cons h2]
  have e2 : l.length - 1 + 1 = l.length := by omega
  simp [e2]

/-- C2 (amended): for a token `--P` without `=` that names no descriptor
exactly (also not through one or more leading `no-` of a negatable long
name), when `P` is a prefix of the long names of two distinct descriptors that
are not ArgumentMarkers, `parse_long_opt` returns the ambiguity result -3
without calling value extraction: the context is unchanged but for the
message, which names the last two abbreviation candidates in table order, two
distinct descriptors of the table. -/
theorem ambiguous_abbreviation (env : Env) (p : Ctx) (tbl : List Opt) (P : Str)
    (hP : '=' ∉ P)
    (hex : ∀ o ∈ table tbl, exact_match o P = false)
    (hown : ∀ o ∈ table tbl, prefix_of_own_negation o P = false)
    (i j : Nat) (oi oj : Opt) (li lj : Str) (hij : i ≠ j)
    (hi : (table tbl)[i]? = some oi) (hj : (table tbl)[j]? = some oj)
    (hti : oi.type ≠ OPTION_ARGUMENT) (htj : oj.type ≠ OPTION_ARGUMENT)
    (hli : oi.long_name = some li) (hlj : oj.long_name = some lj)
    (hpi : P <+: li) (hpj : P <+: lj) :
    ∃ cs c1 c2, candidates P tbl = cs ++ [c1, c2] ∧ c1.idx < c2.idx ∧
      tbl[c1.idx]? = some c1.opt ∧ tbl[c2.idx]? = some c2.opt ∧
      cand_form c1.opt P = some c1.flags ∧ cand_form c2.opt P = some c2.flags ∧
      parse_long_opt_action p P tbl =
        LongAction.ret (Rc.code (-3),
          { p with stderr := p.stderr ++
              [Msg.ambiguous P (c1.flags &&& OPT_UNSET ≠ 0) c1.opt.long_name
                (c2.flags &&& OPT_UNSET ≠ 0) c2.opt.long_name] }) ∧
      parse_long_opt env p P tbl =
        (Rc.code (-3),
          { p with stderr := p.stderr ++
              [Msg.ambiguous P (c1.flags &&& OPT_UNSET ≠ 0) c1.opt.long_name
                (c2.flags &&& OPT_UNSET ≠ 0) c2.opt.long_name] }) := by
  have hci : cand_form oi P = some 0 := by
    rw [cand_form_eq oi P li hli, if_neg hti, if_pos hpi]
  have hcj : cand_form oj P = some 0 := by
    rw [cand_form_eq oj P lj hlj, if_neg htj, if_pos hpj]
  have hmi := candidates_from_of_cand P tbl 0 i oi 0 hi hci
  have hmj := candidates_from_of_cand P tbl 0 j oj 0 hj hcj
  have hne : ({ idx := 0 + i, opt := oi, flags := 0 } : Cand) ≠
      { idx := 0 + j, opt := oj, flags := 0 } := by
    intro e
    have := congrArg Cand.idx e
    simp at this
    exact hij this
  obtain ⟨cs, c1, c2, hcs⟩ := last_two_of_two_mem _ _ _ hmi hmj hne
  have hsorted := candidates_from_sorted P tbl 0
  rw [hcs, List.pairwise_append] at hsorted
  have hlt : c1.idx < c2.idx := by
    have := hsorted.2.1
    simp at this
    exact this
  have hm1 : c1 ∈ candidates_from P tbl 0 := by rw [hcs]; simp
  have hm2 : c2 ∈ candidates_from P tbl 0 := by rw [hcs]; simp
  obtain ⟨k1, hk1, ht1, hf1⟩ := candidates_from_mem P tbl 0 c1 hm1
  obtain ⟨k2, hk2, ht2, hf2⟩ := candidates_from_mem P tbl 0 c2 hm2
  have hact : parse_long_opt_action p P tbl =
      LongAction.ret (Rc.code (-3),
        { p with stderr := p.stderr ++
            [Msg.ambiguous P (c1.flags &&& OPT_UNSET ≠ 0) c1.opt.long_name
              (c2.flags &&& OPT_UNSET ≠ 0) c2.opt.long_name] }) := by
    unfold parse_long_opt_action
    rw [parse_long_opt_from_no_exact P hP tbl 0 p {} (fun o ho => ⟨hex o ho, hown o ho⟩), hcs,
      record_all_last_two]
    simp [parse_long_opt_end, error]
  refine ⟨cs, c1, c2, hcs, hlt, ?_, ?_, hf1, hf2, hact, ?_⟩
  · rw [hk1, Nat.zero_add]; exact table_getElem tbl k1 _ ht1
  · rw [hk2, Nat.zero_add]; exact table_getElem tbl k2 _ ht2
  · unfold parse_long_opt
    rw [hact]

/-- C2 instantiated: `--foo-` with descriptors `foo-one` and `foo-two` is
ambiguous and both are named. -/
theorem ambiguous_abbreviation_witness :
    parse_long_opt sampleEnv (sampleCtx ["prog", "--foo-"] {}) "foo-".toList fooTable =
      (Rc.code (-3),
        { sampleCtx ["prog", "--foo-"] {} with
          stderr := [Msg.ambiguous "foo-".toList false (some "foo-one".toList)
            false (some "foo-two".toList)] }) := by
  obtain ⟨cs, c1, c2, hcs, _, _, _, _, _, _, h⟩ :=
    ambiguous_abbreviation sampleEnv (sampleCtx ["prog", "--foo-"] {}) fooTable "foo-".toList
      (by decide) (by decide) (by decide) 0 1 _ _ "foo-one".toList "foo-two".toList
      (by decide) rfl rfl (by decide) (by decide) rfl rfl (by decide) (by decide)
  rw [h]
  have e : candidates "foo-".toList fooTable =
      [] ++ [{ idx := 0, opt := fooTable.get ⟨0, by decide⟩, flags := 0 },
             { idx := 1, opt := fooTable.get ⟨1, by decide⟩, flags := 0 }] := by decide
  rw [e] at hcs
  have hl := List.append_inj' hcs rfl
  have h12 : c1 = { idx := 0, opt := fooTable.get ⟨0, by decide⟩, flags := 0 } ∧
      c2 = { idx := 1, opt := fooTable.get ⟨1, by decide⟩, flags := 0 } := by
    have := hl.2
    simp only [List.cons.injEq, and_true] at this
    exact ⟨this.1.symm, this.2.symm⟩
  rw [h12.1, h12.2]
  rfl

/-- C2, the claim as worded fails: with a negatable descriptor named
`no-no-foo-` in the table, no descriptor matches `--foo-` exactly in the
sense of the claim and `foo-` is a strict prefix of `foo-one` and `foo-two`,
yet `--foo-` is not ambiguous: the third descriptor is dispatched in negated
form (here a Bit-flag-clear, so its mask is set in slot 2). -/
theorem ambiguous_abbreviation_fails_double_negation :
    (∀ o ∈ table fooDoubleNegTable, claimed_exact_match o "foo-".toList = false) ∧
    (∀ o ∈ table fooDoubleNegTable, o.type ≠ OPTION_ARGUMENT) ∧
    (parse_long_opt sampleEnv (sampleCtx ["prog", "--foo-"] {}) "foo-".toList
      fooDoubleNegTable).1 = Rc.code 0 ∧
    (parse_long_opt sampleEnv (sampleCtx ["prog", "--foo-"] {}) "foo-".toList
      fooDoubleNegTable).2.stderr = [] ∧
    (parse_long_opt sampleEnv (sampleCtx ["prog", "--foo-"] {}) "foo-".toList
      fooDoubleNegTable).2.slots.ints 2 = 1 := by
  refine ⟨by decide, by decide, by decide, by decide, by decide⟩

/-! ### Negation is never applied to a non-negatable descriptor -/

theorem is_abbreviated_safe (tbl : List Opt) (p : Ctx) (st : Abbrev) (arg : Str) (i : Nat)
    (o : Opt) (fl f : Nat) (ho : tbl[i]? = some o)
    (h : (fl ^^^ f) &&& OPT_UNSET ≠ 0 → o.flags.noneg = false) :
    safe_step tbl (is_abbreviated p st arg i o fl f) := by
  unfold is_abbreviated
  simp only [safe_step, safe_abbrev]
  intro j o' hj
  simp only [Option.some.injEq, Prod.mk.injEq] at hj
  obtain ⟨rfl, rfl⟩ := hj
  exact ⟨ho, h⟩

theorem long_opt_finish_safe (tbl : List Opt) (p : Ctx) (st : Abbrev) (i : Nat)
    (o : Opt) (rest : Str) (fl f : Nat) (hst : safe_abbrev tbl st) (ho : tbl[i]? = some o)
    (h : (fl ^^^ f) &&& OPT_UNSET ≠ 0 → o.flags.noneg = false) :
    safe_step tbl (long_opt_finish p st i o rest fl f) := by
  unfold long_opt_finish
  cases rest with
  | nil => exact ⟨ho, h⟩
  | cons c tl =>
    simp only
    split_ifs
    · exact hst
    · exact ⟨ho, h⟩

theorem long_opt_pass_safe (tbl : List Opt) (arg : Str) (p : Ctx) (st : Abbrev) (i : Nat)
    (o : Opt) (m : Str) (f : Nat) (again : LongStep) (hst : safe_abbrev tbl st)
    (ho : tbl[i]? = some o) (hf : f &&& OPT_UNSET ≠ 0 → o.flags.noneg = false)
    (hag : o.flags.noneg = false → safe_step tbl again) :
    safe_step tbl (long_opt_pass arg p st i o m f again) := by
  have h0 : (0 ^^^ f) &&& OPT_UNSET ≠ 0 → o.flags.noneg = false := by
    rw [Nat.zero_xor]; exact hf
  unfold long_opt_pass
  by_cases h1 : o.type = OPTION_ARGUMENT
  · rw [if_pos h1]
    split
    · exact hst
    · trivial
    · split_ifs
      · trivial
      · exact hst
  · rw [if_neg h1]
    cases skip_prefix arg m with
    | some rest => exact long_opt_finish_safe tbl p st i o _ _ _ hst ho h0
    | none =>
      simp only
      by_cases h2 : strncmp_eq m arg (arg_end_offset arg) = true
      · rw [if_pos h2]
        exact is_abbreviated_safe tbl p st arg i o _ _ ho h0
      · rw [if_neg h2]
        by_cases h3 : o.flags.noneg = true
        · rw [if_pos h3]; exact hst
        · rw [if_neg h3]
          have hn : o.flags.noneg = false := by simpa using h3
          by_cases h4 : starts_with ['n', 'o', '-'] arg = true
          · rw [if_pos h4]
            exact is_abbreviated_safe tbl p st arg i o _ _ ho (fun _ => hn)
          · rw [if_neg h4]
            by_cases h5 : ¬ starts_with arg ['n', 'o', '-'] = true
            · rw [if_pos h5]
              split_ifs
              · exact hag hn
              · exact hst
            · rw [if_neg h5]
              cases skip_prefix (arg.drop 3) m with
              | some rest2 =>
                exact long_opt_finish_safe tbl p st i o _ _ _ hst ho (fun _ => hn)
              | none =>
                simp only
                split_ifs
                · exact is_abbreviated_safe tbl p st arg i o _ _ ho (fun _ => hn)
                · exact hst

theorem long_opt_again_safe (tbl : List Opt) (arg : Str) (p : Ctx) (st : Abbrev) (i : Nat)
    (o : Opt) (hst : safe_abbrev tbl st) (ho : tbl[i]? = some o) :
    ∀ (n : Nat) (m : Str) (f : Nat), m.length ≤ n →
      (f &&& OPT_UNSET ≠ 0 → o.flags.noneg = false) →
      safe_step tbl (long_opt_again arg p st i o m f) := by
  intro n
  induction n with
  | zero =>
    intro m f hm hf
    have : m = [] := List.length_eq_zero.mp (by omega)
    subst this
    rw [long_opt_again_plain _ _ _ _ _ _ _ (by decide)]
    exact long_opt_pass_safe tbl arg p st i o [] f _ hst ho hf (fun _ => hst)
  | succ n ih =>
    intro m f hm hf
    by_cases hno : NO <+: m
    · obtain ⟨tl, rfl⟩ := hno
      rw [long_opt_again_strip]
      refine long_opt_pass_safe tbl arg p st i o _ f _ hst ho hf (fun hn => ?_)
      apply ih tl _ _ (fun _ => hn)
      simp only [NO, List.length_append, List.length_cons, List.length_nil] at hm
      omega
    · rw [long_opt_again_plain _ _ _ _ _ _ _ hno]
      exact long_opt_pass_safe tbl arg p st i o m f _ hst ho hf (fun _ => hst)

theorem parse_long_opt_end_safe (tbl : List Opt) (arg : Str) (p : Ctx) (st : Abbrev)
    (hst : safe_abbrev tbl st) : safe_action tbl (parse_long_opt_end arg p st) := by
  unfold parse_long_opt_end
  cases h1 : st.ambiguous_option with
  | some amb =>
    cases h2 : st.abbrev_option <;> trivial
  | none =>
    cases h2 : st.abbrev_option with
    | none => trivial
    | some ab => exact hst ab.1 ab.2 h2

theorem parse_long_opt_from_safe (tbl : List Opt) (arg : Str) :
    ∀ (l : List Opt) (i : Nat) (p : Ctx) (st : Abbrev), safe_abbrev tbl st →
      (∀ k o, l[k]? = some o → tbl[i + k]? = some o) →
      safe_action tbl (parse_long_opt_from arg l i p st) := by
  intro l
  induction l with
  | nil => intro i p st hst _; exact parse_long_opt_end_safe tbl arg p st hst
  | cons o rest ih =>
    intro i p st hst hidx
    rw [parse_long_opt_from]
    have hrest : ∀ k o', rest[k]? = some o' → tbl[i + 1 + k]? = some o' := by
      intro k o' hk
      rw [show i + 1 + k = i + (k + 1) by omega]
      exact hidx (k + 1) o' (by simpa using hk)
    split_ifs with hend
    · exact parse_long_opt_end_safe tbl arg p st hst
    · cases hl : o.long_name with
      | none => exact ih (i + 1) p st hst hrest
      | some l =>
        simp only
        have ho : tbl[i]? = some o := hidx 0 o (by simp)
        have hs := long_opt_again_safe tbl arg p st i o hst ho l.length l 0 (le_refl _)
          (fun h => absurd (by decide : 0 &&& OPT_UNSET = 0) h)
        cases hr : long_opt_again arg p st i o l 0 with
        | leave a =>
          rw [hr] at hs
          simp only
          cases a with
          | ret r => trivial
          | dispatch p1 j o1 fl => exact hs
        | cont p1 st1 =>
          rw [hr] at hs
          exact ih (i + 1) p1 st1 hs hrest

theorem long_match_eq_false (o : Opt) (t : Str) (h : long_match o t = false) :
    exact_match o t = false ∧ cand_form o t = none ∧ prefix_of_own_negation o t = false := by
  unfold long_match at h
  simp only [Bool.or_eq_false_iff] at h
  have hcn : cand_form o t = none := by
    cases hc : cand_form o t with
    | none => rfl
    | some f => rw [hc] at h; simp at h
  replace h := And.intro h.1 hcn
  refine ⟨h.1, h.2, ?_⟩
  cases hl : o.long_name with
  | none => simp [prefix_of_own_negation, hl]
  | some l =>
    by_contra hc
    have hc' : prefix_of_own_negation o t = true := by simpa using hc
    unfold prefix_of_own_negation at hc'
    rw [hl] at hc'
    simp only [Bool.and_eq_true, Bool.not_eq_true', bne_iff_ne, ne_eq,
      List.isPrefixOf_iff_prefix] at hc'
    obtain ⟨⟨⟨⟨hn, ha⟩, hlt⟩, hne⟩, hneg⟩ := hc'
    have hcand := h.2
    rw [cand_form_eq o t l hl, if_neg ha, if_neg (prefix_antisymm_ne l t hlt hne),
      if_neg (by simp [hn]), if_pos (Or.inl hneg)] at hcand
    cases hcand

theorem candidates_from_nil (t : Str) :
    ∀ (l : List Opt) (i : Nat), (∀ o ∈ table l, cand_form o t = none) →
      candidates_from t l i = [] := by
  intro l
  induction l with
  | nil => intro i _; rfl
  | cons o rest ih =>
    intro i h
    by_cases hend : o.type = OPTION_END
    · simp [candidates_from, hend]
    · rw [table_cons o rest hend] at h
      rw [candidates_from, if_neg hend, h o (List.mem_cons_self _ _)]
      exact ih (i + 1) (fun o' ho' => h o' (List.mem_cons_of_mem _ ho'))

/-- A token without `=` that matches no descriptor of the table makes
`parse_long_opt` return no-match with the context unchanged. -/
theorem parse_long_opt_no_match (env : Env) (p : Ctx) (t : Str) (tbl : List Opt)
    (ht : '=' ∉ t) (h : ∀ o ∈ table tbl, long_match o t = false) :
    parse_long_opt_action p t tbl = LongAction.ret (Rc.code (-2), p) ∧
    parse_long_opt env p t tbl = (Rc.code (-2), p) := by
  have hact : parse_long_opt_action p t tbl = LongAction.ret (Rc.code (-2), p) := by
    unfold parse_long_opt_action
    rw [parse_long_opt_from_no_exact t ht tbl 0 p {}
      (fun o ho => ⟨(long_match_eq_false o t (h o ho)).1, (long_match_eq_false o t (h o ho)).2.2⟩),
      candidates_from_nil t tbl 0 (fun o ho => (long_match_eq_false o t (h o ho)).2.1)]
    rfl
  refine ⟨hact, ?_⟩
  unfold parse_long_opt
  rw [hact]

theorem long_match_noneg_own_negation (D : Opt) (L : Str) (hL : D.long_name = some L)
    (hn : D.flags.noneg = true) : long_match D (NO ++ L) = false := by
  have hlen : ¬ NO ++ L <+: L := by
    intro h
    have := h.length_le
    simp only [NO, List.length_append, List.length_cons, List.length_nil] at this
    omega
  have hne : L ≠ NO ++ L := by
    intro h
    have := congrArg List.length h
    simp only [NO, List.length_append, List.length_cons, List.length_nil] at this
    omega
  unfold long_match
  rw [cand_form_eq D _ L hL]
  simp [exact_match, hL, hn, hne, hlen]

theorem step_token_long (env : Env) (tbl : List Opt) (fuel : Nat) (ctx : Ctx) (t : Str)
    (harg : argvAt ctx 0 = '-' :: '-' :: t) (ht : t ≠ [])
    (h1 : t ≠ "help-all".toList) (h2 : t ≠ "help".toList)
    (h3 : t ≠ "git-completion-helper".toList) :
    step_token env tbl fuel ctx =
      match parse_long_opt env ctx t tbl with
      | (Rc.abort, c) => TokStep.ret Outcome.ABORT c
      | (Rc.code n, c) =>
        if n = -1 then TokStep.ret Outcome.PARSE_OPT_ERROR c
        else if n = -2 then unknown c
        else if n = -3 then TokStep.ret Outcome.PARSE_OPT_HELP c
        else TokStep.next c := by
  unfold step_token
  simp only [harg]
  have e1 : ¬ ((('-' :: '-' :: t).head? ≠ some '-') ∨ ('-' :: '-' :: t).length < 2) := by simp
  have e2 : ('-' :: '-' :: t).tail ≠ ['h'] := by simp
  have e3 : ('-' :: '-' :: t).tail ≠ "-git-completion-helper".toList := by
    intro h
    apply h3
    simpa using h
  have e4 : ¬ (('-' :: '-' :: t).tail.head? ≠ some '-') := by simp
  have e5 : ('-' :: '-' :: t).length ≠ 2 := by
    cases t with
    | nil => exact absurd rfl ht
    | cons c r => simp
  have e6 : ('-' :: '-' :: t).drop 2 = t := rfl
  rw [if_neg e1, if_neg (by tauto), if_neg (by tauto), if_neg e4, if_neg e5, e6,
    if_neg (by tauto), if_neg (by tauto)]
  try rfl

/-- C4: `parse_long_opt` never dispatches a descriptor marked
no-negation-allowed in negated form: whenever it calls `get_value` with the
unset flag, the descriptor (a row of the table) is negatable.  In particular,
for a non-negatable descriptor named `L`, when no other descriptor matches the
token `--no-L`, `parse_long_opt` returns no-match (-2) with the context and
all slots unchanged, and `parse_options_step` takes the unknown-option path,
returning `PARSE_OPT_UNKNOWN` unless unknown options are kept. -/
theorem noneg_never_dispatched_unset (env : Env) (tbl : List Opt) :
    (∀ (p : Ctx) (arg : Str) (p1 : Ctx) (i : Nat) (o : Opt) (fl : Nat),
        parse_long_opt_action p arg tbl = LongAction.dispatch p1 i o fl →
        tbl[i]? = some o ∧ (fl &&& OPT_UNSET ≠ 0 → o.flags.noneg = false)) ∧
    (∀ (ctx : Ctx) (d : Nat) (D : Opt) (L : Str) (fuel : Nat),
        (table tbl)[d]? = some D → D.long_name = some L → D.flags.noneg = true → '=' ∉ L →
        (∀ k o, (table tbl)[k]? = some o → k ≠ d → long_match o (NO ++ L) = false) →
        parse_long_opt env ctx (NO ++ L) tbl = (Rc.code (-2), ctx) ∧
        (argvAt ctx 0 = '-' :: '-' :: (NO ++ L) →
          step_token env tbl fuel ctx = unknown ctx ∧
          (ctx.flags.keep_unknown = false →
            step_token env tbl fuel ctx = TokStep.ret Outcome.PARSE_OPT_UNKNOWN ctx))) := by
  constructor
  · intro p arg p1 i o fl h
    have hs := parse_long_opt_from_safe tbl arg tbl 0 p {} (by intro i o h; cases h)
      (by intro k o hk; rw [Nat.zero_add]; exact hk)
    unfold parse_long_opt_action at h
    rw [h] at hs
    exact hs
  · intro ctx d D L fuel hd hL hn hLeq hothers
    have ht : '=' ∉ NO ++ L := by
      intro h
      rcases List.mem_append.mp h with h | h
      · revert h; decide
      · exact hLeq h
    have hall : ∀ o ∈ table tbl, long_match o (NO ++ L) = false := by
      intro o ho
      obtain ⟨k, hk⟩ := List.mem_iff_getElem?.mp ho
      by_cases hkd : k = d
      · rw [hkd, hd] at hk
        cases hk
        exact long_match_noneg_own_negation D L hL hn
      · exact hothers k o hk hkd
    have hp := (parse_long_opt_no_match env ctx (NO ++ L) tbl ht hall).2
    refine ⟨hp, fun harg => ?_⟩
    have hstep : step_token env tbl fuel ctx = unknown ctx := by
      rw [step_token_long env tbl fuel ctx (NO ++ L) harg (by simp [NO]) (by simp [NO])
        (by simp [NO]) (by simp [NO]), hp]
      rfl
    refine ⟨hstep, fun hk => ?_⟩
    rw [hstep]
    simp [unknown, hk]

/-- C4 instantiated: with a non-negatable `--color`, the token `--no-color`
is an unknown option. -/
theorem noneg_never_dispatched_unset_witness :
    parse_long_opt sampleEnv (sampleCtx ["prog", "--no-color"] {}) "no-color".toList nonegTable =
        (Rc.code (-2), sampleCtx ["prog", "--no-color"] {}) ∧
    step_token sampleEnv nonegTable 1 (sampleCtx ["prog", "--no-color"] {}) =
        TokStep.ret Outcome.PARSE_OPT_UNKNOWN (sampleCtx ["prog", "--no-color"] {}) := by
  have h := (noneg_never_dispatched_unset sampleEnv nonegTable).2
    (sampleCtx ["prog", "--no-color"] {}) 0 nonegColor "color".toList 1 rfl rfl rfl (by decide)
    (by
      intro k o hk hne
      match k, hk, hne with
      | 0, _, hne => exact absurd rfl hne
      | 1, hk, _ =>
        have e : (table nonegTable)[1]? = some verboseFlag := by decide
        rw [e] at hk
        have : o = verboseFlag := (Option.some.inj hk).symm
        subst this
        decide
      | (k + 2), hk, _ =>
        have e : (table nonegTable)[k + 2]? = none := by
          apply List.getElem?_eq_none
          have : (table nonegTable).length = 2 := by decide
          omega
        rw [e] at hk
        cases hk)
  exact ⟨h.1, (h.2 rfl).2 rfl⟩

/-! ### Abbreviated negation -/

/-- The loop of `parse_long_opt` steps over descriptors whose loop body
continues without a change. -/
theorem parse_long_opt_from_skip (t : Str) (p : Ctx) :
    ∀ (pre rest : List Opt) (i : Nat) (st : Abbrev),
      (∀ o ∈ pre, o.type ≠ OPTION_END ∧
        ∀ l, o.long_name = some l → ∀ k st1, long_opt_again t p st1 k o l 0 = LongStep.cont p st1) →
      parse_long_opt_from t (pre ++ rest) i p st =
        parse_long_opt_from t rest (i + pre.length) p st := by
  intro pre
  induction pre with
  | nil => intro rest i st _; rfl
  | cons o pre ih =>
    intro rest i st h
    have ho := h o (List.mem_cons_self _ _)
    have hpre := fun o' ho' => h o' (List.mem_cons_of_mem _ ho')
    rw [List.cons_append, parse_long_opt_from, if_neg ho.1]
    have e : i + (o :: pre).length = i + 1 + pre.length := by simp only [List.length_cons]; omega
    cases hl : o.long_name with
    | none =>
      simp only
      rw [ih rest (i + 1) st hpre, e]
    | some l =>
      simp only
      rw [ho.2 l hl i st]
      simp only
      rw [ih rest (i + 1) st hpre, e]

/-- A descriptor that the token text `t` does not match is stepped over. -/
theorem long_opt_again_of_no_match (t : Str) (p : Ctx) (o : Opt) (ht : '=' ∉ t)
    (h : long_match o t = false) :
    ∀ l, o.long_name = some l → ∀ k st1, long_opt_again t p st1 k o l 0 = LongStep.cont p st1 := by
  intro l hl k st1
  obtain ⟨h1, h2, h3⟩ := long_match_eq_false o t h
  rw [long_opt_again_records t p st1 k o l ht hl h1 h3, h2]
  rfl

/-- The loop of `parse_long_opt` on a table none of whose descriptors the
token matches ends with the locals unchanged. -/
theorem parse_long_opt_from_no_match (t : Str) (p : Ctx) (ht : '=' ∉ t) (l : List Opt) (i : Nat)
    (st : Abbrev) (h : ∀ o ∈ table l, long_match o t = false) :
    parse_long_opt_from t l i p st = parse_long_opt_end t p st := by
  rw [parse_long_opt_from_no_exact t ht l i p st
    (fun o ho => ⟨(long_match_eq_false o t (h o ho)).1, (long_match_eq_false o t (h o ho)).2.2⟩),
    candidates_from_nil t l i (fun o ho => (long_match_eq_false o t (h o ho)).2.1)]
  rfl

/-- The loop body of `parse_long_opt` for a token that starts with `no-` (and
has no `=`): the jump to `again` is never taken. -/
theorem long_opt_again_negated_token (a : Str) (p : Ctx) (st : Abbrev) (i : Nat) (o : Opt)
    (ht : '=' ∉ NO ++ a) (harg : o.type ≠ OPTION_ARGUMENT) (l : Str) (f : Nat) :
    long_opt_again (NO ++ a) p st i o l f =
      if l = NO ++ a then LongStep.leave (LongAction.dispatch p i o (0 ^^^ f))
      else if l <+: NO ++ a then LongStep.cont p st
      else if NO ++ a <+: l then LongStep.cont p (push_abbrev st i o (some (0 ^^^ f)))
      else if o.flags.noneg = true then LongStep.cont p st
      else if NO ++ a <+: NO then LongStep.cont p (push_abbrev st i o (some (OPT_UNSET ^^^ f)))
      else if l = a then LongStep.leave (LongAction.dispatch p i o (OPT_UNSET ^^^ f))
      else if l <+: a then LongStep.cont p st
      else if a <+: l then LongStep.cont p (push_abbrev st i o (some (OPT_UNSET ^^^ f)))
      else LongStep.cont p st := by
  obtain ⟨again, e⟩ := long_opt_again_eq_pass (NO ++ a) p st i o l f
  rw [e, long_opt_pass_tree (NO ++ a) p st i o ht harg l f again]
  have hd : (NO ++ a).drop 3 = a := rfl
  rw [hd, if_neg (not_not.mpr (List.prefix_append NO a))]

theorem not_mem_NO_append (a : Str) (h : '=' ∉ a) : '=' ∉ NO ++ a := by
  intro hc
  rcases List.mem_append.mp hc with hc | hc
  · revert hc; decide
  · exact h hc

theorem NO_append_prefix_NO (a : Str) : NO ++ a <+: NO ↔ a = [] := by
  constructor
  · intro h
    have := h.length_le
    simp only [NO, List.length_append, List.length_cons, List.length_nil] at this
    exact List.length_eq_zero.mp (by omega)
  · rintro rfl; simp

/-- At the negatable descriptor `D` named `L`, the token `no-` + `Q`, with
`Q` a proper prefix of `L`, records `D` as an abbreviation in negated form. -/
theorem long_opt_again_negated_abbrev (p : Ctx) (st : Abbrev) (d : Nat) (D : Opt) (L Q : Str)
    (hLeq : '=' ∉ L) (harg : D.type ≠ OPTION_ARGUMENT) (hneg : D.flags.noneg = false)
    (hQ : Q <+: L) (hQne : Q ≠ L) (hpos : ¬ NO ++ Q <+: L) (hown : ¬ L <+: NO ++ L) :
    long_opt_again (NO ++ Q) p st d D L 0 =
      LongStep.cont p (push_abbrev st d D (some OPT_UNSET)) := by
  have hQeq : '=' ∉ Q := fun h => hLeq (hQ.subset h)
  have h1 : L ≠ NO ++ Q := fun e => hpos (e ▸ List.prefix_refl _)
  have h2 : ¬ L <+: NO ++ Q :=
    fun h => hown (h.trans ((List.prefix_append_right_inj NO).mpr hQ))
  have h3 : ¬ L <+: Q := fun h => hQne (List.Sublist.antisymm hQ.sublist h.sublist)
  rw [long_opt_again_negated_token Q p st d D (not_mem_NO_append Q hQeq) harg L 0,
    if_neg h1, if_neg h2, if_neg hpos, if_neg (by simp [hneg])]
  by_cases hq : NO ++ Q <+: NO
  · rw [if_pos hq]; rfl
  · rw [if_neg hq, if_neg (fun e => hQne e.symm), if_neg h3, if_pos hQ]
    rfl

/-- At the negatable descriptor `D` named `L`, the token `no-` + `L`
dispatches `D` in negated form. -/
theorem long_opt_again_negated_exact (p : Ctx) (st : Abbrev) (d : Nat) (D : Opt) (L : Str)
    (hLeq : '=' ∉ L) (harg : D.type ≠ OPTION_ARGUMENT) (hneg : D.flags.noneg = false)
    (hL : L ≠ []) (hown : ¬ L <+: NO ++ L) :
    long_opt_again (NO ++ L) p st d D L 0 =
      LongStep.leave (LongAction.dispatch p d D OPT_UNSET) := by
  have h1 : L ≠ NO ++ L := fun e => hown (by rw [← e])
  have h3 : ¬ NO ++ L <+: L := by
    intro h
    have := h.length_le
    simp only [NO, List.length_append, List.length_cons, List.length_nil] at this
    omega
  rw [long_opt_again_negated_token L p st d D (not_mem_NO_append L hLeq) harg L 0,
    if_neg h1, if_neg hown, if_neg h3, if_neg (by simp [hneg]),
    if_neg (fun h => hL ((NO_append_prefix_NO L).mp h)), if_pos rfl]
  rfl

/-- A descriptor that `no-` + `Q` does not match, with `Q` a prefix of `L`,
is stepped over for the token `no-` + `L`. -/
theorem long_opt_again_other_negated (p : Ctx) (o : Opt) (L Q : Str) (hLeq : '=' ∉ L)
    (hQ : Q <+: L) (h : long_match_any o (NO ++ Q) = false) :
    ∀ l, o.long_name = some l → ∀ k st1,
      long_opt_again (NO ++ L) p st1 k o l 0 = LongStep.cont p st1 := by
  intro l hl k st1
  unfold long_match_any at h
  rw [hl] at h
  simp only [Bool.or_eq_false_iff] at h
  obtain ⟨hm, hpre⟩ := h
  have hpre' : ¬ NO ++ Q <+: l := fun hc => by
    rw [List.isPrefixOf_iff_prefix.mpr hc] at hpre; cases hpre
  obtain ⟨_, hcand, _⟩ := long_match_eq_false o _ hm
  have hQL : NO ++ Q <+: NO ++ L := (List.prefix_append_right_inj NO).mpr hQ
  have h1 : l ≠ NO ++ L := fun e => hpre' (e ▸ hQL)
  have h3 : ¬ NO ++ L <+: l := fun hc => hpre' (hQL.trans hc)
  by_cases harg : o.type = OPTION_ARGUMENT
  · obtain ⟨again, e⟩ := long_opt_again_eq_pass (NO ++ L) p st1 k o l 0
    rw [e, long_opt_pass_argument _ p st1 k o (not_mem_NO_append L hLeq) harg, if_neg h1]
  · rw [long_opt_again_negated_token L p st1 k o (not_mem_NO_append L hLeq) harg l 0, if_neg h1]
    rw [cand_form_eq o _ l hl, if_neg harg, if_neg hpre'] at hcand
    by_cases hng : o.flags.noneg = true
    · split_ifs <;> rfl
    · rw [if_neg hng] at hcand
      have hnn : ¬ NO ++ Q <+: NO ++ l := by
        intro hc
        rw [if_pos (Or.inl hc)] at hcand
        cases hcand
      have hQl : ¬ Q <+: l := fun hc => hnn ((List.prefix_append_right_inj NO).mpr hc)
      have h5 : ¬ NO ++ L <+: NO := by
        intro hc
        have := (NO_append_prefix_NO L).mp hc
        subst this
        have : Q = [] := List.prefix_nil.mp hQ
        subst this
        exact hQl (List.nil_prefix)
      have h6 : l ≠ L := fun e => hQl (e ▸ hQ)
      have h8 : ¬ L <+: l := fun hc => hQl (hQ.trans hc)
      rw [if_neg h3, if_neg hng, if_neg h5, if_neg h6, if_neg h8]
      split_ifs <;> rfl

theorem long_match_of_any (o : Opt) (t : Str) (h : long_match_any o t = false) :
    long_match o t = false := by
  unfold long_match_any at h
  simp only [Bool.or_eq_false_iff] at h
  exact h.1

theorem get_value_unset_clears (env : Env) (p : Ctx) (i : Nat) (D : Opt) (tbl : List Opt)
    (hty : D.type = OPTION_STRING ∨ D.type = OPTION_FILENAME ∨ D.type = OPTION_INTEGER ∨
      D.type = OPTION_MAGNITUDE)
    (hneg : D.flags.noneg = false) (hopt : p.opt = none) :
    get_value env p i D tbl OPT_UNSET = (Rc.code 0, clear_slot p D) := by
  rcases hty with h | h | h | h
  · simp [get_value, get_value_switch, h, hneg, hopt, OPT_UNSET, OPT_SHORT, clear_slot]
  · simp [get_value, get_value_switch, h, hneg, hopt, OPT_UNSET, OPT_SHORT, clear_slot, fix_filename, getStr, setStr]
  · simp [get_value, get_value_switch, h, hneg, hopt, OPT_UNSET, OPT_SHORT, clear_slot]
  · simp [get_value, get_value_switch, h, hneg, hopt, OPT_UNSET, OPT_SHORT, clear_slot]

/-- C3 (amended): for a negatable value-taking descriptor `D` named `L`
(String, Filename, Integer or Magnitude) and a proper prefix `Q` of `L` such
that `no-Q` is not itself a prefix of `L`, `L` is not a prefix of `no-L`, and
`--no-Q` matches no other descriptor exactly or by abbreviation: parsing
`--no-Q` gives the same result and final context as parsing `--no-L`; `D` is
dispatched in negated form, its slot is cleared and no token is consumed. -/
theorem negated_abbreviation_same (env : Env) (p : Ctx) (pre post : List Opt) (D : Opt)
    (L Q : Str)
    (hty : D.type = OPTION_STRING ∨ D.type = OPTION_FILENAME ∨ D.type = OPTION_INTEGER ∨
      D.type = OPTION_MAGNITUDE)
    (hL : D.long_name = some L) (hneg : D.flags.noneg = false) (hLeq : '=' ∉ L)
    (hQ : Q <+: L) (hQne : Q ≠ L) (hpos : ¬ NO ++ Q <+: L) (hown : ¬ L <+: NO ++ L)
    (hpre : ∀ o ∈ pre, o.type ≠ OPTION_END ∧ long_match_any o (NO ++ Q) = false)
    (hpost : ∀ o ∈ table post, long_match_any o (NO ++ Q) = false)
    (hopt : p.opt = none) :
    parse_long_opt env p (NO ++ Q) (pre ++ D :: post) =
      parse_long_opt env p (NO ++ L) (pre ++ D :: post) ∧
    parse_long_opt_action p (NO ++ Q) (pre ++ D :: post) =
      LongAction.dispatch p pre.length D OPT_UNSET ∧
    parse_long_opt_action p (NO ++ L) (pre ++ D :: post) =
      LongAction.dispatch p pre.length D OPT_UNSET ∧
    parse_long_opt env p (NO ++ Q) (pre ++ D :: post) = (Rc.code 0, clear_slot p D) ∧
    (clear_slot p D).argc = p.argc ∧ (clear_slot p D).argv = p.argv ∧
    (clear_slot p D).buf = p.buf ∧ (clear_slot p D).cpidx = p.cpidx := by
  have harg : D.type ≠ OPTION_ARGUMENT := by rcases hty with h | h | h | h <;> rw [h] <;> decide
  have hend : D.type ≠ OPTION_END := by rcases hty with h | h | h | h <;> rw [h] <;> decide
  have hQeq : '=' ∉ Q := fun h => hLeq (hQ.subset h)
  have hLne : L ≠ [] := by
    rintro rfl
    exact hQne (List.prefix_nil.mp hQ)
  have hactQ : parse_long_opt_action p (NO ++ Q) (pre ++ D :: post) =
      LongAction.dispatch p pre.length D OPT_UNSET := by
    unfold parse_long_opt_action
    rw [parse_long_opt_from_skip (NO ++ Q) p pre (D :: post) 0 {}
      (fun o ho => ⟨(hpre o ho).1, long_opt_again_of_no_match _ p o (not_mem_NO_append Q hQeq)
        (long_match_of_any o _ (hpre o ho).2)⟩),
      parse_long_opt_from, if_neg hend, hL]
    simp only
    rw [long_opt_again_negated_abbrev p {} _ D L Q hLeq harg hneg hQ hQne hpos hown]
    simp only
    rw [parse_long_opt_from_no_match (NO ++ Q) p (not_mem_NO_append Q hQeq) post _ _
      (fun o ho => long_match_of_any o _ (hpost o ho))]
    simp [parse_long_opt_end, push_abbrev]
  have hactL : parse_long_opt_action p (NO ++ L) (pre ++ D :: post) =
      LongAction.dispatch p pre.length D OPT_UNSET := by
    unfold parse_long_opt_action
    rw [parse_long_opt_from_skip (NO ++ L) p pre (D :: post) 0 {}
      (fun o ho => ⟨(hpre o ho).1, long_opt_again_other_negated p o L Q hLeq hQ (hpre o ho).2⟩),
      parse_long_opt_from, if_neg hend, hL]
    simp only
    rw [long_opt_again_negated_exact p {} _ D L hLeq harg hneg hLne hown]
    simp
  have hvQ : parse_long_opt env p (NO ++ Q) (pre ++ D :: post) = (Rc.code 0, clear_slot p D) := by
    unfold parse_long_opt
    rw [hactQ]
    exact get_value_unset_clears env p _ D _ hty hneg hopt
  have hvL : parse_long_opt env p (NO ++ L) (pre ++ D :: post) = (Rc.code 0, clear_slot p D) := by
    unfold parse_long_opt
    rw [hactL]
    exact get_value_unset_clears env p _ D _ hty hneg hopt
  refine ⟨by rw [hvQ, hvL], hactQ, hactL, hvQ, ?_, ?_, ?_, ?_⟩ <;>
    · unfold clear_slot
      split_ifs <;> rfl

/-- C3 instantiated: `--no-col` clears the slot of `--color` like
`--no-color`. -/
theorem negated_abbreviation_same_witness :
    parse_long_opt sampleEnv (sampleCtx ["prog", "--no-col", "x"] {}) "no-col".toList
        [verboseFlag, colorOpt, { type := OPTION_END }] =
      parse_long_opt sampleEnv (sampleCtx ["prog", "--no-col", "x"] {}) "no-color".toList
        [verboseFlag, colorOpt, { type := OPTION_END }] :=
  (negated_abbreviation_same sampleEnv (sampleCtx ["prog", "--no-col", "x"] {}) [verboseFlag]
    [{ type := OPTION_END }] colorOpt "color".toList "col".toList (Or.inl rfl) rfl rfl
    (by decide) (by decide) (by decide) (by decide) (by decide) (by decide) (by decide) rfl).1

/-- C3, the claim as worded fails: for the negatable string option named
`no-color` alone in the table, the empty string is a strict prefix of the
name, yet `--no-` is an abbreviation of the name itself and takes the next
token as the value, while `--no-no-color` clears the slot and consumes
nothing. -/
theorem negated_abbreviation_fails_on_no_name :
    ([] : Str) <+: "no-color".toList ∧ ([] : Str) ≠ "no-color".toList ∧
    noColorOpt.flags.noneg = false ∧
    (parse_long_opt sampleEnv (sampleCtx ["prog", "--no-", "x"] {}) (NO ++ [])
      [noColorOpt, { type := OPTION_END }]).2.slots.strs 0 = some ['x'] ∧
    (parse_long_opt sampleEnv (sampleCtx ["prog", "--no-", "x"] {}) (NO ++ [])
      [noColorOpt, { type := OPTION_END }]).2.argc = 1 ∧
    (parse_long_opt sampleEnv (sampleCtx ["prog", "--no-", "x"] {}) (NO ++ "no-color".toList)
      [noColorOpt, { type := OPTION_END }]).2.slots.strs 0 = none ∧
    (parse_long_opt sampleEnv (sampleCtx ["prog", "--no-", "x"] {}) (NO ++ "no-color".toList)
      [noColorOpt, { type := OPTION_END }]).2.argc = 2 := by
  refine ⟨by decide, by decide, by decide, by decide, by decide, by decide, by decide⟩

/-! ### Return codes of value extraction -/

theorem get_arg_rc (q : Ctx) (o : Opt) (f : Nat) :
    (get_arg q o f).1 = Rc.code 0 ∨ (get_arg q o f).1 = Rc.code (-1) := by
  unfold get_arg
  cases q.opt with
  | some v => simp
  | none => simp only; split_ifs <;> simp [error]

theorem get_value_switch_rc (env : Env) (p : Ctx) (i : Nat) (o : Opt) (tbl : List Opt) (fl : Nat)
    (h : o.type ≠ OPTION_LOWLEVEL_CALLBACK) :
    (get_value_switch env p i o tbl fl).1 = Rc.code 0 ∨
      (get_value_switch env p i o tbl fl).1 = Rc.code (-1) ∨
      (get_value_switch env p i o tbl fl).1 = Rc.abort := by
  have hga := get_arg_rc p o fl
  cases ht : o.type with
  | OPTION_LOWLEVEL_CALLBACK => exact absurd ht h
  | OPTION_BIT => simp only [get_value_switch, ht]; split_ifs <;> simp
  | OPTION_NEGBIT => simp only [get_value_switch, ht]; split_ifs <;> simp
  | OPTION_COUNTUP => simp [get_value_switch, ht]
  | OPTION_SET_INT => simp [get_value_switch, ht]
  | OPTION_CMDMODE =>
    simp only [get_value_switch, ht]; split_ifs
    · right; left
      exact (opt_command_mode_error_from_fails p i o fl tbl 0).1
    · simp
  | OPTION_STRING =>
    simp only [get_value_switch, ht]
    split_ifs with h1 h2 h3
    · simp
    · simp
    · simp
    · rcases hga with h4 | h4
      · exact absurd h4 h3
      · right; left; exact h4
  | OPTION_FILENAME =>
    simp only [get_value_switch, ht]
    split_ifs with h1 h2 h3 h4 h5 h6 <;> first
      | (left; rfl)
      | (rcases hga with h7 | h7
         · simp_all
         · right; left; simp_all)
  | OPTION_CALLBACK =>
    simp only [get_value_switch, ht, call_callback]
    split_ifs <;> simp
  | OPTION_INTEGER =>
    simp only [get_value_switch, ht]
    split_ifs
    · simp
    · simp
    · simp
    · split
      · simp
      · split_ifs <;> simp [error]
  | OPTION_MAGNITUDE =>
    simp only [get_value_switch, ht]
    split_ifs
    · simp
    · simp
    · simp
    · split <;> simp [error]
  | OPTION_END => simp [get_value_switch, ht]
  | OPTION_ARGUMENT => simp [get_value_switch, ht]
  | OPTION_GROUP => simp [get_value_switch, ht]
  | OPTION_NUMBER => simp [get_value_switch, ht]

/-- The value extraction of a descriptor that is not a low-level callback
returns 0 or -1, or ends the process. -/
theorem get_value_rc (env : Env) (p : Ctx) (i : Nat) (o : Opt) (tbl : List Opt) (fl : Nat)
    (h : o.type ≠ OPTION_LOWLEVEL_CALLBACK) :
    (get_value env p i o tbl fl).1 = Rc.code 0 ∨ (get_value env p i o tbl fl).1 = Rc.code (-1) ∨
      (get_value env p i o tbl fl).1 = Rc.abort := by
  unfold get_value
  simp only
  split_ifs
  · simp [error]
  · simp [error]
  · simp [error]
  · exact get_value_switch_rc env p i o tbl fl h

/-! ### Exact long names win -/

theorem prefix_of_append_eq_sign (x N v : Str) (hx : '=' ∉ x) (h : x <+: N ++ '=' :: v) :
    x <+: N := by
  rcases List.prefix_or_prefix_of_prefix h (List.prefix_append N ('=' :: v)) with h1 | h1
  · exact h1
  · obtain ⟨y, rfl⟩ := h1
    have h2 : y <+: '=' :: v := (List.prefix_append_right_inj N).mp h
    cases y with
    | nil => simp
    | cons c y =>
      have : c = '=' := by
        obtain ⟨z, hz⟩ := h2
        simp only [List.cons_append, List.cons.injEq] at hz
        exact hz.1
      exact absurd (by rw [this]; simp) hx

theorem eq_of_append_eq_sign (m r N v : Str) (hm : '=' ∉ m) (hN : '=' ∉ N)
    (h : m ++ '=' :: r = N ++ '=' :: v) : m = N := by
  have h1 := takeWhile_append_stop (fun c => decide (c ≠ '=')) m r '='
    (not_eq_sign_of_mem m hm) (by decide)
  have h2 := takeWhile_append_stop (fun c => decide (c ≠ '=')) N v '='
    (not_eq_sign_of_mem N hN) (by decide)
  rw [h] at h1
  rw [← h1, h2]

theorem is_abbreviated_continues (arg : Str) (p : Ctx) (st : Abbrev) (i : Nat) (o : Opt)
    (fl f : Nat) : continues arg p (is_abbreviated p st arg i o fl f) := by
  unfold is_abbreviated continues inline_set
  refine ⟨_, _, rfl, ?_⟩
  split_ifs with h
  · exact Or.inr ⟨h.2, rfl⟩
  · exact Or.inl rfl

theorem cont_continues (arg : Str) (p : Ctx) (st : Abbrev) :
    continues arg p (LongStep.cont p st) := ⟨p, st, rfl, Or.inl rfl⟩

/-- The token `arg` is `N` or `N=v`, and `m` is a name without `=` other
than `N`: when `arg` starts with `m`, the rest is neither empty nor does it
start with `=`. -/
theorem rest_after_other_name (arg N inl m rest : Str) (harg : arg = N ++ inl)
    (hinl : inl = [] ∨ ∃ v, inl = '=' :: v) (hN : '=' ∉ N) (hm : '=' ∉ m) (hne : m ≠ N)
    (h : arg = m ++ rest) : ∃ c r, rest = c :: r ∧ c ≠ '=' := by
  cases rest with
  | nil =>
    exfalso
    rw [List.append_nil] at h
    rcases hinl with rfl | ⟨v, rfl⟩
    · rw [List.append_nil] at harg; exact hne (h.symm.trans harg)
    · apply hm; rw [← h, harg]; simp
  | cons c r =>
    refine ⟨c, r, rfl, ?_⟩
    intro hc
    subst hc
    rcases hinl with rfl | ⟨v, rfl⟩
    · rw [List.append_nil] at harg
      apply hN; rw [← harg, h]; simp
    · exact hne (eq_of_append_eq_sign m r N v hm hN (h.symm.trans harg))

/-- One pass of the loop body for the token `N` or `N=v` (`N` not starting
with `no-`) on a current name `m` other than `N`: the pass continues. -/
theorem long_opt_pass_continues (arg N inl m : Str) (p : Ctx) (st : Abbrev) (i : Nat) (o : Opt)
    (f : Nat) (again : LongStep) (harg : arg = N ++ inl)
    (hinl : inl = [] ∨ ∃ v, inl = '=' :: v) (hN : '=' ∉ N) (hm : '=' ∉ m) (hne : m ≠ N)
    (hno : ¬ NO <+: N)
    (hag : o.flags.noneg = false → NO <+: m → continues arg p again) :
    continues arg p (long_opt_pass arg p st i o m f again) := by
  unfold long_opt_pass
  by_cases h1 : o.type = OPTION_ARGUMENT
  · rw [if_pos h1]
    cases hsk : skip_prefix arg m with
    | none => exact cont_continues arg p st
    | some rest =>
      obtain ⟨c, r, rfl, hc⟩ := rest_after_other_name arg N inl m rest harg hinl hN hm hne
        ((skip_prefix_eq_some arg m rest).mp hsk)
      simp only
      rw [if_neg hc]
      exact cont_continues arg p st
  · rw [if_neg h1]
    cases hsk : skip_prefix arg m with
    | some rest =>
      obtain ⟨c, r, rfl, hc⟩ := rest_after_other_name arg N inl m rest harg hinl hN hm hne
        ((skip_prefix_eq_some arg m rest).mp hsk)
      simp only [long_opt_finish]
      rw [if_pos hc]
      exact cont_continues arg p st
    | none =>
      simp only
      by_cases h2 : strncmp_eq m arg (arg_end_offset arg) = true
      · rw [if_pos h2]; exact is_abbreviated_continues arg p st i o _ _
      · rw [if_neg h2]
        by_cases h3 : o.flags.noneg = true
        · rw [if_pos h3]; exact cont_continues arg p st
        · rw [if_neg h3]
          have hn : o.flags.noneg = false := by simpa using h3
          by_cases h4 : starts_with ['n', 'o', '-'] arg = true
          · rw [if_pos h4]; exact is_abbreviated_continues arg p st i o _ _
          · rw [if_neg h4]
            have h5 : ¬ starts_with arg ['n', 'o', '-'] = true := by
              intro hc
              have hc' : NO <+: arg := (starts_with_iff _ _).mp hc
              apply hno
              rcases hinl with rfl | ⟨v, rfl⟩
              · rw [harg, List.append_nil] at hc'; exact hc'
              · rw [harg] at hc'
                exact prefix_of_append_eq_sign NO N v (by decide) hc'
            rw [if_pos h5]
            by_cases h6 : starts_with m ['n', 'o', '-'] = true
            · rw [if_pos h6]
              exact hag hn ((starts_with_iff _ _).mp h6)
            · rw [if_neg h6]
              exact cont_continues arg p st

/-- The loop body for the token `N` or `N=v` on a descriptor none of whose
names (the long name, and for a negatable descriptor the long name with
leading `no-` removed) is `N`: the body continues. -/
theorem long_opt_again_continues (arg N inl : Str) (p : Ctx) (st : Abbrev) (i : Nat) (o : Opt)
    (harg : arg = N ++ inl) (hinl : inl = [] ∨ ∃ v, inl = '=' :: v) (hN : '=' ∉ N)
    (hno : ¬ NO <+: N) :
    ∀ (n : Nat) (m : Str) (f : Nat), m.length ≤ n → '=' ∉ m → m ≠ N →
      (o.flags.noneg = false → strips_to N m = false) →
      continues arg p (long_opt_again arg p st i o m f) := by
  intro n
  induction n with
  | zero =>
    intro m f hlen hm hne hs
    have : m = [] := List.length_eq_zero.mp (by omega)
    subst this
    rw [long_opt_again_plain _ _ _ _ _ _ _ (by decide)]
    exact long_opt_pass_continues arg N inl [] p st i o f _ harg hinl hN hm hne hno
      (fun _ h => absurd h (by decide))
  | succ n ih =>
    intro m f hlen hm hne hs
    by_cases hnm : NO <+: m
    · obtain ⟨tl, rfl⟩ := hnm
      rw [long_opt_again_strip]
      refine long_opt_pass_continues arg N inl _ p st i o f _ harg hinl hN hm hne hno
        (fun hn _ => ?_)
      have hs' := hs hn
      rw [strips_to_strip] at hs'
      have hs2 : (tl == N) = false ∧ strips_to N tl = false := by simpa using hs'
      apply ih tl _ _ (fun h => hm (List.mem_append_right _ h)) (by simpa using hs2.1)
        (fun _ => hs2.2)
      simp only [NO, List.length_append, List.length_cons, List.length_nil] at hlen
      omega
    · rw [long_opt_again_plain _ _ _ _ _ _ _ hnm]
      exact long_opt_pass_continues arg N inl m p st i o f _ harg hinl hN hm hne hno
        (fun _ h => absurd h hnm)

theorem inline_set_trans (arg : Str) (p0 p1 p2 : Ctx) (h1 : inline_set arg p0 p1)
    (h2 : inline_set arg p1 p2) : inline_set arg p0 p2 := by
  unfold inline_set at *
  rcases h1 with rfl | ⟨hne, rfl⟩
  · exact h2
  · rcases h2 with rfl | ⟨_, rfl⟩
    · exact Or.inr ⟨hne, rfl⟩
    · exact Or.inr ⟨hne, rfl⟩

/-- The loop of `parse_long_opt` for the token `N` or `N=v` passes the
descriptors that are not named `N`, setting at most the pending inline
value. -/
theorem parse_long_opt_from_reaches (arg N inl : Str) (p : Ctx) (harg : arg = N ++ inl)
    (hinl : inl = [] ∨ ∃ v, inl = '=' :: v) (hN : '=' ∉ N) (hno : ¬ NO <+: N) :
    ∀ (pre rest : List Opt) (i : Nat) (p1 : Ctx) (st : Abbrev), inline_set arg p p1 →
      (∀ o ∈ pre, o.type ≠ OPTION_END ∧ ∀ l, o.long_name = some l →
        '=' ∉ l ∧ l ≠ N ∧ (o.flags.noneg = false → strips_to N l = false)) →
      ∃ p2 st2, inline_set arg p p2 ∧
        parse_long_opt_from arg (pre ++ rest) i p1 st =
          parse_long_opt_from arg rest (i + pre.length) p2 st2 := by
  intro pre
  induction pre with
  | nil => intro rest i p1 st h1 _; exact ⟨p1, st, h1, rfl⟩
  | cons o pre ih =>
    intro rest i p1 st h1 h
    have ho := h o (List.mem_cons_self _ _)
    have hpre := fun o' ho' => h o' (List.mem_cons_of_mem _ ho')
    have e : i + (o :: pre).length = i + 1 + pre.length := by simp only [List.length_cons]; omega
    rw [List.cons_append, parse_long_opt_from, if_neg ho.1, e]
    cases hl : o.long_name with
    | none => exact ih rest (i + 1) p1 st h1 hpre
    | some l =>
      simp only
      obtain ⟨hle, hne, hs⟩ := ho.2 l hl
      obtain ⟨p2, st2, hc, hj⟩ := long_opt_again_continues arg N inl p1 st i o harg hinl hN hno
        l.length l 0 (le_refl _) hle hne hs
      rw [hc]
      exact ih rest (i + 1) p2 st2 (inline_set_trans arg p p1 p2 h1 hj) hpre

theorem long_token_eq (N : Str) (v : Option Str) :
    ∃ inl, long_token N v = N ++ inl ∧ (inl = [] ∨ ∃ x, inl = '=' :: x) ∧
      (inl = match v with | none => [] | some x => '=' :: x) := by
  cases v with
  | none => exact ⟨[], by simp [long_token], Or.inl rfl, rfl⟩
  | some x => exact ⟨'=' :: x, rfl, Or.inr ⟨x, rfl⟩, rfl⟩

/-- C1 (amended): for a token `--N` or `--N=v` (`N` non-empty, without `=`,
not starting with `no-`) and a descriptor `D` named `N` that is not an
ArgumentMarker, when no descriptor before `D` is named `N`, or is negatable
and named `N` behind one or more leading `no-`, and the long names before `D`
contain no `=`: `parse_long_opt` dispatches value extraction to `D` in
non-negated form, with `v` as the pending inline value when present, however
many other descriptors have long names that `N` abbreviates and wherever
they stand in the table. -/
theorem exact_long_name_wins (env : Env) (p : Ctx) (pre post : List Opt) (D : Opt) (N : Str)
    (v : Option Str) (hN : '=' ∉ N) (hno : ¬ NO <+: N)
    (hD : D.long_name = some N) (hDa : D.type ≠ OPTION_ARGUMENT) (hDe : D.type ≠ OPTION_END)
    (hpre : ∀ o ∈ pre, o.type ≠ OPTION_END ∧ ∀ l, o.long_name = some l →
      '=' ∉ l ∧ l ≠ N ∧ (o.flags.noneg = false → strips_to N l = false)) :
    parse_long_opt_action p (long_token N v) (pre ++ D :: post) =
      LongAction.dispatch (with_pending p v) pre.length D 0 ∧
    parse_long_opt env p (long_token N v) (pre ++ D :: post) =
      get_value env (with_pending p v) pre.length D (pre ++ D :: post) 0 ∧
    (D.type ≠ OPTION_LOWLEVEL_CALLBACK →
      (parse_long_opt env p (long_token N v) (pre ++ D :: post)).1 ≠ Rc.code (-3) ∧
      (parse_long_opt env p (long_token N v) (pre ++ D :: post)).1 ≠ Rc.code (-2)) := by
  obtain ⟨inl, harg, hinl, hv⟩ := long_token_eq N v
  have hact : parse_long_opt_action p (long_token N v) (pre ++ D :: post) =
      LongAction.dispatch (with_pending p v) pre.length D 0 := by
    unfold parse_long_opt_action
    obtain ⟨p2, st2, hj, e⟩ := parse_long_opt_from_reaches (long_token N v) N inl p harg hinl hN
      hno pre (D :: post) 0 p {} (Or.inl rfl) hpre
    rw [e, parse_long_opt_from, if_neg hDe, hD]
    simp only
    obtain ⟨again, ea⟩ := long_opt_again_eq_pass (long_token N v) p2 st2 (0 + pre.length) D N 0
    have hsk : skip_prefix (long_token N v) N = some inl :=
      (skip_prefix_eq_some _ N inl).mpr harg
    rw [ea]
    unfold long_opt_pass
    rw [if_neg hDa, hsk]
    simp only [Nat.zero_add]
    cases v with
    | none =>
      subst hv
      have hp2 : p2 = p := by
        rcases hj with h | ⟨h, _⟩
        · exact h
        · exact absurd (strchrnul_eq_of_no_eq N hN) h
      simp [long_opt_finish, with_pending, hp2]
    | some x =>
      subst hv
      have hs : strchrnul_eq (long_token N (some x)) = '=' :: x := strchrnul_eq_append N x hN
      have hp2 : ({ p2 with opt := some x } : Ctx) = { p with opt := some x } := by
        rcases hj with h | ⟨_, h⟩
        · rw [h]
        · rw [h, hs]
      simp [long_opt_finish, with_pending, hp2]
  have hval : parse_long_opt env p (long_token N v) (pre ++ D :: post) =
      get_value env (with_pending p v) pre.length D (pre ++ D :: post) 0 := by
    unfold parse_long_opt
    rw [hact]
  refine ⟨hact, hval, fun hll => ?_⟩
  rw [hval]
  rcases get_value_rc env (with_pending p v) pre.length D (pre ++ D :: post) 0 hll with h | h | h <;>
    rw [h] <;> exact ⟨by decide, by decide⟩

/-- C1 instantiated: with `foobar` standing before `foo` in the table,
`--foo` selects `foo` (its bit is set in slot 1, slot 0 is untouched). -/
theorem exact_long_name_wins_witness :
    (parse_long_opt sampleEnv (sampleCtx ["prog", "--foo"] {}) "foo".toList
      [foobarBit, fooBit, { type := OPTION_END }]).2.slots.ints 1 = 1 ∧
    (parse_long_opt sampleEnv (sampleCtx ["prog", "--foo"] {}) "foo".toList
      [foobarBit, fooBit, { type := OPTION_END }]).2.slots.ints 0 = 0 := by
  have h := (exact_long_name_wins sampleEnv (sampleCtx ["prog", "--foo"] {}) [foobarBit]
    [{ type := OPTION_END }] fooBit "foo".toList none (by decide) (by decide) rfl (by decide)
    (by decide) (by
      intro o ho
      have : o = foobarBit := by simpa using ho
      subst this
      refine ⟨by decide, fun l hl => ?_⟩
      have : l = "foobar".toList := by
        have e : foobarBit.long_name = some "foobar".toList := rfl
        rw [e] at hl
        exact (Option.some.inj hl).symm
      subst this
      exact ⟨by decide, by decide, fun _ => by decide⟩)).2.1
  have e : long_token "foo".toList none = "foo".toList := rfl
  rw [e] at h
  have e2 : [foobarBit] ++ fooBit :: [{ type := OPTION_END }] =
      [foobarBit, fooBit, { type := OPTION_END }] := rfl
  rw [e2] at h
  rw [h]
  exact ⟨by decide, by decide⟩

/-- C1, the claim as worded fails: `foo` is the only descriptor named `foo`
and no descriptor is named `no-foo`, yet with a negatable descriptor named
`no-no-foo` before it the token `--foo` is dispatched to that descriptor in
negated form: the slot of `foo` (slot 1) is not written, while dispatching
`foo` would set it. -/
theorem exact_long_name_loses_to_double_negation :
    (table [noNoFoo, fooBit, { type := OPTION_END }]).filter
        (fun o => o.long_name == some "foo".toList) = [fooBit] ∧
    (∀ o ∈ table [noNoFoo, fooBit, { type := OPTION_END }],
        o.long_name ≠ some "no-foo".toList) ∧
    (parse_long_opt sampleEnv (sampleCtx ["prog", "--foo"] {}) "foo".toList
      [noNoFoo, fooBit, { type := OPTION_END }]).2.slots.ints 1 = 0 ∧
    (parse_long_opt sampleEnv (sampleCtx ["prog", "--foo"] {}) "foo".toList
      [noNoFoo, fooBit, { type := OPTION_END }]).2.slots.ints 2 = 1 ∧
    (get_value sampleEnv (sampleCtx ["prog", "--foo"] {}) 1 fooBit
      [noNoFoo, fooBit, { type := OPTION_END }] 0).2.slots.ints 1 = 1 := by
  refine ⟨by decide, by decide, by decide, by decide, by decide⟩

/-! ### Short options -/

theorem get_value_flag (env : Env) (p : Ctx) (i : Nat) (o : Opt) (tbl : List Opt)
    (h : is_flag o) :
    get_value env p i o tbl OPT_SHORT = (Rc.code 0, { p with slots := toggle p.slots o }) := by
  rcases h with h | h | h | h
  · simp [get_value, get_value_switch, h, OPT_SHORT, OPT_UNSET, toggle, setInt, getInt, store_int]
  · simp [get_value, get_value_switch, h, OPT_SHORT, OPT_UNSET, toggle, setInt, getInt, store_int]
  · simp only [get_value, get_value_switch, h, OPT_SHORT, OPT_UNSET, toggle, setInt, getInt,
      store_int]
    simp only [Nat.and_self, ne_eq, OfNat.ofNat_ne_zero, not_false_eq_true, decide_True,
      Bool.true_and, Bool.false_eq_true, false_and, ↓reduceIte, Nat.one_and_eq_mod_two,
      Nat.reduceMod, one_ne_zero, not_true_eq_false, decide_False, Bool.false_and,
      Prod.mk.injEq, true_and]
    by_cases hlt : p.slots.ints o.value < 0
    · have hm : max (p.slots.ints o.value) 0 = 0 := max_eq_right (le_of_lt hlt)
      simp [hlt, hm]
      funext a
      by_cases ha : a = o.value <;> simp [ha]
    · have hm : max (p.slots.ints o.value) 0 = p.slots.ints o.value :=
        max_eq_left (not_lt.mp hlt)
      simp [hlt, hm]
  · simp [get_value, get_value_switch, h, OPT_SHORT, OPT_UNSET, toggle, setInt, getInt, store_int]

theorem get_value_string_short (env : Env) (p : Ctx) (i : Nat) (o : Opt) (tbl : List Opt)
    (ht : o.type = OPTION_STRING) (ho : o.flags.optarg = false) :
    (∀ v, p.opt = some v → get_value env p i o tbl OPT_SHORT =
      (Rc.code 0, { p with opt := none, slots := store_str p.slots o.value (some v) })) ∧
    (p.opt = none → 1 < p.argc → get_value env p i o tbl OPT_SHORT =
      (Rc.code 0, { p with argc := p.argc - 1, argv := p.argv + 1,
                           slots := store_str p.slots o.value (some (argvAt p 1)) })) := by
  constructor
  · intro v hv
    simp [get_value, get_value_switch, ht, ho, hv, OPT_SHORT, OPT_UNSET, get_arg, setStr, store_str]
  · intro hn h1
    have h2 : ¬ p.argc = 1 := by omega
    simp [get_value, get_value_switch, ht, ho, hn, h1, h2, OPT_SHORT, OPT_UNSET, get_arg, setStr,
      store_str, argvAt, Nat.add_assoc]

/-- The loop of `parse_short_opt` dispatches the first descriptor whose
short name is the leading character of the cluster. -/
theorem parse_short_opt_from_finds (env : Env) (all : List Opt) (cur : Str) (A : Opt) :
    ∀ (pre post : List Opt) (i : Nat) (p : Ctx) (numopt : Option Opt),
      (∀ e ∈ pre, e.type ≠ OPTION_END ∧ e.short_name ≠ headCode cur) →
      A.type ≠ OPTION_END → A.short_name = headCode cur →
      parse_short_opt_from env all cur (pre ++ A :: post) i p numopt =
        get_value env { p with opt := advance cur 1 } (i + pre.length) A all OPT_SHORT := by
  intro pre
  induction pre with
  | nil =>
    intro post i p numopt _ hA hs
    simp [parse_short_opt_from, hA, hs]
  | cons e pre ih =>
    intro post i p numopt h hA hs
    have he := h e (List.mem_cons_self _ _)
    rw [List.cons_append, parse_short_opt_from, if_neg he.1, if_neg he.2,
      ih post (i + 1) p _ (fun e' he' => h e' (List.mem_cons_of_mem _ he')) hA hs]
    simp only [List.length_cons]
    rw [show i + 1 + pre.length = i + (pre.length + 1) by omega]

/-- A descriptor at index `k` of the part of the table before the end marker
splits the table. -/
theorem table_index_split :
    ∀ (tbl : List Opt) (k : Nat) (A : Opt), (table tbl)[k]? = some A →
      ∃ pre post, tbl = pre ++ A :: post ∧ pre.length = k ∧ A.type ≠ OPTION_END ∧
        (∀ e ∈ pre, e.type ≠ OPTION_END) ∧ table tbl = pre ++ A :: table post := by
  intro tbl
  induction tbl with
  | nil => intro k A h; simp [table] at h
  | cons x rest ih =>
    intro k A h
    by_cases hx : x.type = OPTION_END
    · rw [table_cons_end x rest hx] at h; simp at h
    · rw [table_cons x rest hx] at h
      cases k with
      | zero =>
        simp at h
        subst h
        exact ⟨[], rest, rfl, rfl, hx, by simp, by rw [table_cons x rest hx]; rfl⟩
      | succ k =>
        obtain ⟨pre, post, h1, h2, h3, h4, h5⟩ := ih k A (by simpa using h)
        refine ⟨x :: pre, post, by rw [h1]; rfl, by simp [h2], h3, ?_, ?_⟩
        · intro e he
          rcases List.mem_cons.mp he with rfl | he
          · exact hx
          · exact h4 e he
        · rw [table_cons x rest hx, h5]; rfl

/-- In a validated table a short name is not used twice. -/
theorem validated_short_unique (tbl pre post : List Opt) (A : Opt)
    (hval : parse_options_check tbl = false) (ht : table tbl = pre ++ A :: post)
    (h0 : A.short_name ≠ 0) : ∀ e ∈ pre, e.short_name ≠ A.short_name := by
  intro e he heq
  have hnot : ¬ parse_options_check tbl = true := by rw [hval]; decide
  apply hnot
  unfold parse_options_check
  rw [decide_eq_true_iff, parse_options_check_loop_reports]
  refine ⟨pre, A, post, ht, ?_⟩
  by_cases hlt : A.short_name < 0x7F
  · exact Or.inr ⟨h0, hlt, Or.inr ⟨e, he, heq⟩⟩
  · exact Or.inl (Or.inr (Or.inl ⟨h0, by omega⟩))

/-- In a validated table the short-option lookup of the character `x` finds
the descriptor with that short name. -/
theorem parse_short_opt_finds (env : Env) (tbl : List Opt) (k : Nat) (A : Opt) (x : Char)
    (rest : Str) (p : Ctx) (hval : parse_options_check tbl = false)
    (hA : (table tbl)[k]? = some A) (hs : A.short_name = x.toNat) (h0 : x.toNat ≠ 0) :
    parse_short_opt env { p with opt := some (x :: rest) } tbl =
      get_value env { p with opt := if rest = [] then none else some rest } k A tbl OPT_SHORT := by
  obtain ⟨pre, post, h1, h2, h3, h4, h5⟩ := table_index_split tbl k A hA
  have huniq := validated_short_unique tbl pre (table post) A hval h5 (by rw [hs]; exact h0)
  unfold parse_short_opt
  simp only
  have e := parse_short_opt_from_finds env tbl (x :: rest) A pre post 0
    { p with opt := some (x :: rest) } none
    (fun e he => ⟨h4 e he, by rw [show headCode (x :: rest) = x.toNat from rfl, ← hs]
                              exact huniq e he⟩) h3 (by rw [hs]; rfl)
  rw [← h1, Nat.zero_add, h2] at e
  rw [e]
  rfl

theorem check_typos_loop_false (cl : Str) :
    ∀ (tbl : List Opt), (∀ o ∈ table tbl, ∀ l, o.long_name = some l → ¬ cl <+: l) →
      check_typos_loop cl tbl = false := by
  intro tbl
  induction tbl with
  | nil => intro _; rfl
  | cons x rest ih =>
    intro h
    by_cases hx : x.type = OPTION_END
    · simp [check_typos_loop, hx]
    · rw [table_cons x rest hx] at h
      have hrest := ih (fun o ho => h o (List.mem_cons_of_mem _ ho))
      rw [check_typos_loop, if_neg hx]
      cases hl : x.long_name with
      | none => exact hrest
      | some l =>
        simp only
        have := h x (List.mem_cons_self _ _) l hl
        rw [if_neg (fun hc => this ((starts_with_iff _ _).mp hc))]
        exact hrest

/-- The typo heuristic stays silent for a cluster that neither starts with
`no-` nor is a prefix of a long name. -/
theorem check_typos_false (cl : Str) (tbl : List Opt) (h1 : ¬ NO <+: cl)
    (h2 : ∀ o ∈ table tbl, ∀ l, o.long_name = some l → ¬ cl <+: l) :
    check_typos cl tbl = false := by
  unfold check_typos
  split_ifs with h3 h4
  · rfl
  · exact absurd ((starts_with_iff _ _).mp h4) h1
  · exact check_typos_loop_false cl tbl h2

/-- The body of the loop of `parse_options_step` for a token `-x...` that is
a short-option cluster. -/
theorem step_token_short (env : Env) (tbl : List Opt) (fuel : Nat) (ctx : Ctx) (x : Char)
    (rest : Str) (harg : argvAt ctx 0 = '-' :: x :: rest) (hx : x ≠ '-')
    (hh : x :: rest ≠ ['h']) :
    step_token env tbl fuel ctx =
      match parse_short_opt env { ctx with opt := some (x :: rest) } tbl with
      | (Rc.abort, c) => TokStep.ret Outcome.ABORT c
      | (Rc.code n, c) =>
        if n = -1 then TokStep.ret Outcome.PARSE_OPT_ERROR c
        else if n = -2 then
          match c.opt with
          | none =>
            if ctx.flags.no_internal_help = false then TokStep.ret Outcome.ABORT c else unknown c
          | some o =>
            if check_typos (x :: rest) tbl then TokStep.ret Outcome.EXIT_129 c
            else if ctx.flags.no_internal_help = false ∧ headCode o = 'h'.toNat then
              TokStep.ret Outcome.PARSE_OPT_HELP c
            else unknown c
        else if c.opt.isSome ∧ check_typos (x :: rest) tbl then TokStep.ret Outcome.EXIT_129 c
        else short_loop env tbl fuel c := by
  unfold step_token
  simp only [harg]
  have e1 : ¬ ((('-' :: x :: rest).head? ≠ some '-') ∨ ('-' :: x :: rest).length < 2) := by simp
  have e2 : ('-' :: x :: rest).tail = x :: rest := rfl
  have e3 : x :: rest ≠ "-git-completion-helper".toList := by
    intro h
    have : x = '-' := by
      have h2 := congrArg List.head? h
      simpa using h2
    exact hx this
  have e4 : (x :: rest).head? ≠ some '-' := by simpa using hx
  rw [if_neg e1, e2, if_neg (by tauto), if_neg (by tauto), if_pos e4]
  cases parse_short_opt env { ctx with opt := some (x :: rest) } tbl with
  | mk rc c =>
    cases rc with
    | abort => rfl
    | code n =>
      simp only
      split_ifs <;> first | rfl | (cases c.opt <;> simp_all)

theorem short_loop_done (env : Env) (tbl : List Opt) (f : Nat) (p : Ctx) (h : p.opt = none) :
    short_loop env tbl (f + 1) p = TokStep.next p := by
  rw [short_loop]
  simp [h]

/-- One round of the loop over a cluster whose leading character names a
flag in a validated table. -/
theorem short_loop_flag (env : Env) (tbl : List Opt) (f k : Nat) (B : Opt) (b : Char)
    (rest : Str) (p : Ctx) (hval : parse_options_check tbl = false)
    (hB : (table tbl)[k]? = some B) (hs : B.short_name = b.toNat) (h0 : b.toNat ≠ 0)
    (hf : is_flag B) :
    short_loop env tbl (f + 1) { p with opt := some (b :: rest) } =
      short_loop env tbl f
        { p with opt := if rest = [] then none else some rest, slots := toggle p.slots B } := by
  rw [short_loop]
  simp only
  rw [parse_short_opt_finds env tbl k B b rest p hval hB hs h0, get_value_flag env _ k B tbl hf]
  simp

/-- One round of the loop over a cluster whose leading character names a
string option with a mandatory value: the rest of the cluster is the value. -/
theorem short_loop_string_inline (env : Env) (tbl : List Opt) (f k : Nat) (C : Opt) (c : Char)
    (rest : Str) (p : Ctx) (hval : parse_options_check tbl = false)
    (hC : (table tbl)[k]? = some C) (hs : C.short_name = c.toNat) (h0 : c.toNat ≠ 0)
    (ht : C.type = OPTION_STRING) (ho : C.flags.optarg = false) (hr : rest ≠ []) :
    short_loop env tbl (f + 1) { p with opt := some (c :: rest) } =
      short_loop env tbl f
        { p with opt := none, slots := store_str p.slots C.value (some rest) } := by
  rw [short_loop]
  simp only
  rw [parse_short_opt_finds env tbl k C c rest p hval hC hs h0, if_neg hr,
    (get_value_string_short env { p with opt := some rest } k C tbl ht ho).1 rest rfl]
  simp

/-- One round of the loop over a cluster that ends with a string option with
a mandatory value: the next token is the value. -/
theorem short_loop_string_next (env : Env) (tbl : List Opt) (f k : Nat) (C : Opt) (c : Char)
    (p : Ctx) (hval : parse_options_check tbl = false)
    (hC : (table tbl)[k]? = some C) (hs : C.short_name = c.toNat) (h0 : c.toNat ≠ 0)
    (ht : C.type = OPTION_STRING) (ho : C.flags.optarg = false) (hargc : 1 < p.argc) :
    short_loop env tbl (f + 1) { p with opt := some [c] } =
      short_loop env tbl f
        { p with opt := none, argc := p.argc - 1, argv := p.argv + 1,
                 slots := store_str p.slots C.value (some (argvAt p 1)) } := by
  rw [short_loop]
  simp only
  rw [parse_short_opt_finds env tbl k C c [] p hval hC hs h0, if_pos rfl,
    (get_value_string_short env { p with opt := none } k C tbl ht ho).2 rfl hargc]
  simp
  rfl

/-- The first character of a cluster names a flag of a validated table, and
the typo heuristic stays silent: the flag is applied and the loop over the
rest of the cluster starts. -/
theorem step_token_flag_first (env : Env) (tbl : List Opt) (fuel k : Nat) (A : Opt) (a : Char)
    (rest : Str) (ctx : Ctx) (hval : parse_options_check tbl = false)
    (hA : (table tbl)[k]? = some A) (hs : A.short_name = a.toNat) (h0 : a.toNat ≠ 0)
    (hf : is_flag A) (harg : argvAt ctx 0 = '-' :: a :: rest) (ha : a ≠ '-')
    (hr : rest ≠ []) (hty : check_typos (a :: rest) tbl = false) :
    step_token env tbl fuel ctx =
      short_loop env tbl fuel
        { ctx with opt := some rest, slots := toggle ctx.slots A } := by
  have hh : a :: rest ≠ ['h'] := by
    intro h
    apply hr
    simpa using (List.cons.inj h).2
  rw [step_token_short env tbl fuel ctx a rest harg ha hh,
    parse_short_opt_finds env tbl k A a rest ctx hval hA hs h0, if_neg hr,
    get_value_flag env _ k A tbl hf]
  simp [hty]

/-- C5: in a validated table with flags `-a`, `-b` and a string option `-c`
with a mandatory value, when the cluster is not taken for a mistyped long
option: the tokens `-abc V` apply `a`, then `b`, store `V` in the slot of `c`,
consume both tokens and forward nothing; the single token `-abcV` does the
same with the inline value `V` and consumes no further token.  In general the
lookup of a short option hands the rest of the cluster to value extraction
as the pending inline value, which `get_arg` returns without consuming a
token; only when the rest is empty is the next token taken. -/
theorem bundled_short_options (env : Env) (tbl : List Opt) (fuel ia ib ic : Nat)
    (A B C : Opt) (a b c : Char) (ctx : Ctx)
    (hval : parse_options_check tbl = false)
    (hA : (table tbl)[ia]? = some A) (hB : (table tbl)[ib]? = some B)
    (hC : (table tbl)[ic]? = some C)
    (hAs : A.short_name = a.toNat) (hBs : B.short_name = b.toNat) (hCs : C.short_name = c.toNat)
    (ha0 : a.toNat ≠ 0) (hb0 : b.toNat ≠ 0) (hc0 : c.toNat ≠ 0) (ha : a ≠ '-')
    (hAf : is_flag A) (hBf : is_flag B)
    (hCt : C.type = OPTION_STRING) (hCo : C.flags.optarg = false) (hfuel : 3 ≤ fuel) :
    (argvAt ctx 0 = ['-', a, b, c] → 1 < ctx.argc → ¬ NO <+: [a, b, c] →
      (∀ o ∈ table tbl, ∀ l, o.long_name = some l → ¬ [a, b, c] <+: l) →
      step_token env tbl fuel ctx =
        TokStep.next
          { ctx with opt := none, argc := ctx.argc - 1, argv := ctx.argv + 1,
                     slots := store_str (toggle (toggle ctx.slots A) B) C.value
                       (some (argvAt ctx 1)) } ∧
      parse_options_loop env tbl (fuel + 1) ctx =
        parse_options_loop env tbl fuel
          { ctx with opt := none, argc := ctx.argc - 1 - 1, argv := ctx.argv + 1 + 1,
                     slots := store_str (toggle (toggle ctx.slots A) B) C.value
                       (some (argvAt ctx 1)) }) ∧
    (∀ V : Str, V ≠ [] → argvAt ctx 0 = '-' :: a :: b :: c :: V → 0 < ctx.argc →
      ¬ NO <+: a :: b :: c :: V →
      (∀ o ∈ table tbl, ∀ l, o.long_name = some l → ¬ a :: b :: c :: V <+: l) →
      step_token env tbl fuel ctx =
        TokStep.next
          { ctx with opt := none,
                     slots := store_str (toggle (toggle ctx.slots A) B) C.value (some V) } ∧
      parse_options_loop env tbl (fuel + 1) ctx =
        parse_options_loop env tbl fuel
          { ctx with opt := none, argc := ctx.argc - 1, argv := ctx.argv + 1,
                     slots := store_str (toggle (toggle ctx.slots A) B) C.value (some V) }) ∧
    (∀ (p : Ctx) (rest : Str),
      parse_short_opt env { p with opt := some (c :: rest) } tbl =
        get_value env { p with opt := if rest = [] then none else some rest } ic C tbl OPT_SHORT ∧
      (rest ≠ [] →
        parse_short_opt env { p with opt := some (c :: rest) } tbl =
          (Rc.code 0, { p with opt := none, slots := store_str p.slots C.value (some rest) })) ∧
      (rest = [] → 1 < p.argc →
        parse_short_opt env { p with opt := some (c :: rest) } tbl =
          (Rc.code 0, { p with opt := none, argc := p.argc - 1, argv := p.argv + 1,
                               slots := store_str p.slots C.value (some (argvAt p 1)) }))) := by
  obtain ⟨f, rfl⟩ : ∃ f, fuel = f + 3 := ⟨fuel - 3, by omega⟩
  refine ⟨?_, ?_, ?_⟩
  · intro harg hargc hno hlong
    have hty := check_typos_false [a, b, c] tbl hno hlong
    have hstep : ∀ g, step_token env tbl (g + 3) ctx =
        TokStep.next
          { ctx with opt := none, argc := ctx.argc - 1, argv := ctx.argv + 1,
                     slots := store_str (toggle (toggle ctx.slots A) B) C.value
                       (some (argvAt ctx 1)) } := by
      intro g
      have s1 := step_token_flag_first env tbl (g + 3) ia A a [b, c] ctx hval hA hAs ha0 hAf
        harg ha (by simp) hty
      have s2 := short_loop_flag env tbl (g + 2) ib B b [c]
        { ctx with slots := toggle ctx.slots A } hval hB hBs hb0 hBf
      have s3 := short_loop_string_next env tbl (g + 1) ic C c
        { ctx with slots := toggle (toggle ctx.slots A) B } hval hC hCs hc0 hCt hCo hargc
      have s4 := short_loop_done env tbl g
        { ctx with opt := none, argc := ctx.argc - 1, argv := ctx.argv + 1,
                   slots := store_str (toggle (toggle ctx.slots A) B) C.value
                     (some (argvAt ctx 1)) } rfl
      simp only [List.cons_ne_nil, if_false] at s2
      exact s1.trans (s2.trans (s3.trans s4))
    refine ⟨hstep f, ?_⟩
    rw [parse_options_loop, if_neg (by omega), hstep (f + 1)]
  · intro V hV harg hargc hno hlong
    have hty := check_typos_false (a :: b :: c :: V) tbl hno hlong
    have hstep : ∀ g, step_token env tbl (g + 3) ctx =
        TokStep.next
          { ctx with opt := none,
                     slots := store_str (toggle (toggle ctx.slots A) B) C.value (some V) } := by
      intro g
      have s1 := step_token_flag_first env tbl (g + 3) ia A a (b :: c :: V) ctx hval hA hAs ha0
        hAf harg ha (by simp) hty
      have s2 := short_loop_flag env tbl (g + 2) ib B b (c :: V)
        { ctx with slots := toggle ctx.slots A } hval hB hBs hb0 hBf
      have s3 := short_loop_string_inline env tbl (g + 1) ic C c V
        { ctx with slots := toggle (toggle ctx.slots A) B } hval hC hCs hc0 hCt hCo hV
      have s4 := short_loop_done env tbl g
        { ctx with opt := none,
                   slots := store_str (toggle (toggle ctx.slots A) B) C.value (some V) } rfl
      simp only [List.cons_ne_nil, if_false] at s2
      exact s1.trans (s2.trans (s3.trans s4))
    refine ⟨hstep f, ?_⟩
    rw [parse_options_loop, if_neg (by omega), hstep (f + 1)]
  · intro p rest
    have hfind := parse_short_opt_finds env tbl ic C c rest p hval hC hCs hc0
    refine ⟨hfind, fun hr => ?_, fun hr hargc => ?_⟩
    · rw [hfind, if_neg hr,
        (get_value_string_short env { p with opt := some rest } ic C tbl hCt hCo).1 rest rfl]
    · rw [hfind, if_pos hr,
        (get_value_string_short env { p with opt := none } ic C tbl hCt hCo).2 rfl hargc]
      rfl

/-- C5 instantiated: `-abc VALUE` sets `a`, counts `b`, stores `VALUE` for
`c` and consumes both tokens. -/
theorem bundled_short_options_witness :
    step_token sampleEnv abcTable 3 (sampleCtx ["prog", "-abc", "VALUE", "x"] {}) =
      TokStep.next
        { sampleCtx ["prog", "-abc", "VALUE", "x"] {} with
          opt := none, argc := 2, argv := 2,
          slots := store_str (toggle (toggle zeroSlots flagA) flagB) 0 (some "VALUE".toList) } :=
  ((bundled_short_options sampleEnv abcTable 3 0 1 2 flagA flagB stringC 'a' 'b' 'c'
    (sampleCtx ["prog", "-abc", "VALUE", "x"] {}) (by decide) rfl rfl rfl rfl rfl rfl
    (by decide) (by decide) (by decide) (by decide) (Or.inl rfl) (Or.inr (Or.inr (Or.inl rfl)))
    rfl rfl (le_refl _)).1 rfl (by decide) (by decide) (by decide)).1

/-! ### The numeric suffix -/

theorem isdigit_range (c : Char) (h : isdigit c = true) : 48 ≤ c.toNat ∧ c.toNat ≤ 57 := by
  simp only [isdigit, Bool.and_eq_true, decide_eq_true_eq] at h
  obtain ⟨h1, h2⟩ := h
  have e1 : ('0' : Char).toNat = 48 := rfl
  have e2 : ('9' : Char).toNat = 57 := rfl
  have a1 : ('0' : Char).toNat ≤ c.toNat := h1
  have a2 : c.toNat ≤ ('9' : Char).toNat := h2
  omega

theorem isdigit_ne (c x : Char) (h : isdigit c = true) (hx : x.toNat < 48 ∨ 57 < x.toNat) :
    c ≠ x := by
  intro e
  subst e
  have := isdigit_range c h
  omega

/-- Every descriptor of the part of the table before the end marker is not
the end marker. -/
theorem table_mem_ne_end (tbl : List Opt) (o : Opt) (h : o ∈ table tbl) :
    o.type ≠ OPTION_END := by
  have := List.mem_takeWhile_imp h
  simpa using this

/-- What follows the part of the table before the end marker is nothing or
starts with the end marker. -/
theorem table_append_rest (tbl : List Opt) :
    ∃ tail, tbl = table tbl ++ tail ∧ (tail = [] ∨ ∃ e t, tail = e :: t ∧ e.type = OPTION_END) := by
  refine ⟨tbl.dropWhile (fun o => o.type ≠ OPTION_END), (List.takeWhile_append_dropWhile _ _).symm,
    ?_⟩
  cases h : tbl.dropWhile (fun o => o.type ≠ OPTION_END) with
  | nil => exact Or.inl rfl
  | cons e t =>
    refine Or.inr ⟨e, t, rfl, ?_⟩
    have := List.head_dropWhile_not (fun o : Opt => decide (o.type ≠ OPTION_END)) tbl
      (by rw [h]; simp)
    simp only [h, List.head_cons] at this
    simpa using this

/-- The loop of `parse_short_opt` over descriptors none of which has the
leading character as short name and none of which is a Numeric-suffix
descriptor leaves `numopt` as it was. -/
theorem parse_short_opt_from_skip (env : Env) (all : List Opt) (cur : Str) :
    ∀ (post tail : List Opt) (i : Nat) (p : Ctx) (numopt : Option Opt),
      (∀ e ∈ post, e.type ≠ OPTION_END ∧ e.type ≠ OPTION_NUMBER ∧ e.short_name ≠ headCode cur) →
      (tail = [] ∨ ∃ e t, tail = e :: t ∧ e.type = OPTION_END) →
      parse_short_opt_from env all cur (post ++ tail) i p numopt =
        parse_short_opt_end env cur p numopt := by
  intro post
  induction post with
  | nil =>
    intro tail i p numopt _ ht
    rcases ht with rfl | ⟨e, t, rfl, he⟩
    · rfl
    · simp [parse_short_opt_from, he]
  | cons e post ih =>
    intro tail i p numopt h ht
    have he := h e (List.mem_cons_self _ _)
    rw [List.cons_append, parse_short_opt_from, if_neg he.1, if_neg he.2.2, if_neg he.2.1,
      ih tail (i + 1) p numopt (fun e' he' => h e' (List.mem_cons_of_mem _ he')) ht]

/-- The loop of `parse_short_opt` when no descriptor has the leading
character as short name: `numopt` ends as the last Numeric-suffix
descriptor. -/
theorem parse_short_opt_from_number (env : Env) (all : List Opt) (cur : Str) (N : Opt) :
    ∀ (pre post tail : List Opt) (i : Nat) (p : Ctx) (numopt : Option Opt),
      (∀ e ∈ pre, e.type ≠ OPTION_END ∧ e.short_name ≠ headCode cur) →
      N.type = OPTION_NUMBER → N.short_name ≠ headCode cur →
      (∀ e ∈ post, e.type ≠ OPTION_END ∧ e.type ≠ OPTION_NUMBER ∧ e.short_name ≠ headCode cur) →
      (tail = [] ∨ ∃ e t, tail = e :: t ∧ e.type = OPTION_END) →
      parse_short_opt_from env all cur (pre ++ N :: (post ++ tail)) i p numopt =
        parse_short_opt_end env cur p (some N) := by
  intro pre
  induction pre with
  | nil =>
    intro post tail i p numopt _ hN hNs hpost ht
    have hNe : N.type ≠ OPTION_END := by rw [hN]; decide
    rw [List.nil_append, parse_short_opt_from, if_neg hNe, if_neg hNs, if_pos hN,
      parse_short_opt_from_skip env all cur post tail (i + 1) p (some N) hpost ht]
  | cons e pre ih =>
    intro post tail i p numopt h hN hNs hpost ht
    have he := h e (List.mem_cons_self _ _)
    rw [List.cons_append, parse_short_opt_from, if_neg he.1, if_neg he.2,
      ih post tail (i + 1) p _ (fun e' he' => h e' (List.mem_cons_of_mem _ he')) hN hNs hpost ht]

/-- The digits branch of `parse_short_opt` on a cluster that is a maximal run
of digits `d :: ds` followed by `rest`. -/
theorem parse_short_opt_end_digits (env : Env) (p : Ctx) (N : Opt) (d : Char) (ds rest : Str)
    (hd : isdigit d = true) (hds : ∀ c ∈ ds, isdigit c = true)
    (hrest : ∀ c, rest.head? = some c → isdigit c = false) :
    parse_short_opt_end env (d :: (ds ++ rest)) p (some N) =
      call_callback env { p with opt := if rest = [] then none else some rest } N
        (some (d :: ds)) false := by
  have htw : (ds ++ rest).takeWhile isdigit = ds := by
    cases rest with
    | nil =>
      rw [List.append_nil]
      exact List.takeWhile_eq_self_iff.mpr hds
    | cons x v => exact takeWhile_append_stop isdigit ds v x hds (hrest x rfl)
  simp only [parse_short_opt_end, hd, if_true, htw, advance]
  have e1 : (d :: (ds ++ rest)).drop (1 + ds.length) = rest := by
    rw [Nat.add_comm]
    simp
  have e2 : (d :: (ds ++ rest)).take (1 + ds.length) = d :: ds := by
    rw [Nat.add_comm]
    simp
  rw [e1, e2]

/-- In a table without a descriptor named by the leading digit,
`parse_short_opt` calls the callback of the last Numeric-suffix descriptor
with the maximal run of leading digits. -/
theorem parse_short_opt_number (env : Env) (tbl pre post : List Opt) (N : Opt) (d : Char)
    (ds rest : Str) (p : Ctx)
    (ht : table tbl = pre ++ N :: post) (hN : N.type = OPTION_NUMBER)
    (hlast : ∀ o ∈ post, o.type ≠ OPTION_NUMBER)
    (hnone : ∀ o ∈ table tbl, o.short_name ≠ d.toNat)
    (hd : isdigit d = true) (hds : ∀ c ∈ ds, isdigit c = true)
    (hrest : ∀ c, rest.head? = some c → isdigit c = false) :
    parse_short_opt env { p with opt := some (d :: (ds ++ rest)) } tbl =
      call_callback env { p with opt := if rest = [] then none else some rest } N
        (some (d :: ds)) false := by
  obtain ⟨tail, h1, h2⟩ := table_append_rest tbl
  rw [ht, List.append_assoc, List.cons_append] at h1
  have hmem : ∀ o, o ∈ pre ∨ o = N ∨ o ∈ post → o ∈ table tbl := by
    intro o ho
    rw [ht]
    simp only [List.mem_append, List.mem_cons]
    tauto
  have e := parse_short_opt_from_number env tbl (d :: (ds ++ rest)) N pre post tail 0
    { p with opt := some (d :: (ds ++ rest)) } none
    (fun e he => ⟨table_mem_ne_end tbl e (hmem e (Or.inl he)), hnone e (hmem e (Or.inl he))⟩)
    hN (hnone N (hmem N (Or.inr (Or.inl rfl))))
    (fun e he => ⟨table_mem_ne_end tbl e (hmem e (Or.inr (Or.inr he))), hlast e he,
      hnone e (hmem e (Or.inr (Or.inr he)))⟩) h2
  rw [← h1] at e
  unfold parse_short_opt
  simp only
  rw [e, parse_short_opt_end_digits env _ N d ds rest hd hds hrest]

/-- The body of the loop of `parse_options_step` for a token `-<digits><rest>`
when the Numeric-suffix callback accepts the digits and the typo heuristic
stays silent: the loop over the rest of the cluster starts. -/
theorem step_token_number (env : Env) (tbl pre post : List Opt) (N : Opt) (d : Char)
    (ds rest : Str) (fuel : Nat) (ctx : Ctx)
    (ht : table tbl = pre ++ N :: post) (hN : N.type = OPTION_NUMBER)
    (hlast : ∀ o ∈ post, o.type ≠ OPTION_NUMBER)
    (hnone : ∀ o ∈ table tbl, o.short_name ≠ d.toNat)
    (hd : isdigit d = true) (hds : ∀ c ∈ ds, isdigit c = true)
    (hrest : ∀ c, rest.head? = some c → isdigit c = false)
    (harg : argvAt ctx 0 = '-' :: d :: (ds ++ rest))
    (hcb : (env.callback N (some (d :: ds)) false ctx.slots).1 = 0)
    (hty : rest = [] ∨ check_typos (d :: (ds ++ rest)) tbl = false) :
    step_token env tbl fuel ctx =
      short_loop env tbl fuel
        { ctx with opt := if rest = [] then none else some rest,
                   slots := (env.callback N (some (d :: ds)) false ctx.slots).2,
                   calls := ctx.calls ++ [{ opt := N, arg := some (d :: ds), unset := false }] } := by
  have hdash : d ≠ '-' := isdigit_ne d '-' hd (Or.inl (by decide))
  have hh : d :: (ds ++ rest) ≠ ['h'] := by
    intro h
    exact isdigit_ne d 'h' hd (Or.inr (by decide)) (List.cons.inj h).1
  rw [step_token_short env tbl fuel ctx d (ds ++ rest) harg hdash hh,
    parse_short_opt_number env tbl pre post N d ds rest ctx ht hN hlast hnone hd hds hrest]
  simp only [call_callback, hcb]
  rcases hty with hr | hty
  · simp [hr]
  · simp [hty]

/-- C6 (amended): in a validated table whose last Numeric-suffix descriptor
is `N` and in which no descriptor has the leading digit `d` as short name,
`parse_short_opt` on a cluster that is the maximal digit run `d :: ds`
followed by `rest` calls the callback of `N` exactly once, with that run, and
leaves the cursor on `rest`.  When the callback returns zero and the typo
heuristic stays silent (nothing is left, or the cluster is shorter than three
characters, or no long name begins with it), the loop of
`parse_options_step` goes on with `rest` as a cluster of ordinary short
options: a token of digits only is done, and digits followed by a flag `x`
also apply `x`.  A descriptor whose short name is the digit is looked up
instead of the Numeric-suffix descriptor. -/
theorem numeric_suffix_greedy (env : Env) (tbl pre post : List Opt) (N : Opt) (d : Char)
    (ds rest : Str) (fuel : Nat)
    (hval : parse_options_check tbl = false)
    (ht : table tbl = pre ++ N :: post) (hN : N.type = OPTION_NUMBER)
    (hlast : ∀ o ∈ post, o.type ≠ OPTION_NUMBER)
    (hd : isdigit d = true) (hds : ∀ c ∈ ds, isdigit c = true)
    (hrest : ∀ c, rest.head? = some c → isdigit c = false) :
    ((∀ o ∈ table tbl, o.short_name ≠ d.toNat) →
      (∀ p : Ctx,
        parse_short_opt env { p with opt := some (d :: (ds ++ rest)) } tbl =
          (Rc.code (if (env.callback N (some (d :: ds)) false p.slots).1 ≠ 0 then -1 else 0),
            { p with opt := if rest = [] then none else some rest,
                     slots := (env.callback N (some (d :: ds)) false p.slots).2,
                     calls := p.calls ++
                       [{ opt := N, arg := some (d :: ds), unset := false }] })) ∧
      (∀ ctx : Ctx, argvAt ctx 0 = '-' :: d :: (ds ++ rest) →
        (env.callback N (some (d :: ds)) false ctx.slots).1 = 0 →
        (rest = [] ∨ (d :: (ds ++ rest)).length < 3 ∨
          ∀ o ∈ table tbl, ∀ l, o.long_name = some l → ¬ (d :: (ds ++ rest)) <+: l) →
        step_token env tbl fuel ctx =
          short_loop env tbl fuel
            { ctx with opt := if rest = [] then none else some rest,
                       slots := (env.callback N (some (d :: ds)) false ctx.slots).2,
                       calls := ctx.calls ++
                         [{ opt := N, arg := some (d :: ds), unset := false }] } ∧
        (rest = [] →
          step_token env tbl (fuel + 1) ctx =
            TokStep.next
              { ctx with opt := none,
                         slots := (env.callback N (some (d :: ds)) false ctx.slots).2,
                         calls := ctx.calls ++
                           [{ opt := N, arg := some (d :: ds), unset := false }] }) ∧
        (∀ (k : Nat) (X : Opt) (x : Char), rest = [x] → (table tbl)[k]? = some X →
          X.short_name = x.toNat → x.toNat ≠ 0 → is_flag X →
          step_token env tbl (fuel + 2) ctx =
            TokStep.next
              { ctx with opt := none,
                         slots := toggle (env.callback N (some (d :: ds)) false ctx.slots).2 X,
                         calls := ctx.calls ++
                           [{ opt := N, arg := some (d :: ds), unset := false }] }))) ∧
    (∀ (k : Nat) (D : Opt) (tl : Str) (p : Ctx), (table tbl)[k]? = some D →
      D.short_name = d.toNat →
      parse_short_opt env { p with opt := some (d :: tl) } tbl =
        get_value env { p with opt := if tl = [] then none else some tl } k D tbl OPT_SHORT ∧
      (is_flag D →
        parse_short_opt env { p with opt := some (d :: tl) } tbl =
          (Rc.code 0, { p with opt := if tl = [] then none else some tl,
                               slots := toggle p.slots D }))) := by
  have hd0 : d.toNat ≠ 0 := by
    have := isdigit_range d hd
    omega
  refine ⟨fun hnone => ⟨fun p => ?_, fun ctx harg hcb hty => ?_⟩, fun k D tl p hD hDs => ?_⟩
  · rw [parse_short_opt_number env tbl pre post N d ds rest p ht hN hlast hnone hd hds hrest]
    rfl
  · have hty2 : rest = [] ∨ check_typos (d :: (ds ++ rest)) tbl = false := by
      rcases hty with h | h | h
      · exact Or.inl h
      · right
        unfold check_typos
        rw [if_pos h]
      · right
        refine check_typos_false _ tbl ?_ h
        rintro ⟨u, hu⟩
        exact isdigit_ne d 'n' hd (Or.inr (by decide)) (List.cons.inj hu).1.symm
    have hstep : ∀ g, step_token env tbl g ctx =
        short_loop env tbl g
          { ctx with opt := if rest = [] then none else some rest,
                     slots := (env.callback N (some (d :: ds)) false ctx.slots).2,
                     calls := ctx.calls ++
                       [{ opt := N, arg := some (d :: ds), unset := false }] } :=
      fun g => step_token_number env tbl pre post N d ds rest g ctx ht hN hlast hnone hd hds
        hrest harg hcb hty2
    refine ⟨hstep fuel, fun hr => ?_, fun k X x hr hX hXs hx0 hXf => ?_⟩
    · rw [hstep (fuel + 1), if_pos hr]
      exact short_loop_done env tbl fuel _ rfl
    · rw [hstep (fuel + 2), hr, if_neg (by simp)]
      have s2 := short_loop_flag env tbl (fuel + 1) k X x []
        { ctx with slots := (env.callback N (some (d :: ds)) false ctx.slots).2,
                   calls := ctx.calls ++
                     [{ opt := N, arg := some (d :: ds), unset := false }] } hval hX hXs hx0 hXf
      simp only [if_true] at s2
      exact s2.trans (short_loop_done env tbl fuel _ rfl)
  · have hfind := parse_short_opt_finds env tbl k D d tl p hval hD hDs hd0
    refine ⟨hfind, fun hf => ?_⟩
    rw [hfind, get_value_flag env _ k D tbl hf]

/-- C6 instantiated: the token `-32x` passes `32` to the Numeric-suffix
callback and then applies the flag `x`. -/
theorem numeric_suffix_greedy_witness :
    step_token sampleEnv numTable 2 (sampleCtx ["prog", "-32x"] {}) =
      TokStep.next
        { sampleCtx ["prog", "-32x"] {} with
          opt := none, slots := toggle zeroSlots flagX,
          calls := [{ opt := numberOpt, arg := some ['3', '2'], unset := false }] } :=
  ((numeric_suffix_greedy sampleEnv numTable [] [flagX] numberOpt '3' ['2'] ['x'] 0 (by decide)
    (by decide) rfl (by decide) (by decide) (by decide) (by decide)).1 (by decide)).2
    (sampleCtx ["prog", "-32x"] {}) rfl rfl (Or.inr (Or.inr (by decide)))
    |>.2.2 1 flagX 'x' rfl rfl rfl (by decide) (Or.inl rfl)

/-- C6, the claim as worded fails: the table has a Numeric-suffix
descriptor, the flag `-x`, no descriptor with the short name `3`, and a long
option `--32x-mode`.  The token `-32x` passes `32` to the callback, and then
the typo heuristic ends the process with status 129 (the cluster is a prefix
of a long name): the cursor still stands on `x`, and `x` was not applied. -/
theorem numeric_suffix_rest_not_matched :
    parse_options_check numTypoTable = false ∧
    table numTypoTable = [numberOpt, flagX, longDigits] ∧
    (∀ o ∈ table numTypoTable, o.short_name ≠ '3'.toNat) ∧
    is_flag flagX ∧ flagX.short_name = 'x'.toNat ∧
    step_token sampleEnv numTypoTable 3 (sampleCtx ["prog", "-32x"] {}) =
      TokStep.ret Outcome.EXIT_129
        { sampleCtx ["prog", "-32x"] {} with
          opt := some ['x'], slots := zeroSlots,
          calls := [{ opt := numberOpt, arg := some ['3', '2'], unset := false }] } := by
  refine ⟨by decide, by decide, by decide, Or.inl rfl, rfl, rfl⟩

/-! ### The output partition -/

theorem partition_mid_of_geom (orig : List (Option Str)) (flags : ParseFlags) (k : Nat)
    (p q : Ctx) (h : geom q = geom p) (hp : partition_mid orig flags k p) :
    partition_mid orig flags k q := by
  simp only [geom, Prod.mk.injEq] at h
  obtain ⟨h1, h2, h3, h4, h5⟩ := h
  unfold partition_mid at hp ⊢
  rw [h1, h2, h3, h4, h5]
  exact hp

theorem drop_succ_of_drop {α : Type} (a b : List α) (n : Nat) (h : a.drop n = b.drop n) :
    a.drop (n + 1) = b.drop (n + 1) := by
  have := congrArg (List.drop 1) h
  simpa [List.drop_drop, Nat.add_comm] using this

theorem partition_mid_of_consumes (orig : List (Option Str)) (flags : ParseFlags) (k : Nat)
    (p q : Ctx) (h : consumes p q) (hp : partition_mid orig flags k p) :
    partition_mid orig flags k q := by
  rcases h with h | ⟨hc, h⟩
  · exact partition_mid_of_geom orig flags k p q h hp
  · simp only [geom, Prod.mk.injEq] at h
    obtain ⟨h1, h2, h3, h4, h5⟩ := h
    obtain ⟨a1, a2, a3, a4, a5, a6⟩ := hp
    unfold partition_mid
    rw [h1, h2, h3, h4, h5]
    refine ⟨a1, drop_succ_of_drop _ _ _ a2, by omega, by omega, by omega, a6⟩

theorem partition_mid_mono (orig : List (Option Str)) (flags : ParseFlags) (k : Nat)
    (p : Ctx) (hp : partition_mid orig flags 0 p) : partition_mid orig flags k p := by
  obtain ⟨a1, a2, a3, a4, a5, a6⟩ := hp
  exact ⟨a1, a2, by omega, a4, a5, a6⟩

theorem consumes_refl (p : Ctx) : consumes p p := Or.inl rfl

theorem consumes_of_geom (p q r : Ctx) (h : geom r = geom q) (hq : consumes p q) :
    consumes p r := by
  rcases hq with hq | ⟨hc, hq⟩
  · exact Or.inl (h.trans hq)
  · exact Or.inr ⟨hc, h.trans hq⟩

theorem consumes_of_geom_left (p q r : Ctx) (h : geom q = geom p) (hq : consumes q r) :
    consumes p r := by
  have h' := h
  simp only [geom, Prod.mk.injEq] at h'
  obtain ⟨h1, h2, h3, h4, h5⟩ := h'
  rcases hq with hq | ⟨hc, hq⟩
  · exact Or.inl (hq.trans h)
  · refine Or.inr ⟨by omega, ?_⟩
    rw [hq, h1, h2, h3, h4, h5]

theorem geom_error (p : Ctx) (m : Msg) : geom (error p m).2 = geom p := rfl

theorem geom_setInt (p : Ctx) (s : Nat) (v : Int) : geom (setInt p s v) = geom p := rfl

theorem geom_setStr (p : Ctx) (s : Nat) (v : Option Str) : geom (setStr p s v) = geom p := rfl

theorem geom_call_callback (env : Env) (p : Ctx) (o : Opt) (a : Option Str) (u : Bool) :
    geom (call_callback env p o a u).2 = geom p := rfl

theorem geom_fix_filename (env : Env) (p : Ctx) (f : Nat) :
    geom (fix_filename env p f) = geom p := by
  unfold fix_filename
  split
  · split_ifs <;> rfl
  · rfl

theorem geom_opt_command_mode_error_from (p : Ctx) (i : Nat) (o : Opt) (fl : Nat) :
    ∀ (l : List Opt) (j : Nat), geom (opt_command_mode_error_from p i o fl l j).2 = geom p := by
  intro l
  induction l with
  | nil => intro j; rfl
  | cons x rest ih =>
    intro j
    rw [opt_command_mode_error_from]
    split_ifs
    · rfl
    · exact ih (j + 1)
    · rfl

theorem consumes_get_arg (p : Ctx) (o : Opt) (fl : Nat) : consumes p (get_arg p o fl).2.2 := by
  unfold get_arg
  cases p.opt with
  | some v => exact Or.inl rfl
  | none =>
    simp only
    split_ifs with h1 h2
    · exact Or.inl rfl
    · exact Or.inr ⟨h2, rfl⟩
    · exact Or.inl rfl

theorem consumes_get_value_switch (env : Env) (p : Ctx) (i : Nat) (o : Opt) (tbl : List Opt)
    (fl : Nat) (h : o.type ≠ OPTION_LOWLEVEL_CALLBACK) :
    consumes p (get_value_switch env p i o tbl fl).2 := by
  have hga := consumes_get_arg p o fl
  cases ht : o.type with
  | OPTION_LOWLEVEL_CALLBACK => exact absurd ht h
  | OPTION_BIT => simp only [get_value_switch, ht]; split_ifs <;> exact Or.inl rfl
  | OPTION_NEGBIT => simp only [get_value_switch, ht]; split_ifs <;> exact Or.inl rfl
  | OPTION_COUNTUP =>
    simp only [get_value_switch, ht]
    split_ifs <;> exact Or.inl rfl
  | OPTION_SET_INT => simp only [get_value_switch, ht]; exact Or.inl rfl
  | OPTION_CMDMODE =>
    simp only [get_value_switch, ht]; split_ifs
    · exact Or.inl (geom_opt_command_mode_error_from p i o fl tbl 0)
    · exact Or.inl rfl
  | OPTION_STRING =>
    simp only [get_value_switch, ht]
    split_ifs
    · exact Or.inl rfl
    · exact Or.inl rfl
    · exact consumes_of_geom _ _ _ rfl hga
    · exact hga
  | OPTION_FILENAME =>
    simp only [get_value_switch, ht]
    split_ifs <;> first
      | exact Or.inl rfl
      | exact Or.inl (geom_fix_filename env _ _)
      | exact hga
      | exact consumes_of_geom _ _ _ rfl hga
      | exact consumes_of_geom _ _ _ (geom_fix_filename env _ _) (consumes_of_geom _ _ _ rfl hga)
  | OPTION_CALLBACK =>
    simp only [get_value_switch, ht]
    split_ifs <;> first
      | exact Or.inl rfl
      | exact hga
  | OPTION_INTEGER =>
    simp only [get_value_switch, ht]
    split_ifs
    · exact Or.inl rfl
    · exact Or.inl rfl
    · exact hga
    · split
      · exact hga
      · split_ifs
        · exact consumes_of_geom _ _ _ rfl hga
        · exact consumes_of_geom _ _ _ rfl hga
  | OPTION_MAGNITUDE =>
    simp only [get_value_switch, ht]
    split_ifs
    · exact Or.inl rfl
    · exact Or.inl rfl
    · exact hga
    · split
      · exact consumes_of_geom _ _ _ rfl hga
      · exact consumes_of_geom _ _ _ rfl hga
  | OPTION_END => simp only [get_value_switch, ht]; exact Or.inl rfl
  | OPTION_ARGUMENT => simp only [get_value_switch, ht]; exact Or.inl rfl
  | OPTION_GROUP => simp only [get_value_switch, ht]; exact Or.inl rfl
  | OPTION_NUMBER => simp only [get_value_switch, ht]; exact Or.inl rfl

/-- The value extraction of a descriptor that is not a low-level callback
leaves the argument array alone and consumes at most the next token. -/
theorem consumes_get_value (env : Env) (p : Ctx) (i : Nat) (o : Opt) (tbl : List Opt) (fl : Nat)
    (h : o.type ≠ OPTION_LOWLEVEL_CALLBACK) : consumes p (get_value env p i o tbl fl).2 := by
  unfold get_value
  simp only
  split_ifs
  · exact Or.inl rfl
  · exact Or.inl rfl
  · exact Or.inl rfl
  · exact consumes_get_value_switch env p i o tbl fl h

/-- The value extraction keeps the output partition, when the low-level
callback of the descriptor, if it is one, does. -/
theorem partition_get_value (env : Env) (p : Ctx) (i : Nat) (o : Opt) (tbl : List Opt) (fl : Nat)
    (orig : List (Option Str)) (flags : ParseFlags)
    (hll : o.type = OPTION_LOWLEVEL_CALLBACK → ∀ (u : Bool) (q : Ctx),
      partition_mid orig flags 0 q → partition_mid orig flags 0 (env.ll_callback o u q).2)
    (hp : partition_mid orig flags 0 p) :
    partition_mid orig flags 0 (get_value env p i o tbl fl).2 := by
  by_cases h : o.type = OPTION_LOWLEVEL_CALLBACK
  · unfold get_value
    simp only
    split_ifs
    · exact partition_mid_of_geom orig flags 0 p _ rfl hp
    · exact partition_mid_of_geom orig flags 0 p _ rfl hp
    · exact partition_mid_of_geom orig flags 0 p _ rfl hp
    · simp only [get_value_switch, h]
      exact hll h _ p hp
  · exact partition_mid_of_consumes orig flags 0 p _ (consumes_get_value env p i o tbl fl h) hp

/-- Forwarding a token to the output region moves the output cursor at most
one beyond the read cursor and leaves the later tokens alone. -/
theorem partition_forward (orig : List (Option Str)) (flags : ParseFlags) (p q : Ctx)
    (x : Option Str) (hp : partition_mid orig flags 0 p) (h1 : q.buf = p.buf.set p.cpidx x)
    (h2 : q.cpidx = p.cpidx + 1) (h3 : q.argv = p.argv) (h4 : q.argc = p.argc)
    (h5 : q.flags = p.flags) : partition_mid orig flags 1 q := by
  obtain ⟨a1, a2, a3, a4, a5, a6⟩ := hp
  unfold partition_mid
  rw [h1, h2, h3, h4, h5, List.length_set, List.drop_set_of_lt _ _ (by omega)]
  exact ⟨a1, a2, by omega, a4, a5, a6⟩

/-- Rewriting the current token leaves the output partition as it is. -/
theorem partition_rewrite_current (orig : List (Option Str)) (flags : ParseFlags) (p : Ctx)
    (x : Option Str) (hp : partition_mid orig flags 0 p) :
    partition_mid orig flags 0 { p with buf := p.buf.set p.argv x } := by
  obtain ⟨a1, a2, a3, a4, a5, a6⟩ := hp
  unfold partition_mid
  simp only [List.length_set]
  rw [List.drop_set_of_lt _ _ (by omega)]
  exact ⟨a1, a2, a3, a4, a5, a6⟩

theorem partition_parse_short_opt_from (env : Env) (all : List Opt) (cur : Str)
    (orig : List (Option Str)) (flags : ParseFlags) :
    ∀ (l : List Opt) (i : Nat) (p : Ctx) (numopt : Option Opt),
      (∀ o ∈ table l, ll_keeps env orig flags o) → partition_mid orig flags 0 p →
      partition_mid orig flags 0 (parse_short_opt_from env all cur l i p numopt).2 := by
  have hend : ∀ (p : Ctx) (numopt : Option Opt), partition_mid orig flags 0 p →
      partition_mid orig flags 0 (parse_short_opt_end env cur p numopt).2 := by
    intro p numopt hp
    unfold parse_short_opt_end
    split
    · split_ifs
      · exact partition_mid_of_geom orig flags 0 p _ rfl hp
      · exact hp
    · exact hp
  intro l
  induction l with
  | nil => intro i p numopt _ hp; exact hend p numopt hp
  | cons o rest ih =>
    intro i p numopt hl hp
    rw [parse_short_opt_from]
    split_ifs with h1 h2
    · exact hend p numopt hp
    · refine partition_get_value env _ i o all OPT_SHORT orig flags ?_
        (partition_mid_of_geom orig flags 0 p _ rfl hp)
      exact hl o (by rw [table_cons o rest h1]; exact List.mem_cons_self _ _)
    · exact ih (i + 1) p _
        (fun o' ho' => hl o' (by rw [table_cons o rest h1]; exact List.mem_cons_of_mem _ ho')) hp
    · exact ih (i + 1) p _
        (fun o' ho' => hl o' (by rw [table_cons o rest h1]; exact List.mem_cons_of_mem _ ho')) hp

/-- The short-option matcher keeps the output partition. -/
theorem partition_parse_short_opt (env : Env) (tbl : List Opt) (orig : List (Option Str))
    (flags : ParseFlags) (p : Ctx) (hll : ll_keeps_partition env tbl orig flags)
    (hp : partition_mid orig flags 0 p) :
    partition_mid orig flags 0 (parse_short_opt env p tbl).2 := by
  unfold parse_short_opt
  cases p.opt with
  | none => exact hp
  | some cur => exact partition_parse_short_opt_from env tbl cur orig flags tbl 0 p none hll hp

theorem partition_parse_nodash_opt_from (env : Env) (all : List Opt) (p : Ctx) (arg : Str)
    (orig : List (Option Str)) (flags : ParseFlags) (hp : partition_mid orig flags 0 p) :
    ∀ (l : List Opt) (i : Nat), (∀ o ∈ table l, ll_keeps env orig flags o) →
      partition_mid orig flags 0 (parse_nodash_opt_from env all p arg l i).2 := by
  intro l
  induction l with
  | nil => intro i _; exact hp
  | cons o rest ih =>
    intro i hl
    rw [parse_nodash_opt_from]
    have hrest : o.type ≠ OPTION_END → ∀ o' ∈ table rest, ll_keeps env orig flags o' :=
      fun h1 o' ho' => hl o' (by rw [table_cons o rest h1]; exact List.mem_cons_of_mem _ ho')
    split_ifs with h1 h2 h3
    · exact hp
    · exact partition_get_value env p i o all OPT_SHORT orig flags
        (hl o (by rw [table_cons o rest h1]; exact List.mem_cons_self _ _)) hp
    · exact ih (i + 1) (hrest h1)
    · exact ih (i + 1) (hrest h1)

/-- The dashless matcher keeps the output partition. -/
theorem partition_parse_nodash_opt (env : Env) (tbl : List Opt) (orig : List (Option Str))
    (flags : ParseFlags) (p : Ctx) (arg : Str) (hll : ll_keeps_partition env tbl orig flags)
    (hp : partition_mid orig flags 0 p) :
    partition_mid orig flags 0 (parse_nodash_opt env p arg tbl).2 :=
  partition_parse_nodash_opt_from env tbl p arg orig flags hp tbl 0 hll

theorem is_abbreviated_partition (env : Env) (orig : List (Option Str)) (flags : ParseFlags)
    (p : Ctx) (st : Abbrev) (arg : Str) (i : Nat) (o : Opt) (fl f : Nat)
    (hp : partition_mid orig flags 0 p) (ho : ll_keeps env orig flags o) :
    partition_step env orig flags (is_abbreviated p st arg i o fl f) := by
  unfold is_abbreviated
  simp only [partition_step]
  constructor
  · split_ifs
    · exact partition_mid_of_geom orig flags 0 p _ rfl hp
    · exact hp
  · intro j o' hj
    simp only [Option.some.injEq, Prod.mk.injEq] at hj
    obtain ⟨_, rfl⟩ := hj
    exact ho

theorem long_opt_finish_partition (env : Env) (orig : List (Option Str)) (flags : ParseFlags)
    (p : Ctx) (st : Abbrev) (i : Nat) (o : Opt) (rest : Str) (fl f : Nat)
    (hp : partition_mid orig flags 0 p)
    (hst : ∀ j o', st.abbrev_option = some (j, o') → ll_keeps env orig flags o')
    (ho : ll_keeps env orig flags o) :
    partition_step env orig flags (long_opt_finish p st i o rest fl f) := by
  unfold long_opt_finish
  cases rest with
  | nil => exact ⟨hp, ho⟩
  | cons c tl =>
    simp only
    split_ifs
    · exact ⟨hp, hst⟩
    · exact ⟨partition_mid_of_geom orig flags 0 p _ rfl hp, ho⟩

theorem long_opt_pass_partition (env : Env) (orig : List (Option Str)) (flags : ParseFlags)
    (arg : Str) (p : Ctx) (st : Abbrev) (i : Nat) (o : Opt) (m : Str) (f : Nat)
    (again : LongStep) (hp : partition_mid orig flags 0 p)
    (hst : ∀ j o', st.abbrev_option = some (j, o') → ll_keeps env orig flags o')
    (ho : ll_keeps env orig flags o) (hag : partition_step env orig flags again) :
    partition_step env orig flags (long_opt_pass arg p st i o m f again) := by
  unfold long_opt_pass
  by_cases h1 : o.type = OPTION_ARGUMENT
  · rw [if_pos h1]
    split
    · exact ⟨hp, hst⟩
    · exact Or.inr ⟨rfl, partition_forward orig flags p _ _ hp rfl rfl rfl rfl rfl⟩
    · split_ifs
      · exact Or.inl (partition_mid_of_geom orig flags 0 p _ rfl hp)
      · exact ⟨hp, hst⟩
  · rw [if_neg h1]
    cases skip_prefix arg m with
    | some rest => exact long_opt_finish_partition env orig flags p st i o _ _ _ hp hst ho
    | none =>
      simp only
      by_cases h2 : strncmp_eq m arg (arg_end_offset arg) = true
      · rw [if_pos h2]
        exact is_abbreviated_partition env orig flags p st arg i o _ _ hp ho
      · rw [if_neg h2]
        by_cases h3 : o.flags.noneg = true
        · rw [if_pos h3]; exact ⟨hp, hst⟩
        · rw [if_neg h3]
          by_cases h4 : starts_with ['n', 'o', '-'] arg = true
          · rw [if_pos h4]
            exact is_abbreviated_partition env orig flags p st arg i o _ _ hp ho
          · rw [if_neg h4]
            by_cases h5 : ¬ starts_with arg ['n', 'o', '-'] = true
            · rw [if_pos h5]
              split_ifs
              · exact hag
              · exact ⟨hp, hst⟩
            · rw [if_neg h5]
              cases skip_prefix (arg.drop 3) m with
              | some rest2 =>
                exact long_opt_finish_partition env orig flags p st i o _ _ _ hp hst ho
              | none =>
                simp only
                split_ifs
                · exact is_abbreviated_partition env orig flags p st arg i o _ _ hp ho
                · exact ⟨hp, hst⟩

theorem long_opt_again_partition (env : Env) (orig : List (Option Str)) (flags : ParseFlags)
    (arg : Str) (p : Ctx) (st : Abbrev) (i : Nat) (o : Opt)
    (hp : partition_mid orig flags 0 p)
    (hst : ∀ j o', st.abbrev_option = some (j, o') → ll_keeps env orig flags o')
    (ho : ll_keeps env orig flags o) :
    ∀ (n : Nat) (m : Str) (f : Nat), m.length ≤ n →
      partition_step env orig flags (long_opt_again arg p st i o m f) := by
  intro n
  induction n with
  | zero =>
    intro m f hm
    have : m = [] := List.length_eq_zero.mp (by omega)
    subst this
    rw [long_opt_again_plain _ _ _ _ _ _ _ (by decide)]
    exact long_opt_pass_partition env orig flags arg p st i o [] f _ hp hst ho ⟨hp, hst⟩
  | succ n ih =>
    intro m f hm
    by_cases hno : NO <+: m
    · obtain ⟨tl, rfl⟩ := hno
      rw [long_opt_again_strip]
      refine long_opt_pass_partition env orig flags arg p st i o _ f _ hp hst ho ?_
      apply ih tl _
      simp only [NO, List.length_append, List.length_cons, List.length_nil] at hm
      omega
    · rw [long_opt_again_plain _ _ _ _ _ _ _ hno]
      exact long_opt_pass_partition env orig flags arg p st i o m f _ hp hst ho ⟨hp, hst⟩

theorem parse_long_opt_end_partition (env : Env) (orig : List (Option Str))
    (flags : ParseFlags) (arg : Str) (p : Ctx) (st : Abbrev)
    (hp : partition_mid orig flags 0 p)
    (hst : ∀ j o', st.abbrev_option = some (j, o') → ll_keeps env orig flags o') :
    partition_action env orig flags (parse_long_opt_end arg p st) := by
  unfold parse_long_opt_end
  cases h1 : st.ambiguous_option with
  | some amb =>
    cases h2 : st.abbrev_option with
    | none => exact Or.inl hp
    | some ab => exact Or.inl (partition_mid_of_geom orig flags 0 p _ rfl hp)
  | none =>
    cases h2 : st.abbrev_option with
    | none => exact Or.inl hp
    | some ab => exact ⟨hp, hst ab.1 ab.2 h2⟩

theorem parse_long_opt_from_partition (env : Env) (orig : List (Option Str))
    (flags : ParseFlags) (arg : Str) :
    ∀ (l : List Opt) (i : Nat) (p : Ctx) (st : Abbrev), partition_mid orig flags 0 p →
      (∀ j o', st.abbrev_option = some (j, o') → ll_keeps env orig flags o') →
      (∀ o ∈ table l, ll_keeps env orig flags o) →
      partition_action env orig flags (parse_long_opt_from arg l i p st) := by
  intro l
  induction l with
  | nil => intro i p st hp hst _; exact parse_long_opt_end_partition env orig flags arg p st hp hst
  | cons o rest ih =>
    intro i p st hp hst hl
    rw [parse_long_opt_from]
    split_ifs with hend
    · exact parse_long_opt_end_partition env orig flags arg p st hp hst
    · have ho : ll_keeps env orig flags o :=
        hl o (by rw [table_cons o rest hend]; exact List.mem_cons_self _ _)
      have hrest : ∀ o' ∈ table rest, ll_keeps env orig flags o' :=
        fun o' ho' => hl o' (by rw [table_cons o rest hend]; exact List.mem_cons_of_mem _ ho')
      cases hl' : o.long_name with
      | none => exact ih (i + 1) p st hp hst hrest
      | some l =>
        simp only
        have hs := long_opt_again_partition env orig flags arg p st i o hp hst ho l.length l 0
          (le_refl _)
        cases hr : long_opt_again arg p st i o l 0 with
        | leave a =>
          rw [hr] at hs
          exact hs
        | cont p1 st1 =>
          rw [hr] at hs
          exact ih (i + 1) p1 st1 hs.1 hs.2 hrest

/-- The long-option matcher keeps the output partition; it forwards at most
the current token (a descriptor of the Argument kind). -/
theorem partition_parse_long_opt (env : Env) (tbl : List Opt) (orig : List (Option Str))
    (flags : ParseFlags) (p : Ctx) (arg : Str) (hll : ll_keeps_partition env tbl orig flags)
    (hp : partition_mid orig flags 0 p) :
    partition_mid orig flags 0 (parse_long_opt env p arg tbl).2 ∨
      ((parse_long_opt env p arg tbl).1 = Rc.code 0 ∧
        partition_mid orig flags 1 (parse_long_opt env p arg tbl).2) := by
  have h := parse_long_opt_from_partition env orig flags arg tbl 0 p {} hp
    (fun j o' hj => by simp at hj) hll
  unfold parse_long_opt parse_long_opt_action
  cases hr : parse_long_opt_from arg tbl 0 p {} with
  | ret r =>
    rw [hr] at h
    exact h
  | dispatch p1 i o fl =>
    rw [hr] at h
    exact Or.inl (partition_get_value env p1 i o tbl fl orig flags h.2 h.1)

theorem partition_unknown (orig : List (Option Str)) (flags : ParseFlags) (c c1 : Ctx)
    (hp : partition_mid orig flags 0 c) (h : unknown c = TokStep.next c1) :
    partition_mid orig flags 1 c1 := by
  unfold unknown at h
  split_ifs at h
  injection h with h
  subst h
  exact partition_forward orig flags c _ _ hp rfl rfl rfl rfl rfl

/-- The loop over a short-option cluster keeps the output partition; it
forwards at most the current token. -/
theorem partition_short_loop (env : Env) (tbl : List Opt) (orig : List (Option Str))
    (flags : ParseFlags) (hll : ll_keeps_partition env tbl orig flags) :
    ∀ (fuel : Nat) (c c1 : Ctx), partition_mid orig flags 0 c →
      short_loop env tbl fuel c = TokStep.next c1 → partition_mid orig flags 1 c1 := by
  intro fuel
  induction fuel with
  | zero => intro c c1 _ h; simp [short_loop] at h
  | succ fuel ih =>
    intro c c1 hp h
    rw [short_loop] at h
    cases hopt : c.opt with
    | none =>
      simp only [hopt] at h
      injection h with h
      subst h
      exact partition_mid_mono orig flags 1 _ hp
    | some v =>
      simp only [hopt] at h
      have hps := partition_parse_short_opt env tbl orig flags c hll hp
      cases hr : parse_short_opt env c tbl with
      | mk rc c2 =>
        rw [hr] at h hps
        cases rc with
        | abort => simp at h
        | code n =>
          simp only at h
          split_ifs at h with h1 h2
          · cases ho : c2.opt with
            | none => simp [ho] at h
            | some o =>
              simp only [ho] at h
              split_ifs at h
              have hq : partition_mid orig flags 0
                  { c2 with buf := c2.buf.set c2.argv (some ('-' :: o)), opt := some o } :=
                partition_mid_of_geom orig flags 0 _ _ rfl
                  (partition_rewrite_current orig flags c2 (some ('-' :: o)) hps)
              exact partition_unknown orig flags _ c1 hq h
          · exact ih c2 c1 hps h

theorem on_next_of (P : Ctx → Prop) (t : TokStep) (h : ∀ c, t = TokStep.next c → P c) :
    on_next P t := by
  cases t with
  | next c => exact h c rfl
  | brk c => trivial
  | ret o c => trivial

theorem on_next_unknown (orig : List (Option Str)) (flags : ParseFlags) (c : Ctx)
    (hp : partition_mid orig flags 0 c) : on_next (partition_mid orig flags 1) (unknown c) :=
  on_next_of _ _ (fun c1 h => partition_unknown orig flags c c1 hp h)

theorem on_next_nodash (env : Env) (tbl : List Opt) (orig : List (Option Str))
    (flags : ParseFlags) (hll : ll_keeps_partition env tbl orig flags) (c : Ctx) (arg : Str)
    (hp : partition_mid orig flags 0 c) :
    on_next (partition_mid orig flags 1)
      (match parse_nodash_opt env c arg tbl with
       | (rc, c) =>
         if rc = Rc.code 0 then TokStep.next c
         else if rc = Rc.abort then TokStep.ret Outcome.ABORT c
         else if c.flags.stop_at_non_option then TokStep.ret Outcome.PARSE_OPT_NON_OPTION c
         else
           TokStep.next { c with buf := c.buf.set c.cpidx (c.buf.getD c.argv none),
                                 cpidx := c.cpidx + 1 }) := by
  have hps := partition_parse_nodash_opt env tbl orig flags c arg hll hp
  cases hr : parse_nodash_opt env c arg tbl with
  | mk rc c2 =>
    rw [hr] at hps
    simp only
    by_cases k1 : rc = Rc.code 0
    · rw [if_pos k1]
      exact partition_mid_mono orig flags 1 _ hps
    · rw [if_neg k1]
      by_cases k2 : rc = Rc.abort
      · rw [if_pos k2]; trivial
      · rw [if_neg k2]
        by_cases k3 : c2.flags.stop_at_non_option = true
        · rw [if_pos k3]; trivial
        · rw [if_neg k3]
          exact partition_forward orig flags c2 _ _ hps rfl rfl rfl rfl rfl

theorem on_next_short (env : Env) (tbl : List Opt) (orig : List (Option Str))
    (flags : ParseFlags) (hll : ll_keeps_partition env tbl orig flags) (fuel : Nat) (c : Ctx)
    (cl : Str) (ih : Bool) (hp : partition_mid orig flags 0 c) :
    on_next (partition_mid orig flags 1)
      (match parse_short_opt env { c with opt := some cl } tbl with
       | (Rc.abort, c) => TokStep.ret Outcome.ABORT c
       | (Rc.code n, c) =>
         if n = -1 then TokStep.ret Outcome.PARSE_OPT_ERROR c
         else if n = -2 then
           match c.opt with
           | none => if ih then TokStep.ret Outcome.ABORT c else unknown c
           | some o =>
             if check_typos cl tbl then TokStep.ret Outcome.EXIT_129 c
             else if ih ∧ headCode o = 'h'.toNat then TokStep.ret Outcome.PARSE_OPT_HELP c
             else unknown c
         else if c.opt.isSome ∧ check_typos cl tbl then TokStep.ret Outcome.EXIT_129 c
         else short_loop env tbl fuel c) := by
  have hps := partition_parse_short_opt env tbl orig flags { c with opt := some cl } hll
    (partition_mid_of_geom orig flags 0 c _ rfl hp)
  cases hr : parse_short_opt env { c with opt := some cl } tbl with
  | mk rc c2 =>
    rw [hr] at hps
    cases rc with
    | abort => trivial
    | code n =>
      simp only
      by_cases k1 : n = -1
      · rw [if_pos k1]; trivial
      · rw [if_neg k1]
        by_cases k2 : n = -2
        · rw [if_pos k2]
          cases ho : c2.opt with
          | none =>
            simp only
            split_ifs
            · trivial
            · exact on_next_unknown orig flags c2 hps
          | some o =>
            simp only
            split_ifs
            · trivial
            · trivial
            · exact on_next_unknown orig flags c2 hps
        · rw [if_neg k2]
          split_ifs
          · trivial
          · exact on_next_of _ _
              (fun c1 h => partition_short_loop env tbl orig flags hll fuel c2 c1 hps h)

theorem on_next_long (env : Env) (tbl : List Opt) (orig : List (Option Str))
    (flags : ParseFlags) (hll : ll_keeps_partition env tbl orig flags) (c : Ctx) (arg : Str)
    (hp : partition_mid orig flags 0 c) :
    on_next (partition_mid orig flags 1)
      (match parse_long_opt env c arg tbl with
       | (Rc.abort, c) => TokStep.ret Outcome.ABORT c
       | (Rc.code n, c) =>
         if n = -1 then TokStep.ret Outcome.PARSE_OPT_ERROR c
         else if n = -2 then unknown c
         else if n = -3 then TokStep.ret Outcome.PARSE_OPT_HELP c
         else TokStep.next c) := by
  have hps := partition_parse_long_opt env tbl orig flags c arg hll hp
  cases hr : parse_long_opt env c arg tbl with
  | mk rc c2 =>
    rw [hr] at hps
    cases rc with
    | abort => trivial
    | code n =>
      simp only
      by_cases k1 : n = -1
      · rw [if_pos k1]; trivial
      · rw [if_neg k1]
        by_cases k2 : n = -2
        · rw [if_pos k2]
          rcases hps with hps | ⟨hc, _⟩
          · exact on_next_unknown orig flags c2 hps
          · simp only [Rc.code.injEq] at hc
            omega
        · rw [if_neg k2]
          by_cases k3 : n = -3
          · rw [if_pos k3]; trivial
          · rw [if_neg k3]
            rcases hps with hps | ⟨_, hps⟩
            · exact partition_mid_mono orig flags 1 _ hps
            · exact hps

/-- The body of the loop of `parse_options_step` keeps the output partition:
when it ends in `continue`, at most the current token was forwarded and the
tokens after the read cursor are untouched. -/
theorem partition_step_token (env : Env) (tbl : List Opt) (orig : List (Option Str))
    (flags : ParseFlags) (hll : ll_keeps_partition env tbl orig flags) (fuel : Nat)
    (c : Ctx) (hp : partition_mid orig flags 0 c) :
    on_next (partition_mid orig flags 1) (step_token env tbl fuel c) := by
  unfold step_token
  simp only
  by_cases h1 : (argvAt c 0).head? ≠ some '-' ∨ (argvAt c 0).length < 2
  · rw [if_pos h1]
    exact on_next_nodash env tbl orig flags hll c _ hp
  · rw [if_neg h1]
    split
    · trivial
    split
    · trivial
    split
    · exact on_next_short env tbl orig flags hll fuel c _ _ hp
    split
    · split <;> trivial
    split
    · trivial
    split
    · trivial
    exact on_next_long env tbl orig flags hll c _ hp

theorem partition_inv_mid (orig : List (Option Str)) (flags : ParseFlags) (c : Ctx)
    (h : partition_inv orig flags c) (hc : c.argc ≠ 0) : partition_mid orig flags 0 c := by
  obtain ⟨a1, a2, a3, a4, a5⟩ := h
  exact ⟨a1, drop_succ_of_drop _ _ _ a2, by omega, a4, by omega, a5⟩

theorem partition_mid_advance (orig : List (Option Str)) (flags : ParseFlags) (c : Ctx)
    (h : partition_mid orig flags 1 c) :
    partition_inv orig flags { c with argc := c.argc - 1, argv := c.argv + 1 } := by
  obtain ⟨a1, a2, a3, a4, a5, a6⟩ := h
  exact ⟨a1, a2, a3, by simp only; omega, a6⟩

/-- The output partition holds at the head of every round of the loop of
`parse_options_step`. -/
theorem partition_loop_rounds (env : Env) (tbl : List Opt) (orig : List (Option Str))
    (flags : ParseFlags) (hll : ll_keeps_partition env tbl orig flags) :
    ∀ (n fuel : Nat) (c c1 : Ctx), partition_inv orig flags c →
      loop_rounds env tbl fuel n c = some c1 → partition_inv orig flags c1 := by
  intro n
  induction n with
  | zero =>
    intro fuel c c1 hc h
    cases fuel <;>
    · simp only [loop_rounds, Option.some.injEq] at h
      subst h
      exact hc
  | succ n ih =>
    intro fuel c c1 hc h
    cases fuel with
    | zero => simp [loop_rounds] at h
    | succ fuel =>
      rw [loop_rounds] at h
      by_cases h0 : c.argc = 0
      · rw [if_pos h0] at h
        cases h
      · rw [if_neg h0] at h
        have hs := partition_step_token env tbl orig flags hll (fuel + 1) c
          (partition_inv_mid orig flags c hc h0)
        cases hr : step_token env tbl (fuel + 1) c with
        | next c2 =>
          rw [hr] at h hs
          exact ih fuel _ c1 (partition_mid_advance orig flags c2 hs) h
        | brk c2 => rw [hr] at h; cases h
        | ret o c2 => rw [hr] at h; cases h

/-- The rounds counted by `loop_rounds` are the first rounds of the loop of
`parse_options_step`. -/
theorem loop_rounds_loop (env : Env) (tbl : List Opt) :
    ∀ (n fuel : Nat) (c c1 : Ctx), loop_rounds env tbl fuel n c = some c1 →
      n ≤ fuel ∧ parse_options_loop env tbl fuel c = parse_options_loop env tbl (fuel - n) c1 := by
  intro n
  induction n with
  | zero =>
    intro fuel c c1 h
    cases fuel <;>
    · simp only [loop_rounds, Option.some.injEq] at h
      subst h
      exact ⟨Nat.zero_le _, rfl⟩
  | succ n ih =>
    intro fuel c c1 h
    cases fuel with
    | zero => simp [loop_rounds] at h
    | succ fuel =>
      rw [loop_rounds] at h
      by_cases h0 : c.argc = 0
      · rw [if_pos h0] at h
        cases h
      · rw [if_neg h0] at h
        rw [parse_options_loop, if_neg h0]
        cases hr : step_token env tbl (fuel + 1) c with
        | next c2 =>
          rw [hr] at h
          obtain ⟨h1, h2⟩ := ih fuel _ c1 h
          refine ⟨by omega, ?_⟩
          simp only
          rw [h2, Nat.add_sub_add_right]
        | brk c2 => rw [hr] at h; cases h
        | ret o c2 => rw [hr] at h; cases h

theorem argvAt_of_drop (c : Ctx) (t : Str) (rest : List (Option Str))
    (h : c.buf.drop c.argv = some t :: rest) : argvAt c 0 = t := by
  have h2 : c.buf[c.argv]? = some (some t) := by
    have := congrArg (fun l => l[0]?) h
    simpa using this
  unfold argvAt
  rw [Nat.add_zero, List.getD_eq_getElem?_getD, h2]
  rfl

/-- The body of the loop of `parse_options_step` on the token `--`: the loop
is left, with the token dropped unless `PARSE_OPT_KEEP_DASHDASH` is set. -/
theorem step_token_dashdash (env : Env) (tbl : List Opt) (fuel : Nat) (c : Ctx)
    (h : argvAt c 0 = ['-', '-']) :
    step_token env tbl fuel c =
      TokStep.brk (if c.flags.keep_dashdash then c
        else { c with argc := c.argc - 1, argv := c.argv + 1 }) := by
  unfold step_token
  simp only [h]
  have e1 : ¬ ((['-', '-'] : Str).head? ≠ some '-' ∨ (['-', '-'] : Str).length < 2) := by decide
  have e2 : (['-', '-'] : Str).tail ≠ ['h'] := by decide
  have e3 : (['-', '-'] : Str).tail ≠ "-git-completion-helper".toList := by decide
  have e4 : ¬ ((['-', '-'] : Str).tail.head? ≠ some '-') := by decide
  rw [if_neg e1, if_neg (fun hh => e2 hh.2.2), if_neg (fun hh => e3 hh.2), if_neg e4,
    if_pos (by decide)]
  cases c.flags.keep_dashdash <;> rfl

/-- The vector that `parse_options_end` leaves: the output region followed by
the unread tokens. -/
theorem parse_options_end_vector (c : Ctx) (toks rest : List (Option Str))
    (hcp : c.cpidx ≤ c.buf.length) (hd : c.buf.drop c.argv = toks ++ rest)
    (hlen : toks.length = c.argc) :
    result_vector (parse_options_end c) = c.buf.take c.cpidx ++ toks ∧
    (parse_options_end c).1 = (c.buf.take c.cpidx ++ toks).length := by
  have hl : (c.buf.take c.cpidx).length = c.cpidx := by
    rw [List.length_take]
    omega
  have hm : (c.buf.drop c.argv).take c.argc = toks := by
    rw [hd, ← hlen, List.take_left]
  constructor
  · unfold result_vector parse_options_end
    simp only
    rw [hm, List.set_take, List.set_eq_of_length_le (by rw [List.length_take]; omega)]
    have : c.cpidx + c.argc = (c.buf.take c.cpidx ++ toks).length := by
      rw [List.length_append, hl, hlen]
    rw [this, List.take_left]
  · unfold parse_options_end
    simp only
    rw [List.length_append, hl, hlen]

/-- The context that `parse_options_start` makes. -/
theorem parse_options_start_ctx (args : List Str) (pfx : Option Str) (tbl : List Opt)
    (flags : ParseFlags) (slots : Slots) (ctx0 : Ctx)
    (h : parse_options_start args pfx tbl flags slots = some ctx0) :
    parse_options_check tbl = false ∧
    ctx0 = { buf := args.map some ++ [none], argv := 1, argc := args.length - 1,
             cpidx := if flags.keep_argv0 then 1 else 0, total := args.length - 1, opt := none,
             pfx := pfx, flags := flags, slots := slots, stderr := [], calls := [] } := by
  unfold parse_options_start at h
  by_cases h1 : flags.keep_unknown = true ∧ flags.stop_at_non_option = true
  · rw [if_pos h1] at h
    cases h
  · rw [if_neg h1] at h
    by_cases h2 : parse_options_check tbl = true
    · rw [if_pos h2] at h
      cases h
    · rw [if_neg h2] at h
      injection h with h
      exact ⟨by simpa using h2, h.symm⟩

/-- A table without low-level callbacks keeps the output partition. -/
theorem ll_keeps_partition_of_none (env : Env) (tbl : List Opt) (orig : List (Option Str))
    (flags : ParseFlags) (h : ∀ o ∈ table tbl, o.type ≠ OPTION_LOWLEVEL_CALLBACK) :
    ll_keeps_partition env tbl orig flags :=
  fun o ho hty => absurd hty (h o ho)

/-! ### The scalar toggles -/

theorem fits_int_ofNat (m : Nat) : fits_int (Int.ofNat m) ↔ m < 2 ^ 31 := by
  unfold fits_int
  simp only [Int.ofNat_eq_coe]
  omega

theorem fits_int_negSucc (m : Nat) : fits_int (Int.negSucc m) ↔ m < 2 ^ 31 := by
  unfold fits_int
  simp only [Int.negSucc_eq]
  omega

theorem fits_int_lnot (d : Int) (hd : fits_int d) : fits_int (Int.lnot d) := by
  cases d with
  | ofNat n =>
    rw [fits_int_ofNat] at hd
    show fits_int (Int.negSucc n)
    rw [fits_int_negSucc]
    exact hd
  | negSucc n =>
    rw [fits_int_negSucc] at hd
    show fits_int (Int.ofNat n)
    rw [fits_int_ofNat]
    exact hd

theorem fits_int_lor (s d : Int) (hs : fits_int s) (hd : fits_int d) :
    fits_int (Int.lor s d) := by
  cases s with
  | ofNat m =>
    rw [fits_int_ofNat] at hs
    cases d with
    | ofNat n =>
      rw [fits_int_ofNat] at hd
      show fits_int (Int.ofNat (m ||| n))
      rw [fits_int_ofNat]
      exact Nat.or_lt_two_pow hs hd
    | negSucc n =>
      rw [fits_int_negSucc] at hd
      show fits_int (Int.negSucc (Nat.ldiff n m))
      rw [fits_int_negSucc]
      exact Nat.bitwise_lt_two_pow hd hs
  | negSucc m =>
    rw [fits_int_negSucc] at hs
    cases d with
    | ofNat n =>
      rw [fits_int_ofNat] at hd
      show fits_int (Int.negSucc (Nat.ldiff m n))
      rw [fits_int_negSucc]
      exact Nat.bitwise_lt_two_pow hs hd
    | negSucc n =>
      rw [fits_int_negSucc] at hd
      show fits_int (Int.negSucc (m &&& n))
      rw [fits_int_negSucc]
      exact Nat.and_lt_two_pow _ hd

theorem fits_int_land (s d : Int) (hs : fits_int s) (hd : fits_int d) :
    fits_int (Int.land s d) := by
  cases s with
  | ofNat m =>
    rw [fits_int_ofNat] at hs
    cases d with
    | ofNat n =>
      rw [fits_int_ofNat] at hd
      show fits_int (Int.ofNat (m &&& n))
      rw [fits_int_ofNat]
      exact Nat.and_lt_two_pow _ hd
    | negSucc n =>
      rw [fits_int_negSucc] at hd
      show fits_int (Int.ofNat (Nat.ldiff m n))
      rw [fits_int_ofNat]
      exact Nat.bitwise_lt_two_pow hs hd
  | negSucc m =>
    rw [fits_int_negSucc] at hs
    cases d with
    | ofNat n =>
      rw [fits_int_ofNat] at hd
      show fits_int (Int.ofNat (Nat.ldiff n m))
      rw [fits_int_ofNat]
      exact Nat.bitwise_lt_two_pow hd hs
    | negSucc n =>
      rw [fits_int_negSucc] at hd
      show fits_int (Int.negSucc (m ||| n))
      rw [fits_int_negSucc]
      exact Nat.or_lt_two_pow hs hd

theorem toInt32_fits (x : Int) (h : fits_int x) : toInt32 x = x :=
  toInt32_of_fits x h.1 h.2

/-- The three tests at the head of `get_value` pass when no inline value is
pending (or the option is a short one in non-negated form) and a negated
descriptor is negatable. -/
theorem get_value_enters (env : Env) (p : Ctx) (i : Nat) (o : Opt) (tbl : List Opt) (fl : Nat)
    (hpend : p.opt = none ∨ (fl &&& OPT_SHORT ≠ 0 ∧ fl &&& OPT_UNSET = 0))
    (hneg : fl &&& OPT_UNSET ≠ 0 → o.flags.noneg = false) :
    get_value env p i o tbl fl = get_value_switch env p i o tbl fl := by
  unfold get_value
  simp only
  by_cases hu : fl &&& OPT_UNSET ≠ 0
  · have hn := hneg hu
    rcases hpend with h | ⟨_, h⟩
    · simp [h, hn]
    · exact absurd h hu
  · have hu' : fl &&& OPT_UNSET = 0 := not_not.mp hu
    rcases hpend with h | ⟨h, _⟩
    · simp [h, hu']
    · simp [hu', h]

/-- C11: for a scalar-toggle descriptor whose slot holds the `int` value `s`
and whose mask or default is the `int` value `d`, matched without a pending
inline value (or as a short option) and, when negated, negatable: `get_value`
returns 0 and leaves the context as it was except for the slot of the
descriptor, which holds `s OR d` (Bit-flag-set) or `s AND NOT d`
(Bit-flag-clear) on a match and the other way round on a negated match,
`max(s, 0) + 1` (Count-up, `s` below `INT_MAX`) or 0 when negated, and `d`
(Set-fixed-int) or 0 when negated.  No token is consumed and no other slot is
written.  A Bit-flag-clear match is a Bit-flag-set negated match and
conversely. -/
theorem scalar_toggle_conversion (env : Env) (p : Ctx) (i : Nat) (o : Opt) (tbl : List Opt)
    (fl : Nat) (s d : Int) (hs : p.slots.ints o.value = s) (hd : o.defval = d)
    (hsf : fits_int s) (hdf : fits_int d)
    (hpend : p.opt = none ∨ (fl &&& OPT_SHORT ≠ 0 ∧ fl &&& OPT_UNSET = 0))
    (hneg : fl &&& OPT_UNSET ≠ 0 → o.flags.noneg = false) :
    (o.type = OPTION_BIT →
      get_value env p i o tbl fl =
        (Rc.code 0,
          { p with
            slots := store_int p.slots o.value
                       (if fl &&& OPT_UNSET ≠ 0 then Int.land s (Int.lnot d) else Int.lor s d) })) ∧
    (o.type = OPTION_NEGBIT →
      get_value env p i o tbl fl =
        (Rc.code 0,
          { p with
            slots := store_int p.slots o.value
                       (if fl &&& OPT_UNSET ≠ 0 then Int.lor s d else Int.land s (Int.lnot d)) })) ∧
    (o.type = OPTION_COUNTUP → s < 2147483647 →
      get_value env p i o tbl fl =
        (Rc.code 0,
          { p with
            slots := store_int p.slots o.value
                       (if fl &&& OPT_UNSET ≠ 0 then 0 else max s 0 + 1) })) ∧
    (o.type = OPTION_SET_INT →
      get_value env p i o tbl fl =
        (Rc.code 0,
          { p with
            slots := store_int p.slots o.value (if fl &&& OPT_UNSET ≠ 0 then 0 else d) })) ∧
    (∀ o2 : Opt, o.type = OPTION_BIT → o2.type = OPTION_NEGBIT → o2.value = o.value →
      o2.defval = o.defval → o.flags.noneg = false → o2.flags.noneg = false → p.opt = none →
      get_value env p i o2 tbl 0 = get_value env p i o tbl OPT_UNSET ∧
      get_value env p i o2 tbl OPT_UNSET = get_value env p i o tbl 0) := by
  have hent := get_value_enters env p i o tbl fl hpend hneg
  have hlor := toInt32_fits _ (fits_int_lor s d hsf hdf)
  have hland := toInt32_fits _ (fits_int_land s (Int.lnot d) hsf (fits_int_lnot d hdf))
  refine ⟨fun ht => ?_, fun ht => ?_, fun ht hmax => ?_, fun ht => ?_, ?_⟩
  · rw [hent]
    simp only [get_value_switch, ht, getInt, setInt, store_int, hs, hd, hlor, hland]
    by_cases hu : fl &&& OPT_UNSET ≠ 0
    · simp [hu]
    · simp [hu]
  · rw [hent]
    simp only [get_value_switch, ht, getInt, setInt, store_int, hs, hd, hlor, hland]
    by_cases hu : fl &&& OPT_UNSET ≠ 0
    · simp [hu]
    · simp [hu]
  · rw [hent]
    have h1 : toInt32 (max s 0 + 1) = max s 0 + 1 :=
      toInt32_fits _ (by unfold fits_int at hsf ⊢; omega)
    by_cases hu : fl &&& OPT_UNSET ≠ 0
    · by_cases hlt : s < 0
      · simp [get_value_switch, ht, getInt, setInt, store_int, hs, hu, hlt]
        funext a
        by_cases ha : a = o.value <;> simp [ha]
      · simp [get_value_switch, ht, getInt, setInt, store_int, hs, hu, hlt]
    · by_cases hlt : s < 0
      · have hm : max s 0 = 0 := max_eq_right (le_of_lt hlt)
        simp [get_value_switch, ht, getInt, setInt, store_int, hs, hu, hlt, hm, toInt32]
        funext a
        by_cases ha : a = o.value <;> simp [ha]
      · have hm : max s 0 = s := max_eq_left (not_lt.mp hlt)
        rw [hm] at h1
        simp [get_value_switch, ht, getInt, setInt, store_int, hs, hu, hlt, hm, h1]
  · rw [hent]
    simp only [get_value_switch, ht, setInt, store_int, hd, toInt32_fits d hdf]
    by_cases hu : fl &&& OPT_UNSET ≠ 0
    · simp [hu]
    · simp [hu]
  · intro o2 ht ht2 hv hdv hn hn2 hp
    have e1 := get_value_enters env p i o2 tbl 0 (Or.inl hp)
      (fun h => absurd (by decide : 0 &&& OPT_UNSET = 0) h)
    have e2 := get_value_enters env p i o tbl OPT_UNSET (Or.inl hp) (fun _ => hn)
    have e3 := get_value_enters env p i o2 tbl OPT_UNSET (Or.inl hp) (fun _ => hn2)
    have e4 := get_value_enters env p i o tbl 0 (Or.inl hp)
      (fun h => absurd (by decide : 0 &&& OPT_UNSET = 0) h)
    rw [e1, e2, e3, e4]
    simp [get_value_switch, ht, ht2, hv, hdv, OPT_UNSET]

/-- C11 instantiated: the bit flag `-a` (mask 1) on a slot holding 0 stores
`0 OR 1`. -/
theorem scalar_toggle_conversion_witness :
    get_value sampleEnv (sampleCtx ["prog", "-a"] {}) 0 flagA abcTable OPT_SHORT =
      (Rc.code 0,
        { sampleCtx ["prog", "-a"] {} with
          slots := store_int zeroSlots 0 (if OPT_SHORT &&& OPT_UNSET ≠ 0 then
            Int.land 0 (Int.lnot 1) else Int.lor 0 1) }) :=
  (scalar_toggle_conversion sampleEnv (sampleCtx ["prog", "-a"] {}) 0 flagA abcTable OPT_SHORT
    0 1 rfl rfl ⟨by decide, by decide⟩ ⟨by decide, by decide⟩ (Or.inl rfl)
    (fun h => absurd (by decide : OPT_SHORT &&& OPT_UNSET = 0) h)).1 rfl

/-! ### Errors of the dashless matcher -/

/-- C12, the failing input `prog -a b -c`: the table is validated and has no
low-level callback; at the token `b` the dashless matcher dispatches the
Mode-select `b`, whose value extraction fails with an error (the slot already
holds the mode of `-a`).  `parse_options_step` does not return the Error
outcome: it forwards `b` as an operand, goes on to apply `-c` and ends with
Done.  The same conflict through the short-option path (`--add -d`) returns
the Error outcome. -/
theorem dashless_error_is_forwarded :
    parse_options_check dashlessTable = false ∧
    (∀ o ∈ table dashlessTable, o.type ≠ OPTION_LOWLEVEL_CALLBACK) ∧
    (∃ c, loop_rounds sampleEnv dashlessTable 5 1 (sampleCtx ["prog", "-a", "b", "-c"] {}) =
        some c ∧ argvAt c 0 = ['b'] ∧
      (parse_nodash_opt sampleEnv c ['b'] dashlessTable).1 = Rc.code (-1)) ∧
    (parse_options_step sampleEnv dashlessTable 5
      (sampleCtx ["prog", "-a", "b", "-c"] {})).1 = Outcome.PARSE_OPT_DONE ∧
    (parse_options_step sampleEnv dashlessTable 5
      (sampleCtx ["prog", "-a", "b", "-c"] {})).2.slots.ints 1 = 1 ∧
    result_vector (parse_options_end (parse_options_step sampleEnv dashlessTable 5
      (sampleCtx ["prog", "-a", "b", "-c"] {})).2) = [some ['b']] ∧
    (parse_options_step sampleEnv modeTable 5
      (sampleCtx ["prog", "--add", "-d"] {})).1 = Outcome.PARSE_OPT_ERROR := by
  refine ⟨by decide, by decide, ⟨_, rfl, by decide, by decide⟩, by decide, by decide, by decide,
    by decide⟩

/-! ### Properties of the cursors kept by every matcher -/

theorem closed_geom (env : Env) (tbl : List Opt) (P Q : Ctx → Prop)
    (h : geom_closed env tbl P Q) (p q : Ctx) (hg : geom q = geom p) (hp : P p) : P q :=
  h.1 p q (Or.inl hg) hp

theorem closed_get_value (env : Env) (tbl : List Opt) (P Q : Ctx → Prop)
    (h : geom_closed env tbl P Q) (p : Ctx) (i : Nat) (o : Opt) (all : List Opt) (fl : Nat)
    (ho : ll_closed env P o) (hp : P p) : P (get_value env p i o all fl).2 := by
  by_cases hty : o.type = OPTION_LOWLEVEL_CALLBACK
  · unfold get_value
    simp only
    split_ifs
    · exact closed_geom env tbl P Q h p _ rfl hp
    · exact closed_geom env tbl P Q h p _ rfl hp
    · exact closed_geom env tbl P Q h p _ rfl hp
    · simp only [get_value_switch, hty]
      exact ho hty _ p hp
  · exact h.1 p _ (consumes_get_value env p i o all fl hty) hp

theorem closed_parse_short_opt_from (env : Env) (tbl : List Opt) (P Q : Ctx → Prop)
    (h : geom_closed env tbl P Q) (all : List Opt) (cur : Str) :
    ∀ (l : List Opt) (i : Nat) (p : Ctx) (numopt : Option Opt),
      (∀ o ∈ table l, ll_closed env P o) → P p →
      P (parse_short_opt_from env all cur l i p numopt).2 := by
  have hend : ∀ (p : Ctx) (numopt : Option Opt), P p →
      P (parse_short_opt_end env cur p numopt).2 := by
    intro p numopt hp
    unfold parse_short_opt_end
    split
    · split_ifs
      · exact closed_geom env tbl P Q h p _ rfl hp
      · exact hp
    · exact hp
  intro l
  induction l with
  | nil => intro i p numopt _ hp; exact hend p numopt hp
  | cons o rest ih =>
    intro i p numopt hl hp
    rw [parse_short_opt_from]
    have hrest : o.type ≠ OPTION_END → ∀ o' ∈ table rest, ll_closed env P o' :=
      fun h1 o' ho' => hl o' (by rw [table_cons o rest h1]; exact List.mem_cons_of_mem _ ho')
    split_ifs with h1 h2
    · exact hend p numopt hp
    · exact closed_get_value env tbl P Q h _ i o all OPT_SHORT
        (hl o (by rw [table_cons o rest h1]; exact List.mem_cons_self _ _))
        (closed_geom env tbl P Q h p _ rfl hp)
    · exact ih (i + 1) p _ (hrest h1) hp
    · exact ih (i + 1) p _ (hrest h1) hp

theorem closed_parse_short_opt (env : Env) (tbl : List Opt) (P Q : Ctx → Prop)
    (h : geom_closed env tbl P Q) (p : Ctx) (hp : P p) : P (parse_short_opt env p tbl).2 := by
  unfold parse_short_opt
  cases p.opt with
  | none => exact hp
  | some cur => exact closed_parse_short_opt_from env tbl P Q h tbl cur tbl 0 p none h.2.1 hp

theorem closed_parse_nodash_opt_from (env : Env) (tbl : List Opt) (P Q : Ctx → Prop)
    (h : geom_closed env tbl P Q) (all : List Opt) (p : Ctx) (arg : Str) (hp : P p) :
    ∀ (l : List Opt) (i : Nat), (∀ o ∈ table l, ll_closed env P o) →
      P (parse_nodash_opt_from env all p arg l i).2 := by
  intro l
  induction l with
  | nil => intro i _; exact hp
  | cons o rest ih =>
    intro i hl
    rw [parse_nodash_opt_from]
    have hrest : o.type ≠ OPTION_END → ∀ o' ∈ table rest, ll_closed env P o' :=
      fun h1 o' ho' => hl o' (by rw [table_cons o rest h1]; exact List.mem_cons_of_mem _ ho')
    split_ifs with h1 h2 h3
    · exact hp
    · exact closed_get_value env tbl P Q h p i o all OPT_SHORT
        (hl o (by rw [table_cons o rest h1]; exact List.mem_cons_self _ _)) hp
    · exact ih (i + 1) (hrest h1)
    · exact ih (i + 1) (hrest h1)

theorem closed_parse_nodash_opt (env : Env) (tbl : List Opt) (P Q : Ctx → Prop)
    (h : geom_closed env tbl P Q) (p : Ctx) (arg : Str) (hp : P p) :
    P (parse_nodash_opt env p arg tbl).2 :=
  closed_parse_nodash_opt_from env tbl P Q h tbl p arg hp tbl 0 h.2.1

theorem is_abbreviated_closed (env : Env) (tbl : List Opt) (P Q : Ctx → Prop)
    (h : geom_closed env tbl P Q) (p : Ctx) (st : Abbrev) (arg : Str) (i : Nat) (o : Opt)
    (fl f : Nat) (hp : P p) (ho : ll_closed env P o) :
    closed_step env P Q (is_abbreviated p st arg i o fl f) := by
  unfold is_abbreviated
  simp only [closed_step]
  constructor
  · split_ifs
    · exact closed_geom env tbl P Q h p _ rfl hp
    · exact hp
  · intro j o' hj
    simp only [Option.some.injEq, Prod.mk.injEq] at hj
    obtain ⟨_, rfl⟩ := hj
    exact ho

theorem long_opt_finish_closed (env : Env) (tbl : List Opt) (P Q : Ctx → Prop)
    (h : geom_closed env tbl P Q) (p : Ctx) (st : Abbrev) (i : Nat) (o : Opt) (rest : Str)
    (fl f : Nat) (hp : P p)
    (hst : ∀ j o', st.abbrev_option = some (j, o') → ll_closed env P o')
    (ho : ll_closed env P o) :
    closed_step env P Q (long_opt_finish p st i o rest fl f) := by
  unfold long_opt_finish
  cases rest with
  | nil => exact ⟨hp, ho⟩
  | cons c tl =>
    simp only
    split_ifs
    · exact ⟨hp, hst⟩
    · exact ⟨closed_geom env tbl P Q h p _ rfl hp, ho⟩

theorem long_opt_pass_closed (env : Env) (tbl : List Opt) (P Q : Ctx → Prop)
    (h : geom_closed env tbl P Q) (arg : Str) (p : Ctx) (st : Abbrev) (i : Nat) (o : Opt)
    (m : Str) (f : Nat) (again : LongStep) (hp : P p)
    (hst : ∀ j o', st.abbrev_option = some (j, o') → ll_closed env P o')
    (ho : ll_closed env P o) (hag : closed_step env P Q again) :
    closed_step env P Q (long_opt_pass arg p st i o m f again) := by
  unfold long_opt_pass
  by_cases h1 : o.type = OPTION_ARGUMENT
  · rw [if_pos h1]
    split
    · exact ⟨hp, hst⟩
    · exact Or.inr ⟨rfl, h.2.2.1 p _ _ hp rfl⟩
    · split_ifs
      · exact Or.inl (closed_geom env tbl P Q h p _ rfl hp)
      · exact ⟨hp, hst⟩
  · rw [if_neg h1]
    cases skip_prefix arg m with
    | some rest => exact long_opt_finish_closed env tbl P Q h p st i o _ _ _ hp hst ho
    | none =>
      simp only
      by_cases h2 : strncmp_eq m arg (arg_end_offset arg) = true
      · rw [if_pos h2]
        exact is_abbreviated_closed env tbl P Q h p st arg i o _ _ hp ho
      · rw [if_neg h2]
        by_cases h3 : o.flags.noneg = true
        · rw [if_pos h3]; exact ⟨hp, hst⟩
        · rw [if_neg h3]
          by_cases h4 : starts_with ['n', 'o', '-'] arg = true
          · rw [if_pos h4]
            exact is_abbreviated_closed env tbl P Q h p st arg i o _ _ hp ho
          · rw [if_neg h4]
            by_cases h5 : ¬ starts_with arg ['n', 'o', '-'] = true
            · rw [if_pos h5]
              split_ifs
              · exact hag
              · exact ⟨hp, hst⟩
            · rw [if_neg h5]
              cases skip_prefix (arg.drop 3) m with
              | some rest2 =>
                exact long_opt_finish_closed env tbl P Q h p st i o _ _ _ hp hst ho
              | none =>
                simp only
                split_ifs
                · exact is_abbreviated_closed env tbl P Q h p st arg i o _ _ hp ho
                · exact ⟨hp, hst⟩

theorem long_opt_again_closed (env : Env) (tbl : List Opt) (P Q : Ctx → Prop)
    (h : geom_closed env tbl P Q) (arg : Str) (p : Ctx) (st : Abbrev) (i : Nat) (o : Opt)
    (hp : P p) (hst : ∀ j o', st.abbrev_option = some (j, o') → ll_closed env P o')
    (ho : ll_closed env P o) :
    ∀ (n : Nat) (m : Str) (f : Nat), m.length ≤ n →
      closed_step env P Q (long_opt_again arg p st i o m f) := by
  intro n
  induction n with
  | zero =>
    intro m f hm
    have : m = [] := List.length_eq_zero.mp (by omega)
    subst this
    rw [long_opt_again_plain _ _ _ _ _ _ _ (by decide)]
    exact long_opt_pass_closed env tbl P Q h arg p st i o [] f _ hp hst ho ⟨hp, hst⟩
  | succ n ih =>
    intro m f hm
    by_cases hno : NO <+: m
    · obtain ⟨tl, rfl⟩ := hno
      rw [long_opt_again_strip]
      refine long_opt_pass_closed env tbl P Q h arg p st i o _ f _ hp hst ho ?_
      apply ih tl _
      simp only [NO, List.length_append, List.length_cons, List.length_nil] at hm
      omega
    · rw [long_opt_again_plain _ _ _ _ _ _ _ hno]
      exact long_opt_pass_closed env tbl P Q h arg p st i o m f _ hp hst ho ⟨hp, hst⟩

theorem parse_long_opt_end_closed (env : Env) (tbl : List Opt) (P Q : Ctx → Prop)
    (h : geom_closed env tbl P Q) (arg : Str) (p : Ctx) (st : Abbrev) (hp : P p)
    (hst : ∀ j o', st.abbrev_option = some (j, o') → ll_closed env P o') :
    closed_action env P Q (parse_long_opt_end arg p st) := by
  unfold parse_long_opt_end
  cases h1 : st.ambiguous_option with
  | some amb =>
    cases h2 : st.abbrev_option with
    | none => exact Or.inl hp
    | some ab => exact Or.inl (closed_geom env tbl P Q h p _ rfl hp)
  | none =>
    cases h2 : st.abbrev_option with
    | none => exact Or.inl hp
    | some ab => exact ⟨hp, hst ab.1 ab.2 h2⟩

theorem parse_long_opt_from_closed (env : Env) (tbl : List Opt) (P Q : Ctx → Prop)
    (h : geom_closed env tbl P Q) (arg : Str) :
    ∀ (l : List Opt) (i : Nat) (p : Ctx) (st : Abbrev), P p →
      (∀ j o', st.abbrev_option = some (j, o') → ll_closed env P o') →
      (∀ o ∈ table l, ll_closed env P o) →
      closed_action env P Q (parse_long_opt_from arg l i p st) := by
  intro l
  induction l with
  | nil => intro i p st hp hst _; exact parse_long_opt_end_closed env tbl P Q h arg p st hp hst
  | cons o rest ih =>
    intro i p st hp hst hl
    rw [parse_long_opt_from]
    split_ifs with hend
    · exact parse_long_opt_end_closed env tbl P Q h arg p st hp hst
    · have ho : ll_closed env P o :=
        hl o (by rw [table_cons o rest hend]; exact List.mem_cons_self _ _)
      have hrest : ∀ o' ∈ table rest, ll_closed env P o' :=
        fun o' ho' => hl o' (by rw [table_cons o rest hend]; exact List.mem_cons_of_mem _ ho')
      cases hl' : o.long_name with
      | none => exact ih (i + 1) p st hp hst hrest
      | some l =>
        simp only
        have hs := long_opt_again_closed env tbl P Q h arg p st i o hp hst ho l.length l 0
          (le_refl _)
        cases hr : long_opt_again arg p st i o l 0 with
        | leave a =>
          rw [hr] at hs
          exact hs
        | cont p1 st1 =>
          rw [hr] at hs
          exact ih (i + 1) p1 st1 hs.1 hs.2 hrest

/-- The long-option matcher keeps `P`, or it returns 0 after forwarding the
current token (a descriptor of the Argument kind) and gives `Q`. -/
theorem closed_parse_long_opt (env : Env) (tbl : List Opt) (P Q : Ctx → Prop)
    (h : geom_closed env tbl P Q) (p : Ctx) (arg : Str) (hp : P p) :
    P (parse_long_opt env p arg tbl).2 ∨
      ((parse_long_opt env p arg tbl).1 = Rc.code 0 ∧ Q (parse_long_opt env p arg tbl).2) := by
  have h' := parse_long_opt_from_closed env tbl P Q h arg tbl 0 p {} hp
    (fun j o' hj => by simp at hj) h.2.1
  unfold parse_long_opt parse_long_opt_action
  cases hr : parse_long_opt_from arg tbl 0 p {} with
  | ret r =>
    rw [hr] at h'
    exact h'
  | dispatch p1 i o fl =>
    rw [hr] at h'
    exact Or.inl (closed_get_value env tbl P Q h p1 i o tbl fl h'.2 h'.1)

theorem closed_unknown (env : Env) (tbl : List Opt) (P Q : Ctx → Prop)
    (h : geom_closed env tbl P Q) (c : Ctx) (hp : P c) : on_step P Q (unknown c) := by
  unfold unknown
  split_ifs
  · exact h.2.2.1 c _ _ hp rfl
  · exact hp

theorem closed_short_loop (env : Env) (tbl : List Opt) (P Q : Ctx → Prop)
    (h : geom_closed env tbl P Q) :
    ∀ (fuel : Nat) (c : Ctx), P c → on_step P Q (short_loop env tbl fuel c) := by
  intro fuel
  induction fuel with
  | zero => intro c hp; exact hp
  | succ fuel ih =>
    intro c hp
    rw [short_loop]
    cases hopt : c.opt with
    | none => exact h.2.2.2.2 c hp
    | some v =>
      simp only
      have hps := closed_parse_short_opt env tbl P Q h c hp
      cases hr : parse_short_opt env c tbl with
      | mk rc c2 =>
        rw [hr] at hps
        cases rc with
        | abort => exact hps
        | code n =>
          simp only
          by_cases k1 : n = -1
          · rw [if_pos k1]; exact hps
          · rw [if_neg k1]
            by_cases k2 : n = -2
            · rw [if_pos k2]
              cases ho : c2.opt with
              | none => exact hps
              | some o =>
                simp only
                split_ifs
                · exact hps
                · exact closed_unknown env tbl P Q h _ (h.2.2.2.1 c2 _ _ hps rfl)
            · rw [if_neg k2]
              exact ih c2 hps

theorem closed_nodash (env : Env) (tbl : List Opt) (P Q : Ctx → Prop)
    (h : geom_closed env tbl P Q) (c : Ctx) (arg : Str) (hp : P c) :
    on_step P Q
      (match parse_nodash_opt env c arg tbl with
       | (rc, c) =>
         if rc = Rc.code 0 then TokStep.next c
         else if rc = Rc.abort then TokStep.ret Outcome.ABORT c
         else if c.flags.stop_at_non_option then TokStep.ret Outcome.PARSE_OPT_NON_OPTION c
         else
           TokStep.next { c with buf := c.buf.set c.cpidx (c.buf.getD c.argv none),
                                 cpidx := c.cpidx + 1 }) := by
  have hps := closed_parse_nodash_opt env tbl P Q h c arg hp
  cases hr : parse_nodash_opt env c arg tbl with
  | mk rc c2 =>
    rw [hr] at hps
    simp only
    by_cases k1 : rc = Rc.code 0
    · rw [if_pos k1]
      exact h.2.2.2.2 c2 hps
    · rw [if_neg k1]
      by_cases k2 : rc = Rc.abort
      · rw [if_pos k2]; exact hps
      · rw [if_neg k2]
        by_cases k3 : c2.flags.stop_at_non_option = true
        · rw [if_pos k3]; exact hps
        · rw [if_neg k3]
          exact h.2.2.1 c2 _ _ hps rfl

theorem closed_short (env : Env) (tbl : List Opt) (P Q : Ctx → Prop)
    (h : geom_closed env tbl P Q) (fuel : Nat) (c : Ctx) (cl : Str) (ih : Bool) (hp : P c) :
    on_step P Q
      (match parse_short_opt env { c with opt := some cl } tbl with
       | (Rc.abort, c) => TokStep.ret Outcome.ABORT c
       | (Rc.code n, c) =>
         if n = -1 then TokStep.ret Outcome.PARSE_OPT_ERROR c
         else if n = -2 then
           match c.opt with
           | none => if ih then TokStep.ret Outcome.ABORT c else unknown c
           | some o =>
             if check_typos cl tbl then TokStep.ret Outcome.EXIT_129 c
             else if ih ∧ headCode o = 'h'.toNat then TokStep.ret Outcome.PARSE_OPT_HELP c
             else unknown c
         else if c.opt.isSome ∧ check_typos cl tbl then TokStep.ret Outcome.EXIT_129 c
         else short_loop env tbl fuel c) := by
  have hps := closed_parse_short_opt env tbl P Q h { c with opt := some cl }
    (closed_geom env tbl P Q h c _ rfl hp)
  cases hr : parse_short_opt env { c with opt := some cl } tbl with
  | mk rc c2 =>
    rw [hr] at hps
    cases rc with
    | abort => exact hps
    | code n =>
      simp only
      by_cases k1 : n = -1
      · rw [if_pos k1]; exact hps
      · rw [if_neg k1]
        by_cases k2 : n = -2
        · rw [if_pos k2]
          cases ho : c2.opt with
          | none =>
            simp only
            split_ifs
            · exact hps
            · exact closed_unknown env tbl P Q h c2 hps
          | some o =>
            simp only
            split_ifs
            · exact hps
            · exact hps
            · exact closed_unknown env tbl P Q h c2 hps
        · rw [if_neg k2]
          split_ifs
          · exact hps
          · exact closed_short_loop env tbl P Q h fuel c2 hps

theorem closed_long (env : Env) (tbl : List Opt) (P Q : Ctx → Prop)
    (h : geom_closed env tbl P Q) (c : Ctx) (arg : Str) (hp : P c) :
    on_step P Q
      (match parse_long_opt env c arg tbl with
       | (Rc.abort, c) => TokStep.ret Outcome.ABORT c
       | (Rc.code n, c) =>
         if n = -1 then TokStep.ret Outcome.PARSE_OPT_ERROR c
         else if n = -2 then unknown c
         else if n = -3 then TokStep.ret Outcome.PARSE_OPT_HELP c
         else TokStep.next c) := by
  have hps := closed_parse_long_opt env tbl P Q h c arg hp
  cases hr : parse_long_opt env c arg tbl with
  | mk rc c2 =>
    rw [hr] at hps
    have hP : rc ≠ Rc.code 0 → P c2 := by
      intro hne
      rcases hps with hps | ⟨hc, _⟩
      · exact hps
      · exact absurd hc hne
    cases rc with
    | abort => exact hP (by decide)
    | code n =>
      simp only
      by_cases k1 : n = -1
      · rw [if_pos k1]
        exact hP (by rw [k1]; decide)
      · rw [if_neg k1]
        by_cases k2 : n = -2
        · rw [if_pos k2]
          exact closed_unknown env tbl P Q h c2 (hP (by rw [k2]; decide))
        · rw [if_neg k2]
          by_cases k3 : n = -3
          · rw [if_pos k3]
            exact hP (by rw [k3]; decide)
          · rw [if_neg k3]
            rcases hps with hps | ⟨_, hps⟩
            · exact h.2.2.2.2 c2 hps
            · exact hps

/-- The body of the loop of `parse_options_step` keeps a property of the
cursors: `Q` holds when it ends in `continue`, `P` when it returns. -/
theorem closed_step_token (env : Env) (tbl : List Opt) (P Q : Ctx → Prop)
    (h : geom_closed env tbl P Q) (fuel : Nat) (c : Ctx) (hp : P c) :
    on_step P Q (step_token env tbl fuel c) := by
  unfold step_token
  simp only
  by_cases h1 : (argvAt c 0).head? ≠ some '-' ∨ (argvAt c 0).length < 2
  · rw [if_pos h1]
    exact closed_nodash env tbl P Q h c _ hp
  · rw [if_neg h1]
    split
    · exact hp
    split
    · exact hp
    split
    · exact closed_short env tbl P Q h fuel c _ _ hp
    split
    · split <;> trivial
    split
    · exact hp
    split
    · exact hp
    exact closed_long env tbl P Q h c _ hp

theorem unknown_not_brk (c d : Ctx) : unknown c ≠ TokStep.brk d := by
  unfold unknown
  split_ifs <;> simp

theorem short_loop_not_brk (env : Env) (tbl : List Opt) :
    ∀ (fuel : Nat) (c d : Ctx), short_loop env tbl fuel c ≠ TokStep.brk d := by
  intro fuel
  induction fuel with
  | zero => intro c d; simp [short_loop]
  | succ fuel ih =>
    intro c d
    rw [short_loop]
    cases c.opt with
    | none => simp
    | some v =>
      simp only
      cases parse_short_opt env c tbl with
      | mk rc c2 =>
        cases rc with
        | abort => simp
        | code n =>
          simp only
          by_cases k1 : n = -1
          · rw [if_pos k1]; simp
          · rw [if_neg k1]
            by_cases k2 : n = -2
            · rw [if_pos k2]
              cases c2.opt with
              | none => simp
              | some o =>
                simp only
                split_ifs
                · simp
                · exact unknown_not_brk _ d
            · rw [if_neg k2]
              exact ih c2 d

/-- The loop of `parse_options_step` is left by `break` only at the token
`--`, with the context of that moment, advanced past the token or not. -/
theorem step_token_brk (env : Env) (tbl : List Opt) (fuel : Nat) (c c1 : Ctx)
    (h : step_token env tbl fuel c = TokStep.brk c1) :
    c1 = c ∨ c1 = { c with argc := c.argc - 1, argv := c.argv + 1 } := by
  unfold step_token at h
  simp only at h
  by_cases h1 : (argvAt c 0).head? ≠ some '-' ∨ (argvAt c 0).length < 2
  · rw [if_pos h1] at h
    exfalso
    revert h
    cases parse_nodash_opt env c (argvAt c 0) tbl with
    | mk rc c2 =>
      simp only
      split_ifs <;> simp
  · rw [if_neg h1] at h
    split at h
    · cases h
    split at h
    · cases h
    split at h
    · exfalso
      revert h
      cases parse_short_opt env { c with opt := some (argvAt c 0).tail } tbl with
      | mk rc c2 =>
        cases rc with
        | abort => simp
        | code n =>
          simp only
          by_cases k1 : n = -1
          · rw [if_pos k1]; simp
          · rw [if_neg k1]
            by_cases k2 : n = -2
            · rw [if_pos k2]
              cases c2.opt with
              | none =>
                simp only
                split_ifs
                · simp
                · exact unknown_not_brk _ c1
              | some o =>
                simp only
                split_ifs
                · simp
                · simp
                · exact unknown_not_brk _ c1
            · rw [if_neg k2]
              split_ifs
              · simp
              · exact short_loop_not_brk env tbl fuel c2 c1
    split at h
    · split at h
      · injection h with h
        exact Or.inr h.symm
      · injection h with h
        exact Or.inl h.symm
    split at h
    · cases h
    split at h
    · cases h
    exfalso
    revert h
    cases parse_long_opt env c ((argvAt c 0).drop 2) tbl with
    | mk rc c2 =>
      cases rc with
      | abort => simp
      | code n =>
        simp only
        by_cases k1 : n = -1
        · rw [if_pos k1]; simp
        · rw [if_neg k1]
          by_cases k2 : n = -2
          · rw [if_pos k2]
            exact unknown_not_brk _ c1
          · rw [if_neg k2]
            split_ifs <;> simp

/-- A property `I` of the loop head that gives `P` for the current token and
follows from `Q` after the loop increment holds at the head of every round
of the loop of `parse_options_step`. -/
theorem closed_loop_rounds (env : Env) (tbl : List Opt) (P Q I : Ctx → Prop)
    (h : geom_closed env tbl P Q) (hIP : ∀ c, I c → c.argc ≠ 0 → P c)
    (hQI : ∀ c, Q c → I { c with argc := c.argc - 1, argv := c.argv + 1 }) :
    ∀ (n fuel : Nat) (c c1 : Ctx), I c → loop_rounds env tbl fuel n c = some c1 → I c1 := by
  intro n
  induction n with
  | zero =>
    intro fuel c c1 hc h'
    cases fuel <;>
    · simp only [loop_rounds, Option.some.injEq] at h'
      subst h'
      exact hc
  | succ n ih =>
    intro fuel c c1 hc h'
    cases fuel with
    | zero => simp [loop_rounds] at h'
    | succ fuel =>
      rw [loop_rounds] at h'
      by_cases h0 : c.argc = 0
      · rw [if_pos h0] at h'
        cases h'
      · rw [if_neg h0] at h'
        have hs := closed_step_token env tbl P Q h (fuel + 1) c (hIP c hc h0)
        cases hr : step_token env tbl (fuel + 1) c with
        | next c2 =>
          rw [hr] at h' hs
          exact ih fuel _ c1 (hQI c2 hs) h'
        | brk c2 => rw [hr] at h'; cases h'
        | ret o c2 => rw [hr] at h'; cases h'

/-- The context that the loop of `parse_options_step` ends with has the
property `R`, when `R` follows from `I` at the loop head, from `P` while a
token is processed, and from `I` after the token `--` was skipped. -/
theorem closed_loop (env : Env) (tbl : List Opt) (P Q I R : Ctx → Prop)
    (h : geom_closed env tbl P Q) (hIP : ∀ c, I c → c.argc ≠ 0 → P c)
    (hQI : ∀ c, Q c → I { c with argc := c.argc - 1, argv := c.argv + 1 })
    (hIR : ∀ c, I c → R c) (hPR : ∀ c, P c → R c)
    (hbrk : ∀ c, I c → c.argc ≠ 0 → R { c with argc := c.argc - 1, argv := c.argv + 1 }) :
    ∀ (fuel : Nat) (c : Ctx), I c → R (parse_options_loop env tbl fuel c).2 := by
  intro fuel
  induction fuel with
  | zero => intro c hc; exact hIR c hc
  | succ fuel ih =>
    intro c hc
    rw [parse_options_loop]
    by_cases h0 : c.argc = 0
    · rw [if_pos h0]
      exact hIR c hc
    · rw [if_neg h0]
      have hs := closed_step_token env tbl P Q h (fuel + 1) c (hIP c hc h0)
      cases hr : step_token env tbl (fuel + 1) c with
      | next c2 =>
        rw [hr] at hs
        exact ih _ (hQI c2 hs)
      | brk c2 =>
        simp only
        rcases step_token_brk env tbl (fuel + 1) c c2 hr with rfl | rfl
        · exact hIR _ hc
        · exact hbrk c hc h0
      | ret o c2 =>
        rw [hr] at hs
        exact hPR c2 hs

/-! ### Finalization -/

theorem partition_geom_closed (env : Env) (tbl : List Opt) (orig : List (Option Str))
    (flags : ParseFlags) (hll : ll_keeps_partition env tbl orig flags) :
    geom_closed env tbl (partition_mid orig flags 0) (partition_mid orig flags 1) := by
  refine ⟨?_, ?_, ?_, ?_, ?_⟩
  · intro p q h hp
    exact partition_mid_of_consumes orig flags 0 p q h hp
  · intro o ho
    exact hll o ho
  · intro p q x hp hg
    simp only [geom, Prod.mk.injEq] at hg
    obtain ⟨h1, h2, h3, h4, h5⟩ := hg
    exact partition_forward orig flags p q x hp h1 h4 h2 h3 h5
  · intro p q x hp hg
    exact partition_mid_of_geom orig flags 0 { p with buf := p.buf.set p.argv x } q hg
      (partition_rewrite_current orig flags p x hp)
  · intro p hp
    exact partition_mid_mono orig flags 1 p hp

/-- A call of `parse_options_step` keeps the output partition. -/
theorem partition_rest_step (env : Env) (tbl : List Opt) (orig : List (Option Str))
    (flags : ParseFlags) (hll : ll_keeps_partition env tbl orig flags) (fuel : Nat) (c : Ctx)
    (hc : partition_rest orig flags c) :
    partition_rest orig flags (parse_options_step env tbl fuel c).2 := by
  unfold parse_options_step
  refine closed_loop env tbl (partition_mid orig flags 0) (partition_mid orig flags 1)
    (partition_rest orig flags) (partition_rest orig flags)
    (partition_geom_closed env tbl orig flags hll) ?_ ?_ (fun _ h => h) ?_ ?_ fuel _ hc
  · intro c ⟨a1, a2, a3, a4, a5⟩ h0
    exact ⟨a1, a2, by omega, a4, by omega, a5⟩
  · intro c ⟨a1, a2, a3, a4, a5, a6⟩
    exact ⟨a1, drop_succ_of_drop _ _ _ a2, a3, by simp only; omega, a6⟩
  · intro c ⟨a1, a2, a3, a4, a5, a6⟩
    exact ⟨a1, a2, by omega, a4, a6⟩
  · intro c ⟨a1, a2, a3, a4, a5⟩ h0
    exact ⟨a1, drop_succ_of_drop _ _ _ a2, by simp only; omega, by simp only; omega, a5⟩

/-- Any number of calls of `parse_options_step` keeps the output partition. -/
theorem partition_rest_run (env : Env) (tbl : List Opt) (orig : List (Option Str))
    (flags : ParseFlags) (hll : ll_keeps_partition env tbl orig flags) :
    ∀ (fuels : List Nat) (c : Ctx), partition_rest orig flags c →
      partition_rest orig flags (run_steps env tbl fuels c) := by
  intro fuels
  induction fuels with
  | nil => intro c hc; exact hc
  | cons f rest ih =>
    intro c hc
    exact ih _ (partition_rest_step env tbl orig flags hll f c hc)

/-- What `parse_options_end` leaves in the array of a context whose cursors
lie inside it: the output region as it was, the unread tokens right after it,
and `NULL` after them. -/
theorem parse_options_end_layout (c : Ctx) (hcp : c.cpidx ≤ c.argv)
    (hlen : c.argv + c.argc < c.buf.length) :
    (parse_options_end c).1 = c.cpidx + c.argc ∧
    (parse_options_end c).2.buf.take c.cpidx = c.buf.take c.cpidx ∧
    ((parse_options_end c).2.buf.drop c.cpidx).take c.argc = (c.buf.drop c.argv).take c.argc ∧
    (parse_options_end c).2.buf[c.cpidx + c.argc]? = some none ∧
    result_vector (parse_options_end c) = pending_vector c := by
  have hl : (c.buf.take c.cpidx).length = c.cpidx := by
    rw [List.length_take]
    omega
  have hm : ((c.buf.drop c.argv).take c.argc).length = c.argc := by
    rw [List.length_take, List.length_drop]
    omega
  have hv := parse_options_end_vector c ((c.buf.drop c.argv).take c.argc)
    ((c.buf.drop c.argv).drop c.argc) (by omega) (List.take_append_drop _ _).symm hm
  have hbuf : (parse_options_end c).2.buf =
      (c.buf.take c.cpidx ++ (c.buf.drop c.argv).take c.argc ++
        c.buf.drop (c.cpidx + c.argc)).set (c.cpidx + c.argc) none := rfl
  have hpre : (c.buf.take c.cpidx ++ (c.buf.drop c.argv).take c.argc).length =
      c.cpidx + c.argc := by
    rw [List.length_append, hl, hm]
  have hset : (parse_options_end c).2.buf =
      c.buf.take c.cpidx ++ (c.buf.drop c.argv).take c.argc ++
        (c.buf.drop (c.cpidx + c.argc)).set 0 none := by
    rw [hbuf, List.set_append_right _ _ (by omega), hpre, Nat.sub_self]
  refine ⟨rfl, ?_, ?_, ?_, hv.1⟩
  · rw [hset, List.append_assoc, List.take_append_of_le_length (by omega),
      List.take_of_length_le (by omega)]
  · rw [hset, List.append_assoc, List.drop_append_of_le_length (by omega),
      List.drop_of_length_le (by omega), List.nil_append,
      List.take_append_of_le_length (by omega), List.take_of_length_le (by omega)]
  · rw [hset, List.getElem?_append_right (by omega), hpre, Nat.sub_self]
    have : 0 < (c.buf.drop (c.cpidx + c.argc)).length := by
      rw [List.length_drop]
      omega
    cases hd : c.buf.drop (c.cpidx + c.argc) with
    | nil => rw [hd] at this; simp at this
    | cons a r => simp

theorem parse_nodash_opt_from_operand (env : Env) (all : List Opt) (p : Ctx) (t : Str) :
    ∀ (l : List Opt) (i : Nat),
      (∀ o ∈ table l, o.flags.nodash = true → ¬ (o.short_name = headCode t ∧ t.length ≤ 1)) →
      parse_nodash_opt_from env all p t l i = (Rc.code (-2), p) := by
  intro l
  induction l with
  | nil => intro i _; rfl
  | cons o rest ih =>
    intro i h
    by_cases hend : o.type = OPTION_END
    · simp [parse_nodash_opt_from, hend]
    · rw [table_cons o rest hend] at h
      have hrest := ih (i + 1) (fun o' ho' => h o' (List.mem_cons_of_mem _ ho'))
      rw [parse_nodash_opt_from, if_neg hend]
      by_cases hnd : o.flags.nodash = true
      · rw [if_neg (by simpa using hnd), if_neg (h o (List.mem_cons_self _ _) hnd)]
        exact hrest
      · rw [if_pos (by simpa using hnd)]
        exact hrest

/-- The body of the loop of `parse_options_step` for a plain operand: the
step returns at it when stop-at-non-option is set, and forwards it
otherwise. -/
theorem step_token_operand (env : Env) (tbl : List Opt) (fuel : Nat) (c : Ctx) (t : Str)
    (harg : argvAt c 0 = t) (ht : operand tbl t) :
    step_token env tbl fuel c =
      if c.flags.stop_at_non_option then TokStep.ret Outcome.PARSE_OPT_NON_OPTION c
      else TokStep.next { c with buf := c.buf.set c.cpidx (c.buf.getD c.argv none),
                                 cpidx := c.cpidx + 1 } := by
  unfold step_token
  simp only [harg]
  rw [if_pos ht.1]
  unfold parse_nodash_opt
  rw [parse_nodash_opt_from_operand env tbl c t tbl 0 ht.2]
  simp only
  rw [if_neg (by decide), if_neg (by decide)]

theorem take_set_succ {α : Type} (x : α) :
    ∀ (l : List α) (n : Nat), n < l.length → (l.set n x).take (n + 1) = l.take n ++ [x] := by
  intro l
  induction l with
  | nil => intro n h; simp at h
  | cons a r ih =>
    intro n h
    cases n with
    | zero => simp
    | succ n =>
      simp only [List.set_cons_succ, List.take_succ_cons, List.cons_append, List.cons.injEq,
        true_and]
      exact ih n (by simpa using h)

/-! ### The count returned by finalization -/

/-- The value that `parse_options` returns, when it returns. -/
theorem parse_options_count (env : Env) (pre : List (Option Str) → List (Option Str))
    (args : List Str) (pfx : Option Str) (tbl : List Opt) (flags : ParseFlags) (slots : Slots)
    (fuel : Nat) (ctx0 : Ctx) (r : Nat × Ctx)
    (hstart : parse_options_start args pfx tbl flags slots = some ctx0)
    (h : parse_options env pre args pfx tbl flags slots fuel = some r) :
    r.1 = (parse_options_step env tbl fuel ctx0).2.cpidx +
      (parse_options_step env tbl fuel ctx0).2.argc := by
  unfold parse_options at h
  rw [hstart] at h
  simp only at h
  cases hs : parse_options_step env tbl fuel ctx0 with
  | mk o c =>
    rw [hs] at h
    cases o <;> simp only [Option.some.injEq] at h <;> first | (subst h; rfl) | cases h

/-- C14 (amended): the argument vector is the program name followed by
`toks`, the table is validated and its low-level callbacks, if any, keep the
output partition, and `c` is a context reached by `parse_options_start`
followed by any number of calls of `parse_options_step`.  The count that
`parse_options_end` returns (and `parse_options`, when it returns) is the
output cursor plus the number of unread tokens: the length of the whole
resulting vector, which is the forwarded region (as many slots as the output
cursor says) followed by the leftover tokens.  The leftover tokens are
included in the count; it equals the boundary cursor only when no token is
left unread. -/
theorem finalization_count (env : Env) (tbl : List Opt) (flags : ParseFlags) (slots : Slots)
    (pfx : Option Str) (prog : Str) (toks : List Str) (fuels : List Nat) (ctx0 c : Ctx)
    (hstart : parse_options_start (prog :: toks) pfx tbl flags slots = some ctx0)
    (hll : ll_keeps_partition env tbl ctx0.buf flags)
    (hc : c = run_steps env tbl fuels ctx0) :
    (parse_options_end c).1 = c.cpidx + c.argc ∧
    result_vector (parse_options_end c) =
      c.buf.take c.cpidx ++ (c.buf.drop c.argv).take c.argc ∧
    (c.buf.take c.cpidx).length = c.cpidx ∧
    ((c.buf.drop c.argv).take c.argc).length = c.argc ∧
    (result_vector (parse_options_end c)).length = (parse_options_end c).1 ∧
    ((parse_options_end c).1 = c.cpidx ↔ c.argc = 0) ∧
    (∀ (pre : List (Option Str) → List (Option Str)) (fuel : Nat) (r : Nat × Ctx),
      parse_options env pre (prog :: toks) pfx tbl flags slots fuel = some r →
        r.1 = (parse_options_step env tbl fuel ctx0).2.cpidx +
          (parse_options_step env tbl fuel ctx0).2.argc) := by
  obtain ⟨_, hc0⟩ := parse_options_start_ctx _ pfx tbl flags slots ctx0 hstart
  have hbuf : ctx0.buf = some prog :: (toks.map some ++ [none]) := by
    rw [hc0]
    rfl
  have hargv : ctx0.argv = 1 := by rw [hc0]
  have hargc : ctx0.argc = toks.length := by
    rw [hc0]
    simp
  have hcp : ctx0.cpidx = if flags.keep_argv0 then 1 else 0 := by rw [hc0]
  have hfl : ctx0.flags = flags := by rw [hc0]
  have hlen0 : ctx0.buf.length = toks.length + 2 := by
    rw [hbuf]
    simp
  have h0 : partition_rest ctx0.buf flags ctx0 := by
    refine ⟨rfl, rfl, ?_, ?_, hfl⟩
    · rw [hcp, hargv]
      split_ifs <;> omega
    · rw [hargv, hargc, hlen0]
      omega
  obtain ⟨a1, a2, a3, a4, a5⟩ := partition_rest_run env tbl ctx0.buf flags hll fuels ctx0 h0
  rw [← hc] at a1 a2 a3 a4 a5
  have hlay := parse_options_end_layout c a3 (by omega)
  have hl1 : (c.buf.take c.cpidx).length = c.cpidx := by
    rw [List.length_take]
    omega
  have hl2 : ((c.buf.drop c.argv).take c.argc).length = c.argc := by
    rw [List.length_take, List.length_drop]
    omega
  refine ⟨rfl, hlay.2.2.2.2, hl1, hl2, ?_, ?_, ?_⟩
  · rw [hlay.2.2.2.2, hlay.1]
    unfold pending_vector
    rw [List.length_append, hl1, hl2]
  · rw [hlay.1]
    omega
  · intro pre fuel r h
    exact parse_options_count env pre _ pfx tbl flags slots fuel ctx0 r hstart h

/-- C14 instantiated: `prog -a x -- y`; the operand `x` was forwarded, `y` is
left over, and the count is 2 with the boundary at 1. -/
theorem finalization_count_witness :
    (run_steps sampleEnv abcTable [5] (sampleCtx ["prog", "-a", "x", "--", "y"] {})).cpidx = 1 ∧
    (run_steps sampleEnv abcTable [5] (sampleCtx ["prog", "-a", "x", "--", "y"] {})).argc = 1 ∧
    (parse_options_end
      (run_steps sampleEnv abcTable [5] (sampleCtx ["prog", "-a", "x", "--", "y"] {}))).1 =
      1 + 1 ∧
    (result_vector (parse_options_end
      (run_steps sampleEnv abcTable [5] (sampleCtx ["prog", "-a", "x", "--", "y"] {})))).length =
      (parse_options_end
        (run_steps sampleEnv abcTable [5] (sampleCtx ["prog", "-a", "x", "--", "y"] {}))).1 :=
  have h := finalization_count sampleEnv abcTable {} zeroSlots none "prog".toList
    ["-a".toList, "x".toList, "--".toList, "y".toList] [5]
    (sampleCtx ["prog", "-a", "x", "--", "y"] {})
    (run_steps sampleEnv abcTable [5] (sampleCtx ["prog", "-a", "x", "--", "y"] {}))
    rfl (fun _ _ _ _ _ hp => hp) rfl
  ⟨rfl, rfl, h.1, h.2.2.2.2.1⟩

/-- C14 as stated fails: on `prog x -- y` the forwarded region is `x` (the
boundary cursor is 1) and `y` is a leftover operand, yet `parse_options_end`
and `parse_options` return 2: the leftover operand is counted. -/
theorem count_includes_leftover :
    (parse_options_step sampleEnv abcTable 5 (sampleCtx ["prog", "x", "--", "y"] {})).1 =
      Outcome.PARSE_OPT_DONE ∧
    (parse_options_step sampleEnv abcTable 5 (sampleCtx ["prog", "x", "--", "y"] {})).2.cpidx =
      1 ∧
    (parse_options_step sampleEnv abcTable 5 (sampleCtx ["prog", "x", "--", "y"] {})).2.argc =
      1 ∧
    (parse_options_end
      (parse_options_step sampleEnv abcTable 5 (sampleCtx ["prog", "x", "--", "y"] {})).2).1 =
      2 ∧
    result_vector (parse_options_end
      (parse_options_step sampleEnv abcTable 5 (sampleCtx ["prog", "x", "--", "y"] {})).2) =
      [some ['x'], some ['y']] ∧
    (parse_options sampleEnv id ["prog".toList, "x".toList, "--".toList, "y".toList] none
      abcTable {} zeroSlots 5).map Prod.fst = some 2 := by
  refine ⟨rfl, rfl, rfl, rfl, rfl, ?_⟩
  have hs : parse_options_start ["prog".toList, "x".toList, "--".toList, "y".toList] none
      abcTable {} zeroSlots = some (sampleCtx ["prog", "x", "--", "y"] {}) := by
    unfold parse_options_start
    rw [if_neg (by decide), if_neg (by decide)]
    rfl
  unfold parse_options
  rw [hs]
  rfl

/-! ### The empty argument list -/

/-- C15 (amended): for a validated table and any flag set that
`parse_options_start` accepts, parsing the argument list that holds the
program name only ends in the Done outcome with the context, and so every
value slot, untouched; after finalization the returned count is 0 and the
vector is empty (the array holds the terminator at position 0), unless
keep-argv0 is set: then the count is 1 and the vector is the program name,
followed by the terminator. -/
theorem empty_argument_list (env : Env) (tbl : List Opt) (flags : ParseFlags) (slots : Slots)
    (pfx : Option Str) (prog : Str) (fuel : Nat) (ctx0 : Ctx)
    (hstart : parse_options_start [prog] pfx tbl flags slots = some ctx0) :
    parse_options_step env tbl (fuel + 1) ctx0 = (Outcome.PARSE_OPT_DONE, ctx0) ∧
    (parse_options_step env tbl (fuel + 1) ctx0).2.slots = slots ∧
    (parse_options_end (parse_options_step env tbl (fuel + 1) ctx0).2).1 =
      (if flags.keep_argv0 then 1 else 0) ∧
    result_vector (parse_options_end (parse_options_step env tbl (fuel + 1) ctx0).2) =
      (if flags.keep_argv0 then [some prog] else []) ∧
    (parse_options_end (parse_options_step env tbl (fuel + 1) ctx0).2).2.buf =
      (if flags.keep_argv0 then [some prog, none] else [none, none]) := by
  obtain ⟨_, hc0⟩ := parse_options_start_ctx _ pfx tbl flags slots ctx0 hstart
  have hstep : parse_options_step env tbl (fuel + 1) ctx0 = (Outcome.PARSE_OPT_DONE, ctx0) := by
    unfold parse_options_step
    rw [parse_options_loop, hc0]
    rfl
  rw [hstep]
  refine ⟨rfl, ?_, ?_, ?_, ?_⟩
  · rw [hc0]
  · rw [hc0]
    cases flags.keep_argv0 <;> rfl
  · rw [hc0]
    cases flags.keep_argv0 <;> rfl
  · rw [hc0]
    cases flags.keep_argv0 <;> rfl

/-- C15 instantiated with the table of `-a`, `-b`, `-c` and no flag. -/
theorem empty_argument_list_witness :
    parse_options_step sampleEnv abcTable 1 (sampleCtx ["prog"] {}) =
      (Outcome.PARSE_OPT_DONE, sampleCtx ["prog"] {}) ∧
    (parse_options_end (parse_options_step sampleEnv abcTable 1 (sampleCtx ["prog"] {})).2).1 =
      0 ∧
    result_vector
      (parse_options_end (parse_options_step sampleEnv abcTable 1 (sampleCtx ["prog"] {})).2) =
      [] :=
  have h := empty_argument_list sampleEnv abcTable {} zeroSlots none "prog".toList 0
    (sampleCtx ["prog"] {}) rfl
  ⟨h.1, h.2.2.1, h.2.2.2.1⟩

/-- C15 as stated fails: with keep-argv0 set, parsing `prog` alone gives the
count 1 and the vector `prog`, not the count 0 and the terminator only. -/
theorem empty_list_keeps_argv0 :
    parse_options_start ["prog".toList] none abcTable { keep_argv0 := true } zeroSlots =
      some (sampleCtx ["prog"] { keep_argv0 := true }) ∧
    (parse_options_step sampleEnv abcTable 1 (sampleCtx ["prog"] { keep_argv0 := true })).1 =
      Outcome.PARSE_OPT_DONE ∧
    (parse_options_end
      (parse_options_step sampleEnv abcTable 1 (sampleCtx ["prog"] { keep_argv0 := true })).2).1 =
      1 ∧
    result_vector (parse_options_end
      (parse_options_step sampleEnv abcTable 1 (sampleCtx ["prog"] { keep_argv0 := true })).2) =
      [some ['p', 'r', 'o', 'g']] := by
  refine ⟨?_, rfl, rfl, rfl⟩
  unfold parse_options_start
  rw [if_neg (by decide), if_neg (by decide)]
  rfl

/-! ### Atomicity of one option application -/

theorem get_arg_slots (q : Ctx) (o : Opt) (f : Nat) : (get_arg q o f).2.2.slots = q.slots := by
  unfold get_arg
  cases q.opt with
  | some v => rfl
  | none => simp only; split_ifs <;> rfl

/-- For the kinds other than Integer that `get_value` converts itself, a call
that does not return 0 leaves every value slot as it was. -/
theorem get_value_error_keeps_slots (env : Env) (p : Ctx) (i : Nat) (o : Opt) (tbl : List Opt)
    (fl : Nat) (hty : converts_checked o.type)
    (herr : (get_value env p i o tbl fl).1 ≠ Rc.code 0) :
    (get_value env p i o tbl fl).2.slots = p.slots := by
  unfold get_value at herr ⊢
  simp only at herr ⊢
  split_ifs at herr ⊢ with h1 h2 h3
  · rfl
  · rfl
  · rfl
  · rcases hty with ht | ht | ht | ht | ht | ht
    · exfalso
      apply herr
      simp only [get_value_switch, ht]
      split_ifs <;> rfl
    · exfalso
      apply herr
      simp only [get_value_switch, ht]
      split_ifs <;> rfl
    · exact absurd (by simp [get_value_switch, ht]) herr
    · exact absurd (by simp [get_value_switch, ht]) herr
    · simp only [get_value_switch, ht] at herr ⊢
      split_ifs at herr ⊢ with h4
      · exact (opt_command_mode_error_from_fails p i o fl tbl 0).2
      · exact absurd rfl herr
    · simp only [get_value_switch, ht] at herr ⊢
      split_ifs at herr ⊢ with h4 h5 h6
      · exact absurd rfl herr
      · exact absurd rfl herr
      · exact absurd rfl herr
      · exact get_arg_slots p o fl

/-- C16, the failing input: the Integer option `--num` on slot 3, which holds
7, is given the value `5x`.  The table is validated; `get_value` returns the
error -1 with the message "expects a numerical value", and so
`parse_options_step` ends in the Error outcome, but slot 3 holds 5 afterwards:
the converted leading digits were stored before the rest of the token was
checked. -/
theorem integer_error_overwrites_slot :
    parse_options_check intTable = false ∧
    (store_int zeroSlots 3 7).ints 3 = 7 ∧
    (get_value sampleEnv
      { sampleCtx ["prog", "--num=5x"] {} with
        slots := store_int zeroSlots 3 7, opt := some ['5', 'x'] } 0 numOpt intTable 0).1 =
      Rc.code (-1) ∧
    (get_value sampleEnv
      { sampleCtx ["prog", "--num=5x"] {} with
        slots := store_int zeroSlots 3 7, opt := some ['5', 'x'] } 0 numOpt intTable
        0).2.slots.ints 3 = 5 ∧
    (parse_options_step sampleEnv intTable 5
      { sampleCtx ["prog", "--num=5x"] {} with slots := store_int zeroSlots 3 7 }).1 =
      Outcome.PARSE_OPT_ERROR ∧
    (parse_options_step sampleEnv intTable 5
      { sampleCtx ["prog", "--num=5x"] {} with slots := store_int zeroSlots 3 7 }).2.stderr =
      [Msg.expects_numerical (OptName.option (some ['n', 'u', 'm']))] ∧
    (parse_options_step sampleEnv intTable 5
      { sampleCtx ["prog", "--num=5x"] {} with slots := store_int zeroSlots 3 7 }).2.slots.ints
        3 = 5 := by
  refine ⟨by decide, by decide, by decide, by decide, by decide, by decide, by decide⟩

/-! ### The Integer kind -/

theorem takeWhile_all {α : Type} (f : α → Bool) (d : List α) (h : d.all f = true) :
    d.takeWhile f = d := by
  rw [List.takeWhile_eq_self_iff]
  simpa using h

theorem takeWhile_dropWhile_all {α : Type} (f : α → Bool) (d : List α) :
    (d.takeWhile f ≠ [] ∧ d.dropWhile f = []) ↔ (d ≠ [] ∧ d.all f = true) := by
  constructor
  · intro ⟨h1, h2⟩
    refine ⟨?_, ?_⟩
    · intro hd
      rw [hd] at h1
      exact h1 rfl
    · rw [List.dropWhile_eq_nil_iff] at h2
      simpa using h2
  · intro ⟨h1, h2⟩
    refine ⟨?_, ?_⟩
    · rw [takeWhile_all f d h2]
      exact h1
    · rw [List.dropWhile_eq_nil_iff]
      simpa using h2

/-- The call `strtol(t, &s, 10)` on a non-empty text leaves nothing unparsed
exactly when the text is white space followed by a base-10 integer, and then
it returns the value of that integer, saturated to the range of `long`. -/
theorem strtol_base10 (t : Str) (hne : t ≠ []) :
    ((strtol t).2 = [] ↔ base10 (t.dropWhile isspace) = true) ∧
    (base10 (t.dropWhile isspace) = true →
      (strtol t).1 = clamp_long (base10_value (t.dropWhile isspace))) := by
  unfold strtol base10 base10_value clamp_long
  simp only
  generalize t.dropWhile isspace = s1
  by_cases hs : s1.head? = some '-' ∨ s1.head? = some '+'
  · rw [if_pos hs, if_pos hs]
    have key := takeWhile_dropWhile_all isdigit s1.tail
    by_cases hds : s1.tail.takeWhile isdigit = []
    · rw [if_pos hds]
      have hno : ¬ (s1.tail ≠ [] ∧ s1.tail.all isdigit = true) := by
        intro h
        exact (key.mpr h).1 hds
      constructor
      · constructor
        · intro h; exact absurd h hne
        · intro h
          exfalso
          apply hno
          simpa using h
      · intro h
        exfalso
        apply hno
        simpa using h
    · rw [if_neg hds]
      simp only
      constructor
      · constructor
        · intro h
          have := key.mp ⟨hds, h⟩
          simpa using this
        · intro h
          exact (key.mpr (by simpa using h)).2
      · intro h
        have hall : s1.tail.all isdigit = true := by
          have : s1.tail ≠ [] ∧ s1.tail.all isdigit = true := by simpa using h
          exact this.2
        rw [takeWhile_all isdigit _ hall]
        rcases hs with hs | hs
        · simp [hs]
        · have hm : s1.head? ≠ some '-' := by rw [hs]; decide
          simp [hs, hm]
  · rw [if_neg hs, if_neg hs]
    have hm : s1.head? ≠ some '-' := fun h => hs (Or.inl h)
    have hp : s1.head? ≠ some '+' := fun h => hs (Or.inr h)
    have key := takeWhile_dropWhile_all isdigit s1
    by_cases hds : s1.takeWhile isdigit = []
    · rw [if_pos hds]
      have hno : ¬ (s1 ≠ [] ∧ s1.all isdigit = true) := by
        intro h
        exact (key.mpr h).1 hds
      constructor
      · constructor
        · intro h; exact absurd h hne
        · intro h
          exfalso
          apply hno
          simpa using h
      · intro h
        exfalso
        apply hno
        simpa using h
    · rw [if_neg hds]
      simp only
      constructor
      · constructor
        · intro h
          have := key.mp ⟨hds, h⟩
          simpa using this
        · intro h
          exact (key.mpr (by simpa using h)).2
      · intro h
        have hall : s1.all isdigit = true := by
          have : s1 ≠ [] ∧ s1.all isdigit = true := by simpa using h
          exact this.2
        rw [takeWhile_all isdigit _ hall]
        simp [hm, hp]

theorem argvAt_next (p q : Ctx) (h1 : q.buf = p.buf) (h2 : q.argv = p.argv + 1) :
    argvAt q 0 = argvAt p 1 := by
  unfold argvAt
  rw [h1, h2]

/-- The Integer case of `get_value` in non-negated form, once `get_arg` has
delivered the raw value `t`: `q` is the context after `get_arg`. -/
theorem get_value_integer (env : Env) (p : Ctx) (i : Nat) (o : Opt) (tbl : List Opt) (fl : Nat)
    (t : Str) (hty : o.type = OPTION_INTEGER) (hfl : fl &&& OPT_UNSET = 0)
    (hnoarg : o.flags.noarg = false)
    (hval : p.opt = some t ∨
      (p.opt = none ∧ o.flags.optarg = false ∧ 1 < p.argc ∧ argvAt p 1 = t)) :
    ∃ q : Ctx, q.slots = p.slots ∧ q.stderr = p.stderr ∧
      get_value env p i o tbl fl =
        if (strtol t).2 ≠ [] then
          error (setInt q o.value (toInt32 (strtol t).1)) (Msg.expects_numerical (optname o fl))
        else (Rc.code 0, setInt q o.value (toInt32 (strtol t).1)) := by
  rcases hval with hv | ⟨hv, hopt, hargc, harg⟩
  · refine ⟨{ p with opt := none }, rfl, rfl, ?_⟩
    unfold get_value
    simp only [hfl, hnoarg, ne_eq, not_true_eq_false, decide_False, Bool.false_eq_true,
      false_and, and_false, if_false]
    simp only [get_value_switch, hty, hfl, ne_eq, not_true_eq_false, decide_False,
      Bool.false_eq_true, if_false, get_arg, hv, Option.isNone_some, and_false]
  · refine ⟨{ p with argc := p.argc - 1, argv := p.argv + 1 }, rfl, rfl, ?_⟩
    have hne1 : ¬ (p.argc = 1 ∧ o.flags.lastarg_default = true) := by
      intro h
      omega
    unfold get_value
    simp only [hfl, hv, ne_eq, not_true_eq_false, decide_False, Bool.false_eq_true,
      false_and, Option.isSome_none, and_false, if_false]
    simp only [get_value_switch, hty, hfl, ne_eq, not_true_eq_false, decide_False,
      Bool.false_eq_true, if_false, get_arg, hv, hopt, false_and, if_neg hne1,
      if_pos (show p.argc > 1 from hargc)]
    rw [argvAt_next p { p with argc := p.argc - 1, argv := p.argv + 1, opt := none } rfl rfl,
      harg]

/-- C17 (amended): an Integer descriptor that takes an argument is matched in
non-negated form with the non-empty raw value `t`, inline or taken from the
next token.  `get_value` succeeds if and only if `t` without its leading
white space is, in its entirety, a base-10 integer (an optional sign and one
or more digits); the slot then holds the numeric value, saturated to the
range of `long` and converted to `int`, which is the numeric value itself
when that fits an `int`.  For every other non-empty `t` it fails with the
"expects a numerical value" error. -/
theorem integer_value_conversion (env : Env) (p : Ctx) (i : Nat) (o : Opt) (tbl : List Opt)
    (fl : Nat) (t : Str) (hty : o.type = OPTION_INTEGER) (hfl : fl &&& OPT_UNSET = 0)
    (hnoarg : o.flags.noarg = false)
    (hval : p.opt = some t ∨
      (p.opt = none ∧ o.flags.optarg = false ∧ 1 < p.argc ∧ argvAt p 1 = t))
    (hne : t ≠ []) :
    ((get_value env p i o tbl fl).1 = Rc.code 0 ↔ base10 (t.dropWhile isspace) = true) ∧
    (base10 (t.dropWhile isspace) = true →
      (get_value env p i o tbl fl).2.slots.ints o.value =
        toInt32 (clamp_long (base10_value (t.dropWhile isspace))) ∧
      (fits_int (base10_value (t.dropWhile isspace)) →
        (get_value env p i o tbl fl).2.slots.ints o.value =
          base10_value (t.dropWhile isspace))) ∧
    (base10 (t.dropWhile isspace) = false →
      (get_value env p i o tbl fl).1 = Rc.code (-1) ∧
      (get_value env p i o tbl fl).2.stderr =
        p.stderr ++ [Msg.expects_numerical (optname o fl)]) := by
  obtain ⟨q, hq1, hq2, hgv⟩ := get_value_integer env p i o tbl fl t hty hfl hnoarg hval
  obtain ⟨hs1, hs2⟩ := strtol_base10 t hne
  rw [hgv]
  by_cases hb : base10 (t.dropWhile isspace) = true
  · have hr : (strtol t).2 = [] := hs1.mpr hb
    rw [if_neg (by simpa using hr)]
    refine ⟨⟨fun _ => hb, fun _ => rfl⟩, fun _ => ⟨?_, ?_⟩, fun h => ?_⟩
    · simp [setInt, hs2 hb]
    · intro hf
      have hc : clamp_long (base10_value (t.dropWhile isspace)) =
          base10_value (t.dropWhile isspace) := by
        unfold clamp_long
        unfold fits_int at hf
        rw [if_neg (by omega), if_neg (by omega)]
      simp only [setInt, if_true, hs2 hb, hc]
      exact toInt32_fits _ hf
    · rw [hb] at h
      cases h
  · have hr : (strtol t).2 ≠ [] := fun h => hb (hs1.mp h)
    rw [if_pos hr]
    refine ⟨⟨fun h => ?_, fun h => absurd h hb⟩, fun h => absurd h hb, fun _ => ⟨rfl, ?_⟩⟩
    · simp [error] at h
    · simp [error, setInt, hq2]

/-- C17 instantiated: `--num=-42` stores -42 in slot 3. -/
theorem integer_value_conversion_witness :
    (get_value sampleEnv { sampleCtx ["prog", "--num=-42"] {} with opt := some ['-', '4', '2'] }
      0 numOpt intTable 0).1 = Rc.code 0 ∧
    (get_value sampleEnv { sampleCtx ["prog", "--num=-42"] {} with opt := some ['-', '4', '2'] }
      0 numOpt intTable 0).2.slots.ints 3 = -42 :=
  have h := integer_value_conversion sampleEnv
    { sampleCtx ["prog", "--num=-42"] {} with opt := some ['-', '4', '2'] } 0 numOpt intTable 0
    ['-', '4', '2'] rfl rfl rfl (Or.inl rfl) (by decide)
  ⟨h.1.mpr (by decide), (h.2.1 (by decide)).2 ⟨by decide, by decide⟩⟩

/-- C17 as stated fails: the value ` 5` (with a leading blank) is not, in its
entirety, a base-10 integer, yet `get_value` succeeds and stores 5; and the
value `4294967301` is a base-10 integer, `get_value` succeeds, but the slot
holds 5, not the numeric value of the token. -/
theorem integer_accepts_more_than_base10 :
    base10 [' ', '5'] = false ∧
    (get_value sampleEnv { sampleCtx ["prog", "--num= 5"] {} with opt := some [' ', '5'] }
      0 numOpt intTable 0).1 = Rc.code 0 ∧
    (get_value sampleEnv { sampleCtx ["prog", "--num= 5"] {} with opt := some [' ', '5'] }
      0 numOpt intTable 0).2.slots.ints 3 = 5 ∧
    base10 "4294967301".toList = true ∧ base10_value "4294967301".toList = 4294967301 ∧
    (get_value sampleEnv
      { sampleCtx ["prog", "--num=4294967301"] {} with opt := some "4294967301".toList }
      0 numOpt intTable 0).1 = Rc.code 0 ∧
    (get_value sampleEnv
      { sampleCtx ["prog", "--num=4294967301"] {} with opt := some "4294967301".toList }
      0 numOpt intTable 0).2.slots.ints 3 = 5 := by
  refine ⟨by decide, by decide, by decide, by decide, by decide, by decide, by decide⟩

/-! ### Long names that start with `no-` -/

/-- A descriptor that the token `t` (without `=`) does not name exactly is
passed by the loop body of `parse_long_opt` without a change of the
context. -/
theorem long_opt_again_no_exact (t : Str) (p : Ctx) (st : Abbrev) (i : Nat) (o : Opt) (l : Str)
    (ht : '=' ∉ t) (hl : o.long_name = some l) (hex : exact_match o t = false) :
    ∃ st1, long_opt_again t p st i o l 0 = LongStep.cont p st1 := by
  by_cases hslip : prefix_of_own_negation o t = false
  · exact ⟨_, long_opt_again_records t p st i o l ht hl hex hslip⟩
  · have hs : prefix_of_own_negation o t = true := by simpa using hslip
    unfold prefix_of_own_negation at hs
    rw [hl] at hs
    simp only [Bool.and_eq_true, Bool.not_eq_true', bne_iff_ne, ne_eq,
      List.isPrefixOf_iff_prefix] at hs
    obtain ⟨⟨⟨⟨_, ha⟩, hlt⟩, hne⟩, _⟩ := hs
    obtain ⟨again, e⟩ := long_opt_again_eq_pass t p st i o l 0
    refine ⟨st, ?_⟩
    rw [e, long_opt_pass_tree t p st i o ht ha l 0 again, if_neg hne, if_pos hlt]

/-- The loop of `parse_long_opt` passes the descriptors that the token does
not name exactly, with the context unchanged. -/
theorem parse_long_opt_from_pass (t : Str) (p : Ctx) (ht : '=' ∉ t) :
    ∀ (pre rest : List Opt) (i : Nat) (st : Abbrev),
      (∀ o ∈ pre, o.type ≠ OPTION_END ∧ exact_match o t = false) →
      ∃ st2, parse_long_opt_from t (pre ++ rest) i p st =
        parse_long_opt_from t rest (i + pre.length) p st2 := by
  intro pre
  induction pre with
  | nil => intro rest i st _; exact ⟨st, rfl⟩
  | cons o pre ih =>
    intro rest i st h
    have ho := h o (List.mem_cons_self _ _)
    have hpre := fun o' ho' => h o' (List.mem_cons_of_mem _ ho')
    have e : i + (o :: pre).length = i + 1 + pre.length := by
      simp only [List.length_cons]; omega
    rw [List.cons_append, parse_long_opt_from, if_neg ho.1, e]
    cases hl : o.long_name with
    | none => exact ih rest (i + 1) st hpre
    | some l =>
      simp only
      obtain ⟨st1, hc⟩ := long_opt_again_no_exact t p st i o l ht hl ho.2
      rw [hc]
      exact ih rest (i + 1) st1 hpre

theorem prefix_of_NO_append (X : Str) (h : X <+: NO ++ X) : X <+: NO ∨ NO <+: X := by
  rcases Nat.le_total X.length NO.length with hle | hle
  · exact Or.inl (List.prefix_of_prefix_length_le h (List.prefix_append NO X) hle)
  · exact Or.inr (List.prefix_of_prefix_length_le (List.prefix_append NO X) h hle)

/-- At the negatable descriptor `D` named `no-X`, the token `X` is matched
through the jump to `again`: `D` is dispatched in negated form. -/
theorem long_opt_again_double_negation (p : Ctx) (st : Abbrev) (d : Nat) (D : Opt) (X : Str)
    (hX : '=' ∉ X) (harg : D.type ≠ OPTION_ARGUMENT) (hneg : D.flags.noneg = false)
    (hno : ¬ NO <+: X) (hpn : ¬ X <+: NO) :
    long_opt_again X p st d D (NO ++ X) 0 =
      LongStep.leave (LongAction.dispatch p d D OPT_UNSET) := by
  have hlen : ¬ NO ++ X <+: X := by
    intro h
    have := h.length_le
    simp only [NO, List.length_append, List.length_cons, List.length_nil] at this
    omega
  have hne : NO ++ X ≠ X := fun e => hlen (by rw [e])
  have hown : ¬ X <+: NO ++ X := by
    intro h
    rcases prefix_of_NO_append X h with h | h
    · exact hpn h
    · exact hno h
  rw [long_opt_again_strip, long_opt_pass_tree X p st d D hX harg (NO ++ X) 0, if_neg hne,
    if_neg hlen, if_neg hown, if_neg (by simp [hneg]), if_neg hpn, if_pos hno,
    if_pos (List.prefix_append NO X), long_opt_again_plain X p st d D X _ hno,
    long_opt_pass_tree X p st d D hX harg X _, if_pos rfl]
  rfl

/-- C18 (amended): the table holds a negatable descriptor `D`, not an
ArgumentMarker, whose long name is `no-X`, where `X` has no `=`, does not
start with `no-` and is not a prefix of `no-` (it is not empty, `n`, `no` or
`no-`); no descriptor before `D` is named exactly by the token at hand.  The
token `--X` is dispatched to `D` with the negated flag set, exactly like
`--no-no-X`, so both give the same result and context, and it is not reported
as unknown; the token `--no-X` is dispatched to `D` in non-negated form.  For
a Bit-flag-set `D` with mask `m` and no pending inline value, `--no-X` ORs `m`
into the slot and `--X` clears `m` (as 32-bit `int` operations, which are the
plain bit operations when slot and mask fit an `int`). -/
theorem double_negation_name (env : Env) (p : Ctx) (pre post : List Opt) (D : Opt) (X : Str)
    (hD : D.long_name = some (NO ++ X)) (hneg : D.flags.noneg = false)
    (hDa : D.type ≠ OPTION_ARGUMENT) (hDe : D.type ≠ OPTION_END)
    (hX : '=' ∉ X) (hno : ¬ NO <+: X) (hpn : ¬ X <+: NO)
    (hpre : ∀ o ∈ pre, o.type ≠ OPTION_END ∧ exact_match o X = false ∧
      exact_match o (NO ++ X) = false ∧ exact_match o (NO ++ (NO ++ X)) = false) :
    parse_long_opt_action p X (pre ++ D :: post) =
      LongAction.dispatch p pre.length D OPT_UNSET ∧
    parse_long_opt_action p (NO ++ (NO ++ X)) (pre ++ D :: post) =
      LongAction.dispatch p pre.length D OPT_UNSET ∧
    parse_long_opt_action p (NO ++ X) (pre ++ D :: post) =
      LongAction.dispatch p pre.length D 0 ∧
    parse_long_opt env p X (pre ++ D :: post) =
      parse_long_opt env p (NO ++ (NO ++ X)) (pre ++ D :: post) ∧
    (D.type ≠ OPTION_LOWLEVEL_CALLBACK →
      (parse_long_opt env p X (pre ++ D :: post)).1 ≠ Rc.code (-2)) ∧
    (D.type = OPTION_BIT → p.opt = none →
      parse_long_opt env p (NO ++ X) (pre ++ D :: post) =
        (Rc.code 0, setInt p D.value (toInt32 (Int.lor (getInt p D.value) D.defval))) ∧
      parse_long_opt env p X (pre ++ D :: post) =
        (Rc.code 0,
          setInt p D.value (toInt32 (Int.land (getInt p D.value) (Int.lnot D.defval)))) ∧
      (fits_int (getInt p D.value) → fits_int D.defval →
        (parse_long_opt env p (NO ++ X) (pre ++ D :: post)).2.slots.ints D.value =
          Int.lor (getInt p D.value) D.defval ∧
        (parse_long_opt env p X (pre ++ D :: post)).2.slots.ints D.value =
          Int.land (getInt p D.value) (Int.lnot D.defval))) := by
  have hNX : '=' ∉ NO ++ X := not_mem_NO_append X hX
  have hNNX : '=' ∉ NO ++ (NO ++ X) := not_mem_NO_append _ hNX
  have hown : ¬ X <+: NO ++ X := by
    intro h
    rcases prefix_of_NO_append X h with h | h
    · exact hpn h
    · exact hno h
  have hactX : parse_long_opt_action p X (pre ++ D :: post) =
      LongAction.dispatch p pre.length D OPT_UNSET := by
    unfold parse_long_opt_action
    obtain ⟨st2, e⟩ := parse_long_opt_from_pass X p hX pre (D :: post) 0 {}
      (fun o ho => ⟨(hpre o ho).1, (hpre o ho).2.1⟩)
    rw [e, parse_long_opt_from, if_neg hDe, hD]
    simp only
    rw [long_opt_again_double_negation p st2 _ D X hX hDa hneg hno hpn, Nat.zero_add]
  have hactNN : parse_long_opt_action p (NO ++ (NO ++ X)) (pre ++ D :: post) =
      LongAction.dispatch p pre.length D OPT_UNSET := by
    unfold parse_long_opt_action
    obtain ⟨st2, e⟩ := parse_long_opt_from_pass (NO ++ (NO ++ X)) p hNNX pre (D :: post) 0 {}
      (fun o ho => ⟨(hpre o ho).1, (hpre o ho).2.2.2⟩)
    rw [e, parse_long_opt_from, if_neg hDe, hD]
    simp only
    rw [long_opt_again_negated_exact p st2 _ D (NO ++ X) hNX hDa hneg (by simp [NO])
      (fun h => hown ((List.prefix_append_right_inj NO).mp h)), Nat.zero_add]
  have hactN : parse_long_opt_action p (NO ++ X) (pre ++ D :: post) =
      LongAction.dispatch p pre.length D 0 := by
    unfold parse_long_opt_action
    obtain ⟨st2, e⟩ := parse_long_opt_from_pass (NO ++ X) p hNX pre (D :: post) 0 {}
      (fun o ho => ⟨(hpre o ho).1, (hpre o ho).2.2.1⟩)
    rw [e, parse_long_opt_from, if_neg hDe, hD]
    simp only
    rw [long_opt_again_negated_token X p st2 _ D hNX hDa (NO ++ X) 0, if_pos rfl, Nat.zero_add]
    rfl
  have hvX : parse_long_opt env p X (pre ++ D :: post) =
      get_value env p pre.length D (pre ++ D :: post) OPT_UNSET := by
    unfold parse_long_opt
    rw [hactX]
  have hvNN : parse_long_opt env p (NO ++ (NO ++ X)) (pre ++ D :: post) =
      get_value env p pre.length D (pre ++ D :: post) OPT_UNSET := by
    unfold parse_long_opt
    rw [hactNN]
  have hvN : parse_long_opt env p (NO ++ X) (pre ++ D :: post) =
      get_value env p pre.length D (pre ++ D :: post) 0 := by
    unfold parse_long_opt
    rw [hactN]
  refine ⟨hactX, hactNN, hactN, by rw [hvX, hvNN], fun hll => ?_, fun hty hopt => ?_⟩
  · rw [hvX]
    rcases get_value_rc env p pre.length D (pre ++ D :: post) OPT_UNSET hll with h | h | h <;>
      rw [h] <;> decide
  · have e1 : parse_long_opt env p (NO ++ X) (pre ++ D :: post) =
        (Rc.code 0, setInt p D.value (toInt32 (Int.lor (getInt p D.value) D.defval))) := by
      rw [hvN, get_value_enters env p _ D _ 0 (Or.inl hopt) (fun h => absurd rfl h)]
      simp [get_value_switch, hty, OPT_UNSET]
    have e2 : parse_long_opt env p X (pre ++ D :: post) =
        (Rc.code 0,
          setInt p D.value (toInt32 (Int.land (getInt p D.value) (Int.lnot D.defval)))) := by
      rw [hvX, get_value_enters env p _ D _ OPT_UNSET (Or.inl hopt) (fun _ => hneg)]
      simp [get_value_switch, hty, OPT_UNSET]
    refine ⟨e1, e2, fun hs hd => ?_⟩
    rw [e1, e2]
    simp only [setInt, if_true]
    exact ⟨toInt32_fits _ (fits_int_lor _ _ hs hd),
      toInt32_fits _ (fits_int_land _ _ hs (fits_int_lnot _ hd))⟩

/-- C18 instantiated: with the flag named `no-fast` (mask 1) and slot 0
holding 1, `--fast` clears the bit like `--no-no-fast` (the slot holds
`1 AND NOT 1`), and `--no-fast` sets it (`1 OR 1`). -/
theorem double_negation_name_witness :
    parse_long_opt sampleEnv
        { sampleCtx ["prog", "--fast"] {} with slots := store_int zeroSlots 0 1 } "fast".toList
        [verboseFlag, noFast, { type := OPTION_END }] =
      parse_long_opt sampleEnv
        { sampleCtx ["prog", "--fast"] {} with slots := store_int zeroSlots 0 1 }
        "no-no-fast".toList [verboseFlag, noFast, { type := OPTION_END }] ∧
    (parse_long_opt sampleEnv
        { sampleCtx ["prog", "--fast"] {} with slots := store_int zeroSlots 0 1 } "fast".toList
        [verboseFlag, noFast, { type := OPTION_END }]).2.slots.ints 0 =
      Int.land 1 (Int.lnot 1) ∧
    (parse_long_opt sampleEnv
        { sampleCtx ["prog", "--fast"] {} with slots := store_int zeroSlots 0 1 }
        "no-fast".toList [verboseFlag, noFast, { type := OPTION_END }]).2.slots.ints 0 =
      Int.lor 1 1 :=
  have h := double_negation_name sampleEnv
    { sampleCtx ["prog", "--fast"] {} with slots := store_int zeroSlots 0 1 } [verboseFlag]
    [{ type := OPTION_END }] noFast "fast".toList rfl rfl (by decide) (by decide) (by decide)
    (by decide) (by decide) (by decide)
  ⟨h.2.2.2.1,
    ((h.2.2.2.2.2 rfl rfl).2.2 ⟨by decide, by decide⟩ ⟨by decide, by decide⟩).2,
    ((h.2.2.2.2.2 rfl rfl).2.2 ⟨by decide, by decide⟩ ⟨by decide, by decide⟩).1⟩

/-- C18 as stated fails: for the negatable Bit-flag-set descriptor named
`no-n` alone in the table, the token `--n` is an abbreviation of the name and
sets the bit (it is dispatched in non-negated form), while `--no-no-n` is
not matched; and for the negatable descriptor named `no-no-foo` alone in the table the
token `--no-foo` is not matched at all (result -2, unknown). -/
theorem double_negation_fails_on_short_names :
    noN.long_name = some (NO ++ ['n']) ∧ noN.flags.noneg = false ∧
    (parse_long_opt sampleEnv (sampleCtx ["prog", "--n"] {}) ['n']
      [noN, { type := OPTION_END }]).1 = Rc.code 0 ∧
    (parse_long_opt sampleEnv (sampleCtx ["prog", "--n"] {}) ['n']
      [noN, { type := OPTION_END }]).2.slots.ints 0 = 1 ∧
    (parse_long_opt sampleEnv
      { sampleCtx ["prog", "--n"] {} with slots := store_int zeroSlots 0 1 } ['n']
      [noN, { type := OPTION_END }]).2.slots.ints 0 = 1 ∧
    (parse_long_opt sampleEnv
      { sampleCtx ["prog", "--n"] {} with slots := store_int zeroSlots 0 1 }
      (NO ++ (NO ++ ['n'])) [noN, { type := OPTION_END }]).1 = Rc.code (-2) ∧
    noNoFoo.long_name = some (NO ++ "no-foo".toList) ∧ noNoFoo.flags.noneg = false ∧
    (parse_long_opt sampleEnv (sampleCtx ["prog", "--no-foo"] {}) "no-foo".toList
      [noNoFoo, { type := OPTION_END }]).1 = Rc.code (-2) := by
  refine ⟨by decide, by decide, by decide, by decide, by decide, by decide, by decide,
    by decide, by decide⟩

/-! ### The bound on the output cursor -/

theorem cursor_geom_closed (env : Env) (tbl : List Opt) (n k0 : Nat)
    (hnoll : ∀ o ∈ table tbl, o.type ≠ OPTION_LOWLEVEL_CALLBACK) :
    geom_closed env tbl (cursor_mid n k0 0) (cursor_mid n k0 1) := by
  refine ⟨?_, ?_, ?_, ?_, ?_⟩
  · intro p q h ⟨a1, a2, a3, a4⟩
    rcases h with h | ⟨hc, h⟩
    · simp only [geom, Prod.mk.injEq] at h
      obtain ⟨h1, h2, h3, h4, h5⟩ := h
      unfold cursor_mid
      rw [h2, h3, h4]
      exact ⟨a1, a2, a3, a4⟩
    · simp only [geom, Prod.mk.injEq] at h
      obtain ⟨h1, h2, h3, h4, h5⟩ := h
      unfold cursor_mid
      rw [h2, h3, h4]
      exact ⟨by omega, by omega, by omega, by omega⟩
  · intro o ho hty
    exact absurd hty (hnoll o ho)
  · intro p q x ⟨a1, a2, a3, a4⟩ h
    simp only [geom, Prod.mk.injEq] at h
    obtain ⟨h1, h2, h3, h4, h5⟩ := h
    unfold cursor_mid
    rw [h2, h3, h4]
    exact ⟨by omega, a2, a3, a4⟩
  · intro p q x ⟨a1, a2, a3, a4⟩ h
    simp only [geom, Prod.mk.injEq] at h
    obtain ⟨h1, h2, h3, h4, h5⟩ := h
    unfold cursor_mid
    rw [h2, h3, h4]
    exact ⟨a1, a2, a3, a4⟩
  · intro p ⟨a1, a2, a3, a4⟩
    exact ⟨by omega, a2, a3, a4⟩

/-- C19: the argument vector is the program name followed by the `n` tokens
`toks`, the table is validated and has no low-level callback, and `k0` is 1
when keep-argv0 is set and 0 otherwise.  At the head of every round of the
loop of `parse_options_step` the output cursor is at most the number of
tokens already consumed (`argv - 1`) plus `k0`, and the unread tokens, the
current one included, are those of the input: nothing was written over them.
The round that follows keeps the bound: when it ends in `continue` the output
cursor is at most `argv + k0` (the current token is consumed as well by
then), when it returns the bound of the loop head still holds.  Whatever the
fuel, the count returned by `parse_options_end` is at most `n + k0`, it is
an index of the original array, and the terminator is written there. -/
theorem output_cursor_bound (env : Env) (tbl : List Opt) (flags : ParseFlags) (slots : Slots)
    (pfx : Option Str) (prog : Str) (toks : List Str) (ctx0 : Ctx)
    (hstart : parse_options_start (prog :: toks) pfx tbl flags slots = some ctx0)
    (hnoll : ∀ o ∈ table tbl, o.type ≠ OPTION_LOWLEVEL_CALLBACK) :
    (∀ (m fuel : Nat) (c : Ctx), loop_rounds env tbl fuel m ctx0 = some c →
      1 ≤ c.argv ∧ c.cpidx ≤ (c.argv - 1) + (if flags.keep_argv0 then 1 else 0) ∧
      c.argv + c.argc = toks.length + 1 ∧ c.buf.length = toks.length + 2 ∧
      c.buf.drop c.argv = ctx0.buf.drop c.argv ∧
      (c.argc ≠ 0 →
        (∀ (f : Nat) (c1 : Ctx), step_token env tbl f c = TokStep.next c1 →
          c1.cpidx ≤ c1.argv + (if flags.keep_argv0 then 1 else 0) ∧
          c1.argv + c1.argc = toks.length + 1 ∧ 1 ≤ c1.argc) ∧
        (∀ (f : Nat) (o : Outcome) (c1 : Ctx), step_token env tbl f c = TokStep.ret o c1 →
          c1.cpidx + 1 ≤ c1.argv + (if flags.keep_argv0 then 1 else 0) ∧
          c1.argv + c1.argc = toks.length + 1 ∧ 1 ≤ c1.argc))) ∧
    (∀ fuel : Nat,
      (parse_options_end (parse_options_step env tbl fuel ctx0).2).1 ≤
        toks.length + (if flags.keep_argv0 then 1 else 0) ∧
      (parse_options_end (parse_options_step env tbl fuel ctx0).2).1 < ctx0.buf.length ∧
      (parse_options_end (parse_options_step env tbl fuel ctx0).2).2.buf[
        (parse_options_end (parse_options_step env tbl fuel ctx0).2).1]? = some none) := by
  obtain ⟨_, hc0⟩ := parse_options_start_ctx _ pfx tbl flags slots ctx0 hstart
  have hbuf : ctx0.buf = some prog :: (toks.map some ++ [none]) := by
    rw [hc0]
    rfl
  have hargv : ctx0.argv = 1 := by rw [hc0]
  have hargc : ctx0.argc = toks.length := by
    rw [hc0]
    simp
  have hcp : ctx0.cpidx = if flags.keep_argv0 then 1 else 0 := by rw [hc0]
  have hfl : ctx0.flags = flags := by rw [hc0]
  have hlen0 : ctx0.buf.length = toks.length + 2 := by
    rw [hbuf]
    simp
  have hll := ll_keeps_partition_of_none env tbl ctx0.buf flags hnoll
  have hcl := cursor_geom_closed env tbl toks.length (if flags.keep_argv0 then 1 else 0) hnoll
  have hIP : ∀ c, cursor_inv toks.length (if flags.keep_argv0 then 1 else 0) c → c.argc ≠ 0 →
      cursor_mid toks.length (if flags.keep_argv0 then 1 else 0) 0 c := by
    intro c ⟨a1, a2, a3⟩ h0
    exact ⟨a1, a2, by omega, a3⟩
  have hQI : ∀ c, cursor_mid toks.length (if flags.keep_argv0 then 1 else 0) 1 c →
      cursor_inv toks.length (if flags.keep_argv0 then 1 else 0)
        { c with argc := c.argc - 1, argv := c.argv + 1 } := by
    intro c ⟨a1, a2, a3, a4⟩
    exact ⟨by simp only; omega, by simp only; omega, by simp only; omega⟩
  have hI0 : cursor_inv toks.length (if flags.keep_argv0 then 1 else 0) ctx0 := by
    refine ⟨?_, ?_, ?_⟩
    · rw [hcp, hargv]
      omega
    · rw [hargv, hargc]
      omega
    · rw [hargv]
  have hP0 : partition_inv ctx0.buf flags ctx0 := by
    refine ⟨rfl, rfl, ?_, ?_, hfl⟩
    · rw [hcp, hargv]
      split_ifs <;> omega
    · rw [hargv, hargc, hlen0]
      omega
  have hR0 : partition_rest ctx0.buf flags ctx0 := by
    obtain ⟨a1, a2, a3, a4, a5⟩ := hP0
    exact ⟨a1, drop_succ_of_drop _ _ _ a2, a3, a4, a5⟩
  constructor
  · intro m fuel c hr
    obtain ⟨b1, b2, b3⟩ := closed_loop_rounds env tbl _ _ _ hcl hIP hQI m fuel ctx0 c hI0 hr
    obtain ⟨d1, d2, d3, d4, d5⟩ := partition_loop_rounds env tbl ctx0.buf flags hll m fuel ctx0 c
      hP0 hr
    refine ⟨b3, by omega, b2, by omega, d2, fun h0 => ⟨?_, ?_⟩⟩
    · intro f c1 hs
      have := closed_step_token env tbl _ _ hcl f c (hIP c ⟨b1, b2, b3⟩ h0)
      rw [hs] at this
      obtain ⟨e1, e2, e3, e4⟩ := this
      exact ⟨by omega, e2, e3⟩
    · intro f o c1 hs
      have := closed_step_token env tbl _ _ hcl f c (hIP c ⟨b1, b2, b3⟩ h0)
      rw [hs] at this
      obtain ⟨e1, e2, e3, e4⟩ := this
      exact ⟨by omega, e2, e3⟩
  · intro fuel
    have hcount : (parse_options_step env tbl fuel ctx0).2.cpidx +
        (parse_options_step env tbl fuel ctx0).2.argc ≤
        toks.length + (if flags.keep_argv0 then 1 else 0) := by
      unfold parse_options_step
      refine closed_loop env tbl _ _ _
        (fun c => c.cpidx + c.argc ≤ toks.length + (if flags.keep_argv0 then 1 else 0))
        hcl hIP hQI ?_ ?_ ?_ fuel _ hI0
      · intro c ⟨a1, a2, a3⟩
        omega
      · intro c ⟨a1, a2, a3, a4⟩
        omega
      · intro c ⟨a1, a2, a3⟩ h0
        simp only
        omega
    obtain ⟨r1, r2, r3, r4, r5⟩ := partition_rest_step env tbl ctx0.buf flags hll fuel ctx0 hR0
    have hlay := parse_options_end_layout (parse_options_step env tbl fuel ctx0).2 r3 (by omega)
    refine ⟨?_, ?_, ?_⟩
    · rw [hlay.1]
      exact hcount
    · rw [hlay.1]
      omega
    · rw [hlay.1]
      exact hlay.2.2.2.1

/-- C19 instantiated: `prog x -a y` with keep-argv0. -/
theorem output_cursor_bound_witness :
    (parse_options_end (parse_options_step sampleEnv abcTable 5
      (sampleCtx ["prog", "x", "-a", "y"] { keep_argv0 := true })).2).1 ≤ 3 + 1 ∧
    (parse_options_end (parse_options_step sampleEnv abcTable 5
      (sampleCtx ["prog", "x", "-a", "y"] { keep_argv0 := true })).2).1 = 3 ∧
    result_vector (parse_options_end (parse_options_step sampleEnv abcTable 5
      (sampleCtx ["prog", "x", "-a", "y"] { keep_argv0 := true })).2) =
      [some ['p', 'r', 'o', 'g'], some ['x'], some ['y']] :=
  have h := output_cursor_bound sampleEnv abcTable { keep_argv0 := true } zeroSlots none
    "prog".toList ["x".toList, "-a".toList, "y".toList]
    (sampleCtx ["prog", "x", "-a", "y"] { keep_argv0 := true }) rfl (by decide)
  ⟨(h.2 5).1, rfl, rfl⟩

/-! ### The pending inline value -/

/-- C20, the failing input `prog --mode=v --name x`: the table is validated
and has no low-level callback.  The Mode-select `--mode` is accepted with its
inline value `v`, which it does not store; when `parse_options_step` starts to
classify the next token `--name` the pending inline value is still `v`, and
the String option takes `v` as its value instead of the token `x` after it:
the step ends with Done, string slot 0 holds `v` and `x` is left as an
operand. -/
theorem inline_value_leaks_to_next_option :
    parse_options_check modeNameTable = false ∧
    (∀ o ∈ table modeNameTable, o.type ≠ OPTION_LOWLEVEL_CALLBACK) ∧
    (∃ c, loop_rounds sampleEnv modeNameTable 5 1
        { sampleCtx ["prog", "--mode=v", "--name", "x"] {} with opt := none } = some c ∧
      argvAt c 0 = "--name".toList ∧ c.opt = some ['v'] ∧ c.slots.ints 5 = 1) ∧
    (parse_options_step sampleEnv modeNameTable 5
      (sampleCtx ["prog", "--mode=v", "--name", "x"] {})).1 = Outcome.PARSE_OPT_DONE ∧
    (parse_options_step sampleEnv modeNameTable 5
      (sampleCtx ["prog", "--mode=v", "--name", "x"] {})).2.slots.strs 0 = some ['v'] ∧
    (parse_options_step sampleEnv modeNameTable 5
      (sampleCtx ["prog", "--mode=v", "--name", "x"] {})).2.stderr = [] ∧
    result_vector (parse_options_end (parse_options_step sampleEnv modeNameTable 5
      (sampleCtx ["prog", "--mode=v", "--name", "x"] {})).2) = [some ['x']] := by
  refine ⟨by decide, by decide, ⟨_, rfl, by decide, rfl, by decide⟩, by decide, by decide,
    by decide, by decide⟩

/-! ### The pending inline value when Mode-select takes no value -/

theorem get_arg_opt (q : Ctx) (o : Opt) (f : Nat) : (get_arg q o f).2.2.opt = none := by
  unfold get_arg
  cases h : q.opt with
  | some v => rfl
  | none =>
    simp only
    split_ifs <;> first | exact h | rfl

theorem fix_filename_opt (env : Env) (p : Ctx) (s : Nat) : (fix_filename env p s).opt = p.opt := by
  unfold fix_filename
  split
  · split_ifs <;> rfl
  · rfl

theorem opt_command_mode_error_from_opt (p : Ctx) (i : Nat) (opt : Opt) (flags : Nat) :
    ∀ (l : List Opt) (k : Nat), (opt_command_mode_error_from p i opt flags l k).2.opt = p.opt := by
  intro l
  induction l with
  | nil => intro k; rfl
  | cons x rest ih =>
    intro k
    rw [opt_command_mode_error_from]
    split_ifs
    · rfl
    · exact ih (k + 1)
    · rfl

/-- Without a low-level callback, `get_value` leaves no pending inline value
when none was pending. -/
theorem get_value_switch_keeps_none (env : Env) (p : Ctx) (i : Nat) (o : Opt) (all : List Opt)
    (fl : Nat) (hty : o.type ≠ OPTION_LOWLEVEL_CALLBACK) (hp : p.opt = none) :
    (get_value_switch env p i o all fl).2.opt = none := by
  have hga := get_arg_opt p o fl
  cases ht : o.type with
  | OPTION_LOWLEVEL_CALLBACK => exact absurd ht hty
  | OPTION_BIT => simp only [get_value_switch, ht]; split_ifs <;> exact hp
  | OPTION_NEGBIT => simp only [get_value_switch, ht]; split_ifs <;> exact hp
  | OPTION_COUNTUP => simp only [get_value_switch, ht]; split_ifs <;> exact hp
  | OPTION_SET_INT => simp only [get_value_switch, ht]; exact hp
  | OPTION_CMDMODE =>
    simp only [get_value_switch, ht]
    split_ifs
    · exact (opt_command_mode_error_from_opt p i o fl all 0).trans hp
    · exact hp
  | OPTION_STRING =>
    simp only [get_value_switch, ht]
    split_ifs
    · exact hp
    · exact hp
    · exact hga
    · exact hga
  | OPTION_FILENAME =>
    simp only [get_value_switch, ht]
    split_ifs <;> first | exact hp | exact hga | (rw [fix_filename_opt]; first | exact hp | exact hga)
  | OPTION_CALLBACK =>
    simp only [get_value_switch, ht]
    split_ifs <;> first | exact hp | exact hga
  | OPTION_INTEGER =>
    simp only [get_value_switch, ht]
    split_ifs
    · exact hp
    · exact hp
    · exact hga
    · split
      · exact hga
      · split_ifs <;> exact hga
  | OPTION_MAGNITUDE =>
    simp only [get_value_switch, ht]
    split_ifs
    · exact hp
    · exact hp
    · exact hga
    · split <;> exact hga
  | OPTION_END => simp only [get_value_switch, ht]; exact hp
  | OPTION_ARGUMENT => simp only [get_value_switch, ht]; exact hp
  | OPTION_GROUP => simp only [get_value_switch, ht]; exact hp
  | OPTION_NUMBER => simp only [get_value_switch, ht]; exact hp

theorem get_value_keeps_none (env : Env) (p : Ctx) (i : Nat) (o : Opt) (all : List Opt)
    (fl : Nat) (hty : o.type ≠ OPTION_LOWLEVEL_CALLBACK) (hp : p.opt = none) :
    (get_value env p i o all fl).2.opt = none := by
  unfold get_value
  simp only
  split_ifs
  · exact hp
  · exact hp
  · exact hp
  · exact get_value_switch_keeps_none env p i o all fl hty hp

/-- A descriptor that takes or rejects a pending inline value, dispatched by
`parse_long_opt`, leaves no pending inline value behind when `get_value`
returns 0. -/
theorem get_value_pending (env : Env) (p : Ctx) (i : Nat) (o : Opt) (all : List Opt) (fl : Nat)
    (ho : takes_pending o) (hfl : long_flags fl)
    (hrc : (get_value env p i o all fl).1 = Rc.code 0) :
    (get_value env p i o all fl).2.opt = none := by
  obtain ⟨hty, hnoarg, _⟩ := ho
  cases hp : p.opt with
  | none => exact get_value_keeps_none env p i o all fl hty hp
  | some v =>
    have hga := get_arg_opt p o fl
    have hsome : p.opt.isSome = true := by rw [hp]; rfl
    have hnone : p.opt.isNone = false := by rw [hp]; rfl
    rcases hfl with rfl | rfl
    · -- non-negated form
      by_cases hn : o.flags.noarg = true
      · exfalso
        revert hrc
        simp [get_value, hsome, hn, OPT_UNSET, OPT_SHORT, error]
      · have hn' : o.flags.noarg = false := by simpa using hn
        have hgv : get_value env p i o all 0 = get_value_switch env p i o all 0 := by
          simp [get_value, hn', OPT_UNSET, OPT_SHORT]
        rw [hgv] at hrc ⊢
        cases ht : o.type with
        | OPTION_LOWLEVEL_CALLBACK => exact absurd ht hty
        | OPTION_BIT => exact absurd (hnoarg (Or.inl ht)) hn
        | OPTION_NEGBIT => exact absurd (hnoarg (Or.inr (Or.inl ht))) hn
        | OPTION_COUNTUP => exact absurd (hnoarg (Or.inr (Or.inr (Or.inl ht)))) hn
        | OPTION_SET_INT => exact absurd (hnoarg (Or.inr (Or.inr (Or.inr (Or.inl ht))))) hn
        | OPTION_CMDMODE => exact absurd (hnoarg (Or.inr (Or.inr (Or.inr (Or.inr ht))))) hn
        | OPTION_STRING =>
          simp only [get_value_switch, ht, OPT_UNSET, hnone] at hrc ⊢
          simp only [Nat.zero_and, ne_eq, not_true_eq_false, decide_False, Bool.false_eq_true,
            if_false, and_false] at hrc ⊢
          split_ifs <;> exact hga
        | OPTION_FILENAME =>
          simp only [get_value_switch, ht, OPT_UNSET, hnone] at hrc ⊢
          simp only [Nat.zero_and, ne_eq, not_true_eq_false, decide_False, Bool.false_eq_true,
            if_false, and_false] at hrc ⊢
          split_ifs <;> first | exact hga | (rw [fix_filename_opt]; exact hga)
        | OPTION_CALLBACK =>
          simp only [get_value_switch, ht, OPT_UNSET, hnone, hn'] at hrc ⊢
          simp only [Nat.zero_and, ne_eq, not_true_eq_false, decide_False, Bool.false_eq_true,
            if_false, and_false] at hrc ⊢
          split_ifs <;> exact hga
        | OPTION_INTEGER =>
          simp only [get_value_switch, ht, OPT_UNSET, hnone] at hrc ⊢
          simp only [Nat.zero_and, ne_eq, not_true_eq_false, decide_False, Bool.false_eq_true,
            if_false, and_false] at hrc ⊢
          split_ifs
          · split
            · exact hga
            · split_ifs <;> exact hga
          · exact hga
        | OPTION_MAGNITUDE =>
          simp only [get_value_switch, ht, OPT_UNSET, hnone] at hrc ⊢
          simp only [Nat.zero_and, ne_eq, not_true_eq_false, decide_False, Bool.false_eq_true,
            if_false, and_false] at hrc ⊢
          split_ifs
          · split <;> exact hga
          · exact hga
        | OPTION_END => simp [get_value_switch, ht] at hrc
        | OPTION_ARGUMENT => simp [get_value_switch, ht] at hrc
        | OPTION_GROUP => simp [get_value_switch, ht] at hrc
        | OPTION_NUMBER => simp [get_value_switch, ht] at hrc
    · -- negated form: a pending value is an error
      exfalso
      revert hrc
      simp [get_value, hsome, OPT_UNSET, error]

theorem long_flags_xor (a b : Nat) (ha : long_flags a) (hb : long_flags b) :
    long_flags (a ^^^ b) := by
  unfold long_flags at ha hb ⊢
  rcases ha with rfl | rfl <;> rcases hb with rfl | rfl <;> decide

theorem long_flags_unset (b : Nat) (hb : long_flags b) : long_flags (b ||| OPT_UNSET) := by
  unfold long_flags at hb ⊢
  rcases hb with rfl | rfl <;> decide

theorem is_abbreviated_pend (p : Ctx) (st : Abbrev) (arg : Str) (i : Nat) (o : Opt)
    (fl f : Nat) (hp : strchrnul_eq arg = [] → p.opt = none) (ho : takes_pending o)
    (hfl : long_flags fl) (hf : long_flags f) :
    pend_step arg (is_abbreviated p st arg i o fl f) := by
  unfold is_abbreviated
  simp only [pend_step]
  refine ⟨?_, ?_, long_flags_xor fl f hfl hf⟩
  · split_ifs with h
    · intro hc
      exact absurd hc h.2
    · exact hp
  · intro j o' hj
    simp only [Option.some.injEq, Prod.mk.injEq] at hj
    obtain ⟨_, rfl⟩ := hj
    exact ho

theorem long_opt_finish_pend (arg : Str) (p : Ctx) (st : Abbrev) (i : Nat) (o : Opt)
    (rest : Str) (fl f : Nat) (hp : strchrnul_eq arg = [] → p.opt = none)
    (hst : ∀ j o', st.abbrev_option = some (j, o') → takes_pending o')
    (hsf : long_flags st.abbrev_flags) (ho : takes_pending o)
    (hfl : long_flags fl) (hf : long_flags f) :
    pend_step arg (long_opt_finish p st i o rest fl f) := by
  unfold long_opt_finish
  cases rest with
  | nil => exact ⟨ho, long_flags_xor fl f hfl hf⟩
  | cons c tl =>
    simp only
    split_ifs
    · exact ⟨hp, hst, hsf⟩
    · exact ⟨ho, long_flags_xor fl f hfl hf⟩

theorem passes_on_error (p : Ctx) (m : Msg) : ¬ passes_on (error p m).1 :=
  fun h => h.1 rfl

theorem long_opt_pass_pend (arg : Str) (p : Ctx) (st : Abbrev) (i : Nat) (o : Opt)
    (m : Str) (f : Nat) (again : LongStep) (hp : strchrnul_eq arg = [] → p.opt = none)
    (hst : ∀ j o', st.abbrev_option = some (j, o') → takes_pending o')
    (hsf : long_flags st.abbrev_flags) (ho : takes_pending o) (hf : long_flags f)
    (hm : o.type = OPTION_ARGUMENT → '=' ∉ m) (hag : pend_step arg again) :
    pend_step arg (long_opt_pass arg p st i o m f again) := by
  have h0 : long_flags 0 := Or.inl rfl
  have hu : long_flags (0 ||| OPT_UNSET) := Or.inr rfl
  unfold long_opt_pass
  by_cases h1 : o.type = OPTION_ARGUMENT
  · rw [if_pos h1]
    cases hsk : skip_prefix arg m with
    | none => exact ⟨hp, hst, hsf⟩
    | some rest =>
      cases rest with
      | nil =>
        simp only
        intro _
        have harg : arg = m := by
          have := (skip_prefix_eq_some arg m []).mp hsk
          simpa using this
        exact hp (by rw [harg]; exact strchrnul_eq_of_no_eq m (hm h1))
      | cons c tl =>
        simp only
        split_ifs
        · intro hc
          exact absurd hc (passes_on_error _ _)
        · exact ⟨hp, hst, hsf⟩
  · rw [if_neg h1]
    cases skip_prefix arg m with
    | some rest => exact long_opt_finish_pend arg p st i o _ _ _ hp hst hsf ho h0 hf
    | none =>
      simp only
      by_cases h2 : strncmp_eq m arg (arg_end_offset arg) = true
      · rw [if_pos h2]
        exact is_abbreviated_pend p st arg i o _ _ hp ho h0 hf
      · rw [if_neg h2]
        by_cases h3 : o.flags.noneg = true
        · rw [if_pos h3]; exact ⟨hp, hst, hsf⟩
        · rw [if_neg h3]
          by_cases h4 : starts_with ['n', 'o', '-'] arg = true
          · rw [if_pos h4]
            exact is_abbreviated_pend p st arg i o _ _ hp ho hu hf
          · rw [if_neg h4]
            by_cases h5 : ¬ starts_with arg ['n', 'o', '-'] = true
            · rw [if_pos h5]
              split_ifs
              · exact hag
              · exact ⟨hp, hst, hsf⟩
            · rw [if_neg h5]
              cases skip_prefix (arg.drop 3) m with
              | some rest2 =>
                exact long_opt_finish_pend arg p st i o _ _ _ hp hst hsf ho hu hf
              | none =>
                simp only
                split_ifs
                · exact is_abbreviated_pend p st arg i o _ _ hp ho hu hf
                · exact ⟨hp, hst, hsf⟩

theorem long_opt_again_pend (arg : Str) (p : Ctx) (st : Abbrev) (i : Nat) (o : Opt)
    (hp : strchrnul_eq arg = [] → p.opt = none)
    (hst : ∀ j o', st.abbrev_option = some (j, o') → takes_pending o')
    (hsf : long_flags st.abbrev_flags) (ho : takes_pending o) :
    ∀ (n : Nat) (m : Str) (f : Nat), m.length ≤ n → long_flags f →
      (o.type = OPTION_ARGUMENT → '=' ∉ m) →
      pend_step arg (long_opt_again arg p st i o m f) := by
  intro n
  induction n with
  | zero =>
    intro m f hm hf hname
    have : m = [] := List.length_eq_zero.mp (by omega)
    subst this
    rw [long_opt_again_plain _ _ _ _ _ _ _ (by decide)]
    exact long_opt_pass_pend arg p st i o [] f _ hp hst hsf ho hf hname ⟨hp, hst, hsf⟩
  | succ n ih =>
    intro m f hm hf hname
    by_cases hno : NO <+: m
    · obtain ⟨tl, rfl⟩ := hno
      rw [long_opt_again_strip]
      refine long_opt_pass_pend arg p st i o _ f _ hp hst hsf ho hf hname ?_
      apply ih tl _ _ (long_flags_unset f hf)
      · intro ha hc
        exact hname ha (List.mem_append_right _ hc)
      · simp only [NO, List.length_append, List.length_cons, List.length_nil] at hm
        omega
    · rw [long_opt_again_plain _ _ _ _ _ _ _ hno]
      exact long_opt_pass_pend arg p st i o m f _ hp hst hsf ho hf hname ⟨hp, hst, hsf⟩

theorem parse_long_opt_end_pend (arg : Str) (p : Ctx) (st : Abbrev)
    (hst : ∀ j o', st.abbrev_option = some (j, o') → takes_pending o')
    (hsf : long_flags st.abbrev_flags) :
    pend_action (parse_long_opt_end arg p st) := by
  unfold parse_long_opt_end
  cases h1 : st.ambiguous_option with
  | some amb =>
    cases h2 : st.abbrev_option with
    | none => exact fun hc => absurd rfl hc.2.2.2
    | some ab => exact fun hc => absurd rfl hc.2.2.1
  | none =>
    cases h2 : st.abbrev_option with
    | none => exact fun hc => absurd rfl hc.2.1
    | some ab => exact ⟨hst ab.1 ab.2 h2, hsf⟩

theorem parse_long_opt_from_pend (arg : Str) :
    ∀ (l : List Opt) (i : Nat) (p : Ctx) (st : Abbrev),
      (strchrnul_eq arg = [] → p.opt = none) →
      (∀ j o', st.abbrev_option = some (j, o') → takes_pending o') →
      long_flags st.abbrev_flags → (∀ o ∈ table l, takes_pending o) →
      pend_action (parse_long_opt_from arg l i p st) := by
  intro l
  induction l with
  | nil => intro i p st _ hst hsf _; exact parse_long_opt_end_pend arg p st hst hsf
  | cons o rest ih =>
    intro i p st hp hst hsf hl
    rw [parse_long_opt_from]
    split_ifs with hend
    · exact parse_long_opt_end_pend arg p st hst hsf
    · have ho : takes_pending o :=
        hl o (by rw [table_cons o rest hend]; exact List.mem_cons_self _ _)
      have hrest : ∀ o' ∈ table rest, takes_pending o' :=
        fun o' ho' => hl o' (by rw [table_cons o rest hend]; exact List.mem_cons_of_mem _ ho')
      cases hl' : o.long_name with
      | none => exact ih (i + 1) p st hp hst hsf hrest
      | some l =>
        simp only
        have hs := long_opt_again_pend arg p st i o hp hst hsf ho l.length l 0 (le_refl _)
          (Or.inl rfl) (fun ha => ho.2.2 ha l hl')
        cases hr : long_opt_again arg p st i o l 0 with
        | leave a =>
          rw [hr] at hs
          exact hs
        | cont p1 st1 =>
          rw [hr] at hs
          exact ih (i + 1) p1 st1 hs.1 hs.2.1 hs.2.2 hrest

/-- The long-option matcher, started without a pending inline value, leaves
none behind when the loop of `parse_options_step` goes on after it. -/
theorem parse_long_opt_pend (env : Env) (tbl : List Opt) (p : Ctx) (arg : Str)
    (hp : p.opt = none) (htbl : ∀ o ∈ table tbl, takes_pending o)
    (hrc : passes_on (parse_long_opt env p arg tbl).1) :
    (parse_long_opt env p arg tbl).2.opt = none := by
  have h' := parse_long_opt_from_pend arg tbl 0 p {} (fun _ => hp)
    (fun j o' hj => by simp at hj) (Or.inl rfl) htbl
  unfold parse_long_opt parse_long_opt_action at hrc ⊢
  cases hr : parse_long_opt_from arg tbl 0 p {} with
  | ret r =>
    rw [hr] at h' hrc
    exact h' hrc
  | dispatch p1 i o fl =>
    rw [hr] at h' hrc
    simp only at hrc ⊢
    have h0 : (get_value env p1 i o tbl fl).1 = Rc.code 0 := by
      rcases get_value_rc env p1 i o tbl fl h'.1.1 with h | h | h
      · exact h
      · exact absurd h hrc.1
      · exact absurd h hrc.2.2.2
    exact get_value_pending env p1 i o tbl fl h'.1 h'.2 h0

theorem unknown_next_none (c : Ctx) : on_next (fun d => d.opt = none) (unknown c) := by
  unfold unknown
  split_ifs
  · rfl
  · trivial

theorem short_loop_next_none (env : Env) (tbl : List Opt) :
    ∀ (fuel : Nat) (c : Ctx), on_next (fun d => d.opt = none) (short_loop env tbl fuel c) := by
  intro fuel
  induction fuel with
  | zero => intro c; trivial
  | succ fuel ih =>
    intro c
    rw [short_loop]
    cases hc : c.opt with
    | none => exact hc
    | some v =>
      simp only
      cases parse_short_opt env c tbl with
      | mk rc c2 =>
        cases rc with
        | abort => trivial
        | code n =>
          simp only
          by_cases k1 : n = -1
          · rw [if_pos k1]; trivial
          · rw [if_neg k1]
            by_cases k2 : n = -2
            · rw [if_pos k2]
              cases c2.opt with
              | none => trivial
              | some o =>
                simp only
                split_ifs
                · trivial
                · exact unknown_next_none _
            · rw [if_neg k2]
              exact ih c2

theorem parse_nodash_opt_from_keeps_none (env : Env) (all : List Opt) (p : Ctx) (arg : Str)
    (hp : p.opt = none) :
    ∀ (l : List Opt) (i : Nat), (∀ o ∈ table l, o.type ≠ OPTION_LOWLEVEL_CALLBACK) →
      (parse_nodash_opt_from env all p arg l i).2.opt = none := by
  intro l
  induction l with
  | nil => intro i _; exact hp
  | cons o rest ih =>
    intro i h
    rw [parse_nodash_opt_from]
    by_cases hend : o.type = OPTION_END
    · rw [if_pos hend]
      exact hp
    · rw [if_neg hend]
      rw [table_cons o rest hend] at h
      have hrest := ih (i + 1) (fun o' ho' => h o' (List.mem_cons_of_mem _ ho'))
      split_ifs
      all_goals first
        | exact hrest
        | exact get_value_keeps_none env p i o all _ (h o (List.mem_cons_self _ _)) hp

/-- The body of the loop of `parse_options_step`, entered without a pending
inline value, ends without one when it ends in `continue`. -/
theorem step_token_next_none (env : Env) (tbl : List Opt) (fuel : Nat) (c : Ctx)
    (hc : c.opt = none) (htbl : ∀ o ∈ table tbl, takes_pending o) :
    on_next (fun d => d.opt = none) (step_token env tbl fuel c) := by
  unfold step_token
  simp only
  by_cases h1 : (argvAt c 0).head? ≠ some '-' ∨ (argvAt c 0).length < 2
  · rw [if_pos h1]
    have hn := parse_nodash_opt_from_keeps_none env tbl c (argvAt c 0) hc tbl 0
      (fun o ho => (htbl o ho).1)
    unfold parse_nodash_opt
    cases hr : parse_nodash_opt_from env tbl c (argvAt c 0) tbl 0 with
    | mk rc c2 =>
      rw [hr] at hn
      simp only
      split_ifs
      · exact hn
      · trivial
      · trivial
      · exact hn
  · rw [if_neg h1]
    split
    · trivial
    split
    · trivial
    split
    · cases parse_short_opt env { c with opt := some (argvAt c 0).tail } tbl with
      | mk rc c2 =>
        cases rc with
        | abort => trivial
        | code n =>
          simp only
          by_cases k1 : n = -1
          · rw [if_pos k1]; trivial
          · rw [if_neg k1]
            by_cases k2 : n = -2
            · rw [if_pos k2]
              cases c2.opt with
              | none =>
                simp only
                split_ifs
                · trivial
                · exact unknown_next_none _
              | some o =>
                simp only
                split_ifs
                · trivial
                · trivial
                · exact unknown_next_none _
            · rw [if_neg k2]
              split_ifs
              · trivial
              · exact short_loop_next_none env tbl fuel c2
    split
    · split <;> trivial
    split
    · trivial
    split
    · trivial
    have hl := parse_long_opt_pend env tbl c ((argvAt c 0).drop 2) hc htbl
    cases hr : parse_long_opt env c ((argvAt c 0).drop 2) tbl with
    | mk rc c2 =>
      rw [hr] at hl
      cases rc with
      | abort => trivial
      | code n =>
        simp only
        by_cases k1 : n = -1
        · rw [if_pos k1]; trivial
        · rw [if_neg k1]
          by_cases k2 : n = -2
          · rw [if_pos k2]
            exact unknown_next_none _
          · rw [if_neg k2]
            by_cases k3 : n = -3
            · rw [if_pos k3]; trivial
            · rw [if_neg k3]
              refine hl ⟨?_, ?_, ?_, by simp⟩
              · intro h; injection h with h; exact k1 h
              · intro h; injection h with h; exact k2 h
              · intro h; injection h with h; exact k3 h

/-- In a validated table the scalar toggles carry the no-argument flag. -/
theorem validated_toggle_noarg (tbl : List Opt) (hval : parse_options_check tbl = false)
    (o : Opt) (ho : o ∈ table tbl) (hty : scalar_toggle o.type) : o.flags.noarg = true := by
  by_contra hn
  have hnot : ¬ parse_options_check tbl = true := by rw [hval]; decide
  apply hnot
  unfold parse_options_check
  rw [decide_eq_true_iff, parse_options_check_loop_reports]
  obtain ⟨pre, post, hsplit⟩ := List.append_of_mem ho
  refine ⟨pre, o, post, hsplit, Or.inl ?_⟩
  right; right; right; left
  exact ⟨hty, Or.inr (by simpa using hn)⟩

/-- The pending inline value is empty whenever `parse_options_step` starts to
classify a token, for a validated table without low-level callbacks in which
every Mode-select descriptor carries the no-argument flag and no
ArgumentMarker has `=` in its name. -/
theorem pending_empty_at_loop_head (env : Env) (tbl : List Opt)
    (hval : parse_options_check tbl = false)
    (hnoll : ∀ o ∈ table tbl, o.type ≠ OPTION_LOWLEVEL_CALLBACK)
    (hmode : ∀ o ∈ table tbl, o.type = OPTION_CMDMODE → o.flags.noarg = true)
    (hargm : ∀ o ∈ table tbl, o.type = OPTION_ARGUMENT →
      ∀ l, o.long_name = some l → '=' ∉ l) :
    ∀ (n fuel : Nat) (c c1 : Ctx), c.opt = none →
      loop_rounds env tbl fuel n c = some c1 → c1.opt = none := by
  have htbl : ∀ o ∈ table tbl, takes_pending o := by
    intro o ho
    refine ⟨hnoll o ho, ?_, hargm o ho⟩
    intro ht
    rcases ht with h | h | h | h | h
    · exact validated_toggle_noarg tbl hval o ho (Or.inr (Or.inl h))
    · exact validated_toggle_noarg tbl hval o ho (Or.inr (Or.inr (Or.inl h)))
    · exact validated_toggle_noarg tbl hval o ho (Or.inl h)
    · exact validated_toggle_noarg tbl hval o ho (Or.inr (Or.inr (Or.inr (Or.inl h))))
    · exact hmode o ho h
  intro n
  induction n with
  | zero =>
    intro fuel c c1 hc h
    cases fuel <;>
    · simp only [loop_rounds, Option.some.injEq] at h
      subst h
      exact hc
  | succ n ih =>
    intro fuel c c1 hc h
    cases fuel with
    | zero => simp [loop_rounds] at h
    | succ fuel =>
      rw [loop_rounds] at h
      by_cases h0 : c.argc = 0
      · rw [if_pos h0] at h
        cases h
      · rw [if_neg h0] at h
        have hs := step_token_next_none env tbl (fuel + 1) c hc htbl
        cases hr : step_token env tbl (fuel + 1) c with
        | next c2 =>
          rw [hr] at h hs
          exact ih fuel { c2 with argc := c2.argc - 1, argv := c2.argv + 1 } c1 hs h
        | brk c2 => rw [hr] at h; cases h
        | ret o c2 => rw [hr] at h; cases h

/-! ### Tokens that match nothing -/

theorem get_value_not_unmatched (env : Env) (p : Ctx) (i : Nat) (o : Opt) (all : List Opt)
    (fl : Nat) (hty : o.type ≠ OPTION_LOWLEVEL_CALLBACK) :
    (get_value env p i o all fl).1 ≠ Rc.code (-2) := by
  rcases get_value_rc env p i o all fl hty with h | h | h <;> rw [h] <;> decide

theorem call_callback_not_unmatched (env : Env) (p : Ctx) (o : Opt) (a : Option Str) (u : Bool) :
    (call_callback env p o a u).1 ≠ Rc.code (-2) := by
  unfold call_callback
  simp only
  split_ifs <;> decide

theorem parse_nodash_opt_from_unmatched (env : Env) (all : List Opt) (p : Ctx) (arg : Str) :
    ∀ (l : List Opt) (i : Nat), (∀ o ∈ table l, o.type ≠ OPTION_LOWLEVEL_CALLBACK) →
      (parse_nodash_opt_from env all p arg l i).1 = Rc.code (-2) →
      (parse_nodash_opt_from env all p arg l i).2 = p := by
  intro l
  induction l with
  | nil => intro i _ _; rfl
  | cons o rest ih =>
    intro i h
    rw [parse_nodash_opt_from]
    by_cases hend : o.type = OPTION_END
    · rw [if_pos hend]
      exact fun _ => rfl
    · rw [if_neg hend]
      rw [table_cons o rest hend] at h
      have hrest := ih (i + 1) (fun o' ho' => h o' (List.mem_cons_of_mem _ ho'))
      split_ifs
      all_goals first
        | exact hrest
        | exact fun hc =>
            absurd hc (get_value_not_unmatched env p i o all _ (h o (List.mem_cons_self _ _)))

theorem parse_short_opt_from_unmatched (env : Env) (all : List Opt) (cur : Str) :
    ∀ (l : List Opt) (i : Nat) (p : Ctx) (numopt : Option Opt),
      (∀ o ∈ table l, o.type ≠ OPTION_LOWLEVEL_CALLBACK) →
      (parse_short_opt_from env all cur l i p numopt).1 = Rc.code (-2) →
      (parse_short_opt_from env all cur l i p numopt).2 = p := by
  have hend : ∀ (p : Ctx) (numopt : Option Opt),
      (parse_short_opt_end env cur p numopt).1 = Rc.code (-2) →
      (parse_short_opt_end env cur p numopt).2 = p := by
    intro p numopt
    unfold parse_short_opt_end
    split
    · split_ifs
      · exact fun hc => absurd hc (call_callback_not_unmatched env _ _ _ _)
      · exact fun _ => rfl
    · exact fun _ => rfl
  intro l
  induction l with
  | nil => intro i p numopt _; exact hend p numopt
  | cons o rest ih =>
    intro i p numopt h
    rw [parse_short_opt_from]
    by_cases he : o.type = OPTION_END
    · rw [if_pos he]
      exact hend p numopt
    · rw [if_neg he]
      rw [table_cons o rest he] at h
      split_ifs
      all_goals first
        | exact fun hc =>
            absurd hc (get_value_not_unmatched env _ i o all _ (h o (List.mem_cons_self _ _)))
        | exact ih (i + 1) p _ (fun o' ho' => h o' (List.mem_cons_of_mem _ ho'))

theorem is_abbreviated_unmatched (p : Ctx) (st : Abbrev) (arg : Str) (i : Nat) (o : Opt)
    (fl f : Nat) (ho : o.type ≠ OPTION_LOWLEVEL_CALLBACK) :
    unmatched_step (geom p) (is_abbreviated p st arg i o fl f) := by
  unfold is_abbreviated
  simp only [unmatched_step]
  constructor
  · split_ifs <;> rfl
  · intro j o' hj
    simp only [Option.some.injEq, Prod.mk.injEq] at hj
    obtain ⟨_, rfl⟩ := hj
    exact ho

theorem long_opt_finish_unmatched (p : Ctx) (st : Abbrev) (i : Nat) (o : Opt) (rest : Str)
    (fl f : Nat)
    (hst : ∀ j o', st.abbrev_option = some (j, o') → o'.type ≠ OPTION_LOWLEVEL_CALLBACK)
    (ho : o.type ≠ OPTION_LOWLEVEL_CALLBACK) :
    unmatched_step (geom p) (long_opt_finish p st i o rest fl f) := by
  unfold long_opt_finish
  cases rest with
  | nil => exact ho
  | cons c tl =>
    simp only
    split_ifs
    · exact ⟨rfl, hst⟩
    · exact ho

theorem long_opt_pass_unmatched (arg : Str) (p : Ctx) (st : Abbrev) (i : Nat) (o : Opt)
    (m : Str) (f : Nat) (again : LongStep)
    (hst : ∀ j o', st.abbrev_option = some (j, o') → o'.type ≠ OPTION_LOWLEVEL_CALLBACK)
    (ho : o.type ≠ OPTION_LOWLEVEL_CALLBACK) (hag : unmatched_step (geom p) again) :
    unmatched_step (geom p) (long_opt_pass arg p st i o m f again) := by
  unfold long_opt_pass
  by_cases h1 : o.type = OPTION_ARGUMENT
  · rw [if_pos h1]
    split
    · exact ⟨rfl, hst⟩
    · exact fun hc => by cases hc
    · split_ifs
      · exact fun hc => by cases hc
      · exact ⟨rfl, hst⟩
  · rw [if_neg h1]
    cases skip_prefix arg m with
    | some rest => exact long_opt_finish_unmatched p st i o _ _ _ hst ho
    | none =>
      simp only
      by_cases h2 : strncmp_eq m arg (arg_end_offset arg) = true
      · rw [if_pos h2]
        exact is_abbreviated_unmatched p st arg i o _ _ ho
      · rw [if_neg h2]
        by_cases h3 : o.flags.noneg = true
        · rw [if_pos h3]; exact ⟨rfl, hst⟩
        · rw [if_neg h3]
          by_cases h4 : starts_with ['n', 'o', '-'] arg = true
          · rw [if_pos h4]
            exact is_abbreviated_unmatched p st arg i o _ _ ho
          · rw [if_neg h4]
            by_cases h5 : ¬ starts_with arg ['n', 'o', '-'] = true
            · rw [if_pos h5]
              split_ifs
              · exact hag
              · exact ⟨rfl, hst⟩
            · rw [if_neg h5]
              cases skip_prefix (arg.drop 3) m with
              | some rest2 => exact long_opt_finish_unmatched p st i o _ _ _ hst ho
              | none =>
                simp only
                split_ifs
                · exact is_abbreviated_unmatched p st arg i o _ _ ho
                · exact ⟨rfl, hst⟩

theorem long_opt_again_unmatched (arg : Str) (p : Ctx) (st : Abbrev) (i : Nat) (o : Opt)
    (hst : ∀ j o', st.abbrev_option = some (j, o') → o'.type ≠ OPTION_LOWLEVEL_CALLBACK)
    (ho : o.type ≠ OPTION_LOWLEVEL_CALLBACK) :
    ∀ (n : Nat) (m : Str) (f : Nat), m.length ≤ n →
      unmatched_step (geom p) (long_opt_again arg p st i o m f) := by
  intro n
  induction n with
  | zero =>
    intro m f hm
    have : m = [] := List.length_eq_zero.mp (by omega)
    subst this
    rw [long_opt_again_plain _ _ _ _ _ _ _ (by decide)]
    exact long_opt_pass_unmatched arg p st i o [] f _ hst ho ⟨rfl, hst⟩
  | succ n ih =>
    intro m f hm
    by_cases hno : NO <+: m
    · obtain ⟨tl, rfl⟩ := hno
      rw [long_opt_again_strip]
      refine long_opt_pass_unmatched arg p st i o _ f _ hst ho ?_
      apply ih tl _
      simp only [NO, List.length_append, List.length_cons, List.length_nil] at hm
      omega
    · rw [long_opt_again_plain _ _ _ _ _ _ _ hno]
      exact long_opt_pass_unmatched arg p st i o m f _ hst ho ⟨rfl, hst⟩

theorem parse_long_opt_end_unmatched (arg : Str) (p : Ctx) (st : Abbrev)
    (hst : ∀ j o', st.abbrev_option = some (j, o') → o'.type ≠ OPTION_LOWLEVEL_CALLBACK) :
    unmatched_action (geom p) (parse_long_opt_end arg p st) := by
  unfold parse_long_opt_end
  cases h1 : st.ambiguous_option with
  | some amb =>
    cases h2 : st.abbrev_option with
    | none => exact fun _ => rfl
    | some ab => exact fun _ => rfl
  | none =>
    cases h2 : st.abbrev_option with
    | none => exact fun _ => rfl
    | some ab => exact hst ab.1 ab.2 h2

theorem parse_long_opt_from_unmatched (arg : Str)
    (g : List (Option Str) × Nat × Nat × Nat × ParseFlags) :
    ∀ (l : List Opt) (i : Nat) (p : Ctx) (st : Abbrev), geom p = g →
      (∀ j o', st.abbrev_option = some (j, o') → o'.type ≠ OPTION_LOWLEVEL_CALLBACK) →
      (∀ o ∈ table l, o.type ≠ OPTION_LOWLEVEL_CALLBACK) →
      unmatched_action g (parse_long_opt_from arg l i p st) := by
  intro l
  induction l with
  | nil =>
    intro i p st hp hst _
    rw [← hp]
    exact parse_long_opt_end_unmatched arg p st hst
  | cons o rest ih =>
    intro i p st hp hst hl
    rw [parse_long_opt_from]
    split_ifs with hend
    · rw [← hp]
      exact parse_long_opt_end_unmatched arg p st hst
    · have ho : o.type ≠ OPTION_LOWLEVEL_CALLBACK :=
        hl o (by rw [table_cons o rest hend]; exact List.mem_cons_self _ _)
      have hrest : ∀ o' ∈ table rest, o'.type ≠ OPTION_LOWLEVEL_CALLBACK :=
        fun o' ho' => hl o' (by rw [table_cons o rest hend]; exact List.mem_cons_of_mem _ ho')
      cases hl' : o.long_name with
      | none => exact ih (i + 1) p st hp hst hrest
      | some l =>
        simp only
        have hs := long_opt_again_unmatched arg p st i o hst ho l.length l 0 (le_refl _)
        rw [hp] at hs
        cases hr : long_opt_again arg p st i o l 0 with
        | leave a =>
          rw [hr] at hs
          exact hs
        | cont p1 st1 =>
          rw [hr] at hs
          exact ih (i + 1) p1 st1 hs.1 hs.2 hrest

/-- Without low-level callbacks, a no-match result of `parse_long_opt` comes
with the argument array and the cursors unchanged. -/
theorem parse_long_opt_unmatched (env : Env) (tbl : List Opt) (p : Ctx) (arg : Str)
    (hnoll : ∀ o ∈ table tbl, o.type ≠ OPTION_LOWLEVEL_CALLBACK)
    (hrc : (parse_long_opt env p arg tbl).1 = Rc.code (-2)) :
    geom (parse_long_opt env p arg tbl).2 = geom p := by
  have h' := parse_long_opt_from_unmatched arg (geom p) tbl 0 p {} rfl
    (fun j o' hj => by simp at hj) hnoll
  unfold parse_long_opt parse_long_opt_action at hrc ⊢
  cases hr : parse_long_opt_from arg tbl 0 p {} with
  | ret r =>
    rw [hr] at h' hrc
    exact h' hrc
  | dispatch p1 i o fl =>
    rw [hr] at h' hrc
    exact absurd hrc (get_value_not_unmatched env p1 i o tbl fl h')

theorem unknown_passes (c d : Ctx) (h : geom d = geom c) : passes_token c (unknown d) := by
  simp only [geom, Prod.mk.injEq] at h
  obtain ⟨h1, h2, h3, h4, h5⟩ := h
  unfold unknown
  split_ifs
  · show geom _ = _
    simp only [geom, h1, h2, h3, h4, h5]
  · show geom d = geom c
    simp only [geom, h1, h2, h3, h4, h5]

/-- The body of the loop of `parse_options_step` for a token that matches
nothing, in a table without low-level callbacks: the step returns with the
array and the cursors as they are, or it forwards the token. -/
theorem step_token_no_match (env : Env) (tbl : List Opt) (fuel : Nat) (c : Ctx) (t : Str)
    (hnoll : ∀ o ∈ table tbl, o.type ≠ OPTION_LOWLEVEL_CALLBACK)
    (harg : argvAt c 0 = t) (ht : no_match env tbl t) :
    passes_token c (step_token env tbl fuel c) := by
  obtain ⟨hdd, hm⟩ := ht
  have hmc := hm c
  unfold step_token
  simp only [harg]
  by_cases h1 : t.head? ≠ some '-' ∨ t.length < 2
  · rw [if_pos h1] at hmc ⊢
    have hc2 := parse_nodash_opt_from_unmatched env tbl c t tbl 0 hnoll hmc
    unfold parse_nodash_opt at hmc ⊢
    cases hr : parse_nodash_opt_from env tbl c t tbl 0 with
    | mk rc c2 =>
      rw [hr] at hmc hc2
      simp only at hmc hc2 ⊢
      subst hmc
      subst hc2
      rw [if_neg (by decide), if_neg (by decide)]
      split_ifs
      · rfl
      · rfl
  · rw [if_neg h1] at hmc ⊢
    split
    · rfl
    split
    · rfl
    by_cases h2 : t.tail.head? ≠ some '-'
    · rw [if_pos h2] at hmc ⊢
      have hc2 : (parse_short_opt env { c with opt := some t.tail } tbl).2 =
          { c with opt := some t.tail } :=
        parse_short_opt_from_unmatched env tbl t.tail tbl 0 _ none hnoll hmc
      cases hr : parse_short_opt env { c with opt := some t.tail } tbl with
      | mk rc c2 =>
        rw [hr] at hmc hc2
        simp only at hmc hc2
        subst hmc
        subst hc2
        simp only
        split_ifs
        all_goals first
          | rfl
          | exact unknown_passes c _ rfl
    · rw [if_neg h2] at hmc ⊢
      split
      · exfalso
        apply hdd
        rename_i hl
        match t, h1, h2, hl with
        | [a, b], h1, h2, _ =>
          simp only [List.head?_cons, ne_eq, Option.some.injEq, List.length_cons,
            List.length_nil, not_or, not_not, List.tail_cons] at h1 h2
          rw [h1.1, h2]
      split
      · rfl
      split
      · rfl
      have hg := parse_long_opt_unmatched env tbl c (t.drop 2) hnoll hmc
      cases hr : parse_long_opt env c (t.drop 2) tbl with
      | mk rc c2 =>
        rw [hr] at hmc hg
        simp only at hmc hg
        subst hmc
        simp only
        split_ifs
        all_goals first
          | exact unknown_passes c c2 hg
          | (exfalso; omega)

/-- The loop of `parse_options_step` over tokens that match nothing, in a
table without low-level callbacks: whatever the fuel and whether it returns
at a token or forwards them all, the output region followed by the unread
tokens stays the same sequence. -/
theorem unmatched_loop (env : Env) (tbl : List Opt) (V : List (Option Str))
    (hnoll : ∀ o ∈ table tbl, o.type ≠ OPTION_LOWLEVEL_CALLBACK) :
    ∀ (rest : List Str) (fuel : Nat) (c : Ctx),
      c.buf.drop c.argv = rest.map some ++ [none] → c.argc = rest.length →
      c.cpidx ≤ c.argv → (∀ t ∈ rest, no_match env tbl t) →
      c.buf.take c.cpidx ++ rest.map some = V →
      unmatched_left env tbl V (parse_options_loop env tbl fuel c).2 := by
  intro rest
  induction rest with
  | nil =>
    intro fuel c hd hn hcp hop hV
    have h0 : unmatched_left env tbl V c := ⟨[], hd, hn, hcp, hop, hV⟩
    cases fuel with
    | zero => exact h0
    | succ fuel =>
      rw [parse_options_loop, if_pos (by simpa using hn)]
      exact h0
  | cons t rest ih =>
    intro fuel c hd hn hcp hop hV
    have hd' : c.buf.drop c.argv = some t :: (rest.map some ++ [none]) := by
      rw [hd]
      rfl
    have h0 : unmatched_left env tbl V c := ⟨t :: rest, hd, hn, hcp, hop, hV⟩
    cases fuel with
    | zero => exact h0
    | succ fuel =>
      have hne : c.argc ≠ 0 := by rw [hn]; simp
      have harg : argvAt c 0 = t := argvAt_of_drop c t (rest.map some ++ [none]) hd'
      have hlen : c.argv < c.buf.length := by
        have := congrArg List.length hd
        rw [List.length_drop] at this
        simp at this
        omega
      have hget : c.buf.getD c.argv none = some t := by
        have h2 : c.buf[c.argv]? = some (some t) := by
          have := congrArg (fun l => l[0]?) hd'
          simpa using this
        rw [List.getD_eq_getElem?_getD, h2]
        rfl
      have hd1 : c.buf.drop (c.argv + 1) = rest.map some ++ [none] := by
        have e : c.buf.drop (c.argv + 1) = (c.buf.drop c.argv).drop 1 := by
          rw [List.drop_drop, Nat.add_comm]
        rw [e, hd']
        rfl
      have hs := step_token_no_match env tbl (fuel + 1) c t hnoll harg
        (hop t (List.mem_cons_self _ _))
      rw [parse_options_loop, if_neg hne]
      cases hr : step_token env tbl (fuel + 1) c with
      | ret o d =>
        rw [hr] at hs
        simp only [passes_token, geom, Prod.mk.injEq] at hs
        obtain ⟨g1, g2, g3, g4, g5⟩ := hs
        exact ⟨t :: rest, by rw [g1, g2]; exact hd, by rw [g3]; exact hn, by rw [g4, g2]; exact hcp,
          hop, by rw [g1, g4]; exact hV⟩
      | brk d =>
        rw [hr] at hs
        exact absurd hs id
      | next d =>
        rw [hr] at hs
        simp only [passes_token, geom, Prod.mk.injEq] at hs
        obtain ⟨g1, g2, g3, g4, g5⟩ := hs
        simp only
        refine ih fuel { d with argc := d.argc - 1, argv := d.argv + 1 } ?_ ?_ ?_
          (fun t' ht' => hop t' (List.mem_cons_of_mem _ ht')) ?_
        · show d.buf.drop (d.argv + 1) = _
          rw [g1, g2, List.drop_set_of_lt _ _ (by omega)]
          exact hd1
        · show d.argc - 1 = rest.length
          rw [g3, hn]
          simp
        · show d.cpidx ≤ d.argv + 1
          rw [g4, g2]
          omega
        · show d.buf.take d.cpidx ++ rest.map some = V
          rw [g1, g4, take_set_succ _ _ _ (by omega), hget, ← hV]
          simp

theorem unmatched_left_run (env : Env) (tbl : List Opt) (V : List (Option Str))
    (hnoll : ∀ o ∈ table tbl, o.type ≠ OPTION_LOWLEVEL_CALLBACK) :
    ∀ (fuels : List Nat) (c : Ctx), unmatched_left env tbl V c →
      unmatched_left env tbl V (run_steps env tbl fuels c) := by
  intro fuels
  induction fuels with
  | nil => intro c hc; exact hc
  | cons f rest ih =>
    intro c hc
    obtain ⟨r, h1, h2, h3, h4, h5⟩ := hc
    exact ih _ (unmatched_loop env tbl V hnoll r f { c with opt := none } h1 h2 h3 h4 h5)

theorem unmatched_left_vector (env : Env) (tbl : List Opt) (V : List (Option Str)) (c : Ctx)
    (h : unmatched_left env tbl V c) : result_vector (parse_options_end c) = V := by
  obtain ⟨r, h1, h2, h3, h4, h5⟩ := h
  have hlen : c.argv + c.argc < c.buf.length := by
    have := congrArg List.length h1
    rw [List.length_drop] at this
    simp at this
    omega
  rw [(parse_options_end_layout c h3 hlen).2.2.2.2, ← h5]
  unfold pending_vector
  rw [h1, h2]
  have : r.length = (r.map some).length := by simp
  rw [this, List.take_left]

/-- A plain operand matches nothing. -/
theorem operand_no_match (env : Env) (tbl : List Opt) (t : Str) (h : operand tbl t) :
    no_match env tbl t := by
  refine ⟨?_, fun c => ?_⟩
  · rintro rfl
    rcases h.1 with h1 | h1
    · exact h1 rfl
    · simp at h1
  · rw [if_pos h.1]
    unfold parse_nodash_opt
    rw [parse_nodash_opt_from_operand env tbl c t tbl 0 h.2]

/-! ### Optional arguments -/

theorem get_arg_pending (p : Ctx) (o : Opt) (fl : Nat) (v : Str) (hp : p.opt = some v) :
    get_arg p o fl = (Rc.code 0, some v, { p with opt := none }) := by
  unfold get_arg
  rw [hp]

/-- A value-taking descriptor with the optional-argument flag, in non-negated
form, never consumes a token: `get_value` leaves the argument array and the
cursors as they are. -/
theorem get_value_optarg_geom (env : Env) (p : Ctx) (i : Nat) (o : Opt) (tbl : List Opt)
    (fl : Nat) (hkind : takes_value o.type) (hoa : o.flags.optarg = true)
    (hfl : fl &&& OPT_UNSET = 0) : geom (get_value env p i o tbl fl).2 = geom p := by
  unfold get_value
  simp only
  split_ifs
  · rfl
  · rfl
  · rfl
  · cases hp : p.opt with
    | none =>
      rcases hkind with ht | ht | ht | ht | ht
      · simp [get_value_switch, ht, hoa, hfl, hp, geom, setStr]
      · simp only [get_value_switch, ht, hoa, hfl, hp, ne_eq, not_true_eq_false, decide_False,
          Bool.false_eq_true, if_false, Option.isNone_none, and_self, if_true]
        exact geom_fix_filename env _ _
      · simp [get_value_switch, ht, hoa, hfl, hp, geom, setInt]
      · simp [get_value_switch, ht, hoa, hfl, hp, geom, setInt]
      · simp only [get_value_switch, ht, hoa, hfl, hp, ne_eq, not_true_eq_false, decide_False,
          Bool.false_eq_true, if_false, Option.isNone_none, and_self, if_true]
        split_ifs <;> rfl
    | some v =>
      have hga := get_arg_pending p o fl v hp
      rcases hkind with ht | ht | ht | ht | ht
      · simp [get_value_switch, ht, hfl, hp, hga, geom, setStr]
      · simp only [get_value_switch, ht, hfl, hp, hga, ne_eq, not_true_eq_false, decide_False,
          Bool.false_eq_true, if_false, Option.isNone_some, and_false, if_true]
        exact geom_fix_filename env _ _
      · simp only [get_value_switch, ht, hfl, hp, hga, ne_eq, not_true_eq_false, decide_False,
          Bool.false_eq_true, if_false, Option.isNone_some, and_false]
        split_ifs <;> rfl
      · simp only [get_value_switch, ht, hfl, hp, hga, ne_eq, not_true_eq_false, decide_False,
          Bool.false_eq_true, if_false, Option.isNone_some, and_false]
        split <;> rfl
      · simp only [get_value_switch, ht, hfl, hp, hga, ne_eq, not_true_eq_false, decide_False,
          Bool.false_eq_true, if_false, Option.isNone_some, and_false]
        split_ifs <;> rfl

/-- C21 (amended): a descriptor of String, Filename, Integer, Magnitude or
Callback kind with the optional-argument flag is matched in non-negated form.
Whatever the context, `get_value` consumes no token: the argument array and
the cursors stay as they are, even when further tokens remain, so the
following token is classified on its own.  With no pending inline value:
String stores the default; Filename stores the default after the prefix
adjustment of `fix_filename` (the default itself when there is no prefix or
no default); Integer stores the default converted to `int` (the default
itself when it fits); Magnitude stores the default converted to
`unsigned long`; these four succeed.  Callback calls the callback with no
value and succeeds exactly when the callback returns 0.  With a pending
inline value `v` that the no-argument guard lets through, a String
descriptor stores `v`. -/
theorem optional_argument_default (env : Env) (p : Ctx) (i : Nat) (o : Opt) (tbl : List Opt)
    (fl : Nat) (hkind : takes_value o.type) (hoa : o.flags.optarg = true)
    (hfl : fl &&& OPT_UNSET = 0) :
    geom (get_value env p i o tbl fl).2 = geom p ∧
    (p.opt = none →
      (get_value env p i o tbl fl).2.opt = none ∧
      (o.type = OPTION_STRING →
        get_value env p i o tbl fl = (Rc.code 0, setStr p o.value o.defstr)) ∧
      (o.type = OPTION_FILENAME →
        get_value env p i o tbl fl =
          (Rc.code 0, fix_filename env (setStr p o.value o.defstr) o.value) ∧
        (p.pfx = none ∨ o.defstr = none →
          get_value env p i o tbl fl = (Rc.code 0, setStr p o.value o.defstr))) ∧
      (o.type = OPTION_INTEGER →
        get_value env p i o tbl fl = (Rc.code 0, setInt p o.value (toInt32 o.defval)) ∧
        (fits_int o.defval → (get_value env p i o tbl fl).2.slots.ints o.value = o.defval)) ∧
      (o.type = OPTION_MAGNITUDE →
        get_value env p i o tbl fl = (Rc.code 0, setInt p o.value (toULong o.defval))) ∧
      (o.type = OPTION_CALLBACK →
        get_value env p i o tbl fl = call_callback env p o none false ∧
        ((get_value env p i o tbl fl).1 = Rc.code 0 ↔
          (env.callback o none false p.slots).1 = 0))) ∧
    (∀ v, p.opt = some v → (fl &&& OPT_SHORT ≠ 0 ∨ o.flags.noarg = false) →
      o.type = OPTION_STRING →
      get_value env p i o tbl fl = (Rc.code 0, setStr { p with opt := none } o.value (some v))) := by
  refine ⟨get_value_optarg_geom env p i o tbl fl hkind hoa hfl, fun hp => ?_, ?_⟩
  · have hgv : get_value env p i o tbl fl = get_value_switch env p i o tbl fl :=
      get_value_enters env p i o tbl fl (Or.inl hp) (fun h => absurd hfl h)
    have hty : o.type ≠ OPTION_LOWLEVEL_CALLBACK := by
      rcases hkind with h | h | h | h | h <;> rw [h] <;> decide
    refine ⟨get_value_keeps_none env p i o tbl fl hty hp, fun ht => ?_, fun ht => ?_,
      fun ht => ?_, fun ht => ?_, fun ht => ?_⟩
    · rw [hgv]
      simp [get_value_switch, ht, hoa, hfl, hp]
    · have e : get_value env p i o tbl fl =
          (Rc.code 0, fix_filename env (setStr p o.value o.defstr) o.value) := by
        rw [hgv]
        simp [get_value_switch, ht, hoa, hfl, hp]
      refine ⟨e, fun h => ?_⟩
      rw [e]
      rcases h with h | h
      · have : (setStr p o.value o.defstr).pfx = none := h
        simp only [fix_filename, this]
        split
        · rename_i hq
          cases hq
        · rfl
      · have : getStr (setStr p o.value o.defstr) o.value = none := by
          simp [getStr, setStr, h]
        simp only [fix_filename, this]
    · have e : get_value env p i o tbl fl =
          (Rc.code 0, setInt p o.value (toInt32 o.defval)) := by
        rw [hgv]
        simp [get_value_switch, ht, hoa, hfl, hp]
      refine ⟨e, fun hf => ?_⟩
      rw [e]
      simp only [setInt, if_true]
      exact toInt32_fits _ hf
    · rw [hgv]
      simp [get_value_switch, ht, hoa, hfl, hp]
    · have e : get_value env p i o tbl fl = call_callback env p o none false := by
        rw [hgv]
        simp only [get_value_switch, ht, hoa, hfl, hp, ne_eq, not_true_eq_false, decide_False,
          Bool.false_eq_true, if_false, Option.isNone_none, and_self, if_true]
        split_ifs <;> rfl
      refine ⟨e, ?_⟩
      rw [e]
      unfold call_callback
      simp only
      by_cases hc : (env.callback o none false p.slots).1 = 0
      · simp [hc]
      · simp [hc]
  · intro v hp hguard ht
    have hga := get_arg_pending p o fl v hp
    have hgv : get_value env p i o tbl fl = get_value_switch env p i o tbl fl := by
      unfold get_value
      simp only
      rw [if_neg (by simp [hfl]), if_neg (by simp [hfl]), if_neg]
      rintro ⟨h1, _, h3⟩
      rcases hguard with h | h
      · exact h h1
      · rw [h] at h3
        cases h3
    rw [hgv]
    simp [get_value_switch, ht, hfl, hp, hga]

/-- C21 instantiated: `prog --color x` with the optional-argument String
option `--color` (default `auto`): the slot gets the default, no token is
consumed, and `x` is left as an operand. -/
theorem optional_argument_default_witness :
    get_value sampleEnv (sampleCtx ["prog", "--color", "x"] {}) 0 colorOptarg optargTable 0 =
      (Rc.code 0,
        setStr (sampleCtx ["prog", "--color", "x"] {}) 0 (some ['a', 'u', 't', 'o'])) ∧
    (parse_options_step sampleEnv optargTable 5
      (sampleCtx ["prog", "--color", "x"] {})).2.slots.strs 0 = some ['a', 'u', 't', 'o'] ∧
    result_vector (parse_options_end (parse_options_step sampleEnv optargTable 5
      (sampleCtx ["prog", "--color", "x"] {})).2) = [some ['x']] :=
  have h := optional_argument_default sampleEnv (sampleCtx ["prog", "--color", "x"] {}) 0
    colorOptarg optargTable 0 (Or.inl rfl) rfl rfl
  ⟨(h.2.1 rfl).2.1 rfl, by decide, by decide⟩

/-- C21 as stated fails: the table is validated and nothing is pending; the
Filename option `--file` with the prefix `sub/` stores `sub/out.txt`, not
its default `out.txt`; the Callback option `--hook` whose callback rejects
the call makes `get_value` fail with -1; and the Integer option `--wide`
with the default 4294967301 stores 5. -/
theorem optional_argument_not_plain_default :
    parse_options_check optargTable = false ∧
    fileOptarg.defstr = some "out.txt".toList ∧
    (get_value sampleEnv
      { sampleCtx ["prog", "--file", "x"] {} with pfx := some ['s', 'u', 'b', '/'] } 1
      fileOptarg optargTable 0).1 = Rc.code 0 ∧
    (get_value sampleEnv
      { sampleCtx ["prog", "--file", "x"] {} with pfx := some ['s', 'u', 'b', '/'] } 1
      fileOptarg optargTable 0).2.slots.strs 1 = some "sub/out.txt".toList ∧
    (get_value rejectEnv (sampleCtx ["prog", "--hook", "x"] {}) 2 hookOptarg optargTable
      0).1 = Rc.code (-1) ∧
    wideOptarg.defval = 4294967301 ∧
    (get_value sampleEnv (sampleCtx ["prog", "--wide", "x"] {}) 3 wideOptarg optargTable
      0).2.slots.ints 3 = 5 := by
  refine ⟨by decide, by decide, by decide, by decide, by decide, by decide, by decide⟩

/-! ### The tokens forwarded during scanning -/

theorem keeps_out_refl (c : Ctx) : keeps_out c c := ⟨rfl, rfl, rfl, le_refl _, rfl, id⟩

theorem keeps_out_trans (a b c : Ctx) (h1 : keeps_out a b) (h2 : keeps_out b c) :
    keeps_out a c := by
  obtain ⟨b1, b2, b3, b4, b5, b6⟩ := h1
  obtain ⟨c1, c2, c3, c4, c5, c6⟩ := h2
  exact ⟨c1.trans b1, c2.trans b2, c3.trans b3, le_trans b4 c4, c5.trans b5, fun h => c6 (b6 h)⟩

theorem keeps_out_of_consumes (p q : Ctx) (h : consumes p q) : keeps_out p q := by
  rcases h with h | ⟨hc, h⟩
  · simp only [geom, Prod.mk.injEq] at h
    obtain ⟨h1, h2, h3, h4, h5⟩ := h
    exact ⟨h1, h4, h5, by omega, by omega, fun _ => by omega⟩
  · simp only [geom, Prod.mk.injEq] at h
    obtain ⟨h1, h2, h3, h4, h5⟩ := h
    exact ⟨h1, h4, h5, by omega, by omega, fun _ => by omega⟩

theorem keeps_out_geom (c p q : Ctx) (hg : geom q = geom p) (hp : keeps_out c p) :
    keeps_out c q :=
  keeps_out_trans c p q hp (keeps_out_of_consumes p q (Or.inl hg))

theorem keeps_out_get_value (env : Env) (c p : Ctx) (i : Nat) (o : Opt) (all : List Opt)
    (fl : Nat) (ho : ll_out env o) (hp : keeps_out c p) :
    keeps_out c (get_value env p i o all fl).2 := by
  by_cases hty : o.type = OPTION_LOWLEVEL_CALLBACK
  · unfold get_value
    simp only
    split_ifs
    · exact keeps_out_geom c p _ rfl hp
    · exact keeps_out_geom c p _ rfl hp
    · exact keeps_out_geom c p _ rfl hp
    · simp only [get_value_switch, hty]
      exact keeps_out_trans c p _ hp (ho hty _ p)
  · exact keeps_out_trans c p _ hp
      (keeps_out_of_consumes p _ (consumes_get_value env p i o all fl hty))

theorem keeps_out_parse_short_opt_from (env : Env) (c : Ctx) (all : List Opt) (cur : Str) :
    ∀ (l : List Opt) (i : Nat) (p : Ctx) (numopt : Option Opt),
      (∀ o ∈ table l, ll_out env o) → keeps_out c p →
      keeps_out c (parse_short_opt_from env all cur l i p numopt).2 := by
  have hend : ∀ (p : Ctx) (numopt : Option Opt), keeps_out c p →
      keeps_out c (parse_short_opt_end env cur p numopt).2 := by
    intro p numopt hp
    unfold parse_short_opt_end
    split
    · split_ifs
      · exact keeps_out_geom c p _ rfl hp
      · exact hp
    · exact hp
  intro l
  induction l with
  | nil => intro i p numopt _ hp; exact hend p numopt hp
  | cons o rest ih =>
    intro i p numopt hl hp
    rw [parse_short_opt_from]
    have hrest : o.type ≠ OPTION_END → ∀ o' ∈ table rest, ll_out env o' :=
      fun h1 o' ho' => hl o' (by rw [table_cons o rest h1]; exact List.mem_cons_of_mem _ ho')
    split_ifs with h1 h2
    · exact hend p numopt hp
    · exact keeps_out_get_value env c _ i o all OPT_SHORT
        (hl o (by rw [table_cons o rest h1]; exact List.mem_cons_self _ _))
        (keeps_out_geom c p _ rfl hp)
    · exact ih (i + 1) p _ (hrest h1) hp
    · exact ih (i + 1) p _ (hrest h1) hp

theorem keeps_out_parse_short_opt (env : Env) (tbl : List Opt) (hll : ll_keeps_out env tbl)
    (c p : Ctx) (hp : keeps_out c p) : keeps_out c (parse_short_opt env p tbl).2 := by
  unfold parse_short_opt
  cases p.opt with
  | none => exact hp
  | some cur => exact keeps_out_parse_short_opt_from env c tbl cur tbl 0 p none hll hp

theorem keeps_out_parse_nodash_opt_from (env : Env) (c : Ctx) (all : List Opt) (p : Ctx)
    (arg : Str) (hp : keeps_out c p) :
    ∀ (l : List Opt) (i : Nat), (∀ o ∈ table l, ll_out env o) →
      keeps_out c (parse_nodash_opt_from env all p arg l i).2 := by
  intro l
  induction l with
  | nil => intro i _; exact hp
  | cons o rest ih =>
    intro i hl
    rw [parse_nodash_opt_from]
    have hrest : o.type ≠ OPTION_END → ∀ o' ∈ table rest, ll_out env o' :=
      fun h1 o' ho' => hl o' (by rw [table_cons o rest h1]; exact List.mem_cons_of_mem _ ho')
    split_ifs with h1 h2 h3
    · exact hp
    · exact keeps_out_get_value env c p i o all OPT_SHORT
        (hl o (by rw [table_cons o rest h1]; exact List.mem_cons_self _ _)) hp
    · exact ih (i + 1) (hrest h1)
    · exact ih (i + 1) (hrest h1)

theorem keeps_out_parse_nodash_opt (env : Env) (tbl : List Opt) (hll : ll_keeps_out env tbl)
    (c : Ctx) (arg : Str) : keeps_out c (parse_nodash_opt env c arg tbl).2 :=
  keeps_out_parse_nodash_opt_from env c tbl c arg (keeps_out_refl c) tbl 0 hll

theorem is_abbreviated_out (env : Env) (c : Ctx) (arg0 : Str) (p : Ctx) (st : Abbrev)
    (arg : Str) (i : Nat) (o : Opt) (fl f : Nat) (hp : geom p = geom c) (ho : ll_out env o) :
    out_long_step env c arg0 (is_abbreviated p st arg i o fl f) := by
  unfold is_abbreviated
  simp only [out_long_step]
  constructor
  · split_ifs
    · exact hp
    · exact hp
  · intro j o' hj
    simp only [Option.some.injEq, Prod.mk.injEq] at hj
    obtain ⟨_, rfl⟩ := hj
    exact ho

theorem long_opt_finish_out (env : Env) (c : Ctx) (arg0 : Str) (p : Ctx) (st : Abbrev)
    (i : Nat) (o : Opt) (rest : Str) (fl f : Nat) (hp : geom p = geom c)
    (hst : ∀ j o', st.abbrev_option = some (j, o') → ll_out env o')
    (ho : ll_out env o) :
    out_long_step env c arg0 (long_opt_finish p st i o rest fl f) := by
  unfold long_opt_finish
  cases rest with
  | nil => exact ⟨hp, ho⟩
  | cons c tl =>
    simp only
    split_ifs
    · exact ⟨hp, hst⟩
    · exact ⟨hp, ho⟩

theorem long_opt_pass_out (env : Env) (c : Ctx) (arg : Str) (p : Ctx) (st : Abbrev) (i : Nat)
    (o : Opt) (m : Str) (f : Nat) (again : LongStep) (hp : geom p = geom c)
    (hst : ∀ j o', st.abbrev_option = some (j, o') → ll_out env o')
    (ho : ll_out env o) (hag : out_long_step env c arg again) :
    out_long_step env c arg (long_opt_pass arg p st i o m f again) := by
  have hg := hp
  simp only [geom, Prod.mk.injEq] at hg
  obtain ⟨g1, g2, g3, g4, g5⟩ := hg
  unfold long_opt_pass
  by_cases h1 : o.type = OPTION_ARGUMENT
  · rw [if_pos h1]
    split
    · exact ⟨hp, hst⟩
    · refine Or.inr ⟨rfl, ?_⟩
      simp only [geom, g1, g2, g3, g4, g5]
    · split_ifs
      · exact Or.inl hp
      · exact ⟨hp, hst⟩
  · rw [if_neg h1]
    cases skip_prefix arg m with
    | some rest => exact long_opt_finish_out env c arg p st i o _ _ _ hp hst ho
    | none =>
      simp only
      by_cases h2 : strncmp_eq m arg (arg_end_offset arg) = true
      · rw [if_pos h2]
        exact is_abbreviated_out env c arg p st arg i o _ _ hp ho
      · rw [if_neg h2]
        by_cases h3 : o.flags.noneg = true
        · rw [if_pos h3]; exact ⟨hp, hst⟩
        · rw [if_neg h3]
          by_cases h4 : starts_with ['n', 'o', '-'] arg = true
          · rw [if_pos h4]
            exact is_abbreviated_out env c arg p st arg i o _ _ hp ho
          · rw [if_neg h4]
            by_cases h5 : ¬ starts_with arg ['n', 'o', '-'] = true
            · rw [if_pos h5]
              split_ifs
              · exact hag
              · exact ⟨hp, hst⟩
            · rw [if_neg h5]
              cases skip_prefix (arg.drop 3) m with
              | some rest2 =>
                exact long_opt_finish_out env c arg p st i o _ _ _ hp hst ho
              | none =>
                simp only
                split_ifs
                · exact is_abbreviated_out env c arg p st arg i o _ _ hp ho
                · exact ⟨hp, hst⟩

theorem long_opt_again_out (env : Env) (c : Ctx) (arg : Str) (p : Ctx) (st : Abbrev) (i : Nat)
    (o : Opt) (hp : geom p = geom c)
    (hst : ∀ j o', st.abbrev_option = some (j, o') → ll_out env o')
    (ho : ll_out env o) :
    ∀ (n : Nat) (m : Str) (f : Nat), m.length ≤ n →
      out_long_step env c arg (long_opt_again arg p st i o m f) := by
  intro n
  induction n with
  | zero =>
    intro m f hm
    have : m = [] := List.length_eq_zero.mp (by omega)
    subst this
    rw [long_opt_again_plain _ _ _ _ _ _ _ (by decide)]
    exact long_opt_pass_out env c arg p st i o [] f _ hp hst ho ⟨hp, hst⟩
  | succ n ih =>
    intro m f hm
    by_cases hno : NO <+: m
    · obtain ⟨tl, rfl⟩ := hno
      rw [long_opt_again_strip]
      refine long_opt_pass_out env c arg p st i o _ f _ hp hst ho ?_
      apply ih tl _
      simp only [NO, List.length_append, List.length_cons, List.length_nil] at hm
      omega
    · rw [long_opt_again_plain _ _ _ _ _ _ _ hno]
      exact long_opt_pass_out env c arg p st i o m f _ hp hst ho ⟨hp, hst⟩

theorem parse_long_opt_end_out (env : Env) (c : Ctx) (arg : Str) (p : Ctx) (st : Abbrev)
    (hp : geom p = geom c)
    (hst : ∀ j o', st.abbrev_option = some (j, o') → ll_out env o') :
    out_action env c arg (parse_long_opt_end arg p st) := by
  unfold parse_long_opt_end
  cases h1 : st.ambiguous_option with
  | some amb =>
    cases h2 : st.abbrev_option with
    | none => exact Or.inl hp
    | some ab => exact Or.inl hp
  | none =>
    cases h2 : st.abbrev_option with
    | none => exact Or.inl hp
    | some ab => exact ⟨hp, hst ab.1 ab.2 h2⟩

theorem parse_long_opt_from_out (env : Env) (c : Ctx) (arg : Str) :
    ∀ (l : List Opt) (i : Nat) (p : Ctx) (st : Abbrev), geom p = geom c →
      (∀ j o', st.abbrev_option = some (j, o') → ll_out env o') →
      (∀ o ∈ table l, ll_out env o) →
      out_action env c arg (parse_long_opt_from arg l i p st) := by
  intro l
  induction l with
  | nil => intro i p st hp hst _; exact parse_long_opt_end_out env c arg p st hp hst
  | cons o rest ih =>
    intro i p st hp hst hl
    rw [parse_long_opt_from]
    split_ifs with hend
    · exact parse_long_opt_end_out env c arg p st hp hst
    · have ho : ll_out env o :=
        hl o (by rw [table_cons o rest hend]; exact List.mem_cons_self _ _)
      have hrest : ∀ o' ∈ table rest, ll_out env o' :=
        fun o' ho' => hl o' (by rw [table_cons o rest hend]; exact List.mem_cons_of_mem _ ho')
      cases hl' : o.long_name with
      | none => exact ih (i + 1) p st hp hst hrest
      | some l =>
        simp only
        have hs := long_opt_again_out env c arg p st i o hp hst ho l.length l 0 (le_refl _)
        cases hr : long_opt_again arg p st i o l 0 with
        | leave a =>
          rw [hr] at hs
          exact hs
        | cont p1 st1 =>
          rw [hr] at hs
          exact ih (i + 1) p1 st1 hs.1 hs.2 hrest

/-- The long-option matcher leaves the array and the output cursor alone, or
it returns 0 after writing the token `--arg` to the output slot (a descriptor
of the Argument kind). -/
theorem parse_long_opt_out (env : Env) (tbl : List Opt) (hll : ll_keeps_out env tbl) (c : Ctx)
    (arg : Str) :
    keeps_out c (parse_long_opt env c arg tbl).2 ∨
      ((parse_long_opt env c arg tbl).1 = Rc.code 0 ∧
        geom (parse_long_opt env c arg tbl).2 =
          (c.buf.set c.cpidx (some ('-' :: '-' :: arg)), c.argv, c.argc, c.cpidx + 1,
            c.flags)) := by
  have h' := parse_long_opt_from_out env c arg tbl 0 c {} rfl (fun j o' hj => by simp at hj) hll
  unfold parse_long_opt parse_long_opt_action
  cases hr : parse_long_opt_from arg tbl 0 c {} with
  | ret r =>
    rw [hr] at h'
    rcases h' with h' | h'
    · exact Or.inl (keeps_out_geom c c _ h' (keeps_out_refl c))
    · exact Or.inr h'
  | dispatch p1 i o fl =>
    rw [hr] at h'
    exact Or.inl (keeps_out_get_value env c p1 i o tbl fl h'.2
      (keeps_out_geom c c p1 h'.1 (keeps_out_refl c)))

theorem take_set_of_le {α : Type} (x : α) :
    ∀ (l : List α) (n m : Nat), n ≤ m → (l.set m x).take n = l.take n := by
  intro l
  induction l with
  | nil => intro n m _; simp
  | cons a r ih =>
    intro n m h
    cases n with
    | zero => simp
    | succ n =>
      cases m with
      | zero => omega
      | succ m =>
        simp only [List.set_cons_succ, List.take_succ_cons, List.cons.injEq, true_and]
        exact ih n m (by omega)

theorem getD_set_self {α : Type} (x d : α) (l : List α) (n : Nat) (h : n < l.length) :
    (l.set n x).getD n d = x := by
  simp [List.getD_eq_getElem?_getD, List.getElem?_set, h]

theorem getD_set_other {α : Type} (x d : α) (l : List α) (n m : Nat) (h : n ≠ m) :
    (l.set n x).getD m d = l.getD m d := by
  simp [List.getD_eq_getElem?_getD, List.getElem?_set, h]

theorem may_forward_of_keeps (c e : Ctx) (hc : in_round c) (h : keeps_out c e) :
    may_forward c e := by
  obtain ⟨a1, a2, a3, a4, a5, a6⟩ := h
  obtain ⟨c1, c2, c3⟩ := hc
  have := a6 c3
  exact ⟨a2, by rw [a1], by omega, by rw [a1]; omega, a4, Or.inl (by rw [a1])⟩

theorem may_forward_rewrite (c e : Ctx) (o : Str) (hc : in_round c) (h : keeps_out c e) :
    may_forward c { e with buf := e.buf.set e.argv (some ('-' :: o)) } := by
  obtain ⟨a1, a2, a3, a4, a5, a6⟩ := h
  obtain ⟨c1, c2, c3⟩ := hc
  have := a6 c3
  have hlt : e.argv < e.buf.length := by rw [a1]; omega
  refine ⟨a2, ?_, by simp only; omega, by simp only [List.length_set]; exact hlt, a4,
    Or.inr ⟨o, ?_⟩⟩
  · simp only
    rw [take_set_of_le _ _ _ _ (by omega), a1]
  · simp only
    exact getD_set_self _ _ _ _ hlt

theorem unknown_out (c e : Ctx) (h : may_forward c e) : out_step c (unknown e) := by
  obtain ⟨a1, a2, a3, a4, a6, a5⟩ := h
  unfold unknown
  split_ifs
  · have hk : e.cpidx < e.buf.length := by omega
    have hv : (e.buf.set e.cpidx (e.buf.getD e.argv none)).getD e.argv none =
        e.buf.getD e.argv none := by
      by_cases hq : e.cpidx = e.argv
      · rw [← hq]
        rw [getD_set_self _ _ _ _ hk]
      · exact getD_set_other _ _ _ _ _ hq
    refine Or.inr ⟨by simp only; omega, ?_, ?_, a6, ?_⟩
    · simp only
      rw [← a1, take_set_of_le _ _ _ _ (le_refl _), a1]
      exact a2
    · simp only
      rw [hv, ← a1]
      exact getD_set_self _ _ _ _ hk
    · unfold current_from
      simp only
      rw [hv]
      exact a5
  · exact ⟨a1, a2, a6, a5⟩

theorem out_ret_of_keeps (c d : Ctx) (h : keeps_out c d) :
    d.cpidx = c.cpidx ∧ d.buf.take c.cpidx = c.buf.take c.cpidx ∧ c.argv ≤ d.argv ∧
      current_from c d :=
  ⟨h.2.1, by rw [h.1], h.2.2.2.1, Or.inl (by rw [h.1])⟩

theorem short_loop_out (env : Env) (tbl : List Opt) (hll : ll_keeps_out env tbl) (c0 : Ctx)
    (hc : in_round c0) :
    ∀ (fuel : Nat) (c : Ctx), keeps_out c0 c → out_step c0 (short_loop env tbl fuel c) := by
  intro fuel
  induction fuel with
  | zero => intro c hp; exact out_ret_of_keeps c0 c hp
  | succ fuel ih =>
    intro c hp
    rw [short_loop]
    cases hopt : c.opt with
    | none => exact Or.inl ⟨hp.2.1, hp.1, hp.2.2.2.1⟩
    | some v =>
      simp only
      have hps := keeps_out_parse_short_opt env tbl hll c0 c hp
      cases hr : parse_short_opt env c tbl with
      | mk rc c2 =>
        rw [hr] at hps
        cases rc with
        | abort => exact out_ret_of_keeps c0 c2 hps
        | code n =>
          simp only
          by_cases k1 : n = -1
          · rw [if_pos k1]; exact out_ret_of_keeps c0 c2 hps
          · rw [if_neg k1]
            by_cases k2 : n = -2
            · rw [if_pos k2]
              cases ho : c2.opt with
              | none => exact out_ret_of_keeps c0 c2 hps
              | some o =>
                simp only
                split_ifs
                · exact out_ret_of_keeps c0 c2 hps
                · exact unknown_out c0 _ (may_forward_rewrite c0 c2 o hc hps)
            · rw [if_neg k2]
              exact ih c2 hps

theorem nodash_out (env : Env) (tbl : List Opt) (hll : ll_keeps_out env tbl) (c : Ctx)
    (arg : Str) (hc : in_round c) :
    out_step c
      (match parse_nodash_opt env c arg tbl with
       | (rc, c) =>
         if rc = Rc.code 0 then TokStep.next c
         else if rc = Rc.abort then TokStep.ret Outcome.ABORT c
         else if c.flags.stop_at_non_option then TokStep.ret Outcome.PARSE_OPT_NON_OPTION c
         else
           TokStep.next { c with buf := c.buf.set c.cpidx (c.buf.getD c.argv none),
                                 cpidx := c.cpidx + 1 }) := by
  have hps := keeps_out_parse_nodash_opt env tbl hll c arg
  cases hr : parse_nodash_opt env c arg tbl with
  | mk rc c2 =>
    rw [hr] at hps
    simp only
    by_cases k1 : rc = Rc.code 0
    · rw [if_pos k1]
      exact Or.inl ⟨hps.2.1, hps.1, hps.2.2.2.1⟩
    · rw [if_neg k1]
      by_cases k2 : rc = Rc.abort
      · rw [if_pos k2]; exact out_ret_of_keeps c c2 hps
      · rw [if_neg k2]
        by_cases k3 : c2.flags.stop_at_non_option = true
        · rw [if_pos k3]; exact out_ret_of_keeps c c2 hps
        · rw [if_neg k3]
          obtain ⟨a1, a2, a3, a4, a6, a5⟩ := may_forward_of_keeps c c2 hc hps
          have hk : c2.cpidx < c2.buf.length := by omega
          have hv : (c2.buf.set c2.cpidx (c2.buf.getD c2.argv none)).getD c2.argv none =
              c2.buf.getD c2.argv none := by
            by_cases hq : c2.cpidx = c2.argv
            · rw [← hq]
              rw [getD_set_self _ _ _ _ hk]
            · exact getD_set_other _ _ _ _ _ hq
          refine Or.inr ⟨by simp only; omega, ?_, ?_, a6, ?_⟩
          · simp only
            rw [← a1, take_set_of_le _ _ _ _ (le_refl _), a1]
            exact a2
          · simp only
            rw [hv, ← a1]
            exact getD_set_self _ _ _ _ hk
          · unfold current_from
            simp only
            rw [hv]
            exact a5

theorem short_out (env : Env) (tbl : List Opt) (hll : ll_keeps_out env tbl) (fuel : Nat)
    (c : Ctx) (cl : Str) (ih : Bool) (hc : in_round c) :
    out_step c
      (match parse_short_opt env { c with opt := some cl } tbl with
       | (Rc.abort, c) => TokStep.ret Outcome.ABORT c
       | (Rc.code n, c) =>
         if n = -1 then TokStep.ret Outcome.PARSE_OPT_ERROR c
         else if n = -2 then
           match c.opt with
           | none => if ih then TokStep.ret Outcome.ABORT c else unknown c
           | some o =>
             if check_typos cl tbl then TokStep.ret Outcome.EXIT_129 c
             else if ih ∧ headCode o = 'h'.toNat then TokStep.ret Outcome.PARSE_OPT_HELP c
             else unknown c
         else if c.opt.isSome ∧ check_typos cl tbl then TokStep.ret Outcome.EXIT_129 c
         else short_loop env tbl fuel c) := by
  have hps := keeps_out_parse_short_opt env tbl hll c { c with opt := some cl }
    (keeps_out_geom c c _ rfl (keeps_out_refl c))
  cases hr : parse_short_opt env { c with opt := some cl } tbl with
  | mk rc c2 =>
    rw [hr] at hps
    have hret := out_ret_of_keeps c c2 hps
    have hunk := unknown_out c c2 (may_forward_of_keeps c c2 hc hps)
    cases rc with
    | abort => exact hret
    | code n =>
      simp only
      by_cases k1 : n = -1
      · rw [if_pos k1]; exact hret
      · rw [if_neg k1]
        by_cases k2 : n = -2
        · rw [if_pos k2]
          cases ho : c2.opt with
          | none =>
            simp only
            split_ifs
            · exact hret
            · exact hunk
          | some o =>
            simp only
            split_ifs
            · exact hret
            · exact hret
            · exact hunk
        · rw [if_neg k2]
          split_ifs
          · exact hret
          · exact short_loop_out env tbl hll c hc fuel c2 hps

theorem token_dashdash (c : Ctx) (h1 : (argvAt c 0).head? = some '-')
    (h2 : (argvAt c 0).tail.head? = some '-') :
    c.buf.getD c.argv none = some ('-' :: '-' :: (argvAt c 0).drop 2) := by
  unfold argvAt at h1 h2 ⊢
  simp only [Nat.add_zero] at h1 h2 ⊢
  cases hb : c.buf.getD c.argv none with
  | none => rw [hb] at h1; simp at h1
  | some t =>
    rw [hb] at h1 h2
    simp only [Option.getD_some] at h1 h2 ⊢
    match t, h1, h2 with
    | a :: b :: r, h1, h2 =>
      simp only [List.head?_cons, Option.some.injEq, List.tail_cons] at h1 h2
      subst h1 h2
      rfl

theorem long_out (env : Env) (tbl : List Opt) (hll : ll_keeps_out env tbl) (c : Ctx)
    (hc : in_round c) (h1 : (argvAt c 0).head? = some '-')
    (h2 : (argvAt c 0).tail.head? = some '-') :
    out_step c
      (match parse_long_opt env c ((argvAt c 0).drop 2) tbl with
       | (Rc.abort, c) => TokStep.ret Outcome.ABORT c
       | (Rc.code n, c) =>
         if n = -1 then TokStep.ret Outcome.PARSE_OPT_ERROR c
         else if n = -2 then unknown c
         else if n = -3 then TokStep.ret Outcome.PARSE_OPT_HELP c
         else TokStep.next c) := by
  have hps := parse_long_opt_out env tbl hll c ((argvAt c 0).drop 2)
  have htok := token_dashdash c h1 h2
  cases hr : parse_long_opt env c ((argvAt c 0).drop 2) tbl with
  | mk rc c2 =>
    rw [hr] at hps
    simp only at hps
    have hP : rc ≠ Rc.code 0 → keeps_out c c2 := by
      intro hne
      rcases hps with hps | ⟨hc, _⟩
      · exact hps
      · exact absurd hc hne
    cases rc with
    | abort => exact out_ret_of_keeps c c2 (hP (by decide))
    | code n =>
      simp only
      by_cases k1 : n = -1
      · rw [if_pos k1]
        exact out_ret_of_keeps c c2 (hP (by rw [k1]; decide))
      · rw [if_neg k1]
        by_cases k2 : n = -2
        · rw [if_pos k2]
          exact unknown_out c c2 (may_forward_of_keeps c c2 hc (hP (by rw [k2]; decide)))
        · rw [if_neg k2]
          by_cases k3 : n = -3
          · rw [if_pos k3]
            exact out_ret_of_keeps c c2 (hP (by rw [k3]; decide))
          · rw [if_neg k3]
            rcases hps with hps | ⟨_, hps⟩
            · exact Or.inl ⟨hps.2.1, hps.1, hps.2.2.2.1⟩
            · simp only [geom, Prod.mk.injEq] at hps
              obtain ⟨g1, g2, g3, g4, g5⟩ := hps
              obtain ⟨c1, c2', c3⟩ := hc
              have hk : c.cpidx < c.buf.length := by omega
              have hv : c2.buf.getD c2.argv none = c.buf.getD c.argv none := by
                rw [g1, g2]
                by_cases hq : c.cpidx = c.argv
                · rw [← hq, getD_set_self _ _ _ _ hk, hq, htok]
                · exact getD_set_other _ _ _ _ _ hq
              refine Or.inr ⟨g4, ?_, ?_, by omega, Or.inl ?_⟩
              · rw [g1, take_set_of_le _ _ _ _ (le_refl _)]
              · rw [hv, g1, getD_set_self _ _ _ _ hk, htok]
              · rw [hv, g2]

/-- What one round of the loop of `parse_options_step` does to the output
region: see `out_step`. -/
theorem step_token_out (env : Env) (tbl : List Opt) (hll : ll_keeps_out env tbl) (fuel : Nat)
    (c : Ctx) (hc : in_round c) : out_step c (step_token env tbl fuel c) := by
  unfold step_token
  simp only
  by_cases h1 : (argvAt c 0).head? ≠ some '-' ∨ (argvAt c 0).length < 2
  · rw [if_pos h1]
    exact nodash_out env tbl hll c _ hc
  · rw [if_neg h1]
    rw [not_or, not_not] at h1
    split
    · exact ⟨rfl, rfl, le_refl _, Or.inl rfl⟩
    split
    · exact ⟨rfl, rfl, le_refl _, Or.inl rfl⟩
    split
    · exact short_out env tbl hll fuel c _ _ hc
    split
    · split
      · exact ⟨rfl, rfl, Nat.le_succ _⟩
      · exact ⟨rfl, rfl, le_refl _⟩
    split
    · exact ⟨rfl, rfl, le_refl _, Or.inl rfl⟩
    split
    · exact ⟨rfl, rfl, le_refl _, Or.inl rfl⟩
    rename_i hdd _ _ _
    exact long_out env tbl hll c hc h1.1 (not_not.mp hdd)

theorem drop_add_of_drop {α : Type} (a b : List α) (n : Nat) (h : a.drop n = b.drop n) :
    ∀ k, a.drop (n + k) = b.drop (n + k) := by
  intro k
  induction k with
  | zero => exact h
  | succ k ih => exact drop_succ_of_drop a b (n + k) ih

theorem getD_of_drop {α : Type} (a b : List α) (n m : Nat) (d : α) (h : a.drop n = b.drop n)
    (hnm : n ≤ m) : a.getD m d = b.getD m d := by
  have h1 : (a.drop n)[m - n]? = (b.drop n)[m - n]? := by rw [h]
  rw [List.getElem?_drop, List.getElem?_drop] at h1
  have h2 : n + (m - n) = m := by omega
  rw [h2] at h1
  simp [List.getD_eq_getElem?_getD, h1]

theorem ll_keeps_partition_of_out (env : Env) (tbl : List Opt) (orig : List (Option Str))
    (flags : ParseFlags) (hll : ll_keeps_out env tbl) :
    ll_keeps_partition env tbl orig flags := by
  intro o ho hty u p hp
  obtain ⟨a1, a2, a3, a4, a5, a6⟩ := hll o ho hty u p
  obtain ⟨p1, p2, p3, p4, p5, p6⟩ := hp
  have := a6 p5
  refine ⟨by rw [a1]; exact p1, ?_, by omega, by omega, a6 p5, a3.trans p6⟩
  rw [a1]
  obtain ⟨k, hk⟩ := Nat.exists_eq_add_of_le a4
  rw [hk, Nat.add_right_comm]
  exact drop_add_of_drop _ _ _ p2 k

theorem sublist_window {α : Type} (l : List α) (a a' b : Nat) (h1 : a ≤ a') :
    List.Sublist ((l.drop a').take (b - a')) ((l.drop a).take (b - a)) := by
  have h2 : ((l.drop a).take (b - a)).drop (a' - a) = (l.drop a').take (b - a') := by
    rw [List.drop_take, List.drop_drop]
    have e1 : a + (a' - a) = a' := by omega
    have e1' : (a' - a) + a = a' := by omega
    have e2 : b - a - (a' - a) = b - a' := by omega
    simp only [e1, e1', e2]
  rw [← h2]
  exact List.drop_sublist _ _

theorem sublist_pick {α : Type} (l : List α) (d : α) (a j b : Nat) (h1 : a ≤ j) (h2 : j < b)
    (h3 : j < l.length) (picked : List α)
    (hp : List.Sublist picked ((l.drop (j + 1)).take (b - (j + 1)))) :
    List.Sublist (l.getD j d :: picked) ((l.drop a).take (b - a)) := by
  refine List.Sublist.trans ?_ (sublist_window l a j b h1)
  have e1 : l.drop j = l.getD j d :: l.drop (j + 1) := by
    rw [List.drop_eq_getElem_cons h3]
    simp [List.getD_eq_getElem?_getD, List.getElem?_eq_getElem h3]
  have e2 : b - j = (b - (j + 1)) + 1 := by omega
  rw [e1, e2, List.take_succ_cons]
  exact List.Sublist.cons₂ _ hp

theorem origin_of_current (orig : List (Option Str)) (flags : ParseFlags) (c d : Ctx)
    (hI : origin_inv orig flags c) (hle : c.argv ≤ d.argv) (hcur : current_from c d) :
    forward_of (orig.getD d.argv none) (d.buf.getD d.argv none) := by
  rcases hcur with h | ⟨o, h⟩
  · rw [h]
    by_cases he : d.argv = c.argv
    · rw [he]
      exact hI.2
    · exact Or.inl (getD_of_drop _ _ _ _ _ hI.1.2.1 (by omega))
  · exact Or.inr ⟨o, h⟩

theorem in_round_of_origin (orig : List (Option Str)) (flags : ParseFlags) (c : Ctx)
    (hI : origin_inv orig flags c) (h0 : c.argc ≠ 0) : in_round c := by
  obtain ⟨⟨a1, a2, a3, a4, a5⟩, _⟩ := hI
  exact ⟨a3, by omega, by omega⟩

theorem origin_advance (orig : List (Option Str)) (flags : ParseFlags) (d : Ctx)
    (hQ : partition_mid orig flags 1 d) :
    origin_inv orig flags { d with argc := d.argc - 1, argv := d.argv + 1 } := by
  obtain ⟨a1, a2, a3, a4, a5, a6⟩ := hQ
  refine ⟨⟨a1, drop_succ_of_drop _ _ _ a2, a3, by simp only; omega, a6⟩, Or.inl ?_⟩
  exact getD_of_drop _ _ _ _ _ a2 (le_refl _)

/-- What a round that ends in `continue` adds to the output region: nothing,
or the one token it forwarded, which is a forwarded form of the input token at
the read cursor. -/
theorem round_region (orig : List (Option Str)) (flags : ParseFlags) (c d : Ctx)
    (hI : origin_inv orig flags c) (hQ : partition_mid orig flags 1 d)
    (ho : out_step c (TokStep.next d)) :
    c.argv ≤ d.argv ∧ d.argv < orig.length ∧
    d.buf.take d.cpidx = c.buf.take c.cpidx ++ round_forwarded c d ∧
    (round_forwarded c d = [] ∨
      ∃ v, round_forwarded c d = [v] ∧ forward_of (orig.getD d.argv none) v) := by
  obtain ⟨q1, q2, q3, q4, q5, q6⟩ := hQ
  rcases ho with ⟨h1, h2, h3⟩ | ⟨h1, h2, h3, h4, h5⟩
  · have hr : round_forwarded c d = [] := by simp [round_forwarded, h1]
    refine ⟨h3, by omega, ?_, Or.inl hr⟩
    rw [hr, h1, h2, List.append_nil]
  · have hr : round_forwarded c d = [d.buf.getD d.argv none] := by simp [round_forwarded, h1]
    refine ⟨h4, by omega, ?_, Or.inr ⟨_, hr, origin_of_current orig flags c d hI h4 h5⟩⟩
    have hk : c.cpidx < d.buf.length := by omega
    rw [hr, h1, List.take_succ, h2, ← h3]
    congr 1
    simp [List.getD_eq_getElem?_getD, List.getElem?_eq_getElem hk]

/-- The first `n` rounds of the loop of `parse_options_step` append the tokens
they forward to the output region, in the order of the rounds; these are
forwarded forms of input tokens the read cursor passed, in input order. -/
theorem rounds_forwarded_region (env : Env) (tbl : List Opt) (orig : List (Option Str))
    (flags : ParseFlags) (hll : ll_keeps_out env tbl) :
    ∀ (n fuel : Nat) (c c1 : Ctx), origin_inv orig flags c →
      loop_rounds env tbl fuel n c = some c1 →
      origin_inv orig flags c1 ∧ c.argv ≤ c1.argv ∧
      c1.buf.take c1.cpidx = c.buf.take c.cpidx ++ rounds_forwarded env tbl fuel n c ∧
      ∃ picked, List.Sublist picked ((orig.drop c.argv).take (c1.argv - c.argv)) ∧
        List.Forall₂ forward_of picked (rounds_forwarded env tbl fuel n c) := by
  intro n
  induction n with
  | zero =>
    intro fuel c c1 hc h'
    cases fuel <;>
    · simp only [loop_rounds, Option.some.injEq] at h'
      subst h'
      exact ⟨hc, le_refl _, by simp [rounds_forwarded], [], by simp, by simp [rounds_forwarded]⟩
  | succ n ih =>
    intro fuel c c1 hc h'
    cases fuel with
    | zero => simp [loop_rounds] at h'
    | succ fuel =>
      rw [loop_rounds] at h'
      rw [rounds_forwarded]
      by_cases h0 : c.argc = 0
      · rw [if_pos h0] at h'
        cases h'
      · rw [if_neg h0] at h' ⊢
        have hP : partition_mid orig flags 0 c := by
          obtain ⟨⟨a1, a2, a3, a4, a5⟩, _⟩ := hc
          exact ⟨a1, a2, by omega, a4, by omega, a5⟩
        have hs := closed_step_token env tbl _ _
          (partition_geom_closed env tbl orig flags
            (ll_keeps_partition_of_out env tbl orig flags hll)) (fuel + 1) c hP
        have ho := step_token_out env tbl hll (fuel + 1) c (in_round_of_origin orig flags c hc h0)
        cases hr : step_token env tbl (fuel + 1) c with
        | next c2 =>
          rw [hr] at h' hs ho
          simp only at h' ⊢
          obtain ⟨r1, r2, r3, r4⟩ := round_region orig flags c c2 hc hs ho
          obtain ⟨i1, i2, i3, picked, i4, i5⟩ := ih fuel _ c1 (origin_advance orig flags c2 hs) h'
          simp only at i2 i3 i4
          refine ⟨i1, by omega, ?_, ?_⟩
          · rw [i3, r3, List.append_assoc]
          · rcases r4 with r4 | ⟨v, r4, r5⟩
            · rw [r4, List.nil_append]
              exact ⟨picked, List.Sublist.trans i4 (sublist_window orig _ _ _ (by omega)), i5⟩
            · rw [r4, List.singleton_append]
              exact ⟨orig.getD c2.argv none :: picked,
                sublist_pick orig none _ _ _ r1 (by omega) r2 picked i4,
                List.Forall₂.cons r5 i5⟩
        | brk c2 => rw [hr] at h'; cases h'
        | ret o c2 => rw [hr] at h'; cases h'

/-- The loop of `parse_options_step` appends the tokens it forwards to the
output region, in the order of the rounds; these are forwarded forms of input
tokens the read cursor passed, in input order. -/
theorem loop_forwarded_region (env : Env) (tbl : List Opt) (orig : List (Option Str))
    (flags : ParseFlags) (hll : ll_keeps_out env tbl) :
    ∀ (fuel : Nat) (c : Ctx), origin_inv orig flags c →
      origin_inv orig flags (parse_options_loop env tbl fuel c).2 ∧
      c.argv ≤ (parse_options_loop env tbl fuel c).2.argv ∧
      (parse_options_loop env tbl fuel c).2.buf.take (parse_options_loop env tbl fuel c).2.cpidx =
        c.buf.take c.cpidx ++ loop_forwarded env tbl fuel c ∧
      ∃ picked,
        List.Sublist picked
          ((orig.drop c.argv).take ((parse_options_loop env tbl fuel c).2.argv - c.argv)) ∧
        List.Forall₂ forward_of picked (loop_forwarded env tbl fuel c) := by
  intro fuel
  induction fuel with
  | zero =>
    intro c hc
    exact ⟨hc, le_refl _, by simp [parse_options_loop, loop_forwarded], [], by simp,
      by simp [loop_forwarded]⟩
  | succ fuel ih =>
    intro c hc
    rw [parse_options_loop, loop_forwarded]
    by_cases h0 : c.argc = 0
    · rw [if_pos h0, if_pos h0]
      exact ⟨hc, le_refl _, by simp, [], by simp, by simp⟩
    · rw [if_neg h0, if_neg h0]
      have hP : partition_mid orig flags 0 c := by
        obtain ⟨⟨a1, a2, a3, a4, a5⟩, _⟩ := hc
        exact ⟨a1, a2, by omega, a4, by omega, a5⟩
      have hs := closed_step_token env tbl _ _
        (partition_geom_closed env tbl orig flags
          (ll_keeps_partition_of_out env tbl orig flags hll)) (fuel + 1) c hP
      have ho := step_token_out env tbl hll (fuel + 1) c (in_round_of_origin orig flags c hc h0)
      cases hr : step_token env tbl (fuel + 1) c with
      | next c2 =>
        rw [hr] at hs ho
        simp only
        obtain ⟨r1, r2, r3, r4⟩ := round_region orig flags c c2 hc hs ho
        obtain ⟨i1, i2, i3, picked, i4, i5⟩ := ih _ (origin_advance orig flags c2 hs)
        simp only at i2 i3 i4
        refine ⟨i1, by omega, ?_, ?_⟩
        · rw [i3, r3, List.append_assoc]
        · rcases r4 with r4 | ⟨v, r4, r5⟩
          · rw [r4, List.nil_append]
            exact ⟨picked, List.Sublist.trans i4 (sublist_window orig _ _ _ (by omega)), i5⟩
          · rw [r4, List.singleton_append]
            exact ⟨orig.getD c2.argv none :: picked,
              sublist_pick orig none _ _ _ r1 (by omega) r2 picked i4,
              List.Forall₂.cons r5 i5⟩
      | brk c2 =>
        rw [hr] at ho
        simp only
        obtain ⟨b1, b2, b3⟩ := ho
        refine ⟨?_, b3, by rw [b1, b2, List.append_nil], [], by simp, by simp⟩
        rcases step_token_brk env tbl (fuel + 1) c c2 hr with rfl | rfl
        · exact hc
        · obtain ⟨⟨a1, a2, a3, a4, a5⟩, _⟩ := hc
          exact ⟨⟨a1, drop_succ_of_drop _ _ _ a2, by simp only; omega, by simp only; omega, a5⟩,
            Or.inl (getD_of_drop _ _ _ _ _ a2 (le_refl _))⟩
      | ret o c2 =>
        rw [hr] at hs ho
        simp only
        obtain ⟨b1, b2, b3, b4⟩ := ho
        obtain ⟨a1, a2, a3, a4, a5, a6⟩ := hs
        exact ⟨⟨⟨a1, a2, by omega, a4, a6⟩, origin_of_current orig flags c c2 hc b3 b4⟩, b3,
          by rw [b1, b2, List.append_nil], [], by simp, by simp⟩

theorem sublist_window_append {α : Type} (l p1 p2 : List α) (a b c : Nat) (h1 : a ≤ b)
    (h2 : b ≤ c) (hp1 : List.Sublist p1 ((l.drop a).take (b - a)))
    (hp2 : List.Sublist p2 ((l.drop b).take (c - b))) :
    List.Sublist (p1 ++ p2) ((l.drop a).take (c - a)) := by
  have e : (l.drop a).take (c - a) = (l.drop a).take (b - a) ++ (l.drop b).take (c - b) := by
    have e1 : c - a = (b - a) + (c - b) := by omega
    rw [e1, List.take_add, List.drop_drop]
    have e2 : a + (b - a) = b := by omega
    have e2' : (b - a) + a = b := by omega
    simp only [e2, e2']
  rw [e]
  exact List.Sublist.append hp1 hp2

theorem forall2_append {α β : Type} (R : α → β → Prop) (a c : List α) (b d : List β)
    (h1 : List.Forall₂ R a b) (h2 : List.Forall₂ R c d) : List.Forall₂ R (a ++ c) (b ++ d) := by
  induction h1 with
  | nil => exact h2
  | cons h _ ih => exact List.Forall₂.cons h ih

/-- Any number of calls of `parse_options_step` append the tokens they forward
to the output region, in the order of the calls and their rounds; these are
forwarded forms of input tokens the read cursor passed, in input order. -/
theorem run_forwarded_region (env : Env) (tbl : List Opt) (orig : List (Option Str))
    (flags : ParseFlags) (hll : ll_keeps_out env tbl) :
    ∀ (fuels : List Nat) (c : Ctx), origin_inv orig flags c →
      origin_inv orig flags (run_steps env tbl fuels c) ∧
      c.argv ≤ (run_steps env tbl fuels c).argv ∧
      (run_steps env tbl fuels c).buf.take (run_steps env tbl fuels c).cpidx =
        c.buf.take c.cpidx ++ run_forwarded env tbl fuels c ∧
      ∃ picked,
        List.Sublist picked
          ((orig.drop c.argv).take ((run_steps env tbl fuels c).argv - c.argv)) ∧
        List.Forall₂ forward_of picked (run_forwarded env tbl fuels c) := by
  intro fuels
  induction fuels with
  | nil =>
    intro c hc
    exact ⟨hc, le_refl _, by simp [run_steps, run_forwarded], [], by simp,
      by simp [run_forwarded]⟩
  | cons f rest ih =>
    intro c hc
    have hl := loop_forwarded_region env tbl orig flags hll f { c with opt := none } hc
    have e : parse_options_step env tbl f c = parse_options_loop env tbl f { c with opt := none } :=
      rfl
    rw [← e] at hl
    obtain ⟨l1, l2, l3, p1, l4, l5⟩ := hl
    obtain ⟨i1, i2, i3, p2, i4, i5⟩ := ih _ l1
    simp only at l2 l3 l4
    rw [run_steps, run_forwarded]
    refine ⟨i1, le_trans l2 i2, ?_, p1 ++ p2, ?_, forall2_append _ _ _ _ _ l5 i5⟩
    · rw [i3, l3, List.append_assoc]
    · exact sublist_window_append orig p1 p2 _ _ _ l2 i2 l4 i4

theorem origin_inv_start (args : List Str) (pfx : Option Str) (tbl : List Opt)
    (flags : ParseFlags) (slots : Slots) (ctx0 : Ctx) (hargs : args ≠ [])
    (h : parse_options_start args pfx tbl flags slots = some ctx0) :
    origin_inv ctx0.buf flags ctx0 ∧ partition_inv ctx0.buf flags ctx0 ∧
      ctx0.buf = args.map some ++ [none] ∧ ctx0.argv = 1 ∧
      ctx0.cpidx = (if flags.keep_argv0 then 1 else 0) := by
  obtain ⟨_, hc0⟩ := parse_options_start_ctx _ pfx tbl flags slots ctx0 h
  have hbuf : ctx0.buf = args.map some ++ [none] := by rw [hc0]
  have hargv : ctx0.argv = 1 := by rw [hc0]
  have hargc : ctx0.argc = args.length - 1 := by rw [hc0]
  have hcp : ctx0.cpidx = if flags.keep_argv0 then 1 else 0 := by rw [hc0]
  have hfl : ctx0.flags = flags := by rw [hc0]
  have hpos : 0 < args.length := List.length_pos.mpr hargs
  have hlen : ctx0.buf.length = args.length + 1 := by
    rw [hbuf]
    simp
  have h1 : ctx0.cpidx ≤ ctx0.argv := by
    rw [hcp, hargv]
    split_ifs <;> omega
  have h2 : ctx0.argv + ctx0.argc + 1 = ctx0.buf.length := by
    rw [hargv, hargc, hlen]
    omega
  exact ⟨⟨⟨rfl, rfl, h1, h2, hfl⟩, Or.inl rfl⟩, ⟨rfl, rfl, h1, h2, hfl⟩, hbuf, hargv, hcp⟩

/-- C7 (amended): the argument vector is the program name, `pre`, the token
`--` and `post`; the table is validated (`parse_options_start` succeeds) and
its low-level callbacks, if any, leave the argument array and the output
cursor alone.  When the loop of `parse_options_step` gets to a round whose
current token is that `--`, with context `c`, it ends there with the Done
outcome: no token of `post` is classified, and slots and callback log stay as
they are in `c`.  The output region of `c` is the program name, when
keep-argv0 is set, followed by `F`, the tokens forwarded by the rounds over
`pre` in the order of the rounds; each is a forwarded form (the token itself or
a rewritten rest of a short-option cluster) of a token of `pre`, in the order
of `pre`.  After `parse_options_end` the vector is the program name, when
keep-argv0 is set, then `F`, then `--` when keep-dashdash is set, then
`post`, and the returned count is the length of that vector. -/
theorem dashdash_terminator (env : Env) (tbl : List Opt) (flags : ParseFlags) (slots : Slots)
    (pfx : Option Str) (prog : Str) (pre post : List Str) (n fuel : Nat) (ctx0 c : Ctx)
    (hstart : parse_options_start (prog :: (pre ++ ['-', '-'] :: post)) pfx tbl flags slots =
      some ctx0)
    (hll : ll_keeps_out env tbl)
    (hscan : loop_rounds env tbl fuel n ctx0 = some c)
    (hreach : c.argv = 1 + pre.length) (hfuel : n < fuel) :
    parse_options_step env tbl fuel ctx0 =
      (Outcome.PARSE_OPT_DONE,
        if flags.keep_dashdash then c else { c with argc := c.argc - 1, argv := c.argv + 1 }) ∧
    (parse_options_step env tbl fuel ctx0).2.slots = c.slots ∧
    (parse_options_step env tbl fuel ctx0).2.calls = c.calls ∧
    c.buf.take c.cpidx =
      (if flags.keep_argv0 then [some prog] else []) ++ rounds_forwarded env tbl fuel n ctx0 ∧
    (∃ picked, List.Sublist picked (pre.map some) ∧
      List.Forall₂ forward_of picked (rounds_forwarded env tbl fuel n ctx0)) ∧
    result_vector (parse_options_end (parse_options_step env tbl fuel ctx0).2) =
      (if flags.keep_argv0 then [some prog] else []) ++ rounds_forwarded env tbl fuel n ctx0 ++
        (if flags.keep_dashdash then [some ['-', '-']] else []) ++ post.map some ∧
    (parse_options_end (parse_options_step env tbl fuel ctx0).2).1 =
      ((if flags.keep_argv0 then [some prog] else []) ++ rounds_forwarded env tbl fuel n ctx0 ++
        (if flags.keep_dashdash then [some ['-', '-']] else []) ++ post.map some).length := by
  obtain ⟨_, hc0⟩ := parse_options_start_ctx _ pfx tbl flags slots ctx0 hstart
  obtain ⟨horig, hinv0, _, hargv0, hcp0⟩ :=
    origin_inv_start _ pfx tbl flags slots ctx0 (by simp) hstart
  have hbuf : ctx0.buf =
      some prog :: (pre.map some ++ some ['-', '-'] :: (post.map some ++ [none])) := by
    rw [hc0]
    simp
  obtain ⟨b1, b2, b3, b4, b5⟩ :=
    partition_loop_rounds env tbl ctx0.buf flags
      (ll_keeps_partition_of_out env tbl ctx0.buf flags hll) n fuel ctx0 c hinv0 hscan
  obtain ⟨_, _, r3, picked, r4, r5⟩ :=
    rounds_forwarded_region env tbl ctx0.buf flags hll n fuel ctx0 c horig hscan
  have hreg0 : ctx0.buf.take ctx0.cpidx = if flags.keep_argv0 then [some prog] else [] := by
    rw [hcp0, hbuf]
    split_ifs <;> rfl
  have hwin : (ctx0.buf.drop ctx0.argv).take (c.argv - ctx0.argv) = pre.map some := by
    rw [hargv0, hreach, hbuf, List.drop_succ_cons, List.drop_zero]
    have e : 1 + pre.length - 1 = (pre.map some).length := by simp
    rw [e, List.take_left]
  have hF : c.buf.take c.cpidx =
      (if flags.keep_argv0 then [some prog] else []) ++ rounds_forwarded env tbl fuel n ctx0 := by
    rw [r3, hreg0]
  rw [hwin] at r4
  have hlen0 : ctx0.buf.length = 1 + pre.length + 1 + post.length + 1 := by
    rw [hbuf]
    simp
    omega
  have hdrop : c.buf.drop c.argv = some ['-', '-'] :: (post.map some ++ [none]) := by
    rw [b2, hreach, hbuf, Nat.add_comm, List.drop_succ_cons]
    have : pre.length = (pre.map some).length := by simp
    rw [this, List.drop_left]
  have hargc : c.argc = 1 + post.length := by omega
  have harg := argvAt_of_drop c _ _ hdrop
  obtain ⟨_, hloop⟩ := loop_rounds_loop env tbl n fuel ctx0 c hscan
  obtain ⟨m, hm⟩ : ∃ m, fuel - n = m + 1 := ⟨fuel - n - 1, by omega⟩
  have hfin : parse_options_step env tbl fuel ctx0 =
      (Outcome.PARSE_OPT_DONE,
        if flags.keep_dashdash then c else { c with argc := c.argc - 1, argv := c.argv + 1 }) := by
    have e0 : parse_options_step env tbl fuel ctx0 = parse_options_loop env tbl fuel ctx0 := by
      unfold parse_options_step
      rw [hc0]
    rw [e0, hloop, hm, parse_options_loop, if_neg (by omega),
      step_token_dashdash env tbl (m + 1) c harg, b5]
  have hcp : c.cpidx ≤ c.buf.length := by omega
  have hvec : result_vector (parse_options_end
      (if flags.keep_dashdash then c else { c with argc := c.argc - 1, argv := c.argv + 1 })) =
      c.buf.take c.cpidx ++ (if flags.keep_dashdash then [some ['-', '-']] else []) ++
        post.map some ∧
      (parse_options_end
        (if flags.keep_dashdash then c else { c with argc := c.argc - 1, argv := c.argv + 1 })).1 =
      (c.buf.take c.cpidx ++ (if flags.keep_dashdash then [some ['-', '-']] else []) ++
        post.map some).length := by
    cases hk : flags.keep_dashdash with
    | true =>
      simp only [if_true]
      have h := parse_options_end_vector c (some ['-', '-'] :: post.map some) [none] hcp
        (by rw [hdrop]; rfl) (by simp [hargc]; omega)
      rw [List.append_assoc]
      exact h
    | false =>
      simp only [Bool.false_eq_true, if_false, List.append_nil]
      exact parse_options_end_vector { c with argc := c.argc - 1, argv := c.argv + 1 }
        (post.map some) [none] hcp
        (by
          have e : c.buf.drop (c.argv + 1) = (c.buf.drop c.argv).drop 1 := by
            rw [List.drop_drop, Nat.add_comm]
          show c.buf.drop (c.argv + 1) = post.map some ++ [none]
          rw [e, hdrop]
          rfl)
        (by simp [hargc])
  rw [hfin]
  refine ⟨rfl, ?_, ?_, hF, ⟨picked, r4, r5⟩, ?_, ?_⟩
  · cases flags.keep_dashdash <;> rfl
  · cases flags.keep_dashdash <;> rfl
  · rw [← hF]
    exact hvec.1
  · rw [← hF]
    exact hvec.2

/-- C7 instantiated: `prog -a x -- -b y` with the flag `-a`; the rounds over
`-a x` forward the operand `x`, and the result is `x -b y`, count 3. -/
theorem dashdash_terminator_witness :
    parse_options_step sampleEnv abcTable 5 (sampleCtx ["prog", "-a", "x", "--", "-b", "y"] {}) =
      (Outcome.PARSE_OPT_DONE,
        { sampleCtx ["prog", "-a", "x", "--", "-b", "y"] {} with
          buf := [some ['x'], some ['-', 'a'], some ['x'], some ['-', '-'], some ['-', 'b'],
                  some ['y'], none],
          argv := 4, argc := 2, cpidx := 1, slots := toggle zeroSlots flagA }) ∧
    [some ['x']] =
      rounds_forwarded sampleEnv abcTable 5 2
        (sampleCtx ["prog", "-a", "x", "--", "-b", "y"] {}) ∧
    result_vector (parse_options_end
      (parse_options_step sampleEnv abcTable 5
        (sampleCtx ["prog", "-a", "x", "--", "-b", "y"] {})).2) =
      [some ['x'], some ['-', 'b'], some ['y']] ∧
    (parse_options_end
      (parse_options_step sampleEnv abcTable 5
        (sampleCtx ["prog", "-a", "x", "--", "-b", "y"] {})).2).1 = 3 :=
  have h := dashdash_terminator sampleEnv abcTable {} zeroSlots none "prog".toList
    ["-a".toList, "x".toList] ["-b".toList, "y".toList] 2 5
    (sampleCtx ["prog", "-a", "x", "--", "-b", "y"] {})
    { sampleCtx ["prog", "-a", "x", "--", "-b", "y"] {} with
      buf := [some ['x'], some ['-', 'a'], some ['x'], some ['-', '-'], some ['-', 'b'],
              some ['y'], none],
      argv := 3, argc := 3, cpidx := 1, slots := toggle zeroSlots flagA }
    rfl (fun _ _ _ _ p => keeps_out_refl p) rfl rfl (by decide)
  ⟨h.1, h.2.2.2.1, h.2.2.2.2.2.1, h.2.2.2.2.2.2⟩

/-- Counterexample to C7 as stated: on `prog -a x -- -b y` with keep-argv0 the
rounds over `pre` = `-a x` forward `F` = `x`, and `post` is `-b y`, but the
resulting vector is `prog x -b y` with count 4, not `F ++ post` = `x -b y`:
the program name stands before the forwarded tokens. -/
theorem dashdash_keeps_program_name :
    parse_options_start
      ["prog".toList, "-a".toList, "x".toList, "--".toList, "-b".toList, "y".toList] none
      abcTable { keep_argv0 := true } zeroSlots =
      some (sampleCtx ["prog", "-a", "x", "--", "-b", "y"] { keep_argv0 := true }) ∧
    (loop_rounds sampleEnv abcTable 5 2
      (sampleCtx ["prog", "-a", "x", "--", "-b", "y"] { keep_argv0 := true })).map
        (fun c => argvAt c 0) = some ['-', '-'] ∧
    rounds_forwarded sampleEnv abcTable 5 2
      (sampleCtx ["prog", "-a", "x", "--", "-b", "y"] { keep_argv0 := true }) = [some ['x']] ∧
    (parse_options_step sampleEnv abcTable 5
      (sampleCtx ["prog", "-a", "x", "--", "-b", "y"] { keep_argv0 := true })).1 =
      Outcome.PARSE_OPT_DONE ∧
    result_vector (parse_options_end
      (parse_options_step sampleEnv abcTable 5
        (sampleCtx ["prog", "-a", "x", "--", "-b", "y"] { keep_argv0 := true })).2) =
      [some ['p', 'r', 'o', 'g'], some ['x'], some ['-', 'b'], some ['y']] ∧
    (parse_options_end
      (parse_options_step sampleEnv abcTable 5
        (sampleCtx ["prog", "-a", "x", "--", "-b", "y"] { keep_argv0 := true })).2).1 = 4 ∧
    result_vector (parse_options_end
      (parse_options_step sampleEnv abcTable 5
        (sampleCtx ["prog", "-a", "x", "--", "-b", "y"] { keep_argv0 := true })).2) ≠
      rounds_forwarded sampleEnv abcTable 5 2
        (sampleCtx ["prog", "-a", "x", "--", "-b", "y"] { keep_argv0 := true }) ++
        [some ['-', 'b'], some ['y']] := by
  refine ⟨?_, rfl, rfl, rfl, rfl, rfl, by decide⟩
  unfold parse_options_start
  rw [if_neg (by decide), if_neg (by decide)]
  rfl

/-- C13 (amended): the argument vector is the program name followed by
`toks`, the table is validated and its low-level callbacks, if any, leave the
argument array and the output cursor alone.  For the context `c` reached by
`parse_options_start` followed by any number of calls of `parse_options_step`:
the output cursor is not beyond the read cursor, the unread tokens end where
the array ends, and the unread tokens after the current one are those of the
input.  The output region (positions below the output cursor) holds the
program name, when keep-argv0 is set, followed by exactly the tokens forwarded
during scanning, in the order of the calls and their rounds; each is a
forwarded form (the token itself or a rewritten rest of a short-option
cluster) of an input token that the read cursor passed, in input order.
`parse_options_end` returns the output cursor plus the number of unread
tokens, leaves the output region unchanged, puts the unread tokens of `c`
right after it, verbatim and in order, and `NULL` after them.  When the table
has no low-level callback, no token of `toks` is matched as an option (the
matcher for its form reports no match) and none is the terminator `--`, the
resulting vector is `toks` unchanged, after the program name when keep-argv0
is set. -/
theorem finalization_layout (env : Env) (tbl : List Opt) (flags : ParseFlags) (slots : Slots)
    (pfx : Option Str) (prog : Str) (toks : List Str) (fuels : List Nat) (ctx0 c : Ctx)
    (hstart : parse_options_start (prog :: toks) pfx tbl flags slots = some ctx0)
    (hll : ll_keeps_out env tbl)
    (hc : c = run_steps env tbl fuels ctx0) :
    (c.cpidx ≤ c.argv ∧ c.argv + c.argc = toks.length + 1 ∧ c.buf.length = toks.length + 2 ∧
      c.buf.drop (c.argv + 1) = (toks.map some ++ [none]).drop c.argv) ∧
    c.buf.take c.cpidx =
      (if flags.keep_argv0 then [some prog] else []) ++ run_forwarded env tbl fuels ctx0 ∧
    (∃ picked, List.Sublist picked ((toks.take (c.argv - 1)).map some) ∧
      List.Forall₂ forward_of picked (run_forwarded env tbl fuels ctx0)) ∧
    (parse_options_end c).1 = c.cpidx + c.argc ∧
    (parse_options_end c).2.buf.take c.cpidx =
      (if flags.keep_argv0 then [some prog] else []) ++ run_forwarded env tbl fuels ctx0 ∧
    ((parse_options_end c).2.buf.drop c.cpidx).take c.argc = (c.buf.drop c.argv).take c.argc ∧
    (parse_options_end c).2.buf[c.cpidx + c.argc]? = some none ∧
    result_vector (parse_options_end c) =
      (if flags.keep_argv0 then [some prog] else []) ++ run_forwarded env tbl fuels ctx0 ++
        (c.buf.drop c.argv).take c.argc ∧
    ((∀ o ∈ table tbl, o.type ≠ OPTION_LOWLEVEL_CALLBACK) →
      (∀ t ∈ toks, no_match env tbl t) →
      result_vector (parse_options_end c) =
        (if flags.keep_argv0 then [some prog] else []) ++ toks.map some) := by
  obtain ⟨_, hc0⟩ := parse_options_start_ctx _ pfx tbl flags slots ctx0 hstart
  obtain ⟨horig, _, _, _, _⟩ := origin_inv_start _ pfx tbl flags slots ctx0 (by simp) hstart
  have hbuf : ctx0.buf = some prog :: (toks.map some ++ [none]) := by
    rw [hc0]
    rfl
  have hargv : ctx0.argv = 1 := by rw [hc0]
  have hargc : ctx0.argc = toks.length := by
    rw [hc0]
    simp
  have hcp : ctx0.cpidx = if flags.keep_argv0 then 1 else 0 := by rw [hc0]
  have hlen0 : ctx0.buf.length = toks.length + 2 := by
    rw [hbuf]
    simp
  obtain ⟨⟨⟨a1, a2, a3, a4, a5⟩, _⟩, r2, r3, picked, r4, r5⟩ :=
    run_forwarded_region env tbl ctx0.buf flags hll fuels ctx0 horig
  rw [← hc] at a1 a2 a3 a4 a5 r2 r3 r4
  have hreg0 : ctx0.buf.take ctx0.cpidx = if flags.keep_argv0 then [some prog] else [] := by
    rw [hcp, hbuf]
    split_ifs <;> rfl
  have hF : c.buf.take c.cpidx =
      (if flags.keep_argv0 then [some prog] else []) ++ run_forwarded env tbl fuels ctx0 := by
    rw [r3, hreg0]
  have hwin : (ctx0.buf.drop ctx0.argv).take (c.argv - ctx0.argv) =
      (toks.take (c.argv - 1)).map some := by
    rw [hargv, hbuf, List.drop_succ_cons, List.drop_zero,
      List.take_append_of_le_length (by simp; omega), List.map_take]
  rw [hwin] at r4
  have hlay := parse_options_end_layout c a3 (by omega)
  refine ⟨⟨a3, by omega, by omega, ?_⟩, hF, ⟨picked, r4, r5⟩, hlay.1, ?_, hlay.2.2.1,
    hlay.2.2.2.1, ?_, ?_⟩
  · rw [a2, hbuf, List.drop_succ_cons]
  · rw [hlay.2.1, hF]
  · rw [hlay.2.2.2.2, ← hF]
    rfl
  · intro hnoll hop
    rw [hc]
    refine unmatched_left_vector env tbl _ _ (unmatched_left_run env tbl _ hnoll fuels ctx0
      ⟨toks, ?_, hargc, ?_, hop, ?_⟩)
    · rw [hbuf, hargv]
      rfl
    · rw [hcp, hargv]
      split_ifs <;> omega
    · rw [hbuf, hcp]
      split_ifs <;> rfl

/-- C13 instantiated: `prog x -z --zzz` with keep-argv0 and the table of `-a`,
`-b`, `-c`; no token is matched, the step returns at the unknown switch `-z`
after forwarding `x`, the output region is `prog x`, and the result is
`prog x -z --zzz`. -/
theorem finalization_layout_witness :
    (run_steps sampleEnv abcTable [5]
      (sampleCtx ["prog", "x", "-z", "--zzz"] { keep_argv0 := true })).cpidx = 2 ∧
    (run_steps sampleEnv abcTable [5]
      (sampleCtx ["prog", "x", "-z", "--zzz"] { keep_argv0 := true })).argc = 2 ∧
    [some ['p', 'r', 'o', 'g'], some ['x']] =
      [some ['p', 'r', 'o', 'g']] ++ run_forwarded sampleEnv abcTable [5]
        (sampleCtx ["prog", "x", "-z", "--zzz"] { keep_argv0 := true }) ∧
    (parse_options_end
      (run_steps sampleEnv abcTable [5]
        (sampleCtx ["prog", "x", "-z", "--zzz"] { keep_argv0 := true }))).1 = 2 + 2 ∧
    result_vector (parse_options_end
      (run_steps sampleEnv abcTable [5]
        (sampleCtx ["prog", "x", "-z", "--zzz"] { keep_argv0 := true }))) =
      [some ['p', 'r', 'o', 'g'], some ['x'], some ['-', 'z'], some ['-', '-', 'z', 'z', 'z']] :=
  have h := finalization_layout sampleEnv abcTable { keep_argv0 := true } zeroSlots none
    "prog".toList ["x".toList, "-z".toList, "--zzz".toList] [5]
    (sampleCtx ["prog", "x", "-z", "--zzz"] { keep_argv0 := true })
    (run_steps sampleEnv abcTable [5]
      (sampleCtx ["prog", "x", "-z", "--zzz"] { keep_argv0 := true }))
    rfl (fun _ _ _ _ p => keeps_out_refl p) rfl
  ⟨rfl, rfl, h.2.1, h.2.2.2.1, h.2.2.2.2.2.2.2.2 (by decide) (by
    intro t ht
    simp only [List.mem_cons, List.mem_singleton, List.not_mem_nil, or_false] at ht
    rcases ht with rfl | rfl | rfl
    · exact ⟨by decide, fun c => rfl⟩
    · exact ⟨by decide, fun c => rfl⟩
    · exact ⟨by decide, fun c => rfl⟩)⟩

/-- C13 as stated fails twice.  On `prog a -- b` no token is matched as an
option or consumed as a value (`a` and `b` are plain operands, no descriptor
matches the terminator, the step ends Done, no slot is written, no callback
runs, nothing is reported), yet the resulting vector is `a b`, not the input
`a -- b`.  On `prog x` with keep-argv0 the only token forwarded during
scanning is `x` and the output cursor is 2, but positions 0..1 hold `prog x`:
position 0 holds the program name, which scanning never forwarded. -/
theorem dashdash_dropped_argv0_kept :
    parse_options_start ["prog".toList, "a".toList, "--".toList, "b".toList] none abcTable {}
      zeroSlots = some (sampleCtx ["prog", "a", "--", "b"] {}) ∧
    no_match sampleEnv abcTable ['a'] ∧ no_match sampleEnv abcTable ['b'] ∧
    (∀ c : Ctx, (parse_long_opt sampleEnv c [] abcTable).1 = Rc.code (-2)) ∧
    (parse_options_step sampleEnv abcTable 5 (sampleCtx ["prog", "a", "--", "b"] {})).1 =
      Outcome.PARSE_OPT_DONE ∧
    (parse_options_step sampleEnv abcTable 5 (sampleCtx ["prog", "a", "--", "b"] {})).2.slots =
      zeroSlots ∧
    (parse_options_step sampleEnv abcTable 5 (sampleCtx ["prog", "a", "--", "b"] {})).2.calls =
      [] ∧
    (parse_options_step sampleEnv abcTable 5 (sampleCtx ["prog", "a", "--", "b"] {})).2.stderr =
      [] ∧
    result_vector (parse_options_end
      (parse_options_step sampleEnv abcTable 5 (sampleCtx ["prog", "a", "--", "b"] {})).2) =
      [some ['a'], some ['b']] ∧
    result_vector (parse_options_end
      (parse_options_step sampleEnv abcTable 5 (sampleCtx ["prog", "a", "--", "b"] {})).2) ≠
      [some ['a'], some ['-', '-'], some ['b']] ∧
    parse_options_start ["prog".toList, "x".toList] none abcTable { keep_argv0 := true }
      zeroSlots = some (sampleCtx ["prog", "x"] { keep_argv0 := true }) ∧
    (run_steps sampleEnv abcTable [5] (sampleCtx ["prog", "x"] { keep_argv0 := true })).cpidx =
      2 ∧
    run_forwarded sampleEnv abcTable [5] (sampleCtx ["prog", "x"] { keep_argv0 := true }) =
      [some ['x']] ∧
    (parse_options_end
      (run_steps sampleEnv abcTable [5]
        (sampleCtx ["prog", "x"] { keep_argv0 := true }))).2.buf.take 2 =
      [some ['p', 'r', 'o', 'g'], some ['x']] ∧
    (parse_options_end
      (run_steps sampleEnv abcTable [5]
        (sampleCtx ["prog", "x"] { keep_argv0 := true }))).2.buf.take 2 ≠
      run_forwarded sampleEnv abcTable [5] (sampleCtx ["prog", "x"] { keep_argv0 := true }) := by
  refine ⟨?_, ⟨by decide, fun c => rfl⟩, ⟨by decide, fun c => rfl⟩, fun c => rfl, rfl, rfl,
    rfl, rfl, rfl, by decide, ?_, rfl, rfl, rfl, by decide⟩
  · unfold parse_options_start
    rw [if_neg (by decide), if_neg (by decide)]
    rfl
  · unfold parse_options_start
    rw [if_neg (by decide), if_neg (by decide)]
    rfl

end ParseOptions
